import Mathlib

/-!
# a3trans: the translation catalog tree, the directive extractor, the stringtable codec
and the XLIFF codec

A shallow embedding of the C++/Qt sources of a3trans.

* A `QObject` with its ordered `children()` list is a structure with a `children` field;
  `new T(name, parent)` appends to the parent's list, `delete` removes from it.
* A `QString` is a `String`; the null `QString` is represented where a name that may be
  null reaches `findChild` (the names of `Project.setTranslationQ`).
* Letter case: `foldCase` and `lowerCase` give Qt's case folding and lower-casing on the
  ASCII characters and on the two other characters that they map to an ASCII letter
  (U+017F and U+212A); every other character is kept as it is. A comparison in which
  one side is an ASCII string is therefore the comparison of the code; statements that
  need more say so.
* `QRegularExpression` patterns are modelled one by one, each by a matcher that follows
  the pattern's own structure. A key used as a pattern is modelled for patterns without
  metacharacters (and with `*`); the statements that depend on a lookup by pattern
  restrict the key to such patterns, and to ASCII characters where they need that the
  pattern does not match.
* The reference tree reaches `ScriptParser` as a pointer that may be null
  (`Option Project`); the program's path is `ScriptParser.parseWith`, and
  `ScriptParser.parse` is the extraction with a reference tree.
* A document reaches a parser through the file that `FileWriter` wrote
  (`writtenAndRead`); the round trips are stated through it.
-/

namespace A3Trans

/-! ## Strings -/

/-- Case folding of one character, as `Qt::CaseInsensitive` comparisons and
`QRegularExpression::CaseInsensitiveOption` apply it: an ASCII capital goes to its small
letter, U+017F (long s) to `s` and U+212A (Kelvin sign) to `k`. These are all the
characters that fold to an ASCII letter. A character outside ASCII other than the two is
kept here, while Qt folds it to a character outside ASCII. -/
def foldCase (c : Char) : Char :=
  if c = Char.ofNat 0x017F then 's' else if c = Char.ofNat 0x212A then 'k' else c.toLower

/-- Lower-casing of one character, as `QString::toLower` applies it: an ASCII capital goes
to its small letter and U+212A (Kelvin sign) to `k`; U+017F is a small letter and stays.
These are all the characters whose lower case is an ASCII letter. A character outside
ASCII other than U+212A is kept here, while Qt maps it to characters outside ASCII. -/
def lowerCase (c : Char) : Char :=
  if c = Char.ofNat 0x212A then 'k' else c.toLower

/-- A string of ASCII characters. -/
def isAscii (s : String) : Bool := s.toList.all (fun c => c.toNat < 128)

/-- The case-folded characters of a string (see `foldCase`). -/
def caseFold (s : String) : List Char := s.toList.map foldCase

/-- `QString::compare(a, b, Qt::CaseInsensitive) == 0`. -/
def compareCaseInsensitive (a b : String) : Bool := caseFold a == caseFold b

/-! ## `QObject` child lists -/

/-- `QObject::findChild<T *>(name, Qt::FindDirectChildrenOnly)`: the first child, in
`children()` order, whose `objectName()` equals `name` (an exact, case-sensitive
comparison). -/
def findChild {α : Type} (objectName : α → String) (children : List α) (name : String) :
    Option α :=
  children.find? (fun c => objectName c == name)

/-- In-place update of the first child that satisfies `p`: the effect of calling a
mutating method through the pointer that a lookup returned. -/
def modifyFirst {α : Type} (p : α → Bool) (f : α → α) : List α → List α
  | [] => []
  | x :: xs => if p x then f x :: xs else x :: modifyFirst p f xs

/-! ## Key lookup by regular expression

`Container` looks its keys up with
`findChildren<Key *>(QRegularExpression(key, QRegularExpression::CaseInsensitiveOption), ...)`:
the search term itself is compiled as a pattern and a child is selected when the
pattern has a match anywhere in the child's `objectName()`.

The modelled pattern fragment is: a sequence of items, each a literal character,
optionally followed by the quantifier `*`. A `*` that does not follow an item does not
compile (PCRE: "quantifier does not follow a repeatable item"); an invalid
`QRegularExpression` never matches. The other PCRE metacharacters
(see `regexMetaChars`) are outside the fragment and are read as literals here; the
statements below that depend on how a pattern is read restrict the patterns with
`isLiteralPattern` or use patterns of the fragment. -/

/-- One item of a compiled pattern. -/
inductive PatternItem where
  | lit (c : Char)
  | star (c : Char)
deriving DecidableEq, Repr

/-- Compile the rest of a pattern, `pending` being the character read last that has not
been emitted as an item yet; `none` is an invalid pattern. -/
def compileItems : Option Char → List Char → Option (List PatternItem)
  | none, [] => some []
  | some p, [] => some [PatternItem.lit p]
  | none, c :: rest => if c = '*' then none else compileItems (some c) rest
  | some p, c :: rest =>
    if c = '*' then (compileItems none rest).map (fun items => PatternItem.star p :: items)
    else (compileItems (some c) rest).map (fun items => PatternItem.lit p :: items)

/-- Compile a pattern of the modelled fragment; `none` is an invalid pattern. -/
def compilePattern (pattern : List Char) : Option (List PatternItem) :=
  compileItems none pattern

/-- Match `c*` followed by the continuation `k` at the start of the subject. -/
def matchStar (c : Char) (k : List Char → Bool) : List Char → Bool
  | [] => k []
  | x :: xs => k (x :: xs) || (x == c && matchStar c k xs)

/-- Does the item sequence match a prefix of the subject? -/
def matchHere : List PatternItem → List Char → Bool
  | [], _ => true
  | PatternItem.lit c :: items, s =>
    match s with
    | [] => false
    | x :: xs => x == c && matchHere items xs
  | PatternItem.star c :: items, s => matchStar c (matchHere items) s

/-- Unanchored search: does the item sequence match at some position of the subject? -/
def searchFrom (items : List PatternItem) : List Char → Bool
  | [] => matchHere items []
  | x :: xs => matchHere items (x :: xs) || searchFrom items xs

/-- `QRegularExpression(pattern, CaseInsensitiveOption).match(subject).hasMatch()`. -/
def regexHasMatch (pattern subject : String) : Bool :=
  match compilePattern (caseFold pattern) with
  | none => false
  | some items => searchFrom items (caseFold subject)

/-- The characters with a special meaning outside a character class in a PCRE pattern. -/
def regexMetaChars : List Char :=
  ['\\', '^', '$', '.', '[', ']', '|', '(', ')', '?', '*', '+', '{', '}']

/-- A pattern without metacharacters: every character stands for itself. -/
def isLiteralPattern (s : String) : Bool := s.toList.all (fun c => !(regexMetaChars.contains c))

/-! ## The catalog tree -/

/-- `Translation`: `objectName()` is the language tag, `m_string` the text. -/
structure Translation where
  objectName : String
  m_string : String
deriving DecidableEq, Repr

/-- `Key`: `objectName()` is the key id, the children are `Translation`s. -/
structure Key where
  objectName : String
  children : List Translation
deriving DecidableEq, Repr

/-- `Container`: the children are `Key`s. -/
structure Container where
  objectName : String
  children : List Key
deriving DecidableEq, Repr

/-- `Package`: the children are `Container`s. -/
structure Package where
  objectName : String
  children : List Container
deriving DecidableEq, Repr

/-- `Project`: the root object, the children are `Package`s. -/
structure Project where
  objectName : String
  children : List Package
deriving DecidableEq, Repr

/-- `Translation::setString`. -/
def Translation.setString (t : Translation) (string : String) : Translation :=
  { t with m_string := string }

/-- `Translation::string`. -/
def Translation.string (t : Translation) : String := t.m_string

/-- `Key::getTranslation(lang)`: `findChild<Translation *>(lang, FindDirectChildrenOnly)`. -/
def Key.getTranslation (k : Key) (lang : String) : Option Translation :=
  findChild Translation.objectName k.children lang

/-- `Key::getAllTranslations()`. -/
def Key.getAllTranslations (k : Key) : List Translation := k.children

/-- `Key::setTranslation(lang, string)`: update the found Translation when the string is
not empty, create one when none is found and the string is not empty, delete the found
one when the string is empty. -/
def Key.setTranslation (k : Key) (lang string : String) : Key :=
  match findChild Translation.objectName k.children lang with
  | some _ =>
    if string ≠ "" then
      { k with children :=
          modifyFirst (fun t => t.objectName == lang) (fun t => t.setString string) k.children }
    else
      { k with children := k.children.eraseP (fun t => t.objectName == lang) }
  | none =>
    if string ≠ "" then
      { k with children := k.children ++ [Translation.mk lang string] }
    else k

/-- The list `ks` of the `Container` methods:
`findChildren<Key *>(QRegularExpression(key, CaseInsensitiveOption), FindDirectChildrenOnly)`. -/
def Container.findKeys (c : Container) (key : String) : List Key :=
  c.children.filter (fun k => regexHasMatch key k.objectName)

/-- `Container::setTranslation(key, lang, translation)`: the first Key of `ks`, or a new
Key named `key` when `ks` is empty, receives `setTranslation(lang, translation)`. -/
def Container.setTranslation (c : Container) (key lang translation : String) : Container :=
  if (c.findKeys key).isEmpty then
    { c with children := c.children ++ [(Key.mk key []).setTranslation lang translation] }
  else
    { c with
      children :=
        modifyFirst (fun k => regexHasMatch key k.objectName)
          (fun k => k.setTranslation lang translation) c.children }

/-- `Container::getTranslation(key, lang)`. -/
def Container.getTranslation (c : Container) (key lang : String) : Option Translation :=
  match c.findKeys key with
  | [] => none
  | k :: _ => k.getTranslation lang

/-- `Container::getAllTranslations(key)`. -/
def Container.getAllTranslations (c : Container) (key : String) : List Translation :=
  match c.findKeys key with
  | [] => []
  | k :: _ => k.getAllTranslations

/-- `Package::setTranslation(container, key, lang, translation)`. -/
def Package.setTranslation (p : Package) (container key lang translation : String) : Package :=
  match findChild Container.objectName p.children container with
  | none =>
    { p with children :=
        p.children ++ [(Container.mk container []).setTranslation key lang translation] }
  | some _ =>
    { p with
      children :=
        modifyFirst (fun c => c.objectName == container)
          (fun c => c.setTranslation key lang translation) p.children }

/-- `Package::getTranslation(container, key, lang)`. -/
def Package.getTranslation (p : Package) (container key lang : String) : Option Translation :=
  match findChild Container.objectName p.children container with
  | none => none
  | some c => c.getTranslation key lang

/-- `Package::getAllTranslations(container, key)`. -/
def Package.getAllTranslations (p : Package) (container key : String) : List Translation :=
  match findChild Container.objectName p.children container with
  | none => []
  | some c => c.getAllTranslations key

/-- `Project::setTranslation(package, container, key, lang, translation)`. -/
def Project.setTranslation (proj : Project) (package container key lang translation : String) :
    Project :=
  match findChild Package.objectName proj.children package with
  | none =>
    { proj with children :=
        proj.children ++ [(Package.mk package []).setTranslation container key lang translation] }
  | some _ =>
    { proj with
      children :=
        modifyFirst (fun p => p.objectName == package)
          (fun p => p.setTranslation container key lang translation) proj.children }

/-- `Project::getTranslation(package, container, key, lang)`. -/
def Project.getTranslation (proj : Project) (package container key lang : String) :
    Option Translation :=
  match findChild Package.objectName proj.children package with
  | none => none
  | some p => p.getTranslation container key lang

/-- `Project::getAllTranslations(package, container, key)`. -/
def Project.getAllTranslations (proj : Project) (package container key : String) :
    List Translation :=
  match findChild Package.objectName proj.children package with
  | none => []
  | some p => p.getAllTranslations container key

/-! ## Names that may be the null `QString`

`findChild` selects every child for a null name (`name.isNull() || objectName() == name`).
A null name reaches the tree classes from `XliffParser` (a missing `id` attribute, the
null result of `langCodeToString`) and from `ScriptParser::findLonelyTranslation` (the
`objectName()` of a node whose name is empty: `setObjectName` stores a name only when it
differs from the current one, and the null and the empty `QString` compare equal, so the
name of such a node stays the null `QString` of a new `QObject`). The names are
`Option String` here, `none` being the null `QString`. A key enters `Container` as a
pattern only, and the null pattern is the empty pattern. -/

/-- The test `name.isNull() || obj->objectName() == name` of `findChild`. -/
def nameIs (name : Option String) (objectName : String) : Bool :=
  match name with
  | none => true
  | some n => objectName == n

/-- `findChild<T *>(name, Qt::FindDirectChildrenOnly)` for a name that may be null. -/
def findChildQ {α : Type} (objectName : α → String) (children : List α)
    (name : Option String) : Option α :=
  children.find? (fun c => nameIs name (objectName c))

/-- The `QString` that `objectName()` returns for a node with the name `s`, and the
result of `langCodeToString` as a `QString`: null when `s` is empty. -/
def nullIfEmpty (s : String) : Option String := if s == "" then none else some s

/-- `Key::setTranslation(lang, string)` for a tag that may be null; a new Translation gets
the tag, which reads as the empty string when it is null. -/
def Key.setTranslationQ (k : Key) (lang : Option String) (string : String) : Key :=
  match findChildQ Translation.objectName k.children lang with
  | some _ =>
    if string ≠ "" then
      { k with children :=
          (modifyFirst (fun t => nameIs lang t.objectName) (fun t => t.setString string)
            k.children) }
    else
      { k with children := k.children.eraseP (fun t => nameIs lang t.objectName) }
  | none =>
    if string ≠ "" then
      { k with children := k.children ++ [Translation.mk (lang.getD "") string] }
    else k

/-- `Container::setTranslation(key, lang, translation)` for a tag that may be null. -/
def Container.setTranslationQ (c : Container) (key : String) (lang : Option String)
    (translation : String) : Container :=
  if (c.findKeys key).isEmpty then
    { c with children := c.children ++ [(Key.mk key []).setTranslationQ lang translation] }
  else
    { c with
      children :=
        modifyFirst (fun k => regexHasMatch key k.objectName)
          (fun k => k.setTranslationQ lang translation) c.children }

/-- `Package::setTranslation` for a container name and a tag that may be null; a new
Container gets the name, which reads as the empty string when it is null. -/
def Package.setTranslationQ (p : Package) (container : Option String) (key : String)
    (lang : Option String) (translation : String) : Package :=
  match findChildQ Container.objectName p.children container with
  | none =>
    { p with children :=
        p.children ++
          [(Container.mk (container.getD "") []).setTranslationQ key lang translation] }
  | some _ =>
    { p with
      children :=
        modifyFirst (fun c => nameIs container c.objectName)
          (fun c => c.setTranslationQ key lang translation) p.children }

/-- `Project::setTranslation` for package and container names and a tag that may be
null. -/
def Project.setTranslationQ (proj : Project) (package container : Option String)
    (key : String) (lang : Option String) (translation : String) : Project :=
  match findChildQ Package.objectName proj.children package with
  | none =>
    { proj with children :=
        proj.children ++
          [(Package.mk (package.getD "") []).setTranslationQ container key lang translation] }
  | some _ =>
    { proj with
      children :=
        modifyFirst (fun p => nameIs package p.objectName)
          (fun p => p.setTranslationQ container key lang translation) proj.children }

/-! ## ScriptParser: the patterns -/

/-- `\s` of PCRE without the Unicode-properties option: HT, LF, VT, FF, CR and space. -/
def isRegexSpace (c : Char) : Bool :=
  c == ' ' || c == '\t' || c == '\n' || c == '\x0b' || c == '\x0c' || c == '\r'

/-- A range `lo-hi` of a character class. -/
def inRange (lo hi c : Char) : Bool := lo.toNat ≤ c.toNat && c.toNat ≤ hi.toNat

/-- The class `[a-zA-z0-9_\*]` of the package and container groups (and of the key group
of the block header). The range `A-z` is the source's: it runs from `A` to lower-case
`z`. -/
def isTokenChar (c : Char) : Bool :=
  inRange 'a' 'z' c || inRange 'A' 'z' c || inRange '0' '9' c || c == '_' || c == '*'

/-- The class `[a-zA-z0-9_]` of the key group of the single-line pattern. -/
def isKeyChar (c : Char) : Bool :=
  inRange 'a' 'z' c || inRange 'A' 'z' c || inRange '0' '9' c || c == '_'

/-- The class `[a-zA-Z0-9_]`: letters, digits and the underscore. -/
def isWordChar (c : Char) : Bool :=
  inRange 'a' 'z' c || inRange 'A' 'Z' c || inRange '0' '9' c || c == '_'

/-- Match a literal at the start of the subject and return the rest. -/
def dropLiteral : List Char → List Char → Option (List Char)
  | [], s => some s
  | _ :: _, [] => none
  | l :: ls, x :: xs => if x = l then dropLiteral ls xs else none

/-- A greedy `cls+` at the start of the subject: the longest non-empty run of `cls`
characters and the rest. In the patterns below every `cls+` and `\s*` is followed by
something that no character of the class can start, so the longest run is the only run
with which the rest of the pattern can match. -/
def takeSome (cls : Char → Bool) (s : List Char) : Option (List Char × List Char) :=
  if (s.takeWhile cls).isEmpty then none else some (s.takeWhile cls, s.dropWhile cls)

/-- The four captures of the single-line pattern, `captured(1)` to `captured(4)`. -/
structure SingleLineMatch where
  package : String
  container : String
  key : String
  text : String
deriving DecidableEq, Repr

/-- The pattern `singleLine`,
`//\s*TR\s+([a-zA-z0-9_\*]+)\s+([a-zA-z0-9_\*]+)\s+([a-zA-z0-9_]+)\s+"([^"]*)"`,
tried at the start of the subject. -/
def singleLineAt (s : List Char) : Option SingleLineMatch :=
  (dropLiteral ['/', '/'] s).bind fun s1 =>
  (dropLiteral ['T', 'R'] (s1.dropWhile isRegexSpace)).bind fun s2 =>
  (takeSome isRegexSpace s2).bind fun w1 =>
  (takeSome isTokenChar w1.2).bind fun g1 =>
  (takeSome isRegexSpace g1.2).bind fun w2 =>
  (takeSome isTokenChar w2.2).bind fun g2 =>
  (takeSome isRegexSpace g2.2).bind fun w3 =>
  (takeSome isKeyChar w3.2).bind fun g3 =>
  (takeSome isRegexSpace g3.2).bind fun w4 =>
  (dropLiteral ['"'] w4.2).bind fun s3 =>
  (dropLiteral ['"'] (s3.dropWhile (fun c => c != '"'))).map fun _ =>
    SingleLineMatch.mk (String.mk g1.1) (String.mk g2.1) (String.mk g3.1)
      (String.mk (s3.takeWhile (fun c => c != '"')))

/-- `singleLine.match(line)`: the match at the leftmost position where the pattern
matches. -/
def singleLineSearch : List Char → Option SingleLineMatch
  | [] => none
  | c :: cs =>
    match singleLineAt (c :: cs) with
    | some m => some m
    | none => singleLineSearch cs

/-- The three captures of `multiLineMeta`. -/
structure MultiLineMetaMatch where
  package : String
  container : String
  key : String
deriving DecidableEq, Repr

/-- The pattern `multiLineMeta`,
`/\*\s*TR\s+([a-zA-z0-9_\*]+)\s+([a-zA-z0-9_\*]+)\s+([a-zA-z0-9_\*]+)`, tried at the
start of the subject. -/
def multiLineMetaAt (s : List Char) : Option MultiLineMetaMatch :=
  (dropLiteral ['/', '*'] s).bind fun s1 =>
  (dropLiteral ['T', 'R'] (s1.dropWhile isRegexSpace)).bind fun s2 =>
  (takeSome isRegexSpace s2).bind fun w1 =>
  (takeSome isTokenChar w1.2).bind fun g1 =>
  (takeSome isRegexSpace g1.2).bind fun w2 =>
  (takeSome isTokenChar w2.2).bind fun g2 =>
  (takeSome isRegexSpace g2.2).bind fun w3 =>
  (takeSome isTokenChar w3.2).map fun g3 =>
    MultiLineMetaMatch.mk (String.mk g1.1) (String.mk g2.1) (String.mk g3.1)

/-- `multiLineMeta.match(header)`. -/
def multiLineMetaSearch : List Char → Option MultiLineMetaMatch
  | [] => none
  | c :: cs =>
    match multiLineMetaAt (c :: cs) with
    | some m => some m
    | none => multiLineMetaSearch cs

/-- The pattern `multiLineStart`, `/\*\s*TR`, tried at the start of the subject. -/
def multiLineStartAt (s : List Char) : Bool :=
  ((dropLiteral ['/', '*'] s).bind fun s1 =>
    dropLiteral ['T', 'R'] (s1.dropWhile isRegexSpace)).isSome

/-- `line.contains(multiLineStart)`. -/
def containsMultiLineStart : List Char → Bool
  | [] => false
  | c :: cs => multiLineStartAt (c :: cs) || containsMultiLineStart cs

/-- The pattern `multiLineEnd`, `\s*\*/`, tried at the start of the subject: the length
of the match. -/
def multiLineEndAt (s : List Char) : Option Nat :=
  (dropLiteral ['*', '/'] (s.dropWhile isRegexSpace)).map fun _ =>
    (s.takeWhile isRegexSpace).length + 2

/-- `line.contains(multiLineEnd)`. -/
def containsMultiLineEnd : List Char → Bool
  | [] => false
  | c :: cs => (multiLineEndAt (c :: cs)).isSome || containsMultiLineEnd cs

/-- `multiLine.remove(multiLineEnd)`: every match, from left to right, is removed;
`skip` counts the characters of the current match that are still to be dropped. -/
def removeMultiLineEnd : Nat → List Char → List Char
  | _, [] => []
  | skip + 1, _ :: cs => removeMultiLineEnd skip cs
  | 0, c :: cs =>
    match multiLineEndAt (c :: cs) with
    | some len => removeMultiLineEnd (len - 1) cs
    | none => c :: removeMultiLineEnd 0 cs

/-- `QChar::isSpace()`: space, U+0009 to U+000D, U+0085, U+00A0 and the Unicode
separator categories Zs, Zl and Zp. -/
def isQtSpace (c : Char) : Bool :=
  c == ' ' || (9 ≤ c.toNat && c.toNat ≤ 13) || c.toNat == 0x85 || c.toNat == 0xA0 ||
  c.toNat == 0x1680 || (0x2000 ≤ c.toNat && c.toNat ≤ 0x200A) || c.toNat == 0x2028 ||
  c.toNat == 0x2029 || c.toNat == 0x202F || c.toNat == 0x205F || c.toNat == 0x3000

/-- The loop of `QString::simplified()`: whitespace at both ends is dropped and every
inner run of whitespace becomes one space. `emitted` says a word has been written,
`pending` that whitespace was read after it. -/
def simplifiedFrom : Bool → Bool → List Char → List Char
  | _, _, [] => []
  | emitted, pending, c :: cs =>
    if isQtSpace c then simplifiedFrom emitted emitted cs
    else if pending then ' ' :: c :: simplifiedFrom true false cs
    else c :: simplifiedFrom true false cs

/-- `QString::simplified()`. -/
def simplified (s : String) : String := String.mk (simplifiedFrom false false s.toList)

/-- `s.replace(QChar('_'), QLatin1String(" "))`. -/
def replaceUnderscores (s : String) : String :=
  String.mk (s.toList.map (fun c => if c = '_' then ' ' else c))

/-- The two calls `replace("<", "&lt;")` and `replace(">", "&gt;")`. -/
def escapeAngles : List Char → List Char
  | [] => []
  | c :: cs =>
    if c = '<' then '&' :: 'l' :: 't' :: ';' :: escapeAngles cs
    else if c = '>' then '&' :: 'g' :: 't' :: ';' :: escapeAngles cs
    else c :: escapeAngles cs

/-- The class `[a-zA-Z0-9_]` under `CaseInsensitiveOption`: the letters, the digits, the
underscore and the two characters outside ASCII that fold to a letter. -/
def isLocChar (c : Char) : Bool :=
  isWordChar c || c == Char.ofNat 0x017F || c == Char.ofNat 0x212A

/-- The pattern `locString`, `(str_[a-zA-Z0-9_]+)` with `CaseInsensitiveOption`, tried at
the start of the subject: the capture and the rest. -/
def locStringAt (s : List Char) : Option (List Char × List Char) :=
  if (s.take 4).map foldCase == ['s', 't', 'r', '_'] then
    (takeSome isLocChar (s.drop 4)).map fun g =>
      (s.take 4 ++ g.1, g.2)
  else none

/-- `locString.globalMatch(line)`: the captures of all matches, from left to right;
`skip` counts the characters of the current match that are still to be passed. -/
def locStringMatches : Nat → List Char → List String
  | _, [] => []
  | skip + 1, _ :: cs => locStringMatches skip cs
  | 0, c :: cs =>
    match locStringAt (c :: cs) with
    | some g => String.mk g.1 :: locStringMatches (g.1.length - 1) cs
    | none => locStringMatches 0 cs

/-! ## ScriptParser: the extraction -/

/-- The Key that `saveTranslation` addresses with
`m_sp->findChild<Package *>(package)->findChild<Container *>(container)->findChild<Key *>(key)`. -/
def Project.findKeyByName (proj : Project) (package container key : String) : Option Key :=
  (findChild Package.objectName proj.children package).bind fun p =>
  (findChild Container.objectName p.children container).bind fun c =>
  findChild Key.objectName c.children key

/-- The loop `new Translation(t->objectName(), t->string(), k)` of `saveTranslation`: the
copies are appended to the children of the Key that `findKeyByName` returns. When that
Key pointer is null the new objects get no parent and the tree is unchanged. -/
def Project.appendTranslations (proj : Project) (package container key : String)
    (copies : List Translation) : Project :=
  { proj with
    children :=
      modifyFirst (fun p => p.objectName == package)
        (fun p => { p with
          children :=
            modifyFirst (fun c => c.objectName == container)
              (fun c => { c with
                children :=
                  modifyFirst (fun k => k.objectName == key)
                    (fun k => { k with children := k.children ++ copies }) c.children })
              p.children })
        proj.children }

/-- `ScriptParser::saveTranslation(package, container, key, text)` with the reference
tree `m_st` and the output tree `m_sp`; the result is the output tree. -/
def saveTranslation (m_st m_sp : Project) (package container key text : String) : Project :=
  let sp1 := m_sp.setTranslation package container key "Original" text
  match m_st.getTranslation package container key "Original" with
  | none => sp1
  | some savedOriginalTranslation =>
    if compareCaseInsensitive savedOriginalTranslation.string text then
      let tl := m_st.getAllTranslations package container key
      if tl.isEmpty then sp1
      else
        sp1.appendTranslations package container key
          ((tl.filter (fun t => t.objectName != "Original")).map
            (fun t => Translation.mk t.objectName t.string))
    else sp1

/-- Token resolution for the package: `*` is `Main`, otherwise underscores become
spaces. -/
def resolvePackage (token : String) : String :=
  if token == "*" then "Main" else replaceUnderscores token

/-- Token resolution for the container: `*` is `m_fileBaseName`, otherwise underscores
become spaces. -/
def resolveContainer (m_fileBaseName token : String) : String :=
  if token == "*" then m_fileBaseName else replaceUnderscores token

/-- The local variables of the first loop of `ScriptParser::parse` and the output
tree. -/
structure ParseState where
  multiLineStarted : Bool
  multiLineHeader : String
  multiLine : String
  m_sp : Project
deriving DecidableEq, Repr

/-- The end of a block (the body of `if (multiLineStarted && line.contains(multiLineEnd))`). -/
def closeBlock (m_fileBaseName : String) (m_st : Project) (s : ParseState) : ParseState :=
  let multiLine :=
    simplified (String.mk (removeMultiLineEnd 0 (escapeAngles s.multiLine.toList)))
  let multiLineHeader := simplified s.multiLineHeader
  let sp :=
    match multiLineMetaSearch multiLineHeader.toList with
    | some m =>
      saveTranslation m_st s.m_sp (resolvePackage m.package)
        (resolveContainer m_fileBaseName m.container) m.key multiLine
    | none => s.m_sp
  { multiLineStarted := false, multiLineHeader := "", multiLine := "", m_sp := sp }

/-- One iteration of the first loop of `ScriptParser::parse`, for the line read. -/
def parseLine (m_fileBaseName : String) (m_st : Project) (s : ParseState) (line : String) :
    ParseState :=
  match singleLineSearch line.toList, s.multiLineStarted with
  | some m, false =>
    { s with
      m_sp :=
        saveTranslation m_st s.m_sp (resolvePackage m.package)
          (resolveContainer m_fileBaseName m.container) m.key m.text }
  | _, _ =>
    let s1 : ParseState :=
      if containsMultiLineStart line.toList then { s with multiLineStarted := true } else s
    let s2 : ParseState :=
      if s1.multiLineStarted then
        if s1.multiLineHeader.isEmpty then { s1 with multiLineHeader := line }
        else { s1 with multiLine := s1.multiLine ++ line ++ " " }
      else s1
    if s2.multiLineStarted && containsMultiLineEnd line.toList then
      closeBlock m_fileBaseName m_st s2
    else s2

/-- `findChildren<Key *>(QRegularExpression(key, CaseInsensitiveOption),
FindChildrenRecursively)` on a Project: the matching Keys in the order of the recursive
walk, each with the names of its Package and Container (`k->parent()` and
`c->parent()`). -/
def Project.findKeysRecursively (proj : Project) (key : String) :
    List (String × String × Key) :=
  proj.children.flatMap fun p =>
    p.children.flatMap fun c =>
      (c.children.filter (fun k => regexHasMatch key k.objectName)).map fun k =>
        (p.objectName, c.objectName, k)

/-- `ScriptParser::findLonelyTranslation(key, lineNumber)`: the output tree and the
diagnostics written so far (line number and identifier). The names passed to
`m_sp->setTranslation` are the `objectName()` of the reference nodes, null for a node
whose name is empty. -/
def findLonelyTranslation (m_st : Project) (acc : Project × List (Nat × String))
    (key : String) (lineNumber : Nat) : Project × List (Nat × String) :=
  if (acc.1.findKeysRecursively key).isEmpty then
    match m_st.findKeysRecursively key with
    | (p, c, k) :: _ =>
      (k.children.foldl
        (fun sp t =>
          sp.setTranslationQ (nullIfEmpty p) (nullIfEmpty c) k.objectName
            (nullIfEmpty t.objectName) t.string)
        acc.1, acc.2)
    | [] => (acc.1, acc.2 ++ [(lineNumber, key)])
  else acc

/-- The second loop of `ScriptParser::parse`, from line `lineNumber + 1`. -/
def lonelyPass (m_st : Project) :
    Nat → List String → Project × List (Nat × String) → Project × List (Nat × String)
  | _, [], acc => acc
  | lineNumber, line :: rest, acc =>
    lonelyPass m_st (lineNumber + 1) rest
      ((locStringMatches 0 line.toList).foldl
        (fun a key => findLonelyTranslation m_st a key (lineNumber + 1)) acc)

/-- `ScriptParser::parse()` on the lines of the script file: the output tree and the
diagnostics. -/
def ScriptParser.parse (m_fileBaseName : String) (m_st m_sp : Project) (lines : List String) :
    Project × List (Nat × String) :=
  let s := lines.foldl (parseLine m_fileBaseName m_st)
    { multiLineStarted := false, multiLineHeader := "", multiLine := "", m_sp := m_sp }
  lonelyPass m_st 0 lines (s.m_sp, [])

/-! ## The stringtable codec

A `QDomDocument` is modelled by the list of its child nodes. The `toXml` methods append
the document of a child object to an element (`e.appendChild(t)`); QDom writes such a
node as its child nodes, and the model appends these child nodes. -/

/-- A node of a QDom tree: an element, a text node or a processing instruction. -/
inductive QDomNode where
  | element (tagName : String) (attributes : List (String × String)) (childNodes : List QDomNode)
  | textNode (data : String)
  | processingInstruction (target data : String)
deriving Repr

/-- `QDomNode::childNodes()`. -/
def QDomNode.childNodes : QDomNode → List QDomNode
  | QDomNode.element _ _ cs => cs
  | _ => []

/-- `QDomNode::hasChildNodes()`. -/
def QDomNode.hasChildNodes (n : QDomNode) : Bool := !n.childNodes.isEmpty

/-- `QDomNode::isElement()`. -/
def QDomNode.isElement : QDomNode → Bool
  | QDomNode.element _ _ _ => true
  | _ => false

/-- `n.toElement().tagName()`: the tag of an element, the empty string for the null
element that `toElement()` returns on another node. -/
def QDomNode.tagName : QDomNode → String
  | QDomNode.element tag _ _ => tag
  | _ => ""

/-- `QDomElement::attribute(name, defValue)`. -/
def QDomNode.attribute (n : QDomNode) (name defValue : String) : String :=
  match n with
  | QDomNode.element _ attrs _ =>
    match attrs.find? (fun a => a.1 == name) with
    | some a => a.2
    | none => defValue
  | _ => defValue

mutual
/-- `n.toElement().text()`: the text of the text nodes below an element, in document
order. -/
def QDomNode.text : QDomNode → String
  | QDomNode.element _ _ cs => QDomNode.textOfList cs
  | _ => ""
/-- The loop of `QDomElementPrivate::text()` over the child nodes. -/
def QDomNode.textOfList : List QDomNode → String
  | [] => ""
  | QDomNode.textNode data :: rest => data ++ QDomNode.textOfList rest
  | QDomNode.element tag attrs cs :: rest =>
    QDomNode.text (QDomNode.element tag attrs cs) ++ QDomNode.textOfList rest
  | QDomNode.processingInstruction _ _ :: rest => QDomNode.textOfList rest
end

mutual
/-- The nodes below a node, in document order. -/
def QDomNode.descendants : QDomNode → List QDomNode
  | QDomNode.element _ _ cs => QDomNode.descendantsOfList cs
  | _ => []
/-- The nodes of a list of siblings and the nodes below them, in document order. -/
def QDomNode.descendantsOfList : List QDomNode → List QDomNode
  | [] => []
  | n :: rest => n :: (QDomNode.descendants n ++ QDomNode.descendantsOfList rest)
end

/-- `QDomElement::elementsByTagName(tagname)`: the elements below the node that have the
tag, in document order. -/
def QDomNode.elementsByTagName (n : QDomNode) (tagname : String) : List QDomNode :=
  n.descendants.filter (fun d => d.isElement && d.tagName == tagname)

/-- `QDomDocument::documentElement()`. -/
def documentElement (doc : List QDomNode) : Option QDomNode := doc.find? QDomNode.isElement

/-- The loop `if (d.hasChildNodes()) e.appendChild(d)` over the documents of the child
objects. -/
def appendDocuments (docs : List (List QDomNode)) : List QDomNode :=
  (docs.filter (fun d => !d.isEmpty)).flatten

/-- The element `e` that `Translation::toXml()` creates: the tag is the language tag,
the only child is a text node with the string. -/
def Translation.toElement (t : Translation) : QDomNode :=
  QDomNode.element t.objectName [] [QDomNode.textNode t.string]

/-- `Translation::toXml()`. -/
def Translation.toXml (t : Translation) : List QDomNode := [t.toElement]

/-- The element `e` that `Key::toXml()` creates. -/
def Key.toElement (k : Key) : QDomNode :=
  QDomNode.element "Key" [("ID", k.objectName)]
    (appendDocuments (k.getAllTranslations.map Translation.toXml))

/-- `Key::toXml()`. -/
def Key.toXml (k : Key) : List QDomNode :=
  if k.getAllTranslations.isEmpty then [] else [k.toElement]

/-- The element `e` that `Container::toXml()` creates. -/
def Container.toElement (c : Container) : QDomNode :=
  QDomNode.element "Container" [("name", c.objectName)]
    (appendDocuments (c.children.map Key.toXml))

/-- `Container::toXml()`. -/
def Container.toXml (c : Container) : List QDomNode :=
  if c.children.isEmpty then [] else [c.toElement]

/-- The element `e` that `Package::toXml()` creates. -/
def Package.toElement (p : Package) : QDomNode :=
  QDomNode.element "Package" [("name", p.objectName)]
    (appendDocuments (p.children.map Container.toXml))

/-- `Package::toXml()`. -/
def Package.toXml (p : Package) : List QDomNode :=
  if p.children.isEmpty then [] else [p.toElement]

/-- The element `e` that `Project::toXml()` creates. -/
def Project.toElement (proj : Project) : QDomNode :=
  QDomNode.element "Project" [("name", proj.objectName)]
    (appendDocuments (proj.children.map Package.toXml))

/-- `Project::toXml()`. -/
def Project.toXml (proj : Project) : List QDomNode :=
  if proj.children.isEmpty then []
  else
    [QDomNode.processingInstruction "xml" "version=\"1.0\" encoding=\"utf-8\" ",
      proj.toElement]

/-- The body of the loop over the `Key` elements in `StringtableParser::parse`: the Key
object created for the element, if any. -/
def parseKeyElement (currentKey : QDomNode) : Option Key :=
  if !(currentKey.attribute "ID" "" == "") && currentKey.hasChildNodes then
    some (Key.mk (currentKey.attribute "ID" "")
      (currentKey.childNodes.map (fun n => Translation.mk n.tagName n.text)))
  else none

/-- The body of the loop over the `Container` elements: the Container object that remains
in the tree, if any. -/
def parseContainerElement (container : QDomNode) : Option Container :=
  if container.hasChildNodes then
    if (container.elementsByTagName "Key").isEmpty then none
    else
      some (Container.mk (container.attribute "name" "")
        ((container.elementsByTagName "Key").filterMap parseKeyElement))
  else none

/-- The body of the loop over the `Package` elements: the Package object that remains in
the tree, if any. -/
def parsePackageElement (package : QDomNode) : Option Package :=
  if package.hasChildNodes then
    if (package.elementsByTagName "Container").isEmpty then none
    else
      some (Package.mk (package.attribute "name" "")
        ((package.elementsByTagName "Container").filterMap parseContainerElement))
  else none

/-- `StringtableParser::parse()` on the document read from the file; `none` is the null
pointer. -/
def StringtableParser.parse (st : List QDomNode) : Option Project :=
  match documentElement st with
  | none => none
  | some project =>
    if !project.hasChildNodes || project.tagName != "Project" then none
    else if (project.elementsByTagName "Package").isEmpty then none
    else
      let proj := Project.mk (project.attribute "name" "My Project")
        ((project.elementsByTagName "Package").filterMap parsePackageElement)
      if proj.children.length < 1 then none else some proj

/-- The (package, container, key, language, text) tuples of a tree, in tree order. -/
def Project.tuples (proj : Project) : List (String × String × String × String × String) :=
  proj.children.flatMap fun p =>
    p.children.flatMap fun c =>
      c.children.flatMap fun k =>
        k.children.map fun t => (p.objectName, c.objectName, k.objectName, t.objectName, t.string)

/-! ## Predicates used in the statements -/

/-- The data-model invariant "Translations are keyed by their language tag": no Key of
the tree holds two Translations with the same tag. -/
def Project.uniqueLanguages (proj : Project) : Prop :=
  ∀ p ∈ proj.children, ∀ c ∈ p.children, ∀ k ∈ c.children,
    (k.children.map Translation.objectName).Nodup

instance (proj : Project) : Decidable proj.uniqueLanguages := by
  unfold Project.uniqueLanguages
  infer_instance

/-- The data-model invariant "an empty text deletes the Translation": no Translation of
the tree has an empty text. -/
def Project.noEmptyString (proj : Project) : Prop :=
  ∀ p ∈ proj.children, ∀ c ∈ p.children, ∀ k ∈ c.children, ∀ t ∈ k.children, t.string ≠ ""

instance (proj : Project) : Decidable proj.noEmptyString := by
  unfold Project.noEmptyString
  infer_instance

/-- The Keys of the Container that the path (package, container) reaches; no Keys when a
segment of the path is absent. -/
def Project.keysAt (proj : Project) (package container : String) : List Key :=
  match findChild Package.objectName proj.children package with
  | none => []
  | some p =>
    match findChild Container.objectName p.children container with
    | none => []
    | some c => c.children

/-- The tree has no Key for `key` at (package, container): no Key there carries the
identifier `key` and none is selected by the lookup of `key`. -/
def Project.lacksKey (proj : Project) (package container key : String) : Prop :=
  ∀ k ∈ proj.keysAt package container,
    k.objectName ≠ key ∧ regexHasMatch key k.objectName = false

instance (proj : Project) (package container key : String) :
    Decidable (proj.lacksKey package container key) := by
  unfold Project.lacksKey
  infer_instance

/-- The Key that the tree holds for `key` at (package, container), Keys being identified
by their name up to letter case: the first Key there whose identifier equals `key` up to
letter case. -/
def Project.findKeyIgnoringCase (proj : Project) (package container key : String) :
    Option Key :=
  (proj.keysAt package container).find? (fun k => compareCaseInsensitive k.objectName key)

/-- The lookup of `key` at (package, container) selects Keys by their name: every Key
there in which the pattern `key` has a match carries the identifier `key` up to letter
case. -/
def Project.selectsByName (proj : Project) (package container key : String) : Prop :=
  ∀ k ∈ proj.keysAt package container,
    regexHasMatch key k.objectName = true → compareCaseInsensitive k.objectName key = true

instance (proj : Project) (package container key : String) :
    Decidable (proj.selectsByName package container key) := by
  unfold Project.selectsByName
  infer_instance

/-- What `StringtableParser::parse` rebuilds from the element of a Container: the Keys
that have a Translation and a non-empty id. -/
def Container.reparsed (c : Container) : Container :=
  Container.mk c.objectName
    (c.children.filter (fun k => !k.children.isEmpty && !(k.objectName == "")))

/-- What `StringtableParser::parse` rebuilds from the element of a Package: the
Containers that have a Key with a Translation. -/
def Package.reparsed (p : Package) : Package :=
  Package.mk p.objectName
    ((p.children.filter (fun c => c.children.any (fun k => !k.children.isEmpty))).map
      Container.reparsed)

/-- What `StringtableParser::parse` rebuilds from the document of a Project: the Packages
that have a Container with a Key. -/
def Project.reparsed (proj : Project) : Project :=
  Project.mk proj.objectName
    ((proj.children.filter (fun p => p.children.any (fun c => !c.children.isEmpty))).map
      Package.reparsed)

/-- No Key of the tree has an empty id. -/
def Project.keyIdsNonEmpty (proj : Project) : Prop :=
  ∀ p ∈ proj.children, ∀ c ∈ p.children, ∀ k ∈ c.children, k.objectName ≠ ""

instance (proj : Project) : Decidable proj.keyIdsNonEmpty := by
  unfold Project.keyIdsNonEmpty
  infer_instance

/-- One `setTranslation` call: package, container, key, language, text. -/
structure Call where
  package : String
  container : String
  key : String
  lang : String
  text : String
deriving DecidableEq, Repr

/-- The tree built from the empty Project `name` by a sequence of `setTranslation`
calls. -/
def Project.built (name : String) (calls : List Call) : Project :=
  calls.foldl (fun proj call =>
    proj.setTranslation call.package call.container call.key call.lang call.text)
    (Project.mk name [])

/-- The charset of a bareword token of a directive as the specification gives it:
letters, digits, underscore and `*`. -/
def isBarewordChar (c : Char) : Bool := isWordChar c || c == '*'

/-- A non-empty string of characters of one class. -/
def isTokenOf (cls : Char → Bool) (s : String) : Bool := !s.toList.isEmpty && s.toList.all cls

/-- The single-line directive `// TR P C K "T"`. -/
def singleLineDirective (P C K T : String) : String :=
  "// TR " ++ P ++ " " ++ C ++ " " ++ K ++ " \"" ++ T ++ "\""

/-! ## The XLIFF codec: export

The `toXliff` methods build their documents like the `toXml` methods do. The root element
is created with `createElementNS`; QDom writes the namespace of such an element as the
attribute `xmlns`, and the model lists it as the first attribute. `setAttribute` is called
with pairwise different names on every element, so the attributes are listed in the order
of the calls. -/

/-- `QString::toLower()` (see `lowerCase`): the result is an ASCII string exactly when
Qt's is, and then it is that string. -/
def toLower (s : String) : String := String.mk (s.toList.map lowerCase)

/-- `Project::langCodeToString(code)`; the empty string is the null `QString` of the last
branch. -/
def Project.langCodeToString (code : String) : String :=
  let c := toLower code
  if c == "en" then "English"
  else if c == "cz" then "Czech"
  else if c == "fr" then "French"
  else if c == "es" then "Spanish"
  else if c == "it" then "Italian"
  else if c == "pl" then "Polish"
  else if c == "pt" then "Portuguese"
  else if c == "ru" then "Russian"
  else if c == "de" then "German"
  else if c == "ko" then "Korean"
  else if c == "ja" then "Japanese"
  else ""

/-- `s.replace(QChar(' '), QLatin1String("_"))`. -/
def replaceSpaces (s : String) : String :=
  String.mk (s.toList.map (fun c => if c = ' ' then '_' else c))

/-- The `id` that the `toXliff` methods compute: `objectName().simplified()` with every
space replaced by `_`. -/
def xliffId (objectName : String) : String := replaceSpaces (simplified objectName)

/-- `Translation::toXliff()`. -/
def Translation.toXliff (t : Translation) : List QDomNode :=
  [QDomNode.element (if t.objectName == "Original" then "source" else "target") []
    [QDomNode.textNode t.string]]

/-- `Key::toXliff(lang, version2)`. -/
def Key.toXliff (k : Key) (lang : String) (version2 : Bool) : List QDomNode :=
  match k.getTranslation "Original" with
  | none => []
  | some o =>
    [QDomNode.element (if !version2 then "trans-unit" else "segment")
      [("id", xliffId k.objectName)]
      (o.toXliff ++
        (if lang ≠ "" then
          match k.getTranslation lang with
          | some t => t.toXliff
          | none => []
        else []))]

/-- `Container::toXliff(lang, version2)`. -/
def Container.toXliff (c : Container) (lang : String) (version2 : Bool) : List QDomNode :=
  if c.children.isEmpty then []
  else
    [QDomNode.element (if !version2 then "group" else "unit") [("id", xliffId c.objectName)]
      (appendDocuments (c.children.map (fun k => k.toXliff lang version2)))]

/-- `Package::toXliff(lang, version2)`. -/
def Package.toXliff (p : Package) (lang : String) (version2 : Bool) : List QDomNode :=
  if p.children.isEmpty then []
  else
    [QDomNode.element "group" [("id", xliffId p.objectName)]
      (appendDocuments (p.children.map (fun c => c.toXliff lang version2)))]

/-- The processing instruction that opens the documents of `Project::toXliff`. -/
def xmlDeclaration : QDomNode :=
  QDomNode.processingInstruction "xml" "version=\"1.0\" encoding=\"utf-8\" "

/-- `Project::toXliff(lang, srcLng, version2)`. -/
def Project.toXliff (proj : Project) (lang srcLng : String) (version2 : Bool) :
    List QDomNode :=
  if proj.children.isEmpty then []
  else if !version2 then
    [xmlDeclaration,
      QDomNode.element "xliff"
        [("xmlns", "urn:oasis:names:tc:xliff:document:1.2"), ("version", "1.2")]
        [QDomNode.element "file"
          ([("original", xliffId proj.objectName), ("source-language", srcLng)] ++
            (if lang ≠ "" then [("target-language", lang)] else []) ++
            [("datatype", "plaintext")])
          [QDomNode.element "body" []
            (appendDocuments (proj.children.map
              (fun p => p.toXliff (Project.langCodeToString lang) version2)))]]]
  else
    [xmlDeclaration,
      QDomNode.element "xliff"
        [("xmlns", "urn:oasis:names:tc:xliff:document:2.0"), ("version", "2.0"),
          ("srcLang", srcLng), ("trgLang", lang)]
        [QDomNode.element "file" [("id", xliffId proj.objectName)]
          (appendDocuments (proj.children.map
            (fun p => p.toXliff (Project.langCodeToString lang) version2)))]]

/-! ## The XLIFF codec: import

`XliffParser` reads the `id` of a package or container element with
`attribute("id")`, which is the null `QString` when the attribute is missing, and passes
it on to `Project::setTranslation`; the language tag of the targets is the result of
`langCodeToString`, null for a code without a display name (`setTranslationQ`). -/

/-- `QDomElement::attribute(name)` with the null `QString` told from the empty one:
`none` when the node has no attribute of that name. -/
def QDomNode.attributeQ (n : QDomNode) (name : String) : Option String :=
  match n with
  | QDomNode.element _ attrs _ => (attrs.find? (fun a => a.1 == name)).map (fun a => a.2)
  | _ => none

/-- `QDomNode::firstChildElement(tagName)`; `none` is the null element. -/
def QDomNode.firstChildElement (n : QDomNode) (tagName : String) : Option QDomNode :=
  n.childNodes.find? (fun c => c.isElement && c.tagName == tagName)

/-- `e.attribute(name)` on an element that may be null: the null element has no
attributes and the result is the default value, which reads as the empty string. -/
def attributeOf (e : Option QDomNode) (name : String) : String :=
  match e with
  | some n => n.attribute name ""
  | none => ""

/-- `e.text()` on an element that may be null. -/
def textOf (e : Option QDomNode) : String :=
  match e with
  | some n => n.text
  | none => ""

/-- The elements that a loop `for (x = e.firstChildElement(tag); !x.isNull();
x = x.nextSiblingElement(tag))` visits: the child elements of `e` with the tag. -/
def childElementsOf (e : Option QDomNode) (tagName : String) : List QDomNode :=
  match e with
  | some n => n.childNodes.filter (fun c => c.isElement && c.tagName == tagName)
  | none => []

/-- `e.elementsByTagName(tagname)` on an element that may be null. -/
def elementsByTagNameOf (e : Option QDomNode) (tagname : String) : List QDomNode :=
  match e with
  | some n => n.elementsByTagName tagname
  | none => []

/-- `version.startsWith(QChar(c))`. -/
def startsWith (s : String) (c : Char) : Bool := s.toList.head? == some c

/-- `XliffParser::m_supportedLangs`, as the constructor fills it. -/
def XliffParser.m_supportedLangs : List String :=
  ["en", "cz", "fr", "es", "it", "pl", "pt", "ru", "de", "ko", "ja"]

/-- `m_supportedLangs.contains(trgLang, Qt::CaseInsensitive)`. -/
def XliffParser.supports (trgLang : String) : Bool :=
  XliffParser.m_supportedLangs.any (fun l => compareCaseInsensitive l trgLang)

/-- The body of the innermost loop of `extractV1` and `extractV2`, for one `trans-unit`
or `segment` element. -/
def XliffParser.extractKey (trgLang : String) (packageName containerName : Option String)
    (m_prj : Project) (key : QDomNode) : Project :=
  let keyId := key.attribute "id" ""
  let source := textOf (key.firstChildElement "source")
  let target := textOf (key.firstChildElement "target")
  (m_prj.setTranslationQ packageName containerName keyId (some "Original")
      source).setTranslationQ
    packageName containerName keyId (nullIfEmpty (Project.langCodeToString trgLang)) target

/-- The body of the loop over the package elements of `extractV1` (container elements
`group`, key elements `trans-unit`) and of `extractV2` (`unit`, `segment`). -/
def XliffParser.extractPackage (containerTag keyTag trgLang : String) (m_prj : Project)
    (package : QDomNode) : Project :=
  let packageName := (package.attributeQ "id").map replaceUnderscores
  (package.elementsByTagName containerTag).foldl
    (fun prj container =>
      let containerName := (container.attributeQ "id").map replaceUnderscores
      (container.elementsByTagName keyTag).foldl
        (XliffParser.extractKey trgLang packageName containerName) prj)
    m_prj

/-- The project name that `extractV1` and `extractV2` derive from the attribute of the
`file` element. -/
def XliffParser.projectName (attr : String) : String :=
  if attr == "" then "My Project" else replaceUnderscores attr

/-- `XliffParser::extractV1(e)`; the result is the Project `m_prj` points to. -/
def XliffParser.extractV1 (m_prj : Project) (e : QDomNode) : Project :=
  let file := e.firstChildElement "file"
  let trgLang := attributeOf file "target-language"
  if trgLang == "" then m_prj
  else if !XliffParser.supports trgLang then m_prj
  else
    let packages := childElementsOf (file.bind (fun f => f.firstChildElement "body")) "group"
    if packages.isEmpty then m_prj
    else
      packages.foldl (XliffParser.extractPackage "group" "trans-unit" trgLang)
        { m_prj with objectName := XliffParser.projectName (attributeOf file "original") }

/-- `XliffParser::extractV2(e, trgLang, srcLang)`. -/
def XliffParser.extractV2 (m_prj : Project) (e : QDomNode) (trgLang _srcLang : String) :
    Project :=
  if trgLang == "" then m_prj
  else if !XliffParser.supports trgLang then m_prj
  else
    let file := e.firstChildElement "file"
    let packages := elementsByTagNameOf file "group"
    if packages.isEmpty then m_prj
    else
      packages.foldl (XliffParser.extractPackage "unit" "segment" trgLang)
        { m_prj with objectName := XliffParser.projectName (attributeOf file "id") }

/-- `XliffParser::extract(filePath)` on the document read from the file. -/
def XliffParser.extract (m_prj : Project) (xliff : List QDomNode) : Project :=
  match documentElement xliff with
  | none => m_prj
  | some x =>
    if !x.hasChildNodes || x.tagName != "xliff" then m_prj
    else if x.attribute "version" "" == "" then m_prj
    else if startsWith (x.attribute "version" "") '1' ||
        startsWith (x.attribute "version" "") '2' then
      if startsWith (x.attribute "version" "") '2' then
        XliffParser.extractV2 m_prj x (x.attribute "trgLang" "") (x.attribute "srcLang" "")
      else XliffParser.extractV1 m_prj x
    else m_prj

/-! ## XLIFF documents as the specification describes them -/

/-- A leaf unit of an XLIFF document (`trans-unit` in 1.2, `segment` in 2.0): its id, its
source text and its target text, if it has a target element. -/
structure XliffLeaf where
  id : String
  source : String
  target : Option String
deriving DecidableEq, Repr

/-- The element around the leaves of one Container (the inner `group` in 1.2, `unit` in
2.0). -/
structure XliffUnit where
  id : String
  leaves : List XliffLeaf
deriving DecidableEq, Repr

/-- The `group` element of one Package. -/
structure XliffGroup where
  id : String
  units : List XliffUnit
deriving DecidableEq, Repr

/-- The element of a leaf: a `source` child and, if the leaf has a target, a `target`
child. -/
def XliffLeaf.toElement (version2 : Bool) (l : XliffLeaf) : QDomNode :=
  QDomNode.element (if !version2 then "trans-unit" else "segment") [("id", l.id)]
    (QDomNode.element "source" [] [QDomNode.textNode l.source] ::
      match l.target with
      | some t => [QDomNode.element "target" [] [QDomNode.textNode t]]
      | none => [])

/-- The element of a Container: its leaves, in order. -/
def XliffUnit.toElement (version2 : Bool) (u : XliffUnit) : QDomNode :=
  QDomNode.element (if !version2 then "group" else "unit") [("id", u.id)]
    (u.leaves.map (XliffLeaf.toElement version2))

/-- The element of a Package: the elements of its Containers, in order. -/
def XliffGroup.toElement (version2 : Bool) (g : XliffGroup) : QDomNode :=
  QDomNode.element "group" [("id", g.id)] (g.units.map (XliffUnit.toElement version2))

/-- The `file` element of the specification. Version 1.2: the attributes `original`,
`source-language`, `target-language` when a target language is given, and `datatype`, and
a `body` with the groups. Version 2.0: the attribute `id`, and the groups. -/
def xliffFile (version2 : Bool) (projectId srcLang trgLang : String)
    (groups : List XliffGroup) : QDomNode :=
  if !version2 then
    QDomNode.element "file"
      ([("original", projectId), ("source-language", srcLang)] ++
        (if trgLang ≠ "" then [("target-language", trgLang)] else []) ++
        [("datatype", "plaintext")])
      [QDomNode.element "body" [] (groups.map (XliffGroup.toElement version2))]
  else
    QDomNode.element "file" [("id", projectId)] (groups.map (XliffGroup.toElement version2))

/-- The `xliff` element of the specification: version 1.2, or version 2.0 with `srcLang`
and `trgLang`; the only child is the `file` element. -/
def xliffRoot (version2 : Bool) (projectId srcLang trgLang : String)
    (groups : List XliffGroup) : QDomNode :=
  if !version2 then
    QDomNode.element "xliff"
      [("xmlns", "urn:oasis:names:tc:xliff:document:1.2"), ("version", "1.2")]
      [xliffFile version2 projectId srcLang trgLang groups]
  else
    QDomNode.element "xliff"
      [("xmlns", "urn:oasis:names:tc:xliff:document:2.0"), ("version", "2.0"),
        ("srcLang", srcLang), ("trgLang", trgLang)]
      [xliffFile version2 projectId srcLang trgLang groups]

/-- The XLIFF document of the specification: the XML declaration and the `xliff`
element. -/
def xliffDocument (version2 : Bool) (projectId srcLang trgLang : String)
    (groups : List XliffGroup) : List QDomNode :=
  [xmlDeclaration, xliffRoot version2 projectId srcLang trgLang groups]

/-- The leaf of a Key in an export whose targets are the Translations tagged `lang`: a
Key without an Original has none. -/
def Key.xliffLeaf (lang : String) (k : Key) : Option XliffLeaf :=
  (k.getTranslation "Original").map fun o =>
    { id := xliffId k.objectName
      source := o.string
      target := if lang ≠ "" then (k.getTranslation lang).map Translation.string else none }

/-- The unit of a Container: one leaf per Key that has an Original. -/
def Container.xliffUnit (lang : String) (c : Container) : XliffUnit :=
  { id := xliffId c.objectName, leaves := c.children.filterMap (Key.xliffLeaf lang) }

/-- The group of a Package: one unit per Container that has a Key. -/
def Package.xliffGroup (lang : String) (p : Package) : XliffGroup :=
  { id := xliffId p.objectName
    units := (p.children.filter (fun c => !c.children.isEmpty)).map (Container.xliffUnit lang) }

/-- The groups of a Project: one group per Package that has a Container. -/
def Project.xliffGroups (lang : String) (proj : Project) : List XliffGroup :=
  (proj.children.filter (fun p => !p.children.isEmpty)).map (Package.xliffGroup lang)

/-- `QDomDocument::elementsByTagName(tagname)`: the elements of the document that have
the tag, in document order. -/
def elementsByTagNameOfDocument (doc : List QDomNode) (tagname : String) : List QDomNode :=
  (QDomNode.descendantsOfList doc).filter (fun d => d.isElement && d.tagName == tagname)

/-- The Key has a Translation tagged `Original`. -/
def Key.hasOriginal (k : Key) : Bool := (k.getTranslation "Original").isSome

/-- The Keys of a tree that have an Original, in tree order. -/
def Project.keysWithOriginal (proj : Project) : List Key :=
  proj.children.flatMap fun p => p.children.flatMap fun c => c.children.filter Key.hasOriginal

/-! ## What an import builds -/

/-- Find-or-create on a child list: the first child named `n`, or a new child `mk n`
appended to the list, is replaced by its image under `f`. -/
def upsert {α : Type} (name : α → String) (mk : String → α) (n : String) (f : α → α)
    (l : List α) : List α :=
  match findChild name l n with
  | none => l ++ [f (mk n)]
  | some _ => modifyFirst (fun x => name x == n) f l

/-- Find-or-create on a child list for a name that may be null (see `nameIs`). -/
def upsertQ {α : Type} (name : α → String) (mk : String → α) (n : Option String)
    (f : α → α) (l : List α) : List α :=
  match findChildQ name l n with
  | none => l ++ [f (mk (n.getD ""))]
  | some _ => modifyFirst (fun x => nameIs n (name x)) f l

/-- The table of the specification: the 11 language codes and their display names. -/
def languageTable : List (String × String) :=
  [("en", "English"), ("cz", "Czech"), ("fr", "French"), ("es", "Spanish"),
    ("it", "Italian"), ("pl", "Polish"), ("pt", "Portuguese"), ("ru", "Russian"),
    ("de", "German"), ("ko", "Korean"), ("ja", "Japanese")]

/-- `Package::setTranslation` seen as find-or-create of the Container followed by the
change `f` of the Container. -/
def Package.updateContainer (p : Package) (container : String) (f : Container → Container) :
    Package :=
  { p with
    children := upsert Container.objectName (fun n => Container.mk n []) container f p.children }

/-- `Project::setTranslation` seen as find-or-create of the Package and of the Container
followed by the change `f` of the Container. -/
def Project.updateContainer (proj : Project) (package container : String)
    (f : Container → Container) : Project :=
  { proj with
    children :=
      upsert Package.objectName (fun n => Package.mk n []) package
        (fun p => p.updateContainer container f) proj.children }

/-- The leaves of the groups of a document of the specification, in document order:
package id, container id, key id, source text and target text. -/
def leavesOf (groups : List XliffGroup) :
    List (String × String × String × String × Option String) :=
  groups.flatMap fun g => g.units.flatMap fun u => u.leaves.map fun l =>
    (g.id, u.id, l.id, l.source, l.target)

/-- The two `setTranslation` calls of the import for one leaf; the targets go to the tag
`lang`, which is null for a target language without a display name. -/
def importLeaf (lang : Option String) (prj : Project)
    (x : String × String × String × String × Option String) : Project :=
  (prj.setTranslationQ (some (replaceUnderscores x.1)) (some (replaceUnderscores x.2.1))
      x.2.2.1 (some "Original") x.2.2.2.1).setTranslationQ
    (some (replaceUnderscores x.1)) (some (replaceUnderscores x.2.1)) x.2.2.1 lang
    (x.2.2.2.2.getD "")

/-- The `setTranslation` calls of the import for the leaves of a document, in document
order. -/
def importLeaves (lang : Option String) (prj : Project)
    (leaves : List (String × String × String × String × Option String)) : Project :=
  leaves.foldl (importLeaf lang) prj

/-- The (Package name, Container name) pairs of a list of Packages. -/
def pathsOf (ps : List Package) : List (String × String) :=
  ps.flatMap (fun p => p.children.map (fun c => (p.objectName, c.objectName)))

/-- The (Package name, Container name) pairs of a tree. -/
def Project.paths (proj : Project) : List (String × String) := pathsOf proj.children

/-- A name of single-spaced words without underscores. -/
def isPlainName (s : String) : Bool := simplified s == s && !(s.toList.contains '_')

/-- An identifier without whitespace. -/
def hasNoSpace (s : String) : Bool := s.toList.all (fun c => !isQtSpace c)

/-- The trees of the round-trip claim: the names of the Packages and Containers are
single-spaced words without underscores, the Key identifiers contain no whitespace. -/
def Project.plainNames (proj : Project) : Prop :=
  ∀ p ∈ proj.children, isPlainName p.objectName = true ∧
    ∀ c ∈ p.children, isPlainName c.objectName = true ∧
      ∀ k ∈ c.children, hasNoSpace k.objectName = true

instance (proj : Project) : Decidable proj.plainNames := by
  unfold Project.plainNames
  infer_instance

/-- The Key identifiers of a tree, in tree order. -/
def Project.keyNames (proj : Project) : List String :=
  proj.children.flatMap fun p => p.children.flatMap fun c => c.children.map Key.objectName

/-- The recursive lookup of `key` selects no Key of the tree. -/
def Project.selectsNone (proj : Project) (key : String) : Bool :=
  (proj.findKeysRecursively key).isEmpty

/-- The occurrences of the pattern `locString` in the lines of a script that follow line
`lineNumber`: every match with the 1-based number of its line. -/
def occurrencesFrom : Nat → List String → List (Nat × String)
  | _, [] => []
  | lineNumber, line :: rest =>
    (locStringMatches 0 line.toList).map (fun key => (lineNumber + 1, key)) ++
      occurrencesFrom (lineNumber + 1) rest

/-! ## The id normalisation as the specification words it -/

/-- The characters of a name with leading and trailing whitespace removed. -/
def trimmed (l : List Char) : List Char :=
  ((l.dropWhile isQtSpace).reverse.dropWhile isQtSpace).reverse

/-- Every run of whitespace collapsed to one space; `inRun` says the character before
was whitespace. -/
def collapseRuns : Bool → List Char → List Char
  | _, [] => []
  | inRun, c :: cs =>
    if isQtSpace c then
      if inRun then collapseRuns true cs else ' ' :: collapseRuns true cs
    else c :: collapseRuns false cs

/-- The normalised id of a name as the specification words it: leading and trailing
whitespace removed, every internal run of whitespace collapsed to one space, each
remaining space replaced by `_`. -/
def normalisedId (name : String) : String :=
  String.mk ((collapseRuns false (trimmed name.toList)).map
    (fun c => if c = ' ' then '_' else c))

/-! ## Sibling uniqueness -/

/-- Sibling uniqueness with every name compared ignoring letter case: no two Packages of
the Project, no two Containers of a Package and no two Keys of a Container have names
that are equal ignoring case. -/
def Project.siblingsDifferIgnoringCase (proj : Project) : Prop :=
  (proj.children.map (fun p => caseFold p.objectName)).Nodup ∧
  ∀ p ∈ proj.children, (p.children.map (fun c => caseFold c.objectName)).Nodup ∧
    ∀ c ∈ p.children, (c.children.map (fun k => caseFold k.objectName)).Nodup

instance (proj : Project) : Decidable proj.siblingsDifferIgnoringCase := by
  unfold Project.siblingsDifferIgnoringCase
  infer_instance

/-- Sibling uniqueness with the comparisons of the lookups: no two Packages of the
Project and no two Containers of a Package have the same name, no two Keys of a
Container have names that are equal ignoring case. -/
def Project.siblingsDiffer (proj : Project) : Prop :=
  (proj.children.map Package.objectName).Nodup ∧
  ∀ p ∈ proj.children, (p.children.map Container.objectName).Nodup ∧
    ∀ c ∈ p.children, (c.children.map (fun k => caseFold k.objectName)).Nodup

instance (proj : Project) : Decidable proj.siblingsDiffer := by
  unfold Project.siblingsDiffer
  infer_instance

/-! ## The reference tree as `main` passes it

`main` hands the pointer that `StringtableParser::parse` returned to every
`ScriptParser`, null when there is no usable stringtable, and `ScriptParser::parse` tests
`m_sp` only. The methods reach the reference tree with the member calls
`m_st->getTranslation`, `m_st->getAllTranslations` and `m_st->findChildren`. The first
two read no member before they call `findChild`, and the helpers of `findChild` and
`findChildren` (`qt_qFindChild_helper`, `qt_qFindChildren_helper`) start with the test
`if (!parent) return`: through the null pointer each of the calls finds nothing. `none`
is the null pointer. -/

/-- `m_st->getTranslation(package, container, key, lang)` through a pointer that may be
null. -/
def pointerGetTranslation (m_st : Option Project) (package container key lang : String) :
    Option Translation :=
  match m_st with
  | none => none
  | some st => st.getTranslation package container key lang

/-- `m_st->getAllTranslations(package, container, key)` through a pointer that may be
null. -/
def pointerGetAllTranslations (m_st : Option Project) (package container key : String) :
    List Translation :=
  match m_st with
  | none => []
  | some st => st.getAllTranslations package container key

/-- `m_st->findChildren<Key *>(QRegularExpression(key, ...), FindChildrenRecursively)`
through a pointer that may be null. -/
def pointerFindKeysRecursively (m_st : Option Project) (key : String) :
    List (String × String × Key) :=
  match m_st with
  | none => []
  | some st => st.findKeysRecursively key

/-- `ScriptParser::saveTranslation` with the pointer `m_st` as `main` passes it. -/
def ScriptParser.saveTranslation (m_st : Option Project) (m_sp : Project)
    (package container key text : String) : Project :=
  let sp1 := m_sp.setTranslation package container key "Original" text
  match pointerGetTranslation m_st package container key "Original" with
  | none => sp1
  | some savedOriginalTranslation =>
    if compareCaseInsensitive savedOriginalTranslation.string text then
      let tl := pointerGetAllTranslations m_st package container key
      if tl.isEmpty then sp1
      else
        sp1.appendTranslations package container key
          ((tl.filter (fun t => t.objectName != "Original")).map
            (fun t => Translation.mk t.objectName t.string))
    else sp1

/-- `ScriptParser::findLonelyTranslation` with the pointer `m_st` as `main` passes it. -/
def ScriptParser.findLonelyTranslation (m_st : Option Project)
    (acc : Project × List (Nat × String)) (key : String) (lineNumber : Nat) :
    Project × List (Nat × String) :=
  if (acc.1.findKeysRecursively key).isEmpty then
    match pointerFindKeysRecursively m_st key with
    | (p, c, k) :: _ =>
      (k.children.foldl
        (fun sp t =>
          sp.setTranslationQ (nullIfEmpty p) (nullIfEmpty c) k.objectName
            (nullIfEmpty t.objectName) t.string)
        acc.1, acc.2)
    | [] => (acc.1, acc.2 ++ [(lineNumber, key)])
  else acc

/-- The end of a block, with the pointer `m_st` as `main` passes it. -/
def ScriptParser.closeBlock (m_fileBaseName : String) (m_st : Option Project)
    (s : ParseState) : ParseState :=
  let multiLine :=
    simplified (String.mk (removeMultiLineEnd 0 (escapeAngles s.multiLine.toList)))
  let multiLineHeader := simplified s.multiLineHeader
  let sp :=
    match multiLineMetaSearch multiLineHeader.toList with
    | some m =>
      ScriptParser.saveTranslation m_st s.m_sp (resolvePackage m.package)
        (resolveContainer m_fileBaseName m.container) m.key multiLine
    | none => s.m_sp
  { multiLineStarted := false, multiLineHeader := "", multiLine := "", m_sp := sp }

/-- One iteration of the first loop of `ScriptParser::parse`, with the pointer `m_st` as
`main` passes it. -/
def ScriptParser.parseLine (m_fileBaseName : String) (m_st : Option Project)
    (s : ParseState) (line : String) : ParseState :=
  match singleLineSearch line.toList, s.multiLineStarted with
  | some m, false =>
    { s with
      m_sp :=
        ScriptParser.saveTranslation m_st s.m_sp (resolvePackage m.package)
          (resolveContainer m_fileBaseName m.container) m.key m.text }
  | _, _ =>
    let s1 : ParseState :=
      if containsMultiLineStart line.toList then { s with multiLineStarted := true } else s
    let s2 : ParseState :=
      if s1.multiLineStarted then
        if s1.multiLineHeader.isEmpty then { s1 with multiLineHeader := line }
        else { s1 with multiLine := s1.multiLine ++ line ++ " " }
      else s1
    if s2.multiLineStarted && containsMultiLineEnd line.toList then
      ScriptParser.closeBlock m_fileBaseName m_st s2
    else s2

/-- The second loop of `ScriptParser::parse`, with the pointer `m_st` as `main` passes
it. -/
def ScriptParser.lonelyPass (m_st : Option Project) :
    Nat → List String → Project × List (Nat × String) → Project × List (Nat × String)
  | _, [], acc => acc
  | lineNumber, line :: rest, acc =>
    ScriptParser.lonelyPass m_st (lineNumber + 1) rest
      ((locStringMatches 0 line.toList).foldl
        (fun a key => ScriptParser.findLonelyTranslation m_st a key (lineNumber + 1)) acc)

/-- `ScriptParser::parse()` with the pointer `m_st` as `main` passes it: the output tree
and the diagnostics. -/
def ScriptParser.parseWith (m_fileBaseName : String) (m_st : Option Project)
    (m_sp : Project) (lines : List String) : Project × List (Nat × String) :=
  let s := lines.foldl (ScriptParser.parseLine m_fileBaseName m_st)
    { multiLineStarted := false, multiLineHeader := "", multiLine := "", m_sp := m_sp }
  ScriptParser.lonelyPass m_st 0 lines (s.m_sp, [])

/-! ## ScriptParser: the extraction as a change of both trees

The methods of `ScriptParser` reach two trees, through `m_st` and `m_sp`. The definitions
above pass the reference tree as an argument; here both trees are the state, and every
statement that goes through one of the pointers is a statement on that state. -/

/-- The two trees that a `ScriptParser` points to. -/
structure Trees where
  m_st : Project
  m_sp : Project
deriving DecidableEq, Repr

/-- `ScriptParser::saveTranslation(package, container, key, text)` on both trees:
`m_sp->setTranslation`, the reads `m_st->getTranslation` and `m_st->getAllTranslations`,
and the new Translations, whose parent is a Key of `m_sp`. -/
def Trees.saveTranslation (t : Trees) (package container key text : String) : Trees :=
  let t1 : Trees :=
    { t with m_sp := t.m_sp.setTranslation package container key "Original" text }
  match t1.m_st.getTranslation package container key "Original" with
  | none => t1
  | some savedOriginalTranslation =>
    if compareCaseInsensitive savedOriginalTranslation.string text then
      let tl := t1.m_st.getAllTranslations package container key
      if tl.isEmpty then t1
      else
        { t1 with
          m_sp :=
            t1.m_sp.appendTranslations package container key
              ((tl.filter (fun tr => tr.objectName != "Original")).map
                (fun tr => Translation.mk tr.objectName tr.string)) }
    else t1

/-- `ScriptParser::findLonelyTranslation(key, lineNumber)` on both trees, with the
diagnostics written so far: the two `findChildren` calls, the reads of the first
reference Key, of its Translations and of its parents, and `m_sp->setTranslation`. -/
def Trees.findLonelyTranslation (acc : Trees × List (Nat × String)) (key : String)
    (lineNumber : Nat) : Trees × List (Nat × String) :=
  if (acc.1.m_sp.findKeysRecursively key).isEmpty then
    match acc.1.m_st.findKeysRecursively key with
    | (p, c, k) :: _ =>
      (k.children.foldl
        (fun t tr =>
          { t with
            m_sp :=
              t.m_sp.setTranslationQ (nullIfEmpty p) (nullIfEmpty c) k.objectName
                (nullIfEmpty tr.objectName) tr.string })
        acc.1, acc.2)
    | [] => (acc.1, acc.2 ++ [(lineNumber, key)])
  else acc

/-- The local variables of the first loop of `ScriptParser::parse` and both trees. -/
structure TreesState where
  multiLineStarted : Bool
  multiLineHeader : String
  multiLine : String
  trees : Trees
deriving DecidableEq, Repr

/-- The end of a block, on both trees. -/
def Trees.closeBlock (m_fileBaseName : String) (s : TreesState) : TreesState :=
  let multiLine :=
    simplified (String.mk (removeMultiLineEnd 0 (escapeAngles s.multiLine.toList)))
  let multiLineHeader := simplified s.multiLineHeader
  let trees :=
    match multiLineMetaSearch multiLineHeader.toList with
    | some m =>
      s.trees.saveTranslation (resolvePackage m.package)
        (resolveContainer m_fileBaseName m.container) m.key multiLine
    | none => s.trees
  { multiLineStarted := false, multiLineHeader := "", multiLine := "", trees := trees }

/-- One iteration of the first loop of `ScriptParser::parse`, on both trees. -/
def Trees.parseLine (m_fileBaseName : String) (s : TreesState) (line : String) :
    TreesState :=
  match singleLineSearch line.toList, s.multiLineStarted with
  | some m, false =>
    { s with
      trees :=
        s.trees.saveTranslation (resolvePackage m.package)
          (resolveContainer m_fileBaseName m.container) m.key m.text }
  | _, _ =>
    let s1 : TreesState :=
      if containsMultiLineStart line.toList then { s with multiLineStarted := true } else s
    let s2 : TreesState :=
      if s1.multiLineStarted then
        if s1.multiLineHeader.isEmpty then { s1 with multiLineHeader := line }
        else { s1 with multiLine := s1.multiLine ++ line ++ " " }
      else s1
    if s2.multiLineStarted && containsMultiLineEnd line.toList then
      Trees.closeBlock m_fileBaseName s2
    else s2

/-- The second loop of `ScriptParser::parse`, from line `lineNumber + 1`, on both
trees. -/
def Trees.lonelyPass :
    Nat → List String → Trees × List (Nat × String) → Trees × List (Nat × String)
  | _, [], acc => acc
  | lineNumber, line :: rest, acc =>
    Trees.lonelyPass (lineNumber + 1) rest
      ((locStringMatches 0 line.toList).foldl
        (fun a key => Trees.findLonelyTranslation a key (lineNumber + 1)) acc)

/-- `ScriptParser::parse()` on both trees: the trees afterwards and the diagnostics. -/
def Trees.parse (m_fileBaseName : String) (t : Trees) (lines : List String) :
    Trees × List (Nat × String) :=
  let s := lines.foldl (Trees.parseLine m_fileBaseName)
    { multiLineStarted := false, multiLineHeader := "", multiLine := "", trees := t }
  Trees.lonelyPass 0 lines (s.trees, [])
/-! ## Block directives as the specification writes them -/

/-- The block header `/* TR P C K`. -/
def blockHeader (P C K : String) : String := "/* TR " ++ P ++ " " ++ C ++ " " ++ K

/-- The lines of a block, each followed by a space. -/
def joinLines : List String → String
  | [] => ""
  | l :: ls => l ++ " " ++ joinLines ls

/-- The text of a block as the specification computes it from the lines after the
header: the lines, each followed by a space, with every closer and the whitespace before
it removed, `<` and `>` escaped and whitespace collapsed. -/
def blockText (lines : List String) : String :=
  simplified (String.mk (escapeAngles (removeMultiLineEnd 0 (joinLines lines).toList)))

/-- The block that opens and closes on one line, `/* TR P C K text */`. -/
def oneLineBlock (P C K text : String) : String :=
  blockHeader P C K ++ " " ++ text ++ " */"
/-! ## The tree without its texts, and the tuples level by level -/

/-- The Key with the text of every Translation erased: what is left is the nodes, their
names and their order. -/
def Key.shape (k : Key) : Key :=
  { k with children := k.children.map (fun t => t.setString "") }

/-- The Container with every text erased. -/
def Container.shape (c : Container) : Container :=
  { c with children := c.children.map Key.shape }

/-- The Package with every text erased. -/
def Package.shape (p : Package) : Package :=
  { p with children := p.children.map Container.shape }

/-- The tree with every text erased: the nodes of the tree, their names and their
order. -/
def Project.shape (proj : Project) : Project :=
  { proj with children := proj.children.map Package.shape }

/-- The tuples of a Key in the Container `cn` of the Package `pn`. -/
def Key.tuples (pn cn : String) (k : Key) : List (String × String × String × String × String) :=
  k.children.map fun t => (pn, cn, k.objectName, t.objectName, t.string)

/-- The tuples of a Container in the Package `pn`. -/
def Container.tuples (pn : String) (c : Container) :
    List (String × String × String × String × String) :=
  c.children.flatMap (Key.tuples pn c.objectName)

/-- The tuples of a Package. -/
def Package.tuples (p : Package) : List (String × String × String × String × String) :=
  p.children.flatMap (Container.tuples p.objectName)

/-- The test "a Translation with the tag `lang` in a Container named `c` of a Package
named `p`" on a tuple. -/
def atPath (p c lang : String) (x : String × String × String × String × String) : Bool :=
  x.1 == p && x.2.1 == c && x.2.2.2.1 == lang
/-! ## The leaves of an XLIFF document as the specification reads them -/

/-- The leaves read from an XLIFF document along the path `group` → `group` →
`trans-unit` (1.2, below the `body` of the `file` element) or `group` → `unit` →
`segment` (2.0, below the `file` element): package id, container id, key id, source
text and the target text, if the leaf has a `target` element. -/
def readLeaves (version2 : Bool) (doc : List QDomNode) :
    List (String × String × String × String × Option String) :=
  let file := (documentElement doc).bind (fun x => x.firstChildElement "file")
  let top := if version2 then file else file.bind (fun f => f.firstChildElement "body")
  (childElementsOf top "group").flatMap fun g =>
    (childElementsOf (some g) (if version2 then "unit" else "group")).flatMap fun u =>
      (childElementsOf (some u) (if version2 then "segment" else "trans-unit")).map fun l =>
        (g.attribute "id" "", u.attribute "id" "", l.attribute "id" "",
          textOf (l.firstChildElement "source"),
          (l.firstChildElement "target").map QDomNode.text)

/-- The leaves of a tree for an export whose targets are the Translations tagged `lang`:
one leaf for every Key that has an Original, in tree order. -/
def Project.leaves (lang : String) (proj : Project) :
    List (String × String × String × String × Option String) :=
  proj.children.flatMap fun p =>
    p.children.flatMap fun c =>
      c.children.filterMap fun k =>
        (k.getTranslation "Original").map fun o =>
          (xliffId p.objectName, xliffId c.objectName, xliffId k.objectName, o.string,
            if lang ≠ "" then (k.getTranslation lang).map Translation.string else none)

/-! ## The file between the writer and the parsers

`FileWriter` writes a document into its file with `QDomDocument::toByteArray(8)`, and
`StringtableParser::parse` and `XliffParser::extract` read a file with
`QDomDocument::setContent(&file)`. What the reader of Qt 5 builds from what the writer
wrote:

* the file is read only when it is well-formed XML: one root element, every element and
  attribute name an XML name, and names, attribute values and texts of characters that
  XML admits;
* a text that consists of white space only (`QString::simplified()` leaves nothing of
  it) is not reported to QDom, so its text node is missing in the document read; the
  indentation of the writer falls under this rule;
* every other text, with its spaces, and every attribute value are read as they were
  written, the writer escapes `<`, `>`, `&` and the quotes.

The model covers names of ASCII characters and attribute values and texts of characters
from U+0020 on. Names with other letters, and the characters below U+0020 (tabulator and
line ends, which the reader normalises), are outside the model and count as not
admitted; the statements below are restricted to what the model covers. The data of a
processing instruction is kept as written (the reader rebuilds the data of the XML
declaration; no parser reads it), and the documents of the writers have no two adjacent
text nodes. -/

/-- A character of an attribute value or a text that the model of the file covers. -/
def isXmlChar (c : Char) : Bool :=
  decide (0x20 ≤ c.toNat) && c.toNat != 0xFFFE && c.toNat != 0xFFFF

/-- An attribute value or a text of characters that the model of the file covers. -/
def isXmlText (s : String) : Bool := s.toList.all isXmlChar

/-- The first character of an XML name, ASCII: a letter, `_` or `:`. -/
def isNameStartChar (c : Char) : Bool :=
  inRange 'a' 'z' c || inRange 'A' 'Z' c || c == '_' || c == ':'

/-- A character of an XML name, ASCII: a letter, a digit, `_`, `:`, `-` or `.`. -/
def isNameChar (c : Char) : Bool :=
  isNameStartChar c || inRange '0' '9' c || c == '-' || c == '.'

/-- An XML name of ASCII characters. -/
def isXmlName (s : String) : Bool :=
  match s.toList with
  | [] => false
  | c :: cs => isNameStartChar c && cs.all isNameChar

/-- A text of white space only, the empty text included: `simplified()` leaves
nothing. -/
def isBlank (s : String) : Bool := s.toList.all isQtSpace

mutual
/-- The node is written as well-formed XML. -/
def QDomNode.isWellFormed : QDomNode → Bool
  | QDomNode.element tag attrs cs =>
    isXmlName tag && attrs.all (fun a => isXmlName a.1 && isXmlText a.2) &&
      QDomNode.areWellFormed cs
  | QDomNode.textNode data => isXmlText data
  | QDomNode.processingInstruction target data => isXmlName target && isXmlText data
/-- The nodes of a list are written as well-formed XML. -/
def QDomNode.areWellFormed : List QDomNode → Bool
  | [] => true
  | n :: rest => QDomNode.isWellFormed n && QDomNode.areWellFormed rest
end

mutual
/-- The node as the reader builds it from the file: a text of white space only gives no
node. -/
def QDomNode.asRead : QDomNode → List QDomNode
  | QDomNode.element tag attrs cs => [QDomNode.element tag attrs (QDomNode.listAsRead cs)]
  | QDomNode.textNode data => if isBlank data then [] else [QDomNode.textNode data]
  | QDomNode.processingInstruction target data =>
    [QDomNode.processingInstruction target data]
/-- The nodes of a list as the reader builds them from the file. -/
def QDomNode.listAsRead : List QDomNode → List QDomNode
  | [] => []
  | n :: rest => QDomNode.asRead n ++ QDomNode.listAsRead rest
end

/-- A text node. -/
def QDomNode.isText : QDomNode → Bool
  | QDomNode.textNode _ => true
  | _ => false

/-- The document that `QDomDocument::setContent(&file)` builds from the file into which
`doc.toByteArray(8)` was written; `none` when `setContent` fails. -/
def writtenAndRead (doc : List QDomNode) : Option (List QDomNode) :=
  if (doc.filter QDomNode.isElement).length == 1 && !doc.any QDomNode.isText &&
      QDomNode.areWellFormed doc then
    some (QDomNode.listAsRead doc)
  else none

/-- `StringtableParser::parse()` on the file that `FileWriter::writeStringtable` wrote
for the document `doc`; `none` is the null pointer. -/
def StringtableParser.parseWritten (doc : List QDomNode) : Option Project :=
  match writtenAndRead doc with
  | none => none
  | some st => StringtableParser.parse st

/-- `XliffParser::extract(filePath)` on the file that `FileWriter::writeXliff` wrote for
the document `doc`; a file that `setContent` rejects leaves the Project as it is. -/
def XliffParser.extractWritten (m_prj : Project) (doc : List QDomNode) : Project :=
  match writtenAndRead doc with
  | none => m_prj
  | some xliff => XliffParser.extract m_prj xliff

/-- The Translation is written by `toXml` as an element that the reader reads back as it
is: the tag is an XML name and the text is covered by the model of the file and is not
white space only. -/
def Translation.isWritable (t : Translation) : Bool :=
  isXmlName t.objectName && isXmlText t.string && !isBlank t.string

/-- The stringtable that `toXml` makes of the tree is read back as it is: every
Translation is, and the names of the Project, the Packages, the Containers and the Keys
are covered by the model of the file. -/
def Project.isWritable (proj : Project) : Bool :=
  isXmlText proj.objectName &&
    proj.children.all fun p =>
      isXmlText p.objectName &&
        p.children.all fun c =>
          isXmlText c.objectName &&
            c.children.all fun k => isXmlText k.objectName && k.children.all Translation.isWritable

/-- The call has a non-empty key, and the Translation it stores is written by `toXml` as
the reader reads it back, under names that the model of the file covers. -/
def Call.isWritable (call : Call) : Bool :=
  call.key != "" && isXmlText call.package && isXmlText call.container &&
    isXmlText call.key && (Translation.mk call.lang call.text).isWritable

/-- The node as the reader builds it, for a node that is no text of white space only: an
element with its child nodes as read. -/
def QDomNode.stripped : QDomNode → QDomNode
  | QDomNode.element tag attrs cs => QDomNode.element tag attrs (QDomNode.listAsRead cs)
  | QDomNode.textNode data => QDomNode.textNode data
  | QDomNode.processingInstruction target data => QDomNode.processingInstruction target data

/-- The text as the reader returns it: a text of white space only is not read. -/
def textAsRead (s : String) : String := if isBlank s then "" else s

/-- A leaf of a document as the reader returns it: the texts as read. -/
def leafAsRead (x : String × String × String × String × Option String) :
    String × String × String × String × Option String :=
  (x.1, x.2.1, x.2.2.1, textAsRead x.2.2.2.1, x.2.2.2.2.map textAsRead)

/-! ## Lemmas on child lists -/

theorem find?_modifyFirst {α : Type} (q : α → Bool) (f : α → α) (hf : ∀ x, q (f x) = q x)
    (l : List α) : (modifyFirst q f l).find? q = (l.find? q).map f := by
  induction l with
  | nil => rfl
  | cons x xs ih =>
    by_cases hx : q x = true
    · simp [modifyFirst, hx, List.find?, hf]
    · simp [modifyFirst, hx, List.find?, ih]

theorem find?_append_single {α : Type} (q : α → Bool) (l : List α) (a : α)
    (hl : l.find? q = none) : (l ++ [a]).find? q = if q a then some a else none := by
  induction l with
  | nil => by_cases ha : q a = true <;> simp [List.find?, ha]
  | cons x xs ih =>
    by_cases hx : q x = true
    · simp [List.find?, hx] at hl
    · simp only [List.find?, hx, List.cons_append] at hl ⊢
      exact ih hl

theorem bind_find?_modifyFirst {α β : Type} (q p : α → Bool) (f : α → α) (obs : α → Option β)
    (hq : ∀ x, q (f x) = q x) (hobs : ∀ x, obs (f x) = obs x) (l : List α) :
    ((modifyFirst p f l).find? q).bind obs = (l.find? q).bind obs := by
  induction l with
  | nil => rfl
  | cons x xs ih =>
    by_cases hp : p x = true
    · by_cases hx : q x = true
      · simp [modifyFirst, hp, List.find?, hq, hx, hobs]
      · simp [modifyFirst, hp, List.find?, hq, hx]
    · by_cases hx : q x = true
      · simp [modifyFirst, hp, List.find?, hx]
      · simp [modifyFirst, hp, List.find?, hx, ih]

theorem head_filter_eq_find? {α : Type} (q : α → Bool) (l : List α) :
    (l.filter q).head? = l.find? q := by
  induction l with
  | nil => rfl
  | cons x xs ih =>
    by_cases hx : q x = true
    · simp [List.filter, List.find?, hx]
    · simp [List.filter, List.find?, hx, ih]

theorem filter_isEmpty_eq_find? {α : Type} (q : α → Bool) (l : List α) :
    (l.filter q).isEmpty = (l.find? q).isNone := by
  rw [← head_filter_eq_find?]
  cases l.filter q <;> rfl

/-! ## Lemmas on the tree operations -/

@[simp] theorem keySetTranslation_objectName (k : Key) (lang string : String) :
    (k.setTranslation lang string).objectName = k.objectName := by
  unfold Key.setTranslation
  split <;> split <;> rfl

@[simp] theorem containerSetTranslation_objectName (c : Container) (key lang string : String) :
    (c.setTranslation key lang string).objectName = c.objectName := by
  unfold Container.setTranslation
  split <;> rfl

@[simp] theorem packageSetTranslation_objectName (p : Package)
    (container key lang string : String) :
    (p.setTranslation container key lang string).objectName = p.objectName := by
  unfold Package.setTranslation
  split <;> rfl

theorem containerGetTranslation_eq (c : Container) (key lang : String) :
    c.getTranslation key lang
      = (c.children.find? (fun k => regexHasMatch key k.objectName)).bind
          (fun k => k.getTranslation lang) := by
  unfold Container.getTranslation Container.findKeys
  rw [← head_filter_eq_find?]
  cases c.children.filter (fun k => regexHasMatch key k.objectName) <;> rfl

theorem packageGetTranslation_eq (p : Package) (container key lang : String) :
    p.getTranslation container key lang
      = (p.children.find? (fun c => c.objectName == container)).bind
          (fun c => c.getTranslation key lang) := by
  unfold Package.getTranslation findChild
  cases p.children.find? (fun c => c.objectName == container) <;> rfl

theorem projectGetTranslation_eq (proj : Project) (package container key lang : String) :
    proj.getTranslation package container key lang
      = (proj.children.find? (fun p => p.objectName == package)).bind
          (fun p => p.getTranslation container key lang) := by
  unfold Project.getTranslation findChild
  cases proj.children.find? (fun p => p.objectName == package) <;> rfl

/-- The Key that a Container lookup finds after `setTranslation`: the Key found before,
updated, or the new Key if the pattern matches its own text. -/
theorem containerFind_setTranslation (c : Container) (key lang string : String) :
    (c.setTranslation key lang string).children.find? (fun k => regexHasMatch key k.objectName)
      = match c.children.find? (fun k => regexHasMatch key k.objectName) with
        | some k => some (k.setTranslation lang string)
        | none =>
          if regexHasMatch key key then some ((Key.mk key []).setTranslation lang string)
          else none := by
  unfold Container.setTranslation Container.findKeys
  rw [filter_isEmpty_eq_find?]
  cases h : c.children.find? (fun k => regexHasMatch key k.objectName) with
  | none =>
    simp only [Option.isNone_none, if_true]
    rw [find?_append_single _ _ _ h]
    simp
  | some k =>
    simp only [Option.isNone_some]
    rw [if_neg (by simp), find?_modifyFirst _ _ (by simp), h]
    rfl

/-- The Container that a Package lookup finds after `setTranslation`. -/
theorem packageFind_setTranslation (p : Package) (container key lang string : String) :
    (p.setTranslation container key lang string).children.find?
        (fun c => c.objectName == container)
      = some ((((p.children.find? (fun c => c.objectName == container)).getD
          (Container.mk container [])).setTranslation key lang string)) := by
  unfold Package.setTranslation findChild
  cases h : p.children.find? (fun c => c.objectName == container) with
  | none =>
    simp only [Option.getD_none]
    rw [find?_append_single _ _ _ h]
    simp
  | some c =>
    simp only [Option.getD_some]
    rw [find?_modifyFirst _ _ (by simp), h]
    rfl

/-- The Package that a Project lookup finds after `setTranslation`. -/
theorem projectFind_setTranslation (proj : Project)
    (package container key lang string : String) :
    (proj.setTranslation package container key lang string).children.find?
        (fun p => p.objectName == package)
      = some ((((proj.children.find? (fun p => p.objectName == package)).getD
          (Package.mk package [])).setTranslation container key lang string)) := by
  unfold Project.setTranslation findChild
  cases h : proj.children.find? (fun p => p.objectName == package) with
  | none =>
    simp only [Option.getD_none]
    rw [find?_append_single _ _ _ h]
    simp
  | some p =>
    simp only [Option.getD_some]
    rw [find?_modifyFirst _ _ (by simp), h]
    rfl

theorem keyGet_setTranslation (k : Key) (lang string : String) (hs : string ≠ "") :
    (k.setTranslation lang string).getTranslation lang = some (Translation.mk lang string) := by
  unfold Key.setTranslation Key.getTranslation findChild
  cases h : k.children.find? (fun t => t.objectName == lang) with
  | none =>
    simp only [if_pos hs]
    rw [find?_append_single _ _ _ h]
    simp
  | some t =>
    simp only [if_pos hs]
    rw [find?_modifyFirst _ _ (by simp [Translation.setString]), h]
    have ht : t.objectName = lang := by
      have := List.find?_some h
      simpa using this
    simp [Translation.setString, ht]

/-- Reading back what was written: the lookup pattern `key2` selects the same names as
`key` and matches the identifier `key`. -/
theorem projectGet_setTranslation (proj : Project)
    (package container key key2 lang string : String) (hs : string ≠ "")
    (hsame : ∀ s, regexHasMatch key2 s = regexHasMatch key s)
    (hself : regexHasMatch key key = true) :
    (proj.setTranslation package container key lang string).getTranslation
        package container key2 lang
      = some (Translation.mk lang string) := by
  have hq : (fun k : Key => regexHasMatch key2 k.objectName)
      = (fun k : Key => regexHasMatch key k.objectName) := by
    funext k; exact hsame _
  rw [projectGetTranslation_eq, projectFind_setTranslation, Option.some_bind,
    packageGetTranslation_eq, packageFind_setTranslation, Option.some_bind,
    containerGetTranslation_eq, hq, containerFind_setTranslation]
  cases (((proj.children.find? (fun p => p.objectName == package)).getD
      (Package.mk package [])).children.find? (fun c => c.objectName == container)).getD
      (Container.mk container []) |>.children.find?
        (fun k => regexHasMatch key k.objectName) with
  | none => simp [hself, keyGet_setTranslation _ _ _ hs]
  | some k => simp [keyGet_setTranslation _ _ _ hs]

/-! ## Lemmas on the key patterns -/

theorem toLower_ne_star (c : Char) (hc : c ≠ '*') : c.toLower ≠ '*' := by
  by_cases h : c.toNat ≥ 65 ∧ c.toNat ≤ 90
  · obtain ⟨n, hn⟩ : ∃ n, c.toNat = n := ⟨_, rfl⟩
    simp only [Char.toLower, hn] at h ⊢
    rw [if_pos h]
    obtain ⟨h1, h2⟩ := h
    interval_cases n <;> decide
  · simp only [Char.toLower]
    rw [if_neg h]
    exact hc

theorem foldCase_ne_star (c : Char) (hc : c ≠ '*') : foldCase c ≠ '*' := by
  unfold foldCase
  split
  · decide
  · split
    · decide
    · exact toLower_ne_star c hc

theorem compileItems_literal (l : List Char) (hl : ∀ c ∈ l, c ≠ '*') :
    compileItems none l = some (l.map PatternItem.lit) ∧
    ∀ p, compileItems (some p) l = some (PatternItem.lit p :: l.map PatternItem.lit) := by
  induction l with
  | nil => exact ⟨rfl, fun _ => rfl⟩
  | cons c cs ih =>
    have hc : c ≠ '*' := hl c (List.mem_cons_self _ _)
    have ih2 := ih (fun d hd => hl d (List.mem_cons_of_mem _ hd))
    constructor
    · simp [compileItems, hc, ih2.2]
    · intro p
      simp [compileItems, hc, ih2.2]

theorem matchHere_literal (l r : List Char) :
    matchHere (l.map PatternItem.lit) (l ++ r) = true := by
  induction l with
  | nil => simp [matchHere]
  | cons c cs ih => simp [matchHere, ih]

theorem searchFrom_literal (l : List Char) : searchFrom (l.map PatternItem.lit) l = true := by
  have h := matchHere_literal l []
  rw [List.append_nil] at h
  cases l with
  | nil => simpa [searchFrom] using h
  | cons c cs =>
    unfold searchFrom
    rw [h]
    rfl

theorem caseFold_literal (key : String) (hk : isLiteralPattern key = true) :
    ∀ c ∈ caseFold key, c ≠ '*' := by
  intro c hc
  unfold caseFold at hc
  obtain ⟨d, hd, rfl⟩ := List.mem_map.mp hc
  apply foldCase_ne_star
  unfold isLiteralPattern at hk
  have := (List.all_eq_true.mp hk) d hd
  intro h
  subst h
  simp [regexMetaChars] at this

/-- A pattern without metacharacters matches every identifier that equals it up to
letter case. -/
theorem regexHasMatch_literal (key key2 : String) (hk : isLiteralPattern key = true)
    (h2 : caseFold key2 = caseFold key) : regexHasMatch key2 key = true := by
  unfold regexHasMatch compilePattern
  rw [h2, (compileItems_literal _ (caseFold_literal key hk)).1]
  exact searchFrom_literal _

theorem regexHasMatch_congr (key key2 : String) (h2 : caseFold key2 = caseFold key)
    (s : String) : regexHasMatch key2 s = regexHasMatch key s := by
  unfold regexHasMatch
  rw [h2]

/-! ## Lemmas on deletion -/

theorem find?_eraseP_nodup (lang : String) (l : List Translation)
    (hu : (l.map Translation.objectName).Nodup) :
    (l.eraseP (fun t => t.objectName == lang)).find? (fun t => t.objectName == lang) = none := by
  induction l with
  | nil => rfl
  | cons x xs ih =>
    rw [List.map_cons, List.nodup_cons] at hu
    by_cases hx : (x.objectName == lang) = true
    · rw [List.eraseP_cons_of_pos (p := fun t => t.objectName == lang) (a := x) hx]
      rw [List.find?_eq_none]
      intro y hy hy2
      have h1 : x.objectName = lang := by simpa using hx
      have h2 : y.objectName = lang := by simpa using hy2
      exact hu.1 (List.mem_map.mpr ⟨y, hy, by rw [h1, h2]⟩)
    · rw [List.eraseP_cons_of_neg (p := fun t => t.objectName == lang) (a := x) hx]
      simp only [List.find?, hx]
      exact ih hu.2

theorem map_objectName_modifyFirst_setString (lang string : String) (l : List Translation) :
    (modifyFirst (fun t => t.objectName == lang) (fun t => t.setString string) l).map
        Translation.objectName
      = l.map Translation.objectName := by
  induction l with
  | nil => rfl
  | cons x xs ih =>
    by_cases hx : (x.objectName == lang) = true
    · simp [modifyFirst, hx, Translation.setString]
    · simp [modifyFirst, hx, ih]

theorem keySetTranslation_nodup (k : Key) (lang string : String)
    (hu : (k.children.map Translation.objectName).Nodup) :
    ((k.setTranslation lang string).children.map Translation.objectName).Nodup := by
  unfold Key.setTranslation findChild
  cases h : k.children.find? (fun t => t.objectName == lang) with
  | none =>
    by_cases hs : string = ""
    · simpa [hs] using hu
    · simp only [hs, ne_eq, not_false_eq_true, if_true, List.map_append, List.map_cons,
        List.map_nil]
      rw [List.nodup_append]
      refine ⟨hu, List.nodup_singleton _, ?_⟩
      intro a ha hb
      rw [List.mem_singleton] at hb
      subst hb
      obtain ⟨t, ht, rfl⟩ := List.mem_map.mp ha
      have := List.find?_eq_none.mp h t ht
      simp at this
  | some t =>
    by_cases hs : string = ""
    · simp only [hs, ne_eq, not_true_eq_false, if_false]
      exact List.Nodup.sublist (List.Sublist.map _ (List.eraseP_sublist _)) hu
    · simp only [hs, ne_eq, not_false_eq_true, if_true]
      rw [map_objectName_modifyFirst_setString]
      exact hu

/-- C1, at the failing input. The key `*` is not a valid pattern, so the lookup never
selects a Key for it: `setTranslation` stores the Translation under a new Key `*` and
`getTranslation` with the same arguments returns nothing. The block directive
`/* TR * * *` leads to the same call. -/
theorem C1_star_key_is_not_read_back :
    (Project.mk "My Project" []).setTranslation "Main" "mission" "*" "Original" "Hello"
      = Project.mk "My Project" [Package.mk "Main" [Container.mk "mission"
          [Key.mk "*" [Translation.mk "Original" "Hello"]]]] ∧
    ((Project.mk "My Project" []).setTranslation "Main" "mission" "*" "Original"
        "Hello").getTranslation "Main" "mission" "*" "Original" = none ∧
    (ScriptParser.parse "mission" (Project.mk "My Project" []) (Project.mk "My Project" [])
        ["/* TR * * *", "Hello */"]).1
      = Project.mk "My Project" [Package.mk "Main" [Container.mk "mission"
          [Key.mk "*" [Translation.mk "Original" "Hello"]]]] := by
  decide

/-- C3, counterexample. Package and Container names are compared exactly: after
`setTranslation("Main", "mission", "greet", ...)` the lookups with `main` or with
`Mission` return nothing. -/
theorem C3_package_and_container_names_are_case_sensitive :
    ((Project.mk "My Project" []).setTranslation "Main" "mission" "greet" "Original"
        "Hello").getTranslation "main" "mission" "greet" "Original" = none ∧
    ((Project.mk "My Project" []).setTranslation "Main" "mission" "greet" "Original"
        "Hello").getTranslation "Main" "Mission" "greet" "Original" = none := by
  decide

/-- C3, amended. With the Package and Container names given exactly, a key without
regular-expression metacharacters is found under every spelling that differs from it
only in letter case. -/
theorem C3_key_lookup_ignores_case (proj : Project) (p c k k2 lang t : String) (ht : t ≠ "")
    (hk : isLiteralPattern k = true) (hcase : caseFold k2 = caseFold k) :
    (proj.setTranslation p c k lang t).getTranslation p c k2 lang
      = some (Translation.mk lang t) :=
  projectGet_setTranslation proj p c k k2 lang t ht
    (regexHasMatch_congr k k2 hcase) (regexHasMatch_literal k k hk rfl)

/-- C3, amended: witness. -/
theorem C3_key_lookup_ignores_case_witness :
    ("Hello" ≠ "" ∧ isLiteralPattern "str_Greet" = true ∧
      caseFold "STR_GREET" = caseFold "str_Greet") ∧
    ((Project.mk "My Project" []).setTranslation "Main" "mission" "str_Greet" "Original"
        "Hello").getTranslation "Main" "mission" "STR_GREET" "Original"
      = some (Translation.mk "Original" "Hello") :=
  ⟨⟨by decide, by decide, by decide⟩,
    C3_key_lookup_ignores_case _ _ _ _ _ _ _ (by decide) (by decide) (by decide)⟩

/-- C4, at the failing input. The search term is used as an unanchored pattern: in a
Container that holds the Key `greeting`, the lookup of `greet` returns the Translation of
`greeting`, and `setTranslation` for `greet` overwrites it instead of creating a Key
`greet`. -/
theorem C4_key_lookup_matches_substrings :
    (Project.mk "My Project" [Package.mk "Main" [Container.mk "mission"
        [Key.mk "greeting" [Translation.mk "Original" "Welcome"]]]]).getTranslation
          "Main" "mission" "greet" "Original" = some (Translation.mk "Original" "Welcome") ∧
    (Project.mk "My Project" [Package.mk "Main" [Container.mk "mission"
        [Key.mk "greeting" [Translation.mk "Original" "Welcome"]]]]).setTranslation
          "Main" "mission" "greet" "Original" "Hi"
      = Project.mk "My Project" [Package.mk "Main" [Container.mk "mission"
          [Key.mk "greeting" [Translation.mk "Original" "Hi"]]]] := by
  decide

/-- C5, at the failing input. The Container holds no Key whose identifier equals
`welcome`, with or without regard to letter case, and both scoped lookups of `welcome`
return the Translations of the Key `str_welcome_text`. -/
theorem C5_lookup_of_absent_key_returns_translations :
    (∀ k ∈ (Project.mk "My Project" [Package.mk "Main" [Container.mk "intro"
        [Key.mk "str_welcome_text" [Translation.mk "Original" "Welcome"]]]]).keysAt
          "Main" "intro", compareCaseInsensitive k.objectName "welcome" = false) ∧
    (Project.mk "My Project" [Package.mk "Main" [Container.mk "intro"
        [Key.mk "str_welcome_text" [Translation.mk "Original" "Welcome"]]]]).getTranslation
          "Main" "intro" "welcome" "Original" = some (Translation.mk "Original" "Welcome") ∧
    (Project.mk "My Project" [Package.mk "Main" [Container.mk "intro"
        [Key.mk "str_welcome_text" [Translation.mk "Original" "Welcome"]]]]).getAllTranslations
          "Main" "intro" "welcome" = [Translation.mk "Original" "Welcome"] := by
  decide

/-! ## Lemmas on `saveTranslation` -/

theorem Translation.mk_eta (t : Translation) : Translation.mk t.objectName t.string = t := by
  cases t
  rfl

theorem keysAt_eq (proj : Project) (p c : String) :
    proj.keysAt p c
      = ((((proj.children.find? (fun (x : Package) => x.objectName == p)).getD
          (Package.mk p [])).children.find? (fun (x : Container) => x.objectName == c)).getD
            (Container.mk c [])).children := by
  unfold Project.keysAt findChild
  cases proj.children.find? (fun (x : Package) => x.objectName == p) with
  | none => rfl
  | some P =>
    simp only [Option.getD_some]
    cases P.children.find? (fun (x : Container) => x.objectName == c) <;> rfl

theorem find?_name_append_new (l : List Key) (k : Key)
    (hl : ∀ x ∈ l, x.objectName ≠ k.objectName) :
    (l ++ [k]).find? (fun x => x.objectName == k.objectName) = some k := by
  rw [find?_append_single]
  · simp
  · rw [List.find?_eq_none]
    intro x hx
    simpa using hl x hx

/-- The Key that `saveTranslation` addresses by name, after `setTranslation` on a tree
without a Key for `key`. -/
theorem findKeyByName_setTranslation (proj : Project) (p c key lang t : String) (ht : t ≠ "")
    (hout : proj.lacksKey p c key) :
    (proj.setTranslation p c key lang t).findKeyByName p c key
      = some (Key.mk key [Translation.mk lang t]) := by
  unfold Project.lacksKey at hout
  rw [keysAt_eq] at hout
  unfold Project.findKeyByName findChild
  rw [projectFind_setTranslation, Option.some_bind, packageFind_setTranslation,
    Option.some_bind]
  generalize (((proj.children.find? (fun (x : Package) => x.objectName == p)).getD
    (Package.mk p [])).children.find? (fun (x : Container) => x.objectName == c)).getD
      (Container.mk c []) = C at hout ⊢
  have hnone : C.children.find? (fun k => regexHasMatch key k.objectName) = none := by
    rw [List.find?_eq_none]
    intro x hx
    simp [(hout x hx).2]
  unfold Container.setTranslation Container.findKeys
  rw [filter_isEmpty_eq_find?, hnone]
  simp only [Option.isNone_none, if_true]
  have hk : (Key.mk key []).setTranslation lang t = Key.mk key [Translation.mk lang t] := by
    simp [Key.setTranslation, findChild, ht]
  rw [hk]
  exact find?_name_append_new C.children (Key.mk key [Translation.mk lang t])
    (fun x hx => (hout x hx).1)

theorem findKeyByName_appendTranslations (proj : Project) (p c key : String)
    (copies : List Translation) :
    (proj.appendTranslations p c key copies).findKeyByName p c key
      = (proj.findKeyByName p c key).map
          (fun k => { k with children := k.children ++ copies }) := by
  unfold Project.appendTranslations Project.findKeyByName findChild
  simp only
  rw [find?_modifyFirst _ _ (by simp)]
  cases proj.children.find? (fun x => x.objectName == p) with
  | none => rfl
  | some P =>
    simp only [Option.map_some', Option.some_bind]
    rw [find?_modifyFirst _ _ (by simp)]
    cases P.children.find? (fun x => x.objectName == c) with
    | none => rfl
    | some C =>
      simp only [Option.map_some', Option.some_bind]
      rw [find?_modifyFirst _ _ (by simp)]

/-! ## The claims on carry-forward -/

theorem find?_congr_of_mem {α : Type} (q r : α → Bool) (l : List α)
    (h : ∀ x ∈ l, q x = r x) : l.find? q = l.find? r := by
  induction l with
  | nil => rfl
  | cons x xs ih =>
    simp only [List.find?, h x (List.mem_cons_self _ _)]
    rw [ih (fun y hy => h y (List.mem_cons_of_mem _ hy))]

theorem modifyFirst_congr_of_mem {α : Type} (q r : α → Bool) (f : α → α) (l : List α)
    (h : ∀ x ∈ l, q x = r x) : modifyFirst q f l = modifyFirst r f l := by
  induction l with
  | nil => rfl
  | cons x xs ih =>
    simp only [modifyFirst, h x (List.mem_cons_self _ _)]
    rw [ih (fun y hy => h y (List.mem_cons_of_mem _ hy))]

theorem getTranslation_eq_keysAt (proj : Project) (p c key lang : String) :
    proj.getTranslation p c key lang
      = ((proj.keysAt p c).find? (fun k => regexHasMatch key k.objectName)).bind
          (fun k => k.getTranslation lang) := by
  rw [projectGetTranslation_eq]
  unfold Project.keysAt findChild
  cases proj.children.find? (fun x => x.objectName == p) with
  | none => rfl
  | some P =>
    simp only [Option.some_bind]
    rw [packageGetTranslation_eq]
    cases P.children.find? (fun x => x.objectName == c) with
    | none => rfl
    | some C =>
      simp only [Option.some_bind]
      rw [containerGetTranslation_eq]

/-- A pattern without metacharacters that selects Keys by their name selects a Key
exactly when the Key carries the pattern as its identifier up to letter case. -/
theorem regexHasMatch_eq_compare (proj : Project) (p c key : String)
    (hlit : isLiteralPattern key = true) (hsel : proj.selectsByName p c key) :
    ∀ k ∈ proj.keysAt p c,
      regexHasMatch key k.objectName = compareCaseInsensitive k.objectName key := by
  intro k hk
  rw [Bool.eq_iff_iff]
  constructor
  · exact hsel k hk
  · intro h
    have h2 : caseFold k.objectName = caseFold key := by
      unfold compareCaseInsensitive at h
      simpa using h
    have h3 := regexHasMatch_literal key key hlit rfl
    unfold regexHasMatch at h3 ⊢
    rw [h2]
    exact h3

/-- The lookup of a pattern without metacharacters that selects Keys by their name
returns the Key that the tree holds for the pattern. -/
theorem find?_regex_eq_findKeyIgnoringCase (proj : Project) (p c key : String)
    (hlit : isLiteralPattern key = true) (hsel : proj.selectsByName p c key) :
    (proj.keysAt p c).find? (fun k => regexHasMatch key k.objectName)
      = proj.findKeyIgnoringCase p c key :=
  find?_congr_of_mem _ _ _ (regexHasMatch_eq_compare proj p c key hlit hsel)

/-- C7, counterexample. The directive `// TR * * greet ""` carries an empty text: with an
empty reference tree and an empty output tree the Key `greet` is created and holds no
Translation at all. -/
theorem C7_empty_directive_text_leaves_no_original :
    (Project.mk "My Project" []).getTranslation "Main" "mission" "greet" "Original" = none ∧
    (Project.mk "My Project" []).lacksKey "Main" "mission" "greet" ∧
    (saveTranslation (Project.mk "My Project" []) (Project.mk "My Project" [])
        "Main" "mission" "greet" "").findKeyByName "Main" "mission" "greet"
      = some (Key.mk "greet" []) ∧
    (ScriptParser.parse "mission" (Project.mk "My Project" []) (Project.mk "My Project" [])
        ["// TR * * greet \"\""]).1
      = Project.mk "My Project" [Package.mk "Main" [Container.mk "mission"
          [Key.mk "greet" []]]] := by
  decide

/-- No carry-forward, the reference Key being the one that the lookup returns. -/
theorem saveTranslation_plain (ref out : Project) (p c key text : String) (ht : text ≠ "")
    (href : ∀ tr, ref.getTranslation p c key "Original" = some tr →
      compareCaseInsensitive tr.string text = false)
    (hout : out.lacksKey p c key) :
    saveTranslation ref out p c key text = out.setTranslation p c key "Original" text ∧
    (saveTranslation ref out p c key text).findKeyByName p c key
      = some (Key.mk key [Translation.mk "Original" text]) := by
  have h1 : saveTranslation ref out p c key text
      = out.setTranslation p c key "Original" text := by
    unfold saveTranslation
    cases h : ref.getTranslation p c key "Original" with
    | none => rfl
    | some tr => simp [href tr h]
  rw [h1]
  exact ⟨rfl, findKeyByName_setTranslation out p c key "Original" text ht hout⟩

/-- C7, amended. The directive text is not empty and consists of ASCII characters (for
which a comparison that fails here fails in the code); the key is a pattern of ASCII
characters without metacharacters that selects the Keys of the reference Container by
their name. The reference tree holds no Key for
(package, container, key), or a Key without `Original`, or a Key whose `Original` has a
text that differs from the directive text even up to letter case; the output tree has no
Key for `key`. Then nothing is copied: the output tree is the one that `setTranslation`
alone produces and its Key `key` holds exactly one Translation, `Original` with the
directive text. -/
theorem C7_no_carry_forward (ref out : Project) (p c key text : String) (ht : text ≠ "")
    (_htext : isAscii text = true)
    (hlit : isLiteralPattern key = true) (_hascii : isAscii key = true)
    (hsel : ref.selectsByName p c key)
    (href : ∀ K tr, ref.findKeyIgnoringCase p c key = some K →
      K.getTranslation "Original" = some tr →
      compareCaseInsensitive tr.string text = false)
    (hout : out.lacksKey p c key) :
    saveTranslation ref out p c key text = out.setTranslation p c key "Original" text ∧
    (saveTranslation ref out p c key text).findKeyByName p c key
      = some (Key.mk key [Translation.mk "Original" text]) := by
  have hfind := find?_regex_eq_findKeyIgnoringCase ref p c key hlit hsel
  apply saveTranslation_plain ref out p c key text ht _ hout
  intro tr h
  rw [getTranslation_eq_keysAt, hfind] at h
  cases hK : ref.findKeyIgnoringCase p c key with
  | none =>
    rw [hK] at h
    exact Option.noConfusion h
  | some K =>
    rw [hK] at h
    exact href K tr hK h

/-- C7, amended: witness, the reference of the claim and the directive text
`Hello there`. -/
theorem C7_no_carry_forward_witness :
    ("Hello there" ≠ "" ∧ isAscii "Hello there" = true ∧ isLiteralPattern "greet" = true ∧
      isAscii "greet" = true ∧
      (Project.mk "My Project" [Package.mk "Main" [Container.mk "mission"
        [Key.mk "greet" [Translation.mk "Original" "Hello World",
          Translation.mk "German" "Hallo Welt"]]]]).selectsByName "Main" "mission" "greet" ∧
      (Project.mk "My Project" [Package.mk "Main" [Container.mk "mission"
        [Key.mk "greet" [Translation.mk "Original" "Hello World",
          Translation.mk "German" "Hallo Welt"]]]]).findKeyIgnoringCase
            "Main" "mission" "greet"
        = some (Key.mk "greet" [Translation.mk "Original" "Hello World",
            Translation.mk "German" "Hallo Welt"]) ∧
      compareCaseInsensitive "Hello World" "Hello there" = false ∧
      (Project.mk "My Project" []).lacksKey "Main" "mission" "greet") ∧
    (saveTranslation
        (Project.mk "My Project" [Package.mk "Main" [Container.mk "mission"
          [Key.mk "greet" [Translation.mk "Original" "Hello World",
            Translation.mk "German" "Hallo Welt"]]]])
        (Project.mk "My Project" []) "Main" "mission" "greet" "Hello there").findKeyByName
          "Main" "mission" "greet"
      = some (Key.mk "greet" [Translation.mk "Original" "Hello there"]) ∧
    (ScriptParser.parse "mission"
        (Project.mk "My Project" [Package.mk "Main" [Container.mk "mission"
          [Key.mk "greet" [Translation.mk "Original" "Hello World",
            Translation.mk "German" "Hallo Welt"]]]])
        (Project.mk "My Project" []) ["// TR * * greet \"Hello there\""]).1
      = Project.mk "My Project" [Package.mk "Main" [Container.mk "mission"
          [Key.mk "greet" [Translation.mk "Original" "Hello there"]]]] :=
  have href : ∀ K tr, (Project.mk "My Project" [Package.mk "Main" [Container.mk "mission"
      [Key.mk "greet" [Translation.mk "Original" "Hello World",
        Translation.mk "German" "Hallo Welt"]]]]).findKeyIgnoringCase
          "Main" "mission" "greet" = some K →
      K.getTranslation "Original" = some tr →
      compareCaseInsensitive tr.string "Hello there" = false := by
    intro K tr hK h
    have h2 : some (Key.mk "greet" [Translation.mk "Original" "Hello World",
        Translation.mk "German" "Hallo Welt"]) = some K := by
      rw [← hK]
      decide
    cases h2
    have h3 : some (Translation.mk "Original" "Hello World") = some tr := by
      rw [← h]
      decide
    cases h3
    decide
  ⟨⟨by decide, by decide, by decide, by decide, by decide, by decide, by decide, by decide⟩,
    (C7_no_carry_forward _ _ "Main" "mission" "greet" "Hello there" (by decide) (by decide)
      (by decide) (by decide) (by decide) href (by decide)).2, by decide⟩

/-! ## Lemmas on the single-line pattern -/

theorem charCodes :
    'a'.toNat = 97 ∧ 'z'.toNat = 122 ∧ 'A'.toNat = 65 ∧ 'Z'.toNat = 90 ∧ '0'.toNat = 48 ∧
    '9'.toNat = 57 := by
  decide

theorem isKeyChar_of_isWordChar (c : Char) (h : isWordChar c = true) : isKeyChar c = true := by
  obtain ⟨h1, h2, h3, h4, h5, h6⟩ := charCodes
  simp only [isWordChar, isKeyChar, inRange, h1, h2, h3, h4, h5, h6, Bool.or_eq_true,
    Bool.and_eq_true, decide_eq_true_eq] at h ⊢
  rcases h with ((h | h) | h) | h
  · exact Or.inl (Or.inl (Or.inl h))
  · exact Or.inl (Or.inl (Or.inr ⟨h.1, by omega⟩))
  · exact Or.inl (Or.inr h)
  · exact Or.inr h

theorem isTokenChar_of_isBarewordChar (c : Char) (h : isBarewordChar c = true) :
    isTokenChar c = true := by
  unfold isBarewordChar at h
  rw [Bool.or_eq_true] at h
  rcases h with h | h
  · have := isKeyChar_of_isWordChar c h
    unfold isKeyChar at this
    unfold isTokenChar
    rw [this]
    rfl
  · unfold isTokenChar
    rw [h]
    simp

theorem isRegexSpace_false_of_isTokenChar (c : Char) (h : isTokenChar c = true) :
    isRegexSpace c = false := by
  cases hs : isRegexSpace c with
  | false => rfl
  | true =>
    exfalso
    simp only [isRegexSpace, Bool.or_eq_true, beq_iff_eq] at hs
    rcases hs with ((((hs | hs) | hs) | hs) | hs) | hs <;> subst hs <;> revert h <;> decide

theorem isLiteralPattern_of_word (s : String) (h : s.toList.all isWordChar = true) :
    isLiteralPattern s = true := by
  unfold isLiteralPattern
  rw [List.all_eq_true] at h ⊢
  intro c hc
  have hw := h c hc
  cases hm : regexMetaChars.contains c with
  | false => rfl
  | true =>
    exfalso
    simp only [regexMetaChars, List.contains_eq_any_beq, List.any_cons, List.any_nil,
      Bool.or_false, Bool.or_eq_true, beq_iff_eq] at hm
    rcases hm with hm | hm | hm | hm | hm | hm | hm | hm | hm | hm | hm | hm | hm | hm <;>
      subst hm <;> revert hw <;> decide

theorem takeWhile_run (cls : Char → Bool) (a : List Char) (y : Char) (ys : List Char)
    (hall : ∀ x ∈ a, cls x = true) (hy : cls y = false) :
    (a ++ y :: ys).takeWhile cls = a ∧ (a ++ y :: ys).dropWhile cls = y :: ys := by
  induction a with
  | nil => simp [List.takeWhile, List.dropWhile, hy]
  | cons x xs ih =>
    have hx := hall x (List.mem_cons_self _ _)
    have ih2 := ih (fun z hz => hall z (List.mem_cons_of_mem _ hz))
    simp [List.takeWhile, List.dropWhile, hx, ih2.1, ih2.2]

theorem takeSome_run (cls : Char → Bool) (a : List Char) (y : Char) (ys : List Char)
    (hne : a ≠ []) (hall : ∀ x ∈ a, cls x = true) (hy : cls y = false) :
    takeSome cls (a ++ y :: ys) = some (a, y :: ys) := by
  unfold takeSome
  rw [(takeWhile_run cls a y ys hall hy).1, (takeWhile_run cls a y ys hall hy).2]
  cases a with
  | nil => exact absurd rfl hne
  | cons x xs => rfl

theorem singleLineDirective_toList (P C K T : String) :
    (singleLineDirective P C K T).toList
      = '/' :: '/' :: ' ' :: 'T' :: 'R' :: ' ' :: (P.toList ++ ' ' :: (C.toList ++ ' ' ::
          (K.toList ++ ' ' :: '"' :: (T.toList ++ ['"'])))) := by
  simp [singleLineDirective, String.toList, String.data_append]

theorem singleLineAt_directive (P C K T : String)
    (hP : isTokenOf isBarewordChar P = true) (hC : isTokenOf isBarewordChar C = true)
    (hK : isTokenOf isWordChar K = true) (hT : T.toList.all (fun c => c != '"') = true) :
    singleLineAt (singleLineDirective P C K T).toList = some (SingleLineMatch.mk P C K T) := by
  simp only [isTokenOf, Bool.and_eq_true, Bool.not_eq_true', List.isEmpty_eq_false,
    List.all_eq_true] at hP hC hK
  rw [List.all_eq_true] at hT
  obtain ⟨hP0, hP1⟩ := hP
  obtain ⟨hC0, hC1⟩ := hC
  obtain ⟨hK0, hK1⟩ := hK
  obtain ⟨p0, ps, hPl⟩ := List.exists_cons_of_ne_nil hP0
  obtain ⟨c0, cs, hCl⟩ := List.exists_cons_of_ne_nil hC0
  obtain ⟨k0, ks, hKl⟩ := List.exists_cons_of_ne_nil hK0
  have hp0 : isRegexSpace p0 = false :=
    isRegexSpace_false_of_isTokenChar _ (isTokenChar_of_isBarewordChar _
      (hP1 p0 (by rw [hPl]; exact List.mem_cons_self _ _)))
  have hc0 : isRegexSpace c0 = false :=
    isRegexSpace_false_of_isTokenChar _ (isTokenChar_of_isBarewordChar _
      (hC1 c0 (by rw [hCl]; exact List.mem_cons_self _ _)))
  have hk0 : isRegexSpace k0 = false := by
    have h1 := isKeyChar_of_isWordChar _ (hK1 k0 (by rw [hKl]; exact List.mem_cons_self _ _))
    apply isRegexSpace_false_of_isTokenChar
    unfold isKeyChar at h1
    unfold isTokenChar
    rw [h1]
    rfl
  have s1 : takeSome isRegexSpace (' ' :: (P.toList ++ ' ' :: (C.toList ++ ' ' ::
      (K.toList ++ ' ' :: '"' :: (T.toList ++ ['"'])))))
      = some ([' '], P.toList ++ ' ' :: (C.toList ++ ' ' ::
          (K.toList ++ ' ' :: '"' :: (T.toList ++ ['"'])))) := by
    rw [hPl]
    exact takeSome_run isRegexSpace [' '] p0 _ (by simp) (by decide) hp0
  have s2 : takeSome isTokenChar (P.toList ++ ' ' :: (C.toList ++ ' ' ::
      (K.toList ++ ' ' :: '"' :: (T.toList ++ ['"']))))
      = some (P.toList, ' ' :: (C.toList ++ ' ' ::
          (K.toList ++ ' ' :: '"' :: (T.toList ++ ['"'])))) :=
    takeSome_run isTokenChar P.toList ' ' _ hP0
      (fun x hx => isTokenChar_of_isBarewordChar _ (hP1 x hx)) (by decide)
  have s3 : takeSome isRegexSpace (' ' :: (C.toList ++ ' ' ::
      (K.toList ++ ' ' :: '"' :: (T.toList ++ ['"']))))
      = some ([' '], C.toList ++ ' ' :: (K.toList ++ ' ' :: '"' :: (T.toList ++ ['"']))) := by
    rw [hCl]
    exact takeSome_run isRegexSpace [' '] c0 _ (by simp) (by decide) hc0
  have s4 : takeSome isTokenChar (C.toList ++ ' ' ::
      (K.toList ++ ' ' :: '"' :: (T.toList ++ ['"'])))
      = some (C.toList, ' ' :: (K.toList ++ ' ' :: '"' :: (T.toList ++ ['"']))) :=
    takeSome_run isTokenChar C.toList ' ' _ hC0
      (fun x hx => isTokenChar_of_isBarewordChar _ (hC1 x hx)) (by decide)
  have s5 : takeSome isRegexSpace (' ' :: (K.toList ++ ' ' :: '"' :: (T.toList ++ ['"'])))
      = some ([' '], K.toList ++ ' ' :: '"' :: (T.toList ++ ['"'])) := by
    rw [hKl]
    exact takeSome_run isRegexSpace [' '] k0 _ (by simp) (by decide) hk0
  have s6 : takeSome isKeyChar (K.toList ++ ' ' :: '"' :: (T.toList ++ ['"']))
      = some (K.toList, ' ' :: '"' :: (T.toList ++ ['"'])) :=
    takeSome_run isKeyChar K.toList ' ' _ hK0
      (fun x hx => isKeyChar_of_isWordChar _ (hK1 x hx)) (by decide)
  have s7 : takeSome isRegexSpace (' ' :: '"' :: (T.toList ++ ['"']))
      = some ([' '], '"' :: (T.toList ++ ['"'])) :=
    takeSome_run isRegexSpace [' '] '"' _ (by simp) (by decide) (by decide)
  have s8 := takeWhile_run (fun c => c != '"') T.toList '"' [] hT (by decide)
  rw [singleLineDirective_toList]
  unfold singleLineAt
  have d1 : ∀ r : List Char, dropLiteral ['/', '/'] ('/' :: '/' :: r) = some r := by
    intro r; simp [dropLiteral]
  have d2 : ∀ r : List Char, dropLiteral ['T', 'R'] ('T' :: 'R' :: r) = some r := by
    intro r; simp [dropLiteral]
  have d3 : ∀ r : List Char, dropLiteral ['"'] ('"' :: r) = some r := by
    intro r; simp [dropLiteral]
  have d4 : ∀ r : List Char, List.dropWhile isRegexSpace (' ' :: 'T' :: r) = 'T' :: r := by
    intro r
    have h1 : isRegexSpace ' ' = true := by decide
    have h2 : isRegexSpace 'T' = false := by decide
    simp [List.dropWhile, h1, h2]
  rw [d1]
  simp only [Option.some_bind]
  rw [d4, d2]
  simp only [Option.some_bind]
  rw [s1]
  simp only [Option.some_bind]
  rw [s2]
  simp only [Option.some_bind]
  rw [s3]
  simp only [Option.some_bind]
  rw [s4]
  simp only [Option.some_bind]
  rw [s5]
  simp only [Option.some_bind]
  rw [s6]
  simp only [Option.some_bind]
  rw [s7]
  simp only [Option.some_bind]
  rw [d3]
  simp only [Option.some_bind]
  rw [s8.1, s8.2, d3]
  rfl

theorem singleLineSearch_directive (P C K T : String)
    (hP : isTokenOf isBarewordChar P = true) (hC : isTokenOf isBarewordChar C = true)
    (hK : isTokenOf isWordChar K = true) (hT : T.toList.all (fun c => c != '"') = true) :
    singleLineSearch (singleLineDirective P C K T).toList
      = some (SingleLineMatch.mk P C K T) := by
  have h := singleLineAt_directive P C K T hP hC hK hT
  rw [singleLineDirective_toList] at h ⊢
  unfold singleLineSearch
  rw [h]

theorem keyGet_append (k : Key) (copies : List Translation) (lang : String)
    (hc : ∀ t ∈ copies, t.objectName ≠ lang) :
    Key.getTranslation { k with children := k.children ++ copies } lang
      = k.getTranslation lang := by
  unfold Key.getTranslation findChild
  simp only [List.find?_append]
  have : copies.find? (fun t => t.objectName == lang) = none := by
    rw [List.find?_eq_none]
    intro x hx
    simpa using hc x hx
  rw [this]
  simp

/-- Appending Translations with other tags to a Key changes no lookup of `lang`. -/
theorem getTranslation_appendTranslations (proj : Project) (p c k : String)
    (copies : List Translation) (p2 c2 k2 lang : String)
    (hc : ∀ t ∈ copies, t.objectName ≠ lang) :
    (proj.appendTranslations p c k copies).getTranslation p2 c2 k2 lang
      = proj.getTranslation p2 c2 k2 lang := by
  rw [projectGetTranslation_eq, projectGetTranslation_eq]
  unfold Project.appendTranslations
  apply bind_find?_modifyFirst
  · intro x; rfl
  · intro P
    rw [packageGetTranslation_eq, packageGetTranslation_eq]
    apply bind_find?_modifyFirst
    · intro x; rfl
    · intro C
      rw [containerGetTranslation_eq, containerGetTranslation_eq]
      apply bind_find?_modifyFirst
      · intro x; rfl
      · intro K
        exact keyGet_append K copies lang hc

/-- After `saveTranslation` with a non-empty text the lookup of `Original` at the
directive's path returns the directive text. -/
theorem getTranslation_saveTranslation (m_st m_sp : Project) (p c k t : String) (ht : t ≠ "")
    (hself : regexHasMatch k k = true) :
    (saveTranslation m_st m_sp p c k t).getTranslation p c k "Original"
      = some (Translation.mk "Original" t) := by
  have h1 := projectGet_setTranslation m_sp p c k k "Original" t ht (fun _ => rfl) hself
  unfold saveTranslation
  simp only
  split
  · exact h1
  · split
    · split
      · exact h1
      · rw [getTranslation_appendTranslations]
        · exact h1
        · intro x hx
          obtain ⟨y, hy, rfl⟩ := List.mem_map.mp hx
          have := (List.mem_filter.mp hy).2
          simpa using this
    · exact h1

/-! ## The claims on the directives -/

/-- C9, counterexample. The header token `ModA` has no underscore, so the package is
`ModA`: in the tree extracted from the block, nothing is found under the package
`Mod A`. -/
theorem C9_block_package_is_not_Mod_A :
    (ScriptParser.parse "mission" (Project.mk "My Project" []) (Project.mk "My Project" [])
        ["/* TR ModA UI_Group greet", "Hello", "World */"]).1
      = Project.mk "My Project" [Package.mk "ModA" [Container.mk "UI Group"
          [Key.mk "greet" [Translation.mk "Original" "Hello World"]]]] ∧
    (ScriptParser.parse "mission" (Project.mk "My Project" []) (Project.mk "My Project" [])
        ["/* TR ModA UI_Group greet", "Hello", "World */"]).1.getTranslation
          "Mod A" "UI Group" "greet" "Original" = none := by
  decide

/-- C9, amended. For every file name, reference tree and output tree, extracting the
three-line block is `saveTranslation` for package `ModA`, container `UI Group`, key
`greet` and text `Hello World`, and afterwards `Original` at that path is `Hello World`. -/
theorem C9_block_directive (m_fileBaseName : String) (m_st m_sp : Project) :
    (ScriptParser.parse m_fileBaseName m_st m_sp
        ["/* TR ModA UI_Group greet", "Hello", "World */"]).1
      = saveTranslation m_st m_sp "ModA" "UI Group" "greet" "Hello World" ∧
    (ScriptParser.parse m_fileBaseName m_st m_sp
        ["/* TR ModA UI_Group greet", "Hello", "World */"]).1.getTranslation
          "ModA" "UI Group" "greet" "Original"
      = some (Translation.mk "Original" "Hello World") := by
  have h : (ScriptParser.parse m_fileBaseName m_st m_sp
      ["/* TR ModA UI_Group greet", "Hello", "World */"]).1
      = saveTranslation m_st m_sp "ModA" "UI Group" "greet" "Hello World" := by
    rfl
  rw [h]
  exact ⟨rfl, getTranslation_saveTranslation m_st m_sp _ _ _ _ (by decide) (by decide)⟩

/-! ## Lemmas on the stringtable codec -/

theorem appendDocuments_map_singleton {α : Type} (skip : α → Bool) (e : α → QDomNode)
    (l : List α) :
    appendDocuments (l.map (fun x => if skip x then [] else [e x]))
      = (l.filter (fun x => !skip x)).map e := by
  unfold appendDocuments
  induction l with
  | nil => rfl
  | cons x xs ih =>
    by_cases hx : skip x = true
    · simp [hx, ih]
    · simp [hx, ih]

theorem appendDocuments_translations (l : List Translation) :
    appendDocuments (l.map Translation.toXml) = l.map Translation.toElement := by
  unfold appendDocuments
  induction l with
  | nil => rfl
  | cons x xs ih => simp [Translation.toXml, ih]

theorem descendantsOfList_append (a b : List QDomNode) :
    QDomNode.descendantsOfList (a ++ b)
      = QDomNode.descendantsOfList a ++ QDomNode.descendantsOfList b := by
  induction a with
  | nil => simp [QDomNode.descendantsOfList]
  | cons x xs ih => simp [QDomNode.descendantsOfList, ih]

theorem descendantsOfList_map {α : Type} (e : α → QDomNode) (l : List α) :
    QDomNode.descendantsOfList (l.map e)
      = l.flatMap (fun x => e x :: QDomNode.descendants (e x)) := by
  induction l with
  | nil => simp [QDomNode.descendantsOfList]
  | cons x xs ih => simp [QDomNode.descendantsOfList, ih]

theorem filterMap_flatMap {α β γ : Type} (f : β → Option γ) (g : α → List β) (l : List α) :
    (l.flatMap g).filterMap f = l.flatMap (fun x => (g x).filterMap f) := by
  induction l with
  | nil => rfl
  | cons x xs ih => simp [List.flatMap_cons, List.filterMap_append, ih]

theorem descendants_eq_childNodes (n : QDomNode) :
    n.descendants = QDomNode.descendantsOfList n.childNodes := by
  cases n <;> simp [QDomNode.descendants, QDomNode.childNodes, QDomNode.descendantsOfList]

theorem descendants_translation (t : Translation) :
    t.toElement.descendants = [QDomNode.textNode t.string] := by
  simp [Translation.toElement, QDomNode.descendants, QDomNode.descendantsOfList]

theorem descendants_key (k : Key) :
    k.toElement.descendants
      = k.children.flatMap (fun t => [t.toElement, QDomNode.textNode t.string]) := by
  have hc : k.toElement.childNodes = k.children.map Translation.toElement := by
    simp only [Key.toElement, QDomNode.childNodes, Key.getAllTranslations,
      appendDocuments_translations]
  rw [descendants_eq_childNodes, hc, descendantsOfList_map]
  simp only [descendants_translation]

theorem childNodes_container (c : Container) :
    c.toElement.childNodes
      = (c.children.filter (fun k => !k.children.isEmpty)).map Key.toElement := by
  simp only [Container.toElement, QDomNode.childNodes]
  exact appendDocuments_map_singleton (fun k : Key => k.children.isEmpty) Key.toElement _

theorem childNodes_package (p : Package) :
    p.toElement.childNodes
      = (p.children.filter (fun c => !c.children.isEmpty)).map Container.toElement := by
  simp only [Package.toElement, QDomNode.childNodes]
  exact appendDocuments_map_singleton (fun c : Container => c.children.isEmpty)
    Container.toElement _

theorem childNodes_project (proj : Project) :
    proj.toElement.childNodes
      = (proj.children.filter (fun p => !p.children.isEmpty)).map Package.toElement := by
  simp only [Project.toElement, QDomNode.childNodes]
  exact appendDocuments_map_singleton (fun p : Package => p.children.isEmpty)
    Package.toElement _

theorem descendants_container (c : Container) :
    c.toElement.descendants
      = (c.children.filter (fun k => !k.children.isEmpty)).flatMap
          (fun k => k.toElement :: k.toElement.descendants) := by
  rw [descendants_eq_childNodes, childNodes_container, descendantsOfList_map]

theorem descendants_package (p : Package) :
    p.toElement.descendants
      = (p.children.filter (fun c => !c.children.isEmpty)).flatMap
          (fun c => c.toElement :: c.toElement.descendants) := by
  rw [descendants_eq_childNodes, childNodes_package, descendantsOfList_map]

theorem descendants_project (proj : Project) :
    proj.toElement.descendants
      = (proj.children.filter (fun p => !p.children.isEmpty)).flatMap
          (fun p => p.toElement :: p.toElement.descendants) := by
  rw [descendants_eq_childNodes, childNodes_project, descendantsOfList_map]

/-- The nodes below the element of a Key are Translation elements and text nodes. -/
theorem mem_descendants_key (k : Key) (x : QDomNode) (hx : x ∈ k.toElement.descendants) :
    (∃ t : Translation, x = t.toElement) ∨ ∃ s, x = QDomNode.textNode s := by
  rw [descendants_key, List.mem_flatMap] at hx
  obtain ⟨t, _, ht⟩ := hx
  simp only [List.mem_cons, List.mem_singleton, List.not_mem_nil, or_false] at ht
  rcases ht with rfl | rfl
  · exact Or.inl ⟨t, rfl⟩
  · exact Or.inr ⟨_, rfl⟩

theorem mem_descendants_container (c : Container) (x : QDomNode)
    (hx : x ∈ c.toElement.descendants) :
    (∃ k : Key, x = k.toElement) ∨ (∃ t : Translation, x = t.toElement) ∨
      ∃ s, x = QDomNode.textNode s := by
  rw [descendants_container, List.mem_flatMap] at hx
  obtain ⟨k, _, hk⟩ := hx
  rcases List.mem_cons.mp hk with rfl | h
  · exact Or.inl ⟨k, rfl⟩
  · exact Or.inr (mem_descendants_key k x h)

theorem mem_descendants_package (p : Package) (x : QDomNode)
    (hx : x ∈ p.toElement.descendants) :
    (∃ c : Container, x = c.toElement) ∨ (∃ k : Key, x = k.toElement) ∨
      (∃ t : Translation, x = t.toElement) ∨ ∃ s, x = QDomNode.textNode s := by
  rw [descendants_package, List.mem_flatMap] at hx
  obtain ⟨c, _, hc⟩ := hx
  rcases List.mem_cons.mp hc with rfl | h
  · exact Or.inl ⟨c, rfl⟩
  · exact Or.inr (mem_descendants_container c x h)

/-! ### What the parser makes of each kind of node -/

theorem elementsByTagName_translation (t : Translation) (tag : String) :
    t.toElement.elementsByTagName tag = [] := by
  simp [QDomNode.elementsByTagName, descendants_translation, QDomNode.isElement]

theorem parseKeyElement_translation (t : Translation) : parseKeyElement t.toElement = none := by
  simp [parseKeyElement, Translation.toElement, QDomNode.attribute]

theorem parseContainerElement_translation (t : Translation) :
    parseContainerElement t.toElement = none := by
  simp [parseContainerElement, elementsByTagName_translation]

theorem parsePackageElement_translation (t : Translation) :
    parsePackageElement t.toElement = none := by
  simp [parsePackageElement, elementsByTagName_translation]

theorem text_translation (t : Translation) : t.toElement.text = t.string := by
  simp [Translation.toElement, QDomNode.text, QDomNode.textOfList]

theorem parseKeyElement_key (k : Key) (hk : k.children ≠ []) :
    parseKeyElement k.toElement = if (k.objectName == "") = true then none else some k := by
  have hc : k.toElement.childNodes = k.children.map Translation.toElement := by
    simp only [Key.toElement, QDomNode.childNodes, Key.getAllTranslations,
      appendDocuments_translations]
  have ha : k.toElement.attribute "ID" "" = k.objectName := by
    simp [Key.toElement, QDomNode.attribute]
  have hm : (k.children.map Translation.toElement).map
      (fun n => Translation.mk n.tagName n.text) = k.children := by
    rw [List.map_map]
    conv => rhs; rw [← List.map_id k.children]
    apply List.map_congr_left
    intro t _
    simp only [Function.comp, text_translation, id]
    cases t
    rfl
  unfold parseKeyElement QDomNode.hasChildNodes
  rw [hc, ha, hm]
  by_cases he : (k.objectName == "") = true
  · simp [he]
  · cases hk2 : k.children with
    | nil => exact absurd hk2 hk
    | cons t ts =>
      cases k
      simp_all

theorem flatMap_filter_keep {α β : Type} (l : List α) (e keep : α → Bool) (r : α → β)
    (F : α → List β) (hF : ∀ x, e x = true → F x = if keep x then [r x] else [])
    (hke : ∀ x, keep x = true → e x = true) :
    (l.filter e).flatMap F = (l.filter keep).map r := by
  induction l with
  | nil => rfl
  | cons x xs ih =>
    by_cases hx : e x = true
    · by_cases hk : keep x = true
      · simp [List.filter_cons, hx, hk, List.flatMap_cons, hF x hx, ih]
      · simp [List.filter_cons, hx, hk, List.flatMap_cons, hF x hx, ih]
    · have hk : ¬ keep x = true := fun h => hx (hke x h)
      simp [List.filter_cons, hx, hk, ih]

theorem filterMap_tagged (f : QDomNode → Option α) (tag : String) (n : QDomNode) :
    (n.elementsByTagName tag).filterMap f
      = n.descendants.filterMap
          (fun d => if (d.isElement && d.tagName == tag) = true then f d else none) := by
  unfold QDomNode.elementsByTagName
  exact List.filterMap_filter _ _ _

theorem reparse_key (k : Key) (hk : (!k.children.isEmpty) = true) :
    (k.toElement :: k.toElement.descendants).filterMap
        (fun d => if (d.isElement && d.tagName == "Key") = true then parseKeyElement d else none)
      = if (!k.children.isEmpty && !(k.objectName == "")) = true then [k] else [] := by
  have hne : k.children ≠ [] := by
    intro h
    rw [h] at hk
    simp at hk
  have hrest : k.toElement.descendants.filterMap
      (fun d => if (d.isElement && d.tagName == "Key") = true then parseKeyElement d else none)
      = [] := by
    rw [List.filterMap_eq_nil_iff]
    intro x hx
    rcases mem_descendants_key k x hx with ⟨t, rfl⟩ | ⟨s, rfl⟩
    · simp [parseKeyElement_translation]
    · simp [QDomNode.isElement]
  have hhead : (k.toElement.isElement && k.toElement.tagName == "Key") = true := by
    simp [Key.toElement, QDomNode.isElement, QDomNode.tagName]
  rw [List.filterMap_cons, hrest]
  simp only [hhead, if_true, parseKeyElement_key k hne, hk, Bool.true_and]
  by_cases he : (k.objectName == "") = true <;> simp [he]

theorem reparse_keys (c : Container) :
    (c.toElement.elementsByTagName "Key").filterMap parseKeyElement = c.reparsed.children := by
  rw [filterMap_tagged, descendants_container, filterMap_flatMap]
  unfold Container.reparsed
  simp only
  rw [← List.map_id (c.children.filter
    (fun k => !k.children.isEmpty && !(k.objectName == "")))]
  apply flatMap_filter_keep
  · intro k hk
    exact reparse_key k hk
  · intro k hk
    simp only [Bool.and_eq_true] at hk
    exact hk.1

theorem mem_elementsByTagName_key (c : Container) (k : Key) (hk : k ∈ c.children)
    (hne : (!k.children.isEmpty) = true) : k.toElement ∈ c.toElement.elementsByTagName "Key" := by
  unfold QDomNode.elementsByTagName
  rw [List.mem_filter, descendants_container, List.mem_flatMap]
  refine ⟨⟨k, List.mem_filter.mpr ⟨hk, hne⟩, List.mem_cons_self _ _⟩, ?_⟩
  simp [Key.toElement, QDomNode.isElement, QDomNode.tagName]

theorem parseContainerElement_container (c : Container) :
    parseContainerElement c.toElement
      = if c.children.any (fun k => !k.children.isEmpty) = true then some c.reparsed
        else none := by
  unfold parseContainerElement QDomNode.hasChildNodes
  rw [childNodes_container, reparse_keys]
  by_cases ha : c.children.any (fun k => !k.children.isEmpty) = true
  · obtain ⟨k, hk, hne⟩ := List.any_eq_true.mp ha
    have h1 : (c.children.filter (fun k => !k.children.isEmpty)).map Key.toElement ≠ [] := by
      intro h
      have hm : k ∈ c.children.filter (fun k => !k.children.isEmpty) :=
        List.mem_filter.mpr ⟨hk, hne⟩
      rw [List.map_eq_nil_iff] at h
      rw [h] at hm
      exact absurd hm (List.not_mem_nil _)
    have h2 : c.toElement.elementsByTagName "Key" ≠ [] := by
      intro h
      have hm := mem_elementsByTagName_key c k hk hne
      rw [h] at hm
      exact absurd hm (List.not_mem_nil _)
    have h3 : c.toElement.attribute "name" "" = c.objectName := by
      simp [Container.toElement, QDomNode.attribute]
    have h4 : ((c.children.filter (fun k => !k.children.isEmpty)).map
        Key.toElement).isEmpty = false := by
      rw [List.isEmpty_eq_false]
      exact h1
    have h5 : (c.toElement.elementsByTagName "Key").isEmpty = false := by
      rw [List.isEmpty_eq_false]
      exact h2
    simp only [ha, if_true, h4, h5, Bool.not_false, h3]
    rfl
  · have h1 : c.children.filter (fun k => !k.children.isEmpty) = [] := by
      rw [List.filter_eq_nil_iff]
      intro k hk hne
      exact ha (List.any_eq_true.mpr ⟨k, hk, hne⟩)
    simp [ha, h1]

theorem any_imp_not_isEmpty {α : Type} (l : List α) (q : α → Bool) (h : l.any q = true) :
    (!l.isEmpty) = true := by
  cases l with
  | nil => simp at h
  | cons x xs => rfl

theorem reparse_container (c : Container) :
    (c.toElement :: c.toElement.descendants).filterMap
        (fun d => if (d.isElement && d.tagName == "Container") = true
          then parseContainerElement d else none)
      = if c.children.any (fun k => !k.children.isEmpty) = true then [c.reparsed] else [] := by
  have hrest : c.toElement.descendants.filterMap
      (fun d => if (d.isElement && d.tagName == "Container") = true
        then parseContainerElement d else none) = [] := by
    rw [List.filterMap_eq_nil_iff]
    intro x hx
    rcases mem_descendants_container c x hx with ⟨k, rfl⟩ | ⟨t, rfl⟩ | ⟨s, rfl⟩
    · have : ("Key" == "Container") = false := by decide
      simp [Key.toElement, QDomNode.tagName, this]
    · simp [parseContainerElement_translation]
    · simp [QDomNode.isElement]
  have hhead : (c.toElement.isElement && c.toElement.tagName == "Container") = true := by
    simp [Container.toElement, QDomNode.isElement, QDomNode.tagName]
  rw [List.filterMap_cons, hrest]
  simp only [hhead, if_true, parseContainerElement_container]
  by_cases ha : c.children.any (fun k => !k.children.isEmpty) = true <;> simp [ha]

theorem reparse_containers (p : Package) :
    (p.toElement.elementsByTagName "Container").filterMap parseContainerElement
      = p.reparsed.children := by
  rw [filterMap_tagged, descendants_package, filterMap_flatMap]
  unfold Package.reparsed
  simp only
  apply flatMap_filter_keep
  · intro c _
    exact reparse_container c
  · intro c hc
    exact any_imp_not_isEmpty _ _ hc

theorem mem_elementsByTagName_container (p : Package) (c : Container) (hc : c ∈ p.children)
    (hne : (!c.children.isEmpty) = true) :
    c.toElement ∈ p.toElement.elementsByTagName "Container" := by
  unfold QDomNode.elementsByTagName
  rw [List.mem_filter, descendants_package, List.mem_flatMap]
  refine ⟨⟨c, List.mem_filter.mpr ⟨hc, hne⟩, List.mem_cons_self _ _⟩, ?_⟩
  simp [Container.toElement, QDomNode.isElement, QDomNode.tagName]

theorem parsePackageElement_package (p : Package) :
    parsePackageElement p.toElement
      = if p.children.any (fun c => !c.children.isEmpty) = true then some p.reparsed
        else none := by
  unfold parsePackageElement QDomNode.hasChildNodes
  rw [childNodes_package, reparse_containers]
  by_cases ha : p.children.any (fun c => !c.children.isEmpty) = true
  · obtain ⟨c, hc, hne⟩ := List.any_eq_true.mp ha
    have h4 : ((p.children.filter (fun c => !c.children.isEmpty)).map
        Container.toElement).isEmpty = false := by
      rw [List.isEmpty_eq_false]
      intro h
      have hm : c ∈ p.children.filter (fun c => !c.children.isEmpty) :=
        List.mem_filter.mpr ⟨hc, hne⟩
      rw [List.map_eq_nil_iff] at h
      rw [h] at hm
      exact absurd hm (List.not_mem_nil _)
    have h5 : (p.toElement.elementsByTagName "Container").isEmpty = false := by
      rw [List.isEmpty_eq_false]
      intro h
      have hm := mem_elementsByTagName_container p c hc hne
      rw [h] at hm
      exact absurd hm (List.not_mem_nil _)
    have h3 : p.toElement.attribute "name" "" = p.objectName := by
      simp [Package.toElement, QDomNode.attribute]
    simp only [ha, if_true, h4, h5, Bool.not_false, h3]
    rfl
  · have h1 : p.children.filter (fun c => !c.children.isEmpty) = [] := by
      rw [List.filter_eq_nil_iff]
      intro c hc hne
      exact ha (List.any_eq_true.mpr ⟨c, hc, hne⟩)
    simp [ha, h1]

theorem reparse_package (p : Package) :
    (p.toElement :: p.toElement.descendants).filterMap
        (fun d => if (d.isElement && d.tagName == "Package") = true
          then parsePackageElement d else none)
      = if p.children.any (fun c => !c.children.isEmpty) = true then [p.reparsed] else [] := by
  have hrest : p.toElement.descendants.filterMap
      (fun d => if (d.isElement && d.tagName == "Package") = true
        then parsePackageElement d else none) = [] := by
    rw [List.filterMap_eq_nil_iff]
    intro x hx
    rcases mem_descendants_package p x hx with ⟨c, rfl⟩ | ⟨k, rfl⟩ | ⟨t, rfl⟩ | ⟨s, rfl⟩
    · have : ("Container" == "Package") = false := by decide
      simp [Container.toElement, QDomNode.tagName, this]
    · have : ("Key" == "Package") = false := by decide
      simp [Key.toElement, QDomNode.tagName, this]
    · simp [parsePackageElement_translation]
    · simp [QDomNode.isElement]
  have hhead : (p.toElement.isElement && p.toElement.tagName == "Package") = true := by
    simp [Package.toElement, QDomNode.isElement, QDomNode.tagName]
  rw [List.filterMap_cons, hrest]
  simp only [hhead, if_true, parsePackageElement_package]
  by_cases ha : p.children.any (fun c => !c.children.isEmpty) = true <;> simp [ha]

theorem reparse_packages (proj : Project) :
    (proj.toElement.elementsByTagName "Package").filterMap parsePackageElement
      = proj.reparsed.children := by
  rw [filterMap_tagged, descendants_project, filterMap_flatMap]
  unfold Project.reparsed
  simp only
  apply flatMap_filter_keep
  · intro p _
    exact reparse_package p
  · intro p hp
    exact any_imp_not_isEmpty _ _ hp

/-- The tree that `StringtableParser::parse` returns for the document of
`Project::toXml`. -/
theorem parse_toXml (proj : Project) :
    StringtableParser.parse proj.toXml
      = if proj.reparsed.children.isEmpty then none else some proj.reparsed := by
  by_cases hr : proj.reparsed.children.isEmpty = true
  · rw [if_pos hr]
    unfold Project.toXml
    by_cases hc : proj.children.isEmpty = true
    · rw [if_pos hc]
      rfl
    · rw [if_neg hc]
      have hd : documentElement
          [QDomNode.processingInstruction "xml" "version=\"1.0\" encoding=\"utf-8\" ",
            proj.toElement] = some proj.toElement := by
        simp [documentElement, QDomNode.isElement, Project.toElement]
      unfold StringtableParser.parse
      rw [hd]
      simp only [reparse_packages]
      have hl : proj.reparsed.children.length < 1 := by
        rw [List.isEmpty_iff] at hr
        rw [hr]
        exact Nat.zero_lt_one
      simp [hl]
  · rw [if_neg hr]
    have hne : proj.reparsed.children ≠ [] := by
      intro h
      rw [h] at hr
      exact hr rfl
    obtain ⟨q, hq⟩ := List.exists_mem_of_ne_nil _ hne
    unfold Project.reparsed at hq
    simp only [List.mem_map, List.mem_filter] at hq
    obtain ⟨p, ⟨hp, hany⟩, _⟩ := hq
    have hpne : (!p.children.isEmpty) = true := any_imp_not_isEmpty _ _ hany
    have hc : ¬ proj.children.isEmpty = true := by
      intro h
      rw [List.isEmpty_iff] at h
      rw [h] at hp
      exact absurd hp (List.not_mem_nil _)
    unfold Project.toXml
    rw [if_neg hc]
    have hd : documentElement
        [QDomNode.processingInstruction "xml" "version=\"1.0\" encoding=\"utf-8\" ",
          proj.toElement] = some proj.toElement := by
      simp [documentElement, QDomNode.isElement, Project.toElement]
    have h1 : proj.toElement.hasChildNodes = true := by
      unfold QDomNode.hasChildNodes
      rw [childNodes_project]
      have hm : p ∈ proj.children.filter (fun p => !p.children.isEmpty) :=
        List.mem_filter.mpr ⟨hp, hpne⟩
      cases hf : proj.children.filter (fun p => !p.children.isEmpty) with
      | nil =>
        rw [hf] at hm
        exact absurd hm (List.not_mem_nil _)
      | cons a as => rfl
    have h2 : (proj.toElement.tagName != "Project") = false := by
      simp [Project.toElement, QDomNode.tagName]
    have h3 : (proj.toElement.elementsByTagName "Package").isEmpty = false := by
      rw [List.isEmpty_eq_false]
      intro h
      have hm : p.toElement ∈ proj.toElement.elementsByTagName "Package" := by
        unfold QDomNode.elementsByTagName
        rw [List.mem_filter, descendants_project, List.mem_flatMap]
        refine ⟨⟨p, List.mem_filter.mpr ⟨hp, hpne⟩, List.mem_cons_self _ _⟩, ?_⟩
        simp [Package.toElement, QDomNode.isElement, QDomNode.tagName]
      rw [h] at hm
      exact absurd hm (List.not_mem_nil _)
    have h4 : proj.toElement.attribute "name" "My Project" = proj.objectName := by
      simp [Project.toElement, QDomNode.attribute]
    have h5 : ¬ proj.reparsed.children.length < 1 := by
      cases hh : proj.reparsed.children with
      | nil => exact absurd hh hne
      | cons a as => simp
    unfold StringtableParser.parse
    rw [hd]
    simp only [h1, h2, h3, h4, reparse_packages, h5, Bool.not_true, Bool.or_false, if_false]
    rfl

/-! ### The tuples of the rebuilt tree -/

theorem flatMap_filter_congr {α β : Type} (l : List α) (keep : α → Bool) (F G : α → List β)
    (h1 : ∀ x ∈ l, keep x = true → F x = G x) (h2 : ∀ x ∈ l, keep x = false → G x = []) :
    (l.filter keep).flatMap F = l.flatMap G := by
  induction l with
  | nil => rfl
  | cons x xs ih =>
    have ih2 := ih (fun y hy => h1 y (List.mem_cons_of_mem _ hy))
      (fun y hy => h2 y (List.mem_cons_of_mem _ hy))
    cases hk : keep x with
    | true =>
      simp only [List.filter_cons, hk, if_true, List.flatMap_cons, ih2,
        h1 x (List.mem_cons_self _ _) hk]
    | false =>
      simp [List.filter_cons, hk, List.flatMap_cons, ih2, h2 x (List.mem_cons_self _ _) hk]

theorem flatMap_eq_nil_of_forall {α β : Type} (l : List α) (F : α → List β)
    (h : ∀ x ∈ l, F x = []) : l.flatMap F = [] := by
  induction l with
  | nil => rfl
  | cons x xs ih =>
    simp [List.flatMap_cons, h x (List.mem_cons_self _ _),
      ih (fun y hy => h y (List.mem_cons_of_mem _ hy))]

theorem tuples_container_reparsed (pn : String) (c : Container)
    (hid : ∀ k ∈ c.children, k.objectName ≠ "") :
    (c.reparsed.children.flatMap fun k =>
        k.children.map fun t =>
          (pn, c.reparsed.objectName, k.objectName, t.objectName, t.string))
      = c.children.flatMap fun k =>
          k.children.map fun t => (pn, c.objectName, k.objectName, t.objectName, t.string) := by
  unfold Container.reparsed
  simp only
  apply flatMap_filter_congr
  · intro k _ _
    rfl
  · intro k hk hkeep
    have hne : (k.objectName == "") = false := by
      simpa using hid k hk
    rw [hne] at hkeep
    simp only [Bool.not_false, Bool.and_true, Bool.not_eq_false'] at hkeep
    rw [List.isEmpty_iff] at hkeep
    rw [hkeep]
    rfl

theorem tuples_package_reparsed (p : Package)
    (hid : ∀ c ∈ p.children, ∀ k ∈ c.children, k.objectName ≠ "") :
    (p.reparsed.children.flatMap fun c =>
        c.children.flatMap fun k =>
          k.children.map fun t =>
            (p.reparsed.objectName, c.objectName, k.objectName, t.objectName, t.string))
      = p.children.flatMap fun c =>
          c.children.flatMap fun k =>
            k.children.map fun t =>
              (p.objectName, c.objectName, k.objectName, t.objectName, t.string) := by
  unfold Package.reparsed
  simp only [List.flatMap_map]
  apply flatMap_filter_congr
  · intro c hc _
    exact tuples_container_reparsed p.objectName c (hid c hc)
  · intro c _ hkeep
    apply flatMap_eq_nil_of_forall
    intro k hk
    have h := List.any_eq_false.mp hkeep k hk
    simp only [Bool.not_eq_true', Bool.not_eq_false', Bool.not_eq_true] at h
    have h2 : k.children = [] := by
      cases hh : k.children with
      | nil => rfl
      | cons a as => rw [hh] at h; simp at h
    rw [h2]
    rfl

theorem tuples_reparsed (proj : Project) (hid : proj.keyIdsNonEmpty) :
    proj.reparsed.tuples = proj.tuples := by
  unfold Project.tuples
  unfold Project.reparsed
  simp only [List.flatMap_map]
  apply flatMap_filter_congr
  · intro p hp _
    exact tuples_package_reparsed p (hid p hp)
  · intro p _ hkeep
    apply flatMap_eq_nil_of_forall
    intro c hc
    have h := List.any_eq_false.mp hkeep c hc
    have h2 : c.children = [] := by
      cases hh : c.children with
      | nil => rfl
      | cons a as => rw [hh] at h; simp at h
    rw [h2]
    rfl

/-- Round trip on a tree: when no Key has an empty id and the tree holds a Translation,
the parser returns a tree with the same tuples for the document of `toXml`. -/
theorem roundTrip_tree (proj : Project) (hid : proj.keyIdsNonEmpty) (hne : proj.tuples ≠ []) :
    ∃ proj2, StringtableParser.parse proj.toXml = some proj2 ∧ proj2.tuples = proj.tuples := by
  refine ⟨proj.reparsed, ?_, tuples_reparsed proj hid⟩
  rw [parse_toXml]
  have h : proj.reparsed.children.isEmpty = false := by
    cases hh : proj.reparsed.children with
    | nil =>
      exfalso
      apply hne
      rw [← tuples_reparsed proj hid]
      unfold Project.tuples
      rw [hh]
      rfl
    | cons a as => rfl
  rw [h]
  rfl

/-! ### Trees built by `setTranslation` -/

theorem mem_modifyFirst {α : Type} (q : α → Bool) (f : α → α) (l : List α) (x : α)
    (hx : x ∈ modifyFirst q f l) : x ∈ l ∨ ∃ y ∈ l, x = f y := by
  induction l with
  | nil => simp [modifyFirst] at hx
  | cons a as ih =>
    by_cases ha : q a = true
    · rw [modifyFirst, if_pos ha, List.mem_cons] at hx
      rcases hx with h | h
      · exact Or.inr ⟨a, List.mem_cons_self _ _, h⟩
      · exact Or.inl (List.mem_cons_of_mem _ h)
    · rw [modifyFirst, if_neg ha, List.mem_cons] at hx
      rcases hx with h | h
      · exact Or.inl (by rw [h]; exact List.mem_cons_self _ _)
      · rcases ih h with h2 | ⟨y, hy, h3⟩
        · exact Or.inl (List.mem_cons_of_mem _ h2)
        · exact Or.inr ⟨y, List.mem_cons_of_mem _ hy, h3⟩

theorem mem_modifyFirst_of_find? {α : Type} (q : α → Bool) (f : α → α) (l : List α) (y : α)
    (hy : l.find? q = some y) : f y ∈ modifyFirst q f l := by
  induction l with
  | nil => simp at hy
  | cons a as ih =>
    by_cases ha : q a = true
    · simp only [List.find?, ha] at hy
      cases hy
      simp [modifyFirst, ha]
    · simp only [List.find?, ha] at hy
      simp only [modifyFirst, ha]
      exact List.mem_cons_of_mem _ (ih hy)

theorem containerSetTranslation_ids (c : Container) (key lang t : String) (hkey : key ≠ "")
    (hc : ∀ k ∈ c.children, k.objectName ≠ "") :
    ∀ k ∈ (c.setTranslation key lang t).children, k.objectName ≠ "" := by
  intro k hk
  unfold Container.setTranslation at hk
  split at hk
  · rcases List.mem_append.mp hk with h | h
    · exact hc k h
    · rw [List.mem_singleton] at h
      rw [h, keySetTranslation_objectName]
      exact hkey
  · rcases mem_modifyFirst _ _ _ _ hk with h | ⟨y, hy, rfl⟩
    · exact hc k h
    · rw [keySetTranslation_objectName]
      exact hc y hy

theorem packageSetTranslation_ids (p : Package) (container key lang t : String)
    (hkey : key ≠ "") (hp : ∀ c ∈ p.children, ∀ k ∈ c.children, k.objectName ≠ "") :
    ∀ c ∈ (p.setTranslation container key lang t).children,
      ∀ k ∈ c.children, k.objectName ≠ "" := by
  intro c hc
  unfold Package.setTranslation at hc
  split at hc
  · rcases List.mem_append.mp hc with h | h
    · exact hp c h
    · rw [List.mem_singleton] at h
      rw [h]
      exact containerSetTranslation_ids _ key lang t hkey (by simp)
  · rcases mem_modifyFirst _ _ _ _ hc with h | ⟨y, hy, rfl⟩
    · exact hp c h
    · exact containerSetTranslation_ids y key lang t hkey (hp y hy)

theorem projectSetTranslation_ids (proj : Project) (package container key lang t : String)
    (hkey : key ≠ "") (hp : proj.keyIdsNonEmpty) :
    (proj.setTranslation package container key lang t).keyIdsNonEmpty := by
  intro p hpm
  unfold Project.setTranslation at hpm
  split at hpm
  · rcases List.mem_append.mp hpm with h | h
    · exact hp p h
    · rw [List.mem_singleton] at h
      rw [h]
      exact packageSetTranslation_ids _ container key lang t hkey (by simp)
  · rcases mem_modifyFirst _ _ _ _ hpm with h | ⟨y, hy, rfl⟩
    · exact hp p h
    · exact packageSetTranslation_ids y container key lang t hkey (hp y hy)

theorem containerSetTranslation_holds (c : Container) (key lang t : String) (ht : t ≠ "") :
    ∃ k ∈ (c.setTranslation key lang t).children, k.children ≠ [] := by
  have hkey : ∀ k : Key, (k.setTranslation lang t).children ≠ [] := by
    intro k h
    have h2 := keyGet_setTranslation k lang t ht
    unfold Key.getTranslation findChild at h2
    rw [h] at h2
    simp at h2
  unfold Container.setTranslation Container.findKeys
  rw [filter_isEmpty_eq_find?]
  cases hf : c.children.find? (fun k => regexHasMatch key k.objectName) with
  | none =>
    refine ⟨(Key.mk key []).setTranslation lang t, ?_, hkey _⟩
    simp
  | some k0 =>
    refine ⟨k0.setTranslation lang t, ?_, hkey _⟩
    simp only [Option.isNone_some]
    exact mem_modifyFirst_of_find? _ _ _ _ hf

theorem projectSetTranslation_tuples (proj : Project) (package container key lang t : String)
    (ht : t ≠ "") : (proj.setTranslation package container key lang t).tuples ≠ [] := by
  have hP := List.mem_of_find?_eq_some
    (projectFind_setTranslation proj package container key lang t)
  have hC := List.mem_of_find?_eq_some
    (packageFind_setTranslation ((proj.children.find?
      (fun p => p.objectName == package)).getD (Package.mk package [])) container key lang t)
  obtain ⟨k, hk, hne⟩ := containerSetTranslation_holds
    ((((proj.children.find? (fun p => p.objectName == package)).getD
      (Package.mk package [])).children.find? (fun c => c.objectName == container)).getD
        (Container.mk container [])) key lang t ht
  obtain ⟨P1, hP1, C1, hC1, k1, hk1, hne1⟩ :
      ∃ P1 ∈ (proj.setTranslation package container key lang t).children,
        ∃ C1 ∈ P1.children, ∃ k1 ∈ C1.children, k1.children ≠ [] :=
    ⟨_, hP, _, hC, k, hk, hne⟩
  obtain ⟨tr, htr⟩ := List.exists_mem_of_ne_nil _ hne1
  intro h
  have hm : (P1.objectName, C1.objectName, k1.objectName, tr.objectName, tr.string)
      ∈ (proj.setTranslation package container key lang t).tuples := by
    unfold Project.tuples
    exact List.mem_flatMap.mpr ⟨P1, hP1, List.mem_flatMap.mpr ⟨C1, hC1,
      List.mem_flatMap.mpr ⟨k1, hk1, List.mem_map.mpr ⟨tr, htr, rfl⟩⟩⟩⟩
  rw [h] at hm
  exact absurd hm (List.not_mem_nil _)

theorem foldl_keyIdsNonEmpty (calls : List Call) (hkey : ∀ call ∈ calls, call.key ≠ "")
    (proj : Project) (hp : proj.keyIdsNonEmpty) :
    (calls.foldl (fun proj call =>
      proj.setTranslation call.package call.container call.key call.lang call.text)
      proj).keyIdsNonEmpty := by
  induction calls generalizing proj with
  | nil => exact hp
  | cons a as ih =>
    rw [List.foldl_cons]
    exact ih (fun call hc => hkey call (List.mem_cons_of_mem _ hc)) _
      (projectSetTranslation_ids proj _ _ _ _ _ (hkey a (List.mem_cons_self _ _)) hp)

/-! ## Lemmas on the language codes -/

theorem toList_mk (l : List Char) : (String.mk l).toList = l := rfl

theorem langCodeToString_congr (a b : String) (h : toLower a = toLower b) :
    Project.langCodeToString a = Project.langCodeToString b := by
  unfold Project.langCodeToString
  rw [h]

/-- Folding and lower-casing differ on U+017F only: a lower case that is an ASCII
character is the folded character. -/
theorem foldCase_of_lowerCase_ascii (c : Char) (h : (lowerCase c).toNat < 128) :
    foldCase c = lowerCase c := by
  unfold foldCase
  split
  · rename_i hc
    subst hc
    exact absurd h (by decide)
  · rfl

theorem caseFold_of_toLower_ascii (s : String) (h : isAscii (toLower s) = true) :
    caseFold s = (toLower s).toList := by
  have h2 : ∀ c ∈ s.toList, (lowerCase c).toNat < 128 := by
    intro c hc
    have h3 := List.all_eq_true.mp h (lowerCase c) (List.mem_map_of_mem lowerCase hc)
    simpa using h3
  show s.toList.map foldCase = s.toList.map lowerCase
  exact List.map_congr_left (fun c hc => foldCase_of_lowerCase_ascii c (h2 c hc))

theorem langCodeToString_eq_empty (code : String)
    (h : toLower code ∉ XliffParser.m_supportedLangs) : Project.langCodeToString code = "" := by
  simp only [XliffParser.m_supportedLangs, List.mem_cons, List.mem_singleton, not_or,
    List.not_mem_nil, or_false] at h
  simp [Project.langCodeToString, h]

theorem langCodeToString_ne_empty (code : String)
    (h : toLower code ∈ XliffParser.m_supportedLangs) : Project.langCodeToString code ≠ "" := by
  simp only [XliffParser.m_supportedLangs, List.mem_cons, List.mem_singleton,
    List.not_mem_nil, or_false] at h
  rcases h with h | h | h | h | h | h | h | h | h | h | h <;>
    simp [Project.langCodeToString, h]

theorem ite_ne_of {α : Type} (p : Prop) [Decidable p] (a b x : α) (ha : a ≠ x) (hb : b ≠ x) :
    (if p then a else b) ≠ x := by
  split <;> assumption

theorem langCodeToString_ne_original (code : String) :
    Project.langCodeToString code ≠ "Original" := by
  unfold Project.langCodeToString
  simp only []
  repeat' apply ite_ne_of
  all_goals decide

theorem supports_iff (trgLang : String) :
    XliffParser.supports trgLang = true ↔
      String.mk (caseFold trgLang) ∈ XliffParser.m_supportedLangs := by
  have key : ∀ l : List Char,
      (l == caseFold trgLang) = true ↔ String.mk (caseFold trgLang) = String.mk l := by
    intro l
    rw [beq_iff_eq]
    constructor
    · intro h
      rw [h]
    · intro h
      exact (congrArg String.data h).symm
  simp only [XliffParser.supports, XliffParser.m_supportedLangs, List.any_cons, List.any_nil,
    Bool.or_false, Bool.or_eq_true, compareCaseInsensitive, List.mem_cons, List.mem_singleton,
    List.not_mem_nil, or_false]
  have e1 : caseFold "en" = ['e', 'n'] := by decide
  have e2 : caseFold "cz" = ['c', 'z'] := by decide
  have e3 : caseFold "fr" = ['f', 'r'] := by decide
  have e4 : caseFold "es" = ['e', 's'] := by decide
  have e5 : caseFold "it" = ['i', 't'] := by decide
  have e6 : caseFold "pl" = ['p', 'l'] := by decide
  have e7 : caseFold "pt" = ['p', 't'] := by decide
  have e8 : caseFold "ru" = ['r', 'u'] := by decide
  have e9 : caseFold "de" = ['d', 'e'] := by decide
  have e10 : caseFold "ko" = ['k', 'o'] := by decide
  have e11 : caseFold "ja" = ['j', 'a'] := by decide
  rw [e1, e2, e3, e4, e5, e6, e7, e8, e9, e10, e11]
  simp only [key]

/-- A code with a display name is accepted by the language check of the importer. -/
theorem supports_of_langCodeToString (code : String)
    (h : Project.langCodeToString code ≠ "") : XliffParser.supports code = true := by
  rw [supports_iff]
  have hm : toLower code ∈ XliffParser.m_supportedLangs := by
    by_contra hn
    exact h (langCodeToString_eq_empty code hn)
  have ha : isAscii (toLower code) = true := by
    simp only [XliffParser.m_supportedLangs, List.mem_cons, List.mem_singleton,
      List.not_mem_nil, or_false] at hm
    rcases hm with hm | hm | hm | hm | hm | hm | hm | hm | hm | hm | hm <;>
      rw [hm] <;> decide
  rw [caseFold_of_toLower_ascii code ha]
  exact hm

theorem supports_empty : XliffParser.supports "" = false := by decide

/-! ## The claim on the language table -/

/-- C13, at the input where the claim fails: `DE` is none of the 11 codes of the table and
`langCodeToString` maps it to `German`, not to the empty string. -/
theorem C13_upper_case_code_has_a_display_name :
    "DE" ∉ languageTable.map (fun e => e.1) ∧ Project.langCodeToString "DE" = "German" := by
  decide

/-- C13, amended. `langCodeToString` maps each of the 11 codes to its display name, the
result depends on the lower-case form of the code only (`QString::toLower`: the letters
A to Z and the Kelvin sign U+212A go to ASCII letters), every code whose lower-case form
is none of the 11 codes goes to the empty string, and the mapping is injective on the 11
codes. The code U+212A `o` has the lower-case form `ko` and goes to `Korean`; the code
`e` U+017F is its own lower-case form and goes to the empty string. -/
theorem C13_langCodeToString_table :
    (∀ e ∈ languageTable, Project.langCodeToString e.1 = e.2) ∧
    (∀ a b : String, toLower a = toLower b →
      Project.langCodeToString a = Project.langCodeToString b) ∧
    (∀ code : String, toLower code ∉ languageTable.map (fun e => e.1) →
      Project.langCodeToString code = "") ∧
    (∀ a ∈ languageTable, ∀ b ∈ languageTable,
      Project.langCodeToString a.1 = Project.langCodeToString b.1 → a.1 = b.1) ∧
    Project.langCodeToString (String.mk [Char.ofNat 0x212A, 'o']) = "Korean" ∧
    Project.langCodeToString (String.mk ['e', Char.ofNat 0x017F]) = "" := by
  refine ⟨by decide, langCodeToString_congr, ?_, by decide, by decide, by decide⟩
  intro code h
  exact langCodeToString_eq_empty code h

/-- C13, amended: witness, the code `xx` without display name and the code `Ru`. -/
theorem C13_langCodeToString_table_witness :
    Project.langCodeToString "xx" = "" ∧ Project.langCodeToString "Ru" = "Russian" :=
  ⟨C13_langCodeToString_table.2.2.1 "xx" (by decide),
    (C13_langCodeToString_table.2.1 "Ru" "ru" (by decide)).trans
      (C13_langCodeToString_table.1 ("ru", "Russian") (by decide))⟩

/-! ## Lemmas on the XLIFF export -/

theorem objectName_of_getTranslation (k : Key) (lang : String) (t : Translation)
    (h : k.getTranslation lang = some t) : t.objectName = lang := by
  unfold Key.getTranslation findChild at h
  have := List.find?_some h
  simpa using this

theorem appendDocuments_optional {α β : Type} (f : α → Option β) (e : β → QDomNode)
    (l : List α) :
    appendDocuments (l.map (fun x => ((f x).map e).toList)) = (l.filterMap f).map e := by
  unfold appendDocuments
  induction l with
  | nil => rfl
  | cons x xs ih =>
    cases hx : f x <;> simp [hx, ih]

theorem keyToXliff_eq (k : Key) (lang : String) (version2 : Bool) (hl : lang ≠ "Original") :
    k.toXliff lang version2
      = ((Key.xliffLeaf lang k).map (XliffLeaf.toElement version2)).toList := by
  unfold Key.toXliff Key.xliffLeaf
  cases ho : k.getTranslation "Original" with
  | none => rfl
  | some o =>
    have hon := objectName_of_getTranslation k _ o ho
    by_cases hlang : lang = ""
    · simp [Translation.toXliff, XliffLeaf.toElement, hon, hlang, Translation.string]
    · cases ht : k.getTranslation lang with
      | none => simp [Translation.toXliff, XliffLeaf.toElement, hon, hlang, Translation.string]
      | some t =>
        have htn := objectName_of_getTranslation k _ t ht
        simp [Translation.toXliff, XliffLeaf.toElement, hon, hlang, Translation.string, htn, hl]

theorem containerToXliff_eq (c : Container) (lang : String) (version2 : Bool)
    (hl : lang ≠ "Original") :
    c.toXliff lang version2
      = if c.children.isEmpty then [] else [(Container.xliffUnit lang c).toElement version2] := by
  unfold Container.toXliff
  have h : (fun k : Key => k.toXliff lang version2)
      = fun k => ((Key.xliffLeaf lang k).map (XliffLeaf.toElement version2)).toList := by
    funext k
    exact keyToXliff_eq k lang version2 hl
  rw [h, appendDocuments_optional]
  rfl

theorem packageToXliff_eq (p : Package) (lang : String) (version2 : Bool)
    (hl : lang ≠ "Original") :
    p.toXliff lang version2
      = if p.children.isEmpty then [] else [(Package.xliffGroup lang p).toElement version2] := by
  unfold Package.toXliff
  have h : (fun c : Container => c.toXliff lang version2)
      = fun c => if c.children.isEmpty then []
          else [(Container.xliffUnit lang c).toElement version2] := by
    funext c
    exact containerToXliff_eq c lang version2 hl
  rw [h, appendDocuments_map_singleton (fun c : Container => c.children.isEmpty)]
  simp only [Package.xliffGroup, XliffGroup.toElement, List.map_map]
  rfl

theorem packagesToXliff_eq (proj : Project) (lang : String) (version2 : Bool)
    (hl : lang ≠ "Original") :
    appendDocuments (proj.children.map (fun p => p.toXliff lang version2))
      = (Project.xliffGroups lang proj).map (XliffGroup.toElement version2) := by
  have h : (fun p : Package => p.toXliff lang version2)
      = fun p => if p.children.isEmpty then []
          else [(Package.xliffGroup lang p).toElement version2] := by
    funext p
    exact packageToXliff_eq p lang version2 hl
  rw [h, appendDocuments_map_singleton (fun p : Package => p.children.isEmpty)]
  simp only [Project.xliffGroups, List.map_map]
  rfl

/-- The export of a tree that has a Package is the document of the specification for the
groups of the tree. -/
theorem toXliff_eq (proj : Project) (lang srcLng : String) (version2 : Bool)
    (h : proj.children ≠ []) :
    proj.toXliff lang srcLng version2
      = xliffDocument version2 (xliffId proj.objectName) srcLng lang
          (Project.xliffGroups (Project.langCodeToString lang) proj) := by
  have he : proj.children.isEmpty = false := by
    cases hc : proj.children with
    | nil => exact absurd hc h
    | cons _ _ => rfl
  unfold Project.toXliff xliffDocument xliffRoot xliffFile
  rw [he, packagesToXliff_eq proj _ version2 (langCodeToString_ne_original lang)]
  cases version2 <;> rfl

theorem toXliff_nil (proj : Project) (lang srcLng : String) (version2 : Bool)
    (h : proj.children = []) : proj.toXliff lang srcLng version2 = [] := by
  unfold Project.toXliff
  rw [h]
  rfl

/-! ## Lemmas on the elements of an XLIFF document -/

theorem filter_descendants_map {α : Type} (q : QDomNode → Bool) (e : α → QDomNode)
    (l : List α) :
    (QDomNode.descendantsOfList (l.map e)).filter q
      = l.flatMap (fun x => (e x :: (e x).descendants).filter q) := by
  rw [descendantsOfList_map, List.filter_flatMap]

theorem flatMap_singleton_map {α β : Type} (f : α → β) (l : List α) :
    l.flatMap (fun x => [f x]) = l.map f := by
  induction l with
  | nil => rfl
  | cons x xs ih => simp [List.flatMap_cons, ih]

theorem flatMap_nil_const {α β : Type} (l : List α) :
    l.flatMap (fun _ => ([] : List β)) = [] := by
  induction l with
  | nil => rfl
  | cons x xs ih => simp [List.flatMap_cons, ih]

theorem descendants_leaf (version2 : Bool) (l : XliffLeaf) :
    (l.toElement version2).descendants
      = QDomNode.element "source" [] [QDomNode.textNode l.source] ::
          QDomNode.textNode l.source ::
          (match l.target with
            | some t => [QDomNode.element "target" [] [QDomNode.textNode t], QDomNode.textNode t]
            | none => []) := by
  cases ht : l.target <;>
    simp [XliffLeaf.toElement, QDomNode.descendants, QDomNode.descendantsOfList, ht]

/-- The elements with the tag of the leaves among a leaf element and the nodes below
it. -/
theorem leaf_filter_leafTag (version2 : Bool) (l : XliffLeaf) :
    ((l.toElement version2) :: (l.toElement version2).descendants).filter
        (fun d => d.isElement && d.tagName == (if !version2 then "trans-unit" else "segment"))
      = [l.toElement version2] := by
  rw [descendants_leaf]
  cases version2 <;> cases ht : l.target <;>
    simp [XliffLeaf.toElement, QDomNode.isElement, QDomNode.tagName, ht]

/-- No element below a leaf element, nor the leaf element, has the tag of a unit or of a
group. -/
theorem leaf_filter_other (version2 : Bool) (l : XliffLeaf) (tag : String)
    (h : tag = "group" ∨ tag = "unit") :
    ((l.toElement version2) :: (l.toElement version2).descendants).filter
        (fun d => d.isElement && d.tagName == tag) = [] := by
  rw [descendants_leaf]
  rcases h with h | h <;> subst h <;> cases version2 <;> cases ht : l.target <;>
    simp [XliffLeaf.toElement, QDomNode.isElement, QDomNode.tagName, ht]

theorem descendants_unit (version2 : Bool) (u : XliffUnit) :
    (u.toElement version2).descendants
      = u.leaves.flatMap (fun l => l.toElement version2 :: (l.toElement version2).descendants) := by
  simp only [XliffUnit.toElement, QDomNode.descendants]
  exact descendantsOfList_map _ _

theorem elementsByTagName_unit (version2 : Bool) (u : XliffUnit) :
    (u.toElement version2).elementsByTagName (if !version2 then "trans-unit" else "segment")
      = u.leaves.map (XliffLeaf.toElement version2) := by
  unfold QDomNode.elementsByTagName
  rw [descendants_unit, List.filter_flatMap]
  simp only [leaf_filter_leafTag]
  exact flatMap_singleton_map _ _

/-- The elements with the tag of the units among a unit element and the nodes below
it. -/
theorem unit_filter_unitTag (version2 : Bool) (u : XliffUnit) :
    ((u.toElement version2) :: (u.toElement version2).descendants).filter
        (fun d => d.isElement && d.tagName == (if !version2 then "group" else "unit"))
      = [u.toElement version2] := by
  have h : ∀ l : XliffLeaf,
      ((l.toElement version2) :: (l.toElement version2).descendants).filter
        (fun d => d.isElement && d.tagName == (if !version2 then "group" else "unit")) = [] := by
    intro l
    apply leaf_filter_other
    cases version2 <;> simp
  rw [descendants_unit, List.filter_cons, List.filter_flatMap]
  simp only [h, flatMap_nil_const]
  cases version2 <;> simp [XliffUnit.toElement, QDomNode.isElement, QDomNode.tagName]

theorem unit_filter_leafTag (version2 : Bool) (u : XliffUnit) :
    ((u.toElement version2) :: (u.toElement version2).descendants).filter
        (fun d => d.isElement && d.tagName == (if !version2 then "trans-unit" else "segment"))
      = u.leaves.map (XliffLeaf.toElement version2) := by
  rw [descendants_unit, List.filter_cons, List.filter_flatMap]
  simp only [leaf_filter_leafTag, flatMap_singleton_map]
  cases version2 <;> simp [XliffUnit.toElement, QDomNode.isElement, QDomNode.tagName]

/-- In a 2.0 document no element of a unit has the tag `group`. -/
theorem unit_filter_group (u : XliffUnit) :
    ((u.toElement true) :: (u.toElement true).descendants).filter
        (fun d => d.isElement && d.tagName == "group") = [] := by
  have h : ∀ l : XliffLeaf,
      ((l.toElement true) :: (l.toElement true).descendants).filter
        (fun d => d.isElement && d.tagName == "group") = [] :=
    fun l => leaf_filter_other true l "group" (Or.inl rfl)
  rw [descendants_unit, List.filter_cons, List.filter_flatMap]
  simp only [h, flatMap_nil_const]
  simp [XliffUnit.toElement, QDomNode.isElement, QDomNode.tagName]

theorem descendants_group (version2 : Bool) (g : XliffGroup) :
    (g.toElement version2).descendants
      = g.units.flatMap (fun u => u.toElement version2 :: (u.toElement version2).descendants) := by
  simp only [XliffGroup.toElement, QDomNode.descendants]
  exact descendantsOfList_map _ _

theorem elementsByTagName_group (version2 : Bool) (g : XliffGroup) :
    (g.toElement version2).elementsByTagName (if !version2 then "group" else "unit")
      = g.units.map (XliffUnit.toElement version2) := by
  unfold QDomNode.elementsByTagName
  rw [descendants_group, List.filter_flatMap]
  simp only [unit_filter_unitTag]
  exact flatMap_singleton_map _ _

theorem group_filter_leafTag (version2 : Bool) (g : XliffGroup) :
    ((g.toElement version2) :: (g.toElement version2).descendants).filter
        (fun d => d.isElement && d.tagName == (if !version2 then "trans-unit" else "segment"))
      = g.units.flatMap (fun u => u.leaves.map (XliffLeaf.toElement version2)) := by
  rw [descendants_group, List.filter_cons, List.filter_flatMap]
  simp only [unit_filter_leafTag]
  cases version2 <;> simp [XliffGroup.toElement, QDomNode.isElement, QDomNode.tagName]

/-- In a 2.0 document the only element of a group with the tag `group` is the group. -/
theorem group_filter_group (g : XliffGroup) :
    ((g.toElement true) :: (g.toElement true).descendants).filter
        (fun d => d.isElement && d.tagName == "group") = [g.toElement true] := by
  rw [descendants_group, List.filter_cons, List.filter_flatMap]
  simp only [unit_filter_group, flatMap_nil_const]
  simp [XliffGroup.toElement, QDomNode.isElement, QDomNode.tagName]

/-- The elements with the tag of the leaves in the document of the specification. -/
theorem leafElements_xliffDocument (version2 : Bool) (projectId srcLang trgLang : String)
    (groups : List XliffGroup) :
    elementsByTagNameOfDocument (xliffDocument version2 projectId srcLang trgLang groups)
        (if !version2 then "trans-unit" else "segment")
      = groups.flatMap (fun g =>
          g.units.flatMap (fun u => u.leaves.map (XliffLeaf.toElement version2))) := by
  have h := filter_descendants_map
    (fun d => d.isElement && d.tagName == (if !version2 then "trans-unit" else "segment"))
    (XliffGroup.toElement version2) groups
  simp only [group_filter_leafTag] at h
  cases version2
  · simp only [Bool.not_false, if_true] at h
    simp only [elementsByTagNameOfDocument, xliffDocument, xliffRoot, xliffFile,
      xmlDeclaration, Bool.not_false, Bool.not_true, if_true, Bool.false_eq_true, if_false,
      QDomNode.descendantsOfList, QDomNode.descendants, List.append_nil, List.filter_cons,
      List.filter_append]
    rw [h]
    simp [QDomNode.isElement, QDomNode.tagName]
  · simp only [Bool.not_true, Bool.false_eq_true, if_false] at h
    simp only [elementsByTagNameOfDocument, xliffDocument, xliffRoot, xliffFile,
      xmlDeclaration, Bool.not_false, Bool.not_true, if_true, Bool.false_eq_true, if_false,
      QDomNode.descendantsOfList, QDomNode.descendants, List.append_nil, List.filter_cons,
      List.filter_append]
    rw [h]
    simp [QDomNode.isElement, QDomNode.tagName]

/-! ## Lemmas on the leaves of an export -/

theorem flatMap_map_eq {α β γ : Type} (f : α → β) (g : β → List γ) (l : List α) :
    (l.map f).flatMap g = l.flatMap (fun x => g (f x)) := by
  induction l with
  | nil => rfl
  | cons x xs ih => simp [List.flatMap_cons, ih]

theorem map_flatMap_eq {α β γ : Type} (f : β → γ) (g : α → List β) (l : List α) :
    (l.flatMap g).map f = l.flatMap (fun x => (g x).map f) := by
  induction l with
  | nil => rfl
  | cons x xs ih => simp [List.flatMap_cons, ih]

/-- The leaves of the groups of a tree, Package by Package and Container by Container. -/
theorem leaves_xliffGroups {β : Type} (lang : String) (proj : Project) (F : XliffLeaf → β) :
    (Project.xliffGroups lang proj).flatMap
        (fun g => g.units.flatMap (fun u => u.leaves.map F))
      = proj.children.flatMap (fun p => p.children.flatMap (fun c =>
          (c.children.filterMap (Key.xliffLeaf lang)).map F)) := by
  unfold Project.xliffGroups
  rw [flatMap_map_eq]
  apply flatMap_filter_congr
  · intro p _ _
    simp only [Package.xliffGroup]
    rw [flatMap_map_eq]
    apply flatMap_filter_congr
    · intro c _ _
      rfl
    · intro c _ hc
      have : c.children = [] := by simpa using hc
      simp [this]
  · intro p _ hp
    have : p.children = [] := by simpa using hp
    simp [this]

theorem filterMap_xliffLeaf {β : Type} (lang : String) (l : List Key) (F : XliffLeaf → β)
    (G : Key → β)
    (h : ∀ k ∈ l, ∀ leaf, Key.xliffLeaf lang k = some leaf → F leaf = G k) :
    (l.filterMap (Key.xliffLeaf lang)).map F = (l.filter Key.hasOriginal).map G := by
  induction l with
  | nil => rfl
  | cons k ks ih =>
    have ih2 := ih (fun k2 hk2 => h k2 (List.mem_cons_of_mem _ hk2))
    cases hk : Key.xliffLeaf lang k with
    | none =>
      have ho : k.hasOriginal = false := by
        unfold Key.hasOriginal
        cases h2 : k.getTranslation "Original" with
        | none => rfl
        | some _ => simp [Key.xliffLeaf, h2] at hk
      simp [List.filterMap_cons, hk, List.filter_cons, ho, ih2]
    | some leaf =>
      have ho : k.hasOriginal = true := by
        unfold Key.hasOriginal
        cases h2 : k.getTranslation "Original" with
        | none => simp [Key.xliffLeaf, h2] at hk
        | some _ => rfl
      simp [List.filterMap_cons, hk, List.filter_cons, ho, ih2,
        h k (List.mem_cons_self _ _) leaf hk]

theorem leaf_observe (version2 : Bool) (l : XliffLeaf) :
    ((l.toElement version2).attribute "id" "",
      ((l.toElement version2).firstChildElement "target").map QDomNode.text)
      = (l.id, l.target) := by
  cases ht : l.target <;>
    simp [XliffLeaf.toElement, QDomNode.attribute, QDomNode.firstChildElement,
      QDomNode.childNodes, QDomNode.isElement, QDomNode.tagName, QDomNode.text,
      QDomNode.textOfList, ht]

/-- The leaf elements of an export, read as (id, target text): one per Key that has an
Original, the target text being that of the Translation tagged with the display name. -/
theorem leaves_toXliff (proj : Project) (L src : String) (version2 : Bool) :
    (elementsByTagNameOfDocument (proj.toXliff L src version2)
        (if !version2 then "trans-unit" else "segment")).map
        (fun u => (u.attribute "id" "", (u.firstChildElement "target").map QDomNode.text))
      = proj.keysWithOriginal.map (fun k =>
          (xliffId k.objectName,
            if Project.langCodeToString L ≠ "" then
              (k.getTranslation (Project.langCodeToString L)).map Translation.string
            else none)) := by
  by_cases hc : proj.children = []
  · rw [toXliff_nil proj L src version2 hc]
    simp [Project.keysWithOriginal, hc, elementsByTagNameOfDocument,
      QDomNode.descendantsOfList]
  · rw [toXliff_eq proj L src version2 hc, leafElements_xliffDocument, map_flatMap_eq]
    simp only [map_flatMap_eq, List.map_map]
    have h := leaves_xliffGroups (Project.langCodeToString L) proj
      ((fun u : QDomNode =>
        (u.attribute "id" "", (u.firstChildElement "target").map QDomNode.text)) ∘
        XliffLeaf.toElement version2)
    rw [h]
    unfold Project.keysWithOriginal
    simp only [map_flatMap_eq]
    congr 1
    funext p
    congr 1
    funext c
    apply filterMap_xliffLeaf
    intro k _ leaf hk
    simp only [Function.comp, leaf_observe]
    unfold Key.xliffLeaf at hk
    cases ho : k.getTranslation "Original" with
    | none => simp [ho] at hk
    | some o =>
      simp only [ho, Option.map_some', Option.some.injEq] at hk
      rw [← hk]

/-- The `target` elements of the document of the specification: one per leaf that has a
target. -/
theorem targetElements_xliffDocument (version2 : Bool) (projectId srcLang trgLang : String)
    (groups : List XliffGroup) :
    elementsByTagNameOfDocument (xliffDocument version2 projectId srcLang trgLang groups)
        "target"
      = groups.flatMap (fun g => g.units.flatMap (fun u => u.leaves.flatMap (fun l =>
          (l.target.map (fun t => QDomNode.element "target" [] [QDomNode.textNode t])).toList)))
    := by
  have hl : ∀ l : XliffLeaf,
      ((l.toElement version2) :: (l.toElement version2).descendants).filter
          (fun d => d.isElement && d.tagName == "target")
        = (l.target.map (fun t => QDomNode.element "target" [] [QDomNode.textNode t])).toList := by
    intro l
    rw [descendants_leaf]
    cases version2 <;> cases ht : l.target <;>
      simp [XliffLeaf.toElement, QDomNode.isElement, QDomNode.tagName, ht]
  have hu : ∀ u : XliffUnit,
      ((u.toElement version2) :: (u.toElement version2).descendants).filter
          (fun d => d.isElement && d.tagName == "target")
        = u.leaves.flatMap (fun l =>
            (l.target.map (fun t => QDomNode.element "target" [] [QDomNode.textNode t])).toList)
      := by
    intro u
    rw [descendants_unit, List.filter_cons, List.filter_flatMap]
    simp only [hl]
    cases version2 <;> simp [XliffUnit.toElement, QDomNode.isElement, QDomNode.tagName]
  have hg : ∀ g : XliffGroup,
      ((g.toElement version2) :: (g.toElement version2).descendants).filter
          (fun d => d.isElement && d.tagName == "target")
        = g.units.flatMap (fun u => u.leaves.flatMap (fun l =>
            (l.target.map (fun t => QDomNode.element "target" [] [QDomNode.textNode t])).toList))
      := by
    intro g
    rw [descendants_group, List.filter_cons, List.filter_flatMap]
    simp only [hu]
    simp [XliffGroup.toElement, QDomNode.isElement, QDomNode.tagName]
  have h := filter_descendants_map (fun d => d.isElement && d.tagName == "target")
    (XliffGroup.toElement version2) groups
  simp only [hg] at h
  cases version2
  · simp only [elementsByTagNameOfDocument, xliffDocument, xliffRoot, xliffFile,
      xmlDeclaration, Bool.not_false, Bool.not_true, if_true, Bool.false_eq_true, if_false,
      QDomNode.descendantsOfList, QDomNode.descendants, List.append_nil, List.filter_cons,
      List.filter_append]
    rw [h]
    simp [QDomNode.isElement, QDomNode.tagName]
  · simp only [elementsByTagNameOfDocument, xliffDocument, xliffRoot, xliffFile,
      xmlDeclaration, Bool.not_false, Bool.not_true, if_true, Bool.false_eq_true, if_false,
      QDomNode.descendantsOfList, QDomNode.descendants, List.append_nil, List.filter_cons,
      List.filter_append]
    rw [h]
    simp [QDomNode.isElement, QDomNode.tagName]

/-- An export for a language without display name has no `target` element. -/
theorem targetElements_toXliff (proj : Project) (L src : String) (version2 : Bool)
    (hL : Project.langCodeToString L = "") :
    elementsByTagNameOfDocument (proj.toXliff L src version2) "target" = [] := by
  by_cases hc : proj.children = []
  · rw [toXliff_nil proj L src version2 hc]
    rfl
  · rw [toXliff_eq proj L src version2 hc, targetElements_xliffDocument, hL]
    apply flatMap_eq_nil_of_forall
    intro g hg
    apply flatMap_eq_nil_of_forall
    intro u hu
    apply flatMap_eq_nil_of_forall
    intro l hl
    obtain ⟨p, _, rfl⟩ := List.mem_map.mp hg
    simp only [Package.xliffGroup] at hu
    obtain ⟨c, _, rfl⟩ := List.mem_map.mp hu
    simp only [Container.xliffUnit] at hl
    obtain ⟨k, _, hk⟩ := List.mem_filterMap.mp hl
    unfold Key.xliffLeaf at hk
    cases ho : k.getTranslation "Original" with
    | none => simp [ho] at hk
    | some o =>
      simp only [ho, Option.map_some', Option.some.injEq] at hk
      rw [← hk]
      simp

/-! ## The claims on the XLIFF export -/

/-- C11, at an input where the claim fails: the export of a Project without a Package is
the empty document, it has no `xliff` element. -/
theorem C11_project_without_package_exports_no_xliff_element :
    (Project.mk "My Project" []).toXliff "de" "en" false = [] ∧
    documentElement ((Project.mk "My Project" []).toXliff "de" "en" false) = none :=
  ⟨rfl, rfl⟩

/-- C11, amended. For every tree with at least one Package, `toXliff(L, src, false)` is
the 1.2 document of the specification (`xliff` version 1.2, `file` with `original` = the
normalised project name, `source-language` = src, `target-language` = L unless L is
empty, `datatype` = plaintext, `body`) with one group per Package that has a Container,
in it one group per Container that has a Key, in it one trans-unit per Key that has an
Original, holding the source and, if the Key has a Translation tagged with the display
name of L, the target. For a tree without a Package the document is empty. -/
theorem C11_xliff12_export_mapping (proj : Project) (L src : String) :
    (proj.children ≠ [] →
      proj.toXliff L src false
        = xliffDocument false (xliffId proj.objectName) src L
            (Project.xliffGroups (Project.langCodeToString L) proj)) ∧
    (proj.children = [] → proj.toXliff L src false = []) :=
  ⟨toXliff_eq proj L src false, toXliff_nil proj L src false⟩

theorem C11_xliff12_export_mapping_witness :
    (Project.mk "My Project" [Package.mk "Main" [Container.mk "mission 1"
      [Key.mk "k1" [Translation.mk "Original" "Hi", Translation.mk "German" "Hallo"]]]]).toXliff
        "de" "en" false
      = xliffDocument false "My_Project" "en" "de"
          [XliffGroup.mk "Main" [XliffUnit.mk "mission_1"
            [XliffLeaf.mk "k1" "Hi" (some "Hallo")]]] :=
  (C11_xliff12_export_mapping
    (Project.mk "My Project" [Package.mk "Main" [Container.mk "mission 1"
      [Key.mk "k1" [Translation.mk "Original" "Hi", Translation.mk "German" "Hallo"]]]])
    "de" "en").1 (by decide)

/-- C12, at an input where the claim fails: a Package without a Container gets no group,
the 2.0 export of a tree with the Packages `Empty` and `Main` has the one group
`Main`. -/
theorem C12_package_without_container_gets_no_group :
    (elementsByTagNameOfDocument
      ((Project.mk "My Project" [Package.mk "Empty" [], Package.mk "Main"
        [Container.mk "mission" [Key.mk "k1" [Translation.mk "Original" "Hi"]]]]).toXliff
          "de" "en" true) "group").map (fun g => g.attribute "id" "") = ["Main"] := by
  decide

/-- C12, amended. For every tree with at least one Package, `toXliff(L, src, true)` is
the 2.0 document of the specification (`xliff` version 2.0 with `srcLang` = src and
`trgLang` = L, also when L is empty, `file` with `id` = the normalised project name, no
`body`) with one group per Package that has a Container, in it one unit per Container
that has a Key, in it one segment per Key that has an Original, holding the source and,
if present, the target. For a tree without a Package the document is empty. -/
theorem C12_xliff20_export_mapping (proj : Project) (L src : String) :
    (proj.children ≠ [] →
      proj.toXliff L src true
        = xliffDocument true (xliffId proj.objectName) src L
            (Project.xliffGroups (Project.langCodeToString L) proj)) ∧
    (proj.children = [] → proj.toXliff L src true = []) :=
  ⟨toXliff_eq proj L src true, toXliff_nil proj L src true⟩

theorem C12_xliff20_export_mapping_witness :
    (Project.mk "My Project" [Package.mk "Main" [Container.mk "mission 1"
      [Key.mk "k1" [Translation.mk "Original" "Hi", Translation.mk "German" "Hallo"]]]]).toXliff
        "" "en" true
      = [xmlDeclaration,
          QDomNode.element "xliff"
            [("xmlns", "urn:oasis:names:tc:xliff:document:2.0"), ("version", "2.0"),
              ("srcLang", "en"), ("trgLang", "")]
            [QDomNode.element "file" [("id", "My_Project")]
              [QDomNode.element "group" [("id", "Main")]
                [QDomNode.element "unit" [("id", "mission_1")]
                  [QDomNode.element "segment" [("id", "k1")]
                    [QDomNode.element "source" [] [QDomNode.textNode "Hi"]]]]]]] :=
  (C12_xliff20_export_mapping
    (Project.mk "My Project" [Package.mk "Main" [Container.mk "mission 1"
      [Key.mk "k1" [Translation.mk "Original" "Hi", Translation.mk "German" "Hallo"]]]])
    "" "en").1 (by decide)

/-- C14, at an input where the claim fails: `FR` is none of the 11 codes of the table and
the export for `FR` carries the French text as target. -/
theorem C14_upper_case_code_emits_a_target :
    "FR" ∉ languageTable.map (fun e => e.1) ∧
    (elementsByTagNameOfDocument
      ((Project.mk "My Project" [Package.mk "Main" [Container.mk "mission"
        [Key.mk "k1" [Translation.mk "Original" "Hi", Translation.mk "French" "Salut"]]]]).toXliff
          "FR" "en" false) "target").map QDomNode.text = ["Salut"] := by
  decide

/-- C14, amended. In an export for the target code L every leaf element belongs to a Key
that has an Original and its target text is the text of the Translation of that Key
tagged with the display name of L, if the display name is not empty and the Key has such
a Translation; a Key whose only other Translation is tagged `de` gets no target in the
export for `de`; and for every code whose lower-case form (`QString::toLower`: the
letters A to Z and the Kelvin sign U+212A go to ASCII letters) is none of the 11 codes
the export has no target element. The export for the code U+212A `o`, whose lower-case
form is `ko`, carries the Korean text as target. -/
theorem C14_targets_come_from_the_display_name :
    (∀ (proj : Project) (L src : String) (version2 : Bool),
      (elementsByTagNameOfDocument (proj.toXliff L src version2)
          (if !version2 then "trans-unit" else "segment")).map
          (fun u => (u.attribute "id" "", (u.firstChildElement "target").map QDomNode.text))
        = proj.keysWithOriginal.map (fun k =>
            (xliffId k.objectName,
              if Project.langCodeToString L ≠ "" then
                (k.getTranslation (Project.langCodeToString L)).map Translation.string
              else none))) ∧
    (elementsByTagNameOfDocument
      ((Project.mk "My Project" [Package.mk "Main" [Container.mk "mission"
        [Key.mk "k1" [Translation.mk "Original" "Hi", Translation.mk "de" "Hallo"]]]]).toXliff
          "de" "en" false) "trans-unit").map
        (fun u => (u.attribute "id" "", (u.firstChildElement "target").map QDomNode.text))
      = [("k1", none)] ∧
    (∀ (L : String), toLower L ∉ languageTable.map (fun e => e.1) →
      ∀ (proj : Project) (src : String) (version2 : Bool),
        elementsByTagNameOfDocument (proj.toXliff L src version2) "target" = []) ∧
    (elementsByTagNameOfDocument
      ((Project.mk "My Project" [Package.mk "Main" [Container.mk "mission"
        [Key.mk "k1" [Translation.mk "Original" "Hi", Translation.mk "Korean" "Annyeong"]]]]).toXliff
          (String.mk [Char.ofNat 0x212A, 'o']) "en" false) "target").map QDomNode.text
      = ["Annyeong"] := by
  refine ⟨leaves_toXliff, by decide, ?_, by decide⟩
  intro L hL proj src version2
  exact targetElements_toXliff proj L src version2 (langCodeToString_eq_empty L hL)

/-- C14, amended: witness, the export for the code `xx` has no target element. -/
theorem C14_targets_come_from_the_display_name_witness :
    elementsByTagNameOfDocument
      ((Project.mk "My Project" [Package.mk "Main" [Container.mk "mission"
        [Key.mk "k1" [Translation.mk "Original" "Hi", Translation.mk "xx" "Hallo"]]]]).toXliff
          "xx" "en" true) "target" = [] :=
  C14_targets_come_from_the_display_name.2.2.1 "xx" (by decide) _ "en" true

/-! ## Lemmas on find-or-create -/

theorem modifyFirst_append_last {α : Type} (q : α → Bool) (f : α → α) (l : List α) (a : α)
    (hl : ∀ x ∈ l, q x = false) (ha : q a = true) :
    modifyFirst q f (l ++ [a]) = l ++ [f a] := by
  induction l with
  | nil => simp [modifyFirst, ha]
  | cons x xs ih =>
    have hx : q x = false := hl x (List.mem_cons_self _ _)
    simp [modifyFirst, hx, ih (fun y hy => hl y (List.mem_cons_of_mem _ hy))]

theorem find?_eq_none_of_forall {α : Type} (q : α → Bool) (l : List α)
    (h : ∀ x ∈ l, q x = false) : l.find? q = none := by
  rw [List.find?_eq_none]
  intro x hx
  simp [h x hx]

/-! ## Lemmas on the import of leaves -/

theorem packageSetTranslation_eq_update (p : Package) (container key lang t : String) :
    p.setTranslation container key lang t
      = p.updateContainer container (fun c => c.setTranslation key lang t) := by
  unfold Package.setTranslation Package.updateContainer upsert
  cases findChild Container.objectName p.children container <;> rfl

theorem projectSetTranslation_eq_update (proj : Project) (package container key lang t : String) :
    proj.setTranslation package container key lang t
      = proj.updateContainer package container (fun c => c.setTranslation key lang t) := by
  unfold Project.setTranslation Project.updateContainer upsert
  simp only [packageSetTranslation_eq_update]
  cases findChild Package.objectName proj.children package <;> rfl

theorem packageUpdate_objectName (p : Package) (container : String) (f : Container → Container) :
    (p.updateContainer container f).objectName = p.objectName := rfl

/-! ## Lemmas on the import of a document -/

theorem keySetTranslationQ_some (k : Key) (lang t : String) :
    k.setTranslationQ (some lang) t = k.setTranslation lang t := rfl

theorem projectSetTranslationQ_some (proj : Project) (package container key lang t : String) :
    proj.setTranslationQ (some package) (some container) key (some lang) t
      = proj.setTranslation package container key lang t := rfl

theorem nullIfEmpty_of_ne (s : String) (h : s ≠ "") : nullIfEmpty s = some s := by
  unfold nullIfEmpty
  rw [if_neg (by simpa using h)]

theorem extractKey_leaf (version2 : Bool) (trgLang package container : String)
    (m_prj : Project) (l : XliffLeaf) :
    XliffParser.extractKey trgLang (some (replaceUnderscores package))
        (some (replaceUnderscores container)) m_prj (l.toElement version2)
      = importLeaf (nullIfEmpty (Project.langCodeToString trgLang)) m_prj
          (package, container, l.id, l.source, l.target) := by
  have hid : (l.toElement version2).attribute "id" "" = l.id := by
    simp [XliffLeaf.toElement, QDomNode.attribute]
  have hs : textOf ((l.toElement version2).firstChildElement "source") = l.source := by
    simp [XliffLeaf.toElement, QDomNode.firstChildElement, QDomNode.childNodes,
      QDomNode.isElement, QDomNode.tagName, textOf, QDomNode.text, QDomNode.textOfList]
  have ht : textOf ((l.toElement version2).firstChildElement "target") = l.target.getD "" := by
    cases h : l.target <;>
      simp [XliffLeaf.toElement, QDomNode.firstChildElement, QDomNode.childNodes,
        QDomNode.isElement, QDomNode.tagName, textOf, QDomNode.text, QDomNode.textOfList, h]
  unfold XliffParser.extractKey importLeaf
  simp only [hid, hs, ht]

theorem foldl_flatMap {α β γ : Type} (f : γ → β → γ) (g : α → List β) (l : List α)
    (init : γ) :
    (l.flatMap g).foldl f init = l.foldl (fun acc x => (g x).foldl f acc) init := by
  induction l generalizing init with
  | nil => rfl
  | cons x xs ih => rw [List.flatMap_cons, List.foldl_append, ih, List.foldl_cons]

theorem extractPackage_group (version2 : Bool) (trgLang : String) (m_prj : Project)
    (g : XliffGroup) :
    XliffParser.extractPackage (if !version2 then "group" else "unit")
        (if !version2 then "trans-unit" else "segment") trgLang m_prj (g.toElement version2)
      = importLeaves (nullIfEmpty (Project.langCodeToString trgLang)) m_prj
          (leavesOf [g]) := by
  have hg : (g.toElement version2).attributeQ "id" = some g.id := by
    simp [XliffGroup.toElement, QDomNode.attributeQ]
  have hu : ∀ u : XliffUnit, (u.toElement version2).attributeQ "id" = some u.id := by
    intro u
    simp [XliffUnit.toElement, QDomNode.attributeQ]
  unfold XliffParser.extractPackage importLeaves leavesOf
  simp only [hg, elementsByTagName_group, List.foldl_map, hu, elementsByTagName_unit,
    Option.map_some', extractKey_leaf, List.flatMap_cons, List.flatMap_nil, List.append_nil,
    foldl_flatMap]

theorem foldl_extractPackage (version2 : Bool) (trgLang : String) (m_prj : Project)
    (groups : List XliffGroup) :
    (groups.map (XliffGroup.toElement version2)).foldl
        (XliffParser.extractPackage (if !version2 then "group" else "unit")
          (if !version2 then "trans-unit" else "segment") trgLang) m_prj
      = importLeaves (nullIfEmpty (Project.langCodeToString trgLang)) m_prj
          (leavesOf groups) := by
  rw [List.foldl_map]
  simp only [extractPackage_group]
  unfold importLeaves leavesOf
  rw [foldl_flatMap]
  simp only [List.flatMap_cons, List.flatMap_nil, List.append_nil]

theorem filter_group_elements (version2 : Bool) (groups : List XliffGroup) :
    (groups.map (XliffGroup.toElement version2)).filter
        (fun c => c.isElement && c.tagName == "group")
      = groups.map (XliffGroup.toElement version2) := by
  rw [List.filter_eq_self]
  intro x hx
  obtain ⟨g, _, rfl⟩ := List.mem_map.mp hx
  simp [XliffGroup.toElement, QDomNode.isElement, QDomNode.tagName]

theorem elementsByTagName_file (projectId : String) (groups : List XliffGroup) :
    (QDomNode.element "file" [("id", projectId)]
        (groups.map (XliffGroup.toElement true))).elementsByTagName "group"
      = groups.map (XliffGroup.toElement true) := by
  unfold QDomNode.elementsByTagName
  simp only [QDomNode.descendants]
  rw [filter_descendants_map]
  simp only [group_filter_group]
  exact flatMap_singleton_map _ _

theorem map_isEmpty_eq {α β : Type} (f : α → β) (l : List α) :
    (l.map f).isEmpty = l.isEmpty := by
  cases l <;> rfl

theorem extractV1_xliffRoot (projectId srcLang trgLang : String) (groups : List XliffGroup)
    (m_prj : Project) (hL : XliffParser.supports trgLang = true) :
    XliffParser.extractV1 m_prj (xliffRoot false projectId srcLang trgLang groups)
      = if groups.isEmpty then m_prj
        else importLeaves (nullIfEmpty (Project.langCodeToString trgLang))
          { m_prj with objectName := XliffParser.projectName projectId }
          (leavesOf groups) := by
  have hne : trgLang ≠ "" := by
    intro h
    rw [h, supports_empty] at hL
    exact Bool.noConfusion hL
  have hne2 : (trgLang == "") = false := by simpa using hne
  have hfile : (xliffRoot false projectId srcLang trgLang groups).firstChildElement "file"
      = some (xliffFile false projectId srcLang trgLang groups) := rfl
  have htl : attributeOf (some (xliffFile false projectId srcLang trgLang groups))
      "target-language" = trgLang := by
    simp [attributeOf, xliffFile, QDomNode.attribute, hne]
  have horig : attributeOf (some (xliffFile false projectId srcLang trgLang groups))
      "original" = projectId := rfl
  have hpk : childElementsOf ((some (xliffFile false projectId srcLang trgLang groups)).bind
      (fun f => f.firstChildElement "body")) "group"
        = groups.map (XliffGroup.toElement false) :=
    filter_group_elements false groups
  unfold XliffParser.extractV1
  simp only [hfile, htl, horig, hpk, map_isEmpty_eq, hne2, hL, Bool.not_true,
    Bool.false_eq_true, if_false]
  have h := foldl_extractPackage false trgLang
    { m_prj with objectName := XliffParser.projectName projectId } groups
  simp only [Bool.not_false, if_true] at h
  rw [h]

theorem extractV2_xliffRoot (projectId srcLang trgLang : String) (groups : List XliffGroup)
    (m_prj : Project) (hL : XliffParser.supports trgLang = true) :
    XliffParser.extractV2 m_prj (xliffRoot true projectId srcLang trgLang groups) trgLang
        srcLang
      = if groups.isEmpty then m_prj
        else importLeaves (nullIfEmpty (Project.langCodeToString trgLang))
          { m_prj with objectName := XliffParser.projectName projectId }
          (leavesOf groups) := by
  have hne : trgLang ≠ "" := by
    intro h
    rw [h, supports_empty] at hL
    exact Bool.noConfusion hL
  have hne2 : (trgLang == "") = false := by simpa using hne
  have hfile : (xliffRoot true projectId srcLang trgLang groups).firstChildElement "file"
      = some (xliffFile true projectId srcLang trgLang groups) := rfl
  have hid : attributeOf (some (xliffFile true projectId srcLang trgLang groups)) "id"
      = projectId := rfl
  have hpk : elementsByTagNameOf (some (xliffFile true projectId srcLang trgLang groups))
      "group" = groups.map (XliffGroup.toElement true) :=
    elementsByTagName_file projectId groups
  unfold XliffParser.extractV2
  simp only [hfile, hid, hpk, map_isEmpty_eq, hne2, hL, Bool.not_true,
    Bool.false_eq_true, if_false]
  have h := foldl_extractPackage true trgLang
    { m_prj with objectName := XliffParser.projectName projectId } groups
  simp only [Bool.not_true, Bool.false_eq_true, if_false] at h
  rw [h]

/-- The import of the document of the specification for a supported target language: the
`setTranslation` calls for the groups, after the Project has got the project name; a
document without a group changes nothing. -/
theorem extract_xliffDocument (version2 : Bool) (projectId srcLang trgLang : String)
    (groups : List XliffGroup) (m_prj : Project) (hL : XliffParser.supports trgLang = true) :
    XliffParser.extract m_prj (xliffDocument version2 projectId srcLang trgLang groups)
      = if groups.isEmpty then m_prj
        else importLeaves (nullIfEmpty (Project.langCodeToString trgLang))
          { m_prj with objectName := XliffParser.projectName projectId }
          (leavesOf groups) := by
  cases version2
  · rw [← extractV1_xliffRoot projectId srcLang trgLang groups m_prj hL]
    rfl
  · rw [← extractV2_xliffRoot projectId srcLang trgLang groups m_prj hL]
    rfl

/-! ## The claim on the import of the leaves -/

theorem map_modifyFirst_of_preserved {α β : Type} (q : α → Bool) (f : α → α) (obs : α → β)
    (hf : ∀ x, obs (f x) = obs x) (l : List α) :
    (modifyFirst q f l).map obs = l.map obs := by
  induction l with
  | nil => rfl
  | cons x xs ih =>
    by_cases hx : q x = true
    · simp [modifyFirst, hx, hf]
    · simp [modifyFirst, hx, ih]

/-- The names of a child list after find-or-create: the name is added when no child has
it. -/
theorem mem_map_upsert {α : Type} (name : α → String) (mk : String → α) (n : String)
    (f : α → α) (l : List α) (hf : ∀ x, name (f x) = name x) (hmk : name (mk n) = n)
    (m : String) : m ∈ (upsert name mk n f l).map name ↔ m ∈ l.map name ∨ m = n := by
  unfold upsert
  cases hfind : findChild name l n with
  | none => simp [hf, hmk]
  | some y =>
    simp only
    rw [map_modifyFirst_of_preserved _ f name hf l]
    constructor
    · exact Or.inl
    · rintro (h | h)
      · exact h
      · subst h
        unfold findChild at hfind
        have h1 := List.mem_of_find?_eq_some hfind
        have h2 := List.find?_some hfind
        have h3 : name y = m := by simpa using h2
        rw [← h3]
        exact List.mem_map_of_mem name h1

theorem mem_pathsOf (ps : List Package) (P C : String) :
    (P, C) ∈ pathsOf ps ↔ ∃ p ∈ ps, p.objectName = P ∧ C ∈ p.children.map Container.objectName := by
  unfold pathsOf
  simp only [List.mem_flatMap, List.mem_map, Prod.mk.injEq]
  constructor
  · rintro ⟨p, hp, c, hc, h1, h2⟩
    exact ⟨p, hp, h1, c, hc, h2⟩
  · rintro ⟨p, hp, h1, c, hc, h2⟩
    exact ⟨p, hp, c, hc, h1, h2⟩

theorem mem_pathsOf_modifyFirst (package container : String) (F : Package → Package)
    (hF1 : ∀ p, (F p).objectName = p.objectName)
    (hF2 : ∀ p m, m ∈ (F p).children.map Container.objectName
      ↔ m ∈ p.children.map Container.objectName ∨ m = container)
    (l : List Package) (y : Package)
    (hfind : l.find? (fun p => p.objectName == package) = some y) (P C : String) :
    (P, C) ∈ pathsOf (modifyFirst (fun p => p.objectName == package) F l)
      ↔ (P, C) ∈ pathsOf l ∨ (P = package ∧ C = container) := by
  induction l with
  | nil => simp at hfind
  | cons x xs ih =>
    by_cases hx : (x.objectName == package) = true
    · have hxn : x.objectName = package := by simpa using hx
      simp only [modifyFirst, hx, if_true, mem_pathsOf, List.mem_cons, exists_eq_or_imp, hF1,
        hF2]
      constructor
      · rintro (⟨h1, h2 | h2⟩ | h)
        · exact Or.inl (Or.inl ⟨h1, h2⟩)
        · exact Or.inr ⟨h1.symm.trans hxn, h2⟩
        · exact Or.inl (Or.inr h)
      · rintro ((⟨h1, h2⟩ | h) | ⟨h1, h2⟩)
        · exact Or.inl ⟨h1, Or.inl h2⟩
        · exact Or.inr h
        · exact Or.inl ⟨hxn.trans h1.symm, Or.inr h2⟩
    · have hfind2 : xs.find? (fun p => p.objectName == package) = some y := by
        simpa [List.find?_cons, hx] using hfind
      have ih2 := ih hfind2
      simp only [mem_pathsOf] at ih2
      simp only [modifyFirst, hx, Bool.false_eq_true, if_false, mem_pathsOf, List.mem_cons,
        exists_eq_or_imp]
      rw [ih2]
      exact or_assoc.symm

/-- The paths of a tree after one find-or-create of a Container. -/
theorem mem_paths_updateContainer (proj : Project) (package container : String)
    (f : Container → Container) (hf : ∀ c, (f c).objectName = c.objectName) (P C : String) :
    (P, C) ∈ (proj.updateContainer package container f).paths
      ↔ (P, C) ∈ proj.paths ∨ (P = package ∧ C = container) := by
  have hF2 : ∀ (p : Package) (m : String),
      m ∈ (p.updateContainer container f).children.map Container.objectName
        ↔ m ∈ p.children.map Container.objectName ∨ m = container := by
    intro p m
    exact mem_map_upsert Container.objectName (fun n => Container.mk n []) container f
      p.children hf rfl m
  unfold Project.paths Project.updateContainer upsert
  cases hfind : findChild Package.objectName proj.children package with
  | none =>
    simp only [mem_pathsOf, List.mem_append, List.mem_singleton]
    constructor
    · rintro ⟨p, hp | hp, h1, h2⟩
      · exact Or.inl ⟨p, hp, h1, h2⟩
      · subst hp
        rw [hF2] at h2
        simp only [packageUpdate_objectName] at h1
        rcases h2 with h2 | h2
        · simp at h2
        · exact Or.inr ⟨h1.symm, h2⟩
    · rintro (⟨p, hp, h1, h2⟩ | ⟨h1, h2⟩)
      · exact ⟨p, Or.inl hp, h1, h2⟩
      · refine ⟨_, Or.inr rfl, ?_, ?_⟩
        · exact h1.symm
        · rw [hF2]
          exact Or.inr h2
  | some y =>
    exact mem_pathsOf_modifyFirst package container _
      (fun p => packageUpdate_objectName p container f) hF2 proj.children y hfind P C

theorem containerSetTranslationQ_objectName (c : Container) (key : String)
    (lang : Option String) (t : String) :
    (c.setTranslationQ key lang t).objectName = c.objectName := by
  unfold Container.setTranslationQ
  split <;> rfl

theorem packageSetTranslationQ_eq_update (p : Package) (container key : String)
    (lang : Option String) (t : String) :
    p.setTranslationQ (some container) key lang t
      = p.updateContainer container (fun c => c.setTranslationQ key lang t) := by
  unfold Package.setTranslationQ Package.updateContainer upsert findChildQ findChild
  simp only [nameIs]
  cases List.find? (fun c => c.objectName == container) p.children <;> rfl

theorem projectSetTranslationQ_eq_update (proj : Project) (package container key : String)
    (lang : Option String) (t : String) :
    proj.setTranslationQ (some package) (some container) key lang t
      = proj.updateContainer package container (fun c => c.setTranslationQ key lang t) := by
  unfold Project.setTranslationQ Project.updateContainer upsert findChildQ findChild
  simp only [nameIs, packageSetTranslationQ_eq_update]
  cases List.find? (fun p => p.objectName == package) proj.children <;> rfl

theorem mem_paths_setTranslationQ (proj : Project) (package container key : String)
    (lang : Option String) (t : String) (P C : String) :
    (P, C) ∈ (proj.setTranslationQ (some package) (some container) key lang t).paths
      ↔ (P, C) ∈ proj.paths ∨ (P = package ∧ C = container) := by
  rw [projectSetTranslationQ_eq_update]
  exact mem_paths_updateContainer proj package container _
    (fun c => containerSetTranslationQ_objectName c key lang t) P C

theorem mem_paths_importLeaves (lang : Option String)
    (leaves : List (String × String × String × String × Option String)) (prj : Project)
    (P C : String) :
    (P, C) ∈ (importLeaves lang prj leaves).paths
      ↔ (P, C) ∈ prj.paths ∨
        ∃ x ∈ leaves, P = replaceUnderscores x.1 ∧ C = replaceUnderscores x.2.1 := by
  unfold importLeaves
  induction leaves generalizing prj with
  | nil => simp
  | cons x xs ih =>
    rw [List.foldl_cons, ih]
    unfold importLeaf
    rw [mem_paths_setTranslationQ, mem_paths_setTranslationQ]
    simp only [List.mem_cons, exists_eq_or_imp]
    tauto

theorem mem_leavesOf (groups : List XliffGroup)
    (x : String × String × String × String × Option String) :
    x ∈ leavesOf groups ↔
      ∃ g ∈ groups, ∃ u ∈ g.units, ∃ l ∈ u.leaves,
        x = (g.id, u.id, l.id, l.source, l.target) := by
  unfold leavesOf
  simp only [List.mem_flatMap, List.mem_map]
  constructor
  · rintro ⟨g, hg, u, hu, l, hl, rfl⟩
    exact ⟨g, hg, u, hu, l, hl, rfl⟩
  · rintro ⟨g, hg, u, hu, l, hl, rfl⟩
    exact ⟨g, hg, u, hu, l, hl, rfl⟩

/-! ## The claim on the names of the imported Packages and Containers -/

/-- C18, at the input of the claim: a container element with the id `mission_1` yields a
Container named `mission 1`, not `mission_1`, in XLIFF 1.2 and in 2.0. -/
theorem C18_container_id_mission_1_yields_mission_1_with_a_space :
    (XliffParser.extract (Project.mk "" [])
      (xliffDocument false "My_Project" "en" "de"
        [XliffGroup.mk "Main" [XliffUnit.mk "mission_1"
          [XliffLeaf.mk "k1" "Hi" (some "Hallo")]]])).paths = [("Main", "mission 1")] ∧
    (XliffParser.extract (Project.mk "" [])
      (xliffDocument true "My_Project" "en" "de"
        [XliffGroup.mk "Main" [XliffUnit.mk "mission_1"
          [XliffLeaf.mk "k1" "Hi" (some "Hallo")]]])).paths = [("Main", "mission 1")] := by
  decide

/-- C18, amended. On the import of a 1.2 or 2.0 document of the specification with a
supported target code the names of the Packages and Containers are the values of the `id`
attributes with every underscore replaced by a space: the (Package, Container) paths of
the tree after the import are those it had before and, for every unit with a leaf, the
pair of the id of its group and its own id, underscores replaced. -/
theorem C18_names_are_ids_with_underscores_replaced (version2 : Bool)
    (projectId srcLang L : String) (groups : List XliffGroup) (m_prj : Project)
    (hL : XliffParser.supports L = true) (P C : String) :
    (P, C) ∈ (XliffParser.extract m_prj
        (xliffDocument version2 projectId srcLang L groups)).paths
      ↔ (P, C) ∈ m_prj.paths ∨
        ∃ g ∈ groups, ∃ u ∈ g.units,
          u.leaves ≠ [] ∧ P = replaceUnderscores g.id ∧ C = replaceUnderscores u.id := by
  rw [extract_xliffDocument version2 projectId srcLang L groups m_prj hL]
  cases groups with
  | nil => simp
  | cons g gs =>
    simp only [List.isEmpty_cons, Bool.false_eq_true, if_false]
    rw [mem_paths_importLeaves]
    have e : (P, C) ∈ ({ m_prj with objectName := XliffParser.projectName projectId } :
        Project).paths ↔ (P, C) ∈ m_prj.paths := Iff.rfl
    rw [e]
    apply or_congr_right
    constructor
    · rintro ⟨x, hx, h1, h2⟩
      obtain ⟨g2, hg2, u, hu, l, hl, rfl⟩ := (mem_leavesOf _ x).mp hx
      exact ⟨g2, hg2, u, hu, List.ne_nil_of_mem hl, h1, h2⟩
    · rintro ⟨g2, hg2, u, hu, hne, h1, h2⟩
      obtain ⟨l, ls, hls⟩ := List.exists_cons_of_ne_nil hne
      exact ⟨(g2.id, u.id, l.id, l.source, l.target),
        (mem_leavesOf _ _).mpr ⟨g2, hg2, u, hu, l, by rw [hls]; exact List.mem_cons_self _ _, rfl⟩,
        h1, h2⟩

theorem C18_names_are_ids_with_underscores_replaced_witness :
    ("Mod A", "mission 1") ∈ (XliffParser.extract (Project.mk "" [])
      (xliffDocument true "My_Project" "en" "de"
        [XliffGroup.mk "Mod_A" [XliffUnit.mk "mission_1"
          [XliffLeaf.mk "k1" "Hi" (some "Hallo")]]])).paths :=
  (C18_names_are_ids_with_underscores_replaced true "My_Project" "en" "de"
    [XliffGroup.mk "Mod_A" [XliffUnit.mk "mission_1" [XliffLeaf.mk "k1" "Hi" (some "Hallo")]]]
    (Project.mk "" []) (by decide) "Mod A" "mission 1").mpr
    (Or.inr ⟨_, List.mem_singleton.mpr rfl, _, List.mem_singleton.mpr rfl,
      by decide, by decide, by decide⟩)

/-! ## Lemmas on the rejection of a document -/

theorem languageTable_codes :
    languageTable.map (fun e => e.1) = XliffParser.m_supportedLangs := rfl

theorem supports_eq_false (trgLang : String)
    (h : String.mk (caseFold trgLang) ∉ languageTable.map (fun e => e.1)) :
    XliffParser.supports trgLang = false := by
  rw [languageTable_codes] at h
  cases hs : XliffParser.supports trgLang with
  | false => rfl
  | true => exact absurd ((supports_iff trgLang).mp hs) h

theorem extractV1_unsupported (m_prj : Project) (e : QDomNode)
    (h : XliffParser.supports (attributeOf (e.firstChildElement "file") "target-language")
      = false) :
    XliffParser.extractV1 m_prj e = m_prj := by
  unfold XliffParser.extractV1
  simp only [h, Bool.not_false, if_true]
  split <;> rfl

theorem extractV2_unsupported (m_prj : Project) (e : QDomNode) (trgLang srcLang : String)
    (h : XliffParser.supports trgLang = false) :
    XliffParser.extractV2 m_prj e trgLang srcLang = m_prj := by
  unfold XliffParser.extractV2
  simp only [h, Bool.not_false, if_true]
  split <;> rfl

theorem startsWith_unique (s : String) (a b : Char) (ha : startsWith s a = true)
    (hab : a ≠ b) : startsWith s b = false := by
  unfold startsWith at ha ⊢
  cases h : s.toList.head? with
  | none => rfl
  | some c =>
    rw [h] at ha
    have hc : c = a := by simpa using ha
    subst hc
    simpa using hab

/-! ## The claims on the rejection of a document -/

/-- C16, at an input where the claim fails: `DE` is none of the 11 codes and a 2.0
document with `trgLang="DE"` is imported, its target goes to the tag `German`. -/
theorem C16_upper_case_target_language_is_imported :
    "DE" ∉ languageTable.map (fun e => e.1) ∧
    XliffParser.extract (Project.mk "" [])
      (xliffDocument true "My_Project" "en" "DE"
        [XliffGroup.mk "Main" [XliffUnit.mk "mission"
          [XliffLeaf.mk "k1" "Hi" (some "Hallo")]]])
      = Project.mk "My Project" [Package.mk "Main" [Container.mk "mission"
          [Key.mk "k1" [Translation.mk "Original" "Hi", Translation.mk "German" "Hallo"]]]] := by
  decide

/-- C16, amended. For every document with root element `x`: if the version starts with
`1` and the `target-language` of the first `file` element is missing, empty or, with its
letters folded as `Qt::CaseInsensitive` folds them (`caseFold`: A to Z, U+017F to `s`,
U+212A to `k`), none of the 11 codes, or if the version starts with `2` and the
`trgLang` of the root is missing, empty or, folded, none of the 11 codes, then `extract`
returns the Project unchanged: no translation is added, changed or removed and the name
stays. -/
theorem C16_unsupported_target_language_changes_nothing (m_prj : Project)
    (xliff : List QDomNode) (x : QDomNode) (hx : documentElement xliff = some x) :
    (startsWith (x.attribute "version" "") '1' = true →
      String.mk (caseFold (attributeOf (x.firstChildElement "file") "target-language"))
        ∉ languageTable.map (fun e => e.1) →
      XliffParser.extract m_prj xliff = m_prj) ∧
    (startsWith (x.attribute "version" "") '2' = true →
      String.mk (caseFold (x.attribute "trgLang" "")) ∉ languageTable.map (fun e => e.1) →
      XliffParser.extract m_prj xliff = m_prj) := by
  constructor
  · intro hv hl
    have hv2 := startsWith_unique _ '1' '2' hv (by decide)
    unfold XliffParser.extract
    rw [hx]
    simp only [hv, hv2, Bool.or_false, if_true, Bool.false_eq_true, if_false,
      extractV1_unsupported m_prj x (supports_eq_false _ hl)]
    split
    · rfl
    · split <;> rfl
  · intro hv hl
    unfold XliffParser.extract
    rw [hx]
    simp only [hv, Bool.or_true, if_true,
      extractV2_unsupported m_prj x _ _ (supports_eq_false _ hl)]
    split
    · rfl
    · split <;> rfl

/-- C16, amended: witness, a 2.0 document with `trgLang="xx"` leaves the Project as it
is. -/
theorem C16_unsupported_target_language_changes_nothing_witness :
    XliffParser.extract
      (Project.mk "My Project" [Package.mk "Main" [Container.mk "mission"
        [Key.mk "k1" [Translation.mk "Original" "Hi"]]]])
      (xliffDocument true "Other" "en" "xx"
        [XliffGroup.mk "Main" [XliffUnit.mk "mission"
          [XliffLeaf.mk "k1" "Hello" (some "Hallo")]]])
      = Project.mk "My Project" [Package.mk "Main" [Container.mk "mission"
        [Key.mk "k1" [Translation.mk "Original" "Hi"]]]] :=
  (C16_unsupported_target_language_changes_nothing _
    (xliffDocument true "Other" "en" "xx"
      [XliffGroup.mk "Main" [XliffUnit.mk "mission"
        [XliffLeaf.mk "k1" "Hello" (some "Hallo")]]])
    (xliffRoot true "Other" "en" "xx"
      [XliffGroup.mk "Main" [XliffUnit.mk "mission"
        [XliffLeaf.mk "k1" "Hello" (some "Hallo")]]])
    rfl).2 (by decide) (by decide)

/-- C17, at the failing input, and the part of the claim that holds. A document whose
root has `version="10.0"` is imported as a 1.x document; a document whose version
attribute is missing or starts with another character than `1` or `2` (as `3.0` and
`0.9` do) leaves the Project unchanged. -/
theorem C17_version_10_is_imported :
    XliffParser.extract (Project.mk "" [])
      [xmlDeclaration,
        QDomNode.element "xliff" [("version", "10.0")]
          [xliffFile false "My_Project" "en" "de"
            [XliffGroup.mk "Main" [XliffUnit.mk "mission"
              [XliffLeaf.mk "k1" "Hi" (some "Hallo")]]]]]
      = Project.mk "My Project" [Package.mk "Main" [Container.mk "mission"
          [Key.mk "k1" [Translation.mk "Original" "Hi", Translation.mk "German" "Hallo"]]]] ∧
    ∀ (m_prj : Project) (xliff : List QDomNode),
      (∀ x, documentElement xliff = some x →
        startsWith (x.attribute "version" "") '1' = false ∧
        startsWith (x.attribute "version" "") '2' = false) →
      XliffParser.extract m_prj xliff = m_prj := by
  refine ⟨by decide, ?_⟩
  intro m_prj xliff h
  unfold XliffParser.extract
  cases hx : documentElement xliff with
  | none => rfl
  | some x =>
    obtain ⟨h1, h2⟩ := h x hx
    simp only [h1, h2, Bool.or_false, Bool.false_eq_true, if_false]
    split
    · rfl
    · split <;> rfl

theorem C17_version_10_is_imported_witness :
    XliffParser.extract (Project.mk "Mine" [])
      [QDomNode.element "xliff" [("version", "3.0")]
        [xliffFile false "My_Project" "en" "de"
          [XliffGroup.mk "Main" [XliffUnit.mk "mission"
            [XliffLeaf.mk "k1" "Hi" (some "Hallo")]]]]]
      = Project.mk "Mine" [] :=
  C17_version_10_is_imported.2 _ _ (fun x hx => by
    have : x = QDomNode.element "xliff" [("version", "3.0")]
        [xliffFile false "My_Project" "en" "de"
          [XliffGroup.mk "Main" [XliffUnit.mk "mission"
            [XliffLeaf.mk "k1" "Hi" (some "Hallo")]]]] :=
      (Option.some.inj hx).symm
    subst this
    exact ⟨by decide, by decide⟩)

/-! ## Lemmas on the ids of an export -/

theorem simplifiedFrom_of_noSpace (emitted : Bool) (l : List Char)
    (h : ∀ c ∈ l, isQtSpace c = false) : simplifiedFrom emitted false l = l := by
  induction l generalizing emitted with
  | nil => rfl
  | cons c cs ih =>
    have hc := h c (List.mem_cons_self _ _)
    simp [simplifiedFrom, hc, ih true (fun d hd => h d (List.mem_cons_of_mem _ hd))]

theorem map_eq_self_of_forall {α : Type} (f : α → α) (l : List α) (h : ∀ x ∈ l, f x = x) :
    l.map f = l := by
  induction l with
  | nil => rfl
  | cons x xs ih =>
    rw [List.map_cons, h x (List.mem_cons_self _ _),
      ih (fun y hy => h y (List.mem_cons_of_mem _ hy))]

/-- The id written for an identifier without whitespace is the identifier. -/
theorem xliffId_of_noSpace (s : String) (h : hasNoSpace s = true) : xliffId s = s := by
  unfold hasNoSpace at h
  rw [List.all_eq_true] at h
  have hs : ∀ c ∈ s.toList, isQtSpace c = false := by
    intro c hc
    simpa using h c hc
  have h1 : simplified s = s := by
    unfold simplified
    rw [simplifiedFrom_of_noSpace false _ hs]
    rfl
  have hm : s.toList.map (fun c => if c = ' ' then '_' else c) = s.toList := by
    apply map_eq_self_of_forall
    intro c hc
    have : c ≠ ' ' := by
      intro heq
      have := hs c hc
      rw [heq] at this
      exact absurd this (by decide)
    simp [this]
  unfold xliffId replaceSpaces
  rw [h1, hm]
  rfl

/-- Reading back the id written for a name of single-spaced words without underscores
gives the name. -/
theorem replaceUnderscores_xliffId (s : String) (h : isPlainName s = true) :
    replaceUnderscores (xliffId s) = s := by
  unfold isPlainName at h
  rw [Bool.and_eq_true] at h
  obtain ⟨h1, h2⟩ := h
  have h1' : simplified s = s := by simpa using h1
  have h2' : ∀ c ∈ s.toList, c ≠ '_' := by
    intro c hc heq
    subst heq
    simp only [Bool.not_eq_true', List.contains_eq_any_beq, List.any_eq_false, beq_iff_eq] at h2
    exact h2 _ hc rfl
  have hm : s.toList.map ((fun c => if c = '_' then ' ' else c) ∘
      (fun c => if c = ' ' then '_' else c)) = s.toList := by
    apply map_eq_self_of_forall
    intro c hc
    have hcu := h2' c hc
    by_cases hsp : c = ' '
    · subst hsp
      decide
    · simp [hsp, hcu]
  unfold xliffId replaceSpaces replaceUnderscores
  rw [h1', toList_mk, List.map_map, hm]
  rfl

/-! ## Lemmas on the orphan pass -/

theorem findKeysRecursively_names (proj : Project) (key : String) :
    (proj.findKeysRecursively key).map (fun x => x.2.2.objectName)
      = proj.keyNames.filter (fun n => regexHasMatch key n) := by
  unfold Project.findKeysRecursively Project.keyNames
  simp only [map_flatMap_eq, List.filter_flatMap, List.map_map, List.filter_map]
  rfl

theorem selectsNone_iff (proj : Project) (key : String) :
    proj.selectsNone key = true ↔ ∀ n ∈ proj.keyNames, regexHasMatch key n = false := by
  unfold Project.selectsNone
  have h := findKeysRecursively_names proj key
  constructor
  · intro he n hn
    have hnil : proj.findKeysRecursively key = [] := by simpa using he
    rw [hnil] at h
    cases hm : regexHasMatch key n with
    | false => rfl
    | true =>
      have : n ∈ proj.keyNames.filter (fun n => regexHasMatch key n) :=
        List.mem_filter.mpr ⟨hn, hm⟩
      rw [← h] at this
      simp at this
  · intro hall
    have hf : proj.keyNames.filter (fun n => regexHasMatch key n) = [] := by
      rw [List.filter_eq_nil_iff]
      intro n hn
      simp [hall n hn]
    rw [hf] at h
    cases hk : proj.findKeysRecursively key with
    | nil => rfl
    | cons a as => rw [hk] at h; simp at h

theorem mem_modifyFirst_or {α : Type} (q : α → Bool) (f : α → α) (l : List α) (y : α)
    (hy : y ∈ l) : y ∈ modifyFirst q f l ∨ f y ∈ modifyFirst q f l := by
  induction l with
  | nil => simp at hy
  | cons a as ih =>
    by_cases ha : q a = true
    · rw [modifyFirst, if_pos ha]
      rcases List.mem_cons.mp hy with h | h
      · subst h
        exact Or.inr (List.mem_cons_self _ _)
      · exact Or.inl (List.mem_cons_of_mem _ h)
    · rw [modifyFirst, if_neg ha]
      rcases List.mem_cons.mp hy with h | h
      · subst h
        exact Or.inl (List.mem_cons_self _ _)
      · rcases ih h with h2 | h2
        · exact Or.inl (List.mem_cons_of_mem _ h2)
        · exact Or.inr (List.mem_cons_of_mem _ h2)

theorem packageSetTranslationQ_eq_upsertQ (p : Package) (container : Option String)
    (key : String) (lang : Option String) (t : String) :
    p.setTranslationQ container key lang t
      = { p with
          children :=
            upsertQ Container.objectName (fun n => Container.mk n []) container
              (fun c => c.setTranslationQ key lang t) p.children } := by
  unfold Package.setTranslationQ upsertQ
  cases findChildQ Container.objectName p.children container <;> rfl

theorem projectSetTranslationQ_eq_upsertQ (proj : Project) (package container : Option String)
    (key : String) (lang : Option String) (t : String) :
    proj.setTranslationQ package container key lang t
      = { proj with
          children :=
            upsertQ Package.objectName (fun n => Package.mk n []) package
              (fun p => p.setTranslationQ container key lang t) proj.children } := by
  unfold Project.setTranslationQ upsertQ
  cases findChildQ Package.objectName proj.children package <;> rfl

theorem keySetTranslationQ_objectName (k : Key) (lang : Option String) (t : String) :
    (k.setTranslationQ lang t).objectName = k.objectName := by
  unfold Key.setTranslationQ
  split <;> split <;> rfl

theorem flatMap_upsertQ_mono {α β : Type} (name : α → String) (mk : String → α)
    (n : Option String) (f : α → α) (l : List α) (obs : α → List β)
    (ha : ∀ x m, m ∈ obs x → m ∈ obs (f x)) (m : β) (hm : m ∈ l.flatMap obs) :
    m ∈ (upsertQ name mk n f l).flatMap obs := by
  obtain ⟨x, hx, hmx⟩ := List.mem_flatMap.mp hm
  unfold upsertQ
  cases findChildQ name l n with
  | none => exact List.mem_flatMap.mpr ⟨x, List.mem_append_left _ hx, hmx⟩
  | some _ =>
    rcases mem_modifyFirst_or (fun x => nameIs n (name x)) f l x hx with h | h
    · exact List.mem_flatMap.mpr ⟨x, h, hmx⟩
    · exact List.mem_flatMap.mpr ⟨f x, h, ha x m hmx⟩

theorem flatMap_upsertQ_bound {α β : Type} (name : α → String) (mk : String → α)
    (n : Option String) (f : α → α) (l : List α) (obs : α → List β) (S : β → Prop)
    (hb : ∀ x m, m ∈ obs (f x) → m ∈ obs x ∨ S m) (hmk : obs (mk (n.getD "")) = []) (m : β)
    (hm : m ∈ (upsertQ name mk n f l).flatMap obs) : m ∈ l.flatMap obs ∨ S m := by
  unfold upsertQ at hm
  cases hfind : findChildQ name l n with
  | none =>
    rw [hfind] at hm
    obtain ⟨x, hx, hmx⟩ := List.mem_flatMap.mp hm
    rcases List.mem_append.mp hx with h | h
    · exact Or.inl (List.mem_flatMap.mpr ⟨x, h, hmx⟩)
    · rw [List.mem_singleton] at h
      subst h
      rcases hb _ m hmx with h2 | h2
      · rw [hmk] at h2
        simp at h2
      · exact Or.inr h2
  | some y =>
    rw [hfind] at hm
    obtain ⟨x, hx, hmx⟩ := List.mem_flatMap.mp hm
    rcases mem_modifyFirst _ _ _ _ hx with h | ⟨z, hz, rfl⟩
    · exact Or.inl (List.mem_flatMap.mpr ⟨x, h, hmx⟩)
    · rcases hb z m hmx with h2 | h2
      · exact Or.inl (List.mem_flatMap.mpr ⟨z, hz, h2⟩)
      · exact Or.inr h2

theorem containerSetTranslationQ_names_mono (c : Container) (key : String)
    (lang : Option String) (t : String) (m : String)
    (hm : m ∈ c.children.map Key.objectName) :
    m ∈ (c.setTranslationQ key lang t).children.map Key.objectName := by
  unfold Container.setTranslationQ
  split
  · simp only [List.map_append, List.mem_append]
    exact Or.inl hm
  · simp only
    rw [map_modifyFirst_of_preserved _ _ Key.objectName
      (fun k => keySetTranslationQ_objectName k lang t)]
    exact hm

theorem containerSetTranslationQ_names_bound (c : Container) (key : String)
    (lang : Option String) (t : String) (m : String)
    (hm : m ∈ (c.setTranslationQ key lang t).children.map Key.objectName) :
    m ∈ c.children.map Key.objectName ∨ m = key := by
  unfold Container.setTranslationQ at hm
  split at hm
  · simp only [List.map_append, List.mem_append, List.map_cons, List.map_nil,
      List.mem_singleton, keySetTranslationQ_objectName] at hm
    exact hm
  · simp only at hm
    rw [map_modifyFirst_of_preserved _ _ Key.objectName
      (fun k => keySetTranslationQ_objectName k lang t)] at hm
    exact Or.inl hm

theorem keyNames_setTranslationQ_mono (proj : Project) (package container : Option String)
    (key : String) (lang : Option String) (t : String) (m : String)
    (hm : m ∈ proj.keyNames) :
    m ∈ (proj.setTranslationQ package container key lang t).keyNames := by
  rw [projectSetTranslationQ_eq_upsertQ]
  unfold Project.keyNames at *
  dsimp only
  apply flatMap_upsertQ_mono _ _ _ _ _ _ _ m hm
  intro p m2 hm2
  rw [packageSetTranslationQ_eq_upsertQ]
  dsimp only
  exact flatMap_upsertQ_mono _ _ _ _ _ _
    (fun c m3 hm3 => containerSetTranslationQ_names_mono c key lang t m3 hm3) m2 hm2

theorem keyNames_setTranslationQ_bound (proj : Project) (package container : Option String)
    (key : String) (lang : Option String) (t : String) (m : String)
    (hm : m ∈ (proj.setTranslationQ package container key lang t).keyNames) :
    m ∈ proj.keyNames ∨ m = key := by
  rw [projectSetTranslationQ_eq_upsertQ] at hm
  unfold Project.keyNames at *
  dsimp only at hm
  apply flatMap_upsertQ_bound Package.objectName (fun n => Package.mk n []) package _ _ _
    (fun m => m = key) _ rfl m hm
  intro p m2 hm2
  rw [packageSetTranslationQ_eq_upsertQ] at hm2
  dsimp only at hm2
  exact flatMap_upsertQ_bound Container.objectName (fun n => Container.mk n []) container _ _ _
    (fun m => m = key)
    (fun c m3 hm3 => containerSetTranslationQ_names_bound c key lang t m3 hm3) rfl m2 hm2

theorem keyNames_foldl_setTranslationQ (package container : Option String) (key : String)
    (ts : List Translation) (proj : Project) :
    (∀ m ∈ proj.keyNames,
      m ∈ (ts.foldl (fun sp t => sp.setTranslationQ package container key
        (nullIfEmpty t.objectName) t.string) proj).keyNames) ∧
    (∀ m ∈ (ts.foldl (fun sp t => sp.setTranslationQ package container key
        (nullIfEmpty t.objectName) t.string) proj).keyNames, m ∈ proj.keyNames ∨ m = key) := by
  induction ts generalizing proj with
  | nil => exact ⟨fun m hm => hm, fun m hm => Or.inl hm⟩
  | cons t ts ih =>
    rw [List.foldl_cons]
    have ih2 := ih (proj.setTranslationQ package container key (nullIfEmpty t.objectName)
      t.string)
    constructor
    · intro m hm
      exact ih2.1 m (keyNames_setTranslationQ_mono _ _ _ _ _ _ m hm)
    · intro m hm
      rcases ih2.2 m hm with h | h
      · exact keyNames_setTranslationQ_bound _ _ _ _ _ _ m h
      · exact Or.inr h

/-- The copy loop of `findLonelyTranslation` for a reference Key whose Package, Container
and tags have non-empty names: no name is null. -/
theorem foldl_setTranslationQ_of_named (p c key : String) (hp : p ≠ "") (hc : c ≠ "")
    (ts : List Translation) (hts : ∀ t ∈ ts, t.objectName ≠ "") (proj : Project) :
    ts.foldl (fun sp t => sp.setTranslationQ (nullIfEmpty p) (nullIfEmpty c) key
        (nullIfEmpty t.objectName) t.string) proj
      = ts.foldl (fun sp t => sp.setTranslation p c key t.objectName t.string) proj := by
  rw [nullIfEmpty_of_ne p hp, nullIfEmpty_of_ne c hc]
  induction ts generalizing proj with
  | nil => rfl
  | cons t ts ih =>
    rw [List.foldl_cons, List.foldl_cons,
      nullIfEmpty_of_ne _ (hts t (List.mem_cons_self _ _)), projectSetTranslationQ_some]
    exact ih (fun s hs => hts s (List.mem_cons_of_mem _ hs)) _

theorem mem_keyNames_of_found (proj : Project) (key : String) (x : String × String × Key)
    (hx : x ∈ proj.findKeysRecursively key) : x.2.2.objectName ∈ proj.keyNames := by
  have h : x.2.2.objectName ∈ (proj.findKeysRecursively key).map (fun x => x.2.2.objectName) :=
    List.mem_map_of_mem (fun x => x.2.2.objectName) hx
  rw [findKeysRecursively_names] at h
  exact (List.mem_filter.mp h).1

/-- One call of `findLonelyTranslation`: a diagnostic is written exactly when the lookup of
the identifier selects no Key in the output tree and none in the reference tree, and then
the output tree is unchanged; the Key identifiers of the output tree stay, and every new
one is an identifier of the reference tree. -/
theorem findLonelyTranslation_spec (m_st : Project) (acc : Project × List (Nat × String))
    (key : String) (lineNumber : Nat) :
    (findLonelyTranslation m_st acc key lineNumber).2
      = acc.2 ++ (if acc.1.selectsNone key && m_st.selectsNone key then [(lineNumber, key)]
          else []) ∧
    (∀ m ∈ acc.1.keyNames, m ∈ (findLonelyTranslation m_st acc key lineNumber).1.keyNames) ∧
    (∀ m ∈ (findLonelyTranslation m_st acc key lineNumber).1.keyNames,
      m ∈ acc.1.keyNames ∨ m ∈ m_st.keyNames) ∧
    ((acc.1.selectsNone key && m_st.selectsNone key) = true →
      (findLonelyTranslation m_st acc key lineNumber).1 = acc.1) := by
  unfold findLonelyTranslation Project.selectsNone
  cases hsp : (acc.1.findKeysRecursively key).isEmpty with
  | false =>
    simp only [Bool.false_eq_true, if_false, Bool.false_and, List.append_nil]
    exact ⟨trivial, fun m hm => hm, fun m hm => Or.inl hm, fun h => absurd h (by simp)⟩
  | true =>
    simp only [if_true, Bool.true_and]
    cases hst : m_st.findKeysRecursively key with
    | nil =>
      simp only [List.isEmpty_nil, if_true]
      exact ⟨trivial, fun m hm => hm, fun m hm => Or.inl hm, fun _ => trivial⟩
    | cons x xs =>
      obtain ⟨p, c, k⟩ := x
      have hk : k.objectName ∈ m_st.keyNames :=
        mem_keyNames_of_found m_st key (p, c, k) (by rw [hst]; exact List.mem_cons_self _ _)
      have hfold := keyNames_foldl_setTranslationQ (nullIfEmpty p) (nullIfEmpty c)
        k.objectName k.children acc.1
      simp only [List.isEmpty_cons, Bool.false_eq_true, if_false, List.append_nil]
      refine ⟨trivial, hfold.1, ?_, fun h => absurd h (by simp)⟩
      intro m hm
      rcases hfold.2 m hm with h | h
      · exact Or.inl h
      · rw [h]
        exact Or.inr hk

theorem lonelyPass_eq_foldl (m_st : Project) (lines : List String) (lineNumber : Nat)
    (acc : Project × List (Nat × String)) :
    lonelyPass m_st lineNumber lines acc
      = (occurrencesFrom lineNumber lines).foldl
          (fun a o => findLonelyTranslation m_st a o.2 o.1) acc := by
  induction lines generalizing lineNumber acc with
  | nil => rfl
  | cons line rest ih =>
    rw [lonelyPass, occurrencesFrom, List.foldl_append, List.foldl_map, ih]

theorem selectsNone_of_names (m_st sp0 sp : Project) (key : String)
    (h1 : ∀ m ∈ sp0.keyNames, m ∈ sp.keyNames)
    (h2 : ∀ m ∈ sp.keyNames, m ∈ sp0.keyNames ∨ m ∈ m_st.keyNames) :
    (sp.selectsNone key && m_st.selectsNone key)
      = (sp0.selectsNone key && m_st.selectsNone key) := by
  cases hst : m_st.selectsNone key with
  | false => simp
  | true =>
    simp only [Bool.and_true]
    rw [Bool.eq_iff_iff, selectsNone_iff, selectsNone_iff]
    rw [selectsNone_iff] at hst
    constructor
    · intro h n hn
      exact h n (h1 n hn)
    · intro h n hn
      rcases h2 n hn with h3 | h3
      · exact h n h3
      · exact hst n h3

theorem foldl_findLonelyTranslation (m_st sp0 : Project) (occs : List (Nat × String))
    (acc : Project × List (Nat × String))
    (h1 : ∀ m ∈ sp0.keyNames, m ∈ acc.1.keyNames)
    (h2 : ∀ m ∈ acc.1.keyNames, m ∈ sp0.keyNames ∨ m ∈ m_st.keyNames) :
    (occs.foldl (fun a o => findLonelyTranslation m_st a o.2 o.1) acc).2
      = acc.2 ++ occs.filter (fun o => sp0.selectsNone o.2 && m_st.selectsNone o.2) := by
  induction occs generalizing acc with
  | nil => simp
  | cons o os ih =>
    obtain ⟨hd, hmono, hbound, _⟩ := findLonelyTranslation_spec m_st acc o.2 o.1
    rw [List.foldl_cons, ih _ (fun m hm => hmono m (h1 m hm))
      (fun m hm => by
        rcases hbound m hm with h | h
        · exact h2 m h
        · exact Or.inr h),
      hd, selectsNone_of_names m_st sp0 acc.1 o.2 h1 h2, List.filter_cons]
    cases sp0.selectsNone o.2 && m_st.selectsNone o.2 <;> simp

/-! ## The claim on the orphan diagnostics -/

/-- C20, at the failing input, and the part of the claim that holds. The script defines
the Key `str_hello_world` in its first line and refers to `str_hello` in its second line;
the reference tree is empty. No Key has the identifier `str_hello`, yet the pass writes
no diagnostic for line 2, because the recursive lookup of `str_hello` selects
`str_hello_world`. In general the diagnostics of the pass are, in order, the occurrences
of the pattern whose lookup selects no Key in the output tree and none in the reference
tree, each once with its identifier and the 1-based number of its line; and the call for
such an occurrence leaves the output tree unchanged. -/
theorem C20_identifier_inside_a_longer_key_gets_no_diagnostic :
    (occurrencesFrom 0
        ["// TR * * str_hello_world \"Hello\"", "hint localize \"str_hello\";"]
        = [(1, "str_hello_world"), (2, "str_hello")] ∧
      ScriptParser.parse "intro" (Project.mk "Reference" []) (Project.mk "My Project" [])
        ["// TR * * str_hello_world \"Hello\"", "hint localize \"str_hello\";"]
        = (Project.mk "My Project" [Package.mk "Main" [Container.mk "intro"
            [Key.mk "str_hello_world" [Translation.mk "Original" "Hello"]]]], []) ∧
      (∀ n ∈ (Project.mk "My Project" [Package.mk "Main" [Container.mk "intro"
        [Key.mk "str_hello_world" [Translation.mk "Original" "Hello"]]]]).keyNames,
        compareCaseInsensitive n "str_hello" = false)) ∧
    (∀ (m_st sp : Project) (lines : List String),
      (lonelyPass m_st 0 lines (sp, [])).2
        = (occurrencesFrom 0 lines).filter
            (fun o => sp.selectsNone o.2 && m_st.selectsNone o.2)) ∧
    (∀ (m_st : Project) (acc : Project × List (Nat × String)) (key : String)
      (lineNumber : Nat), (acc.1.selectsNone key && m_st.selectsNone key) = true →
      findLonelyTranslation m_st acc key lineNumber
        = (acc.1, acc.2 ++ [(lineNumber, key)])) := by
  refine ⟨by decide, ?_, ?_⟩
  · intro m_st sp lines
    rw [lonelyPass_eq_foldl,
      foldl_findLonelyTranslation m_st sp _ (sp, []) (fun m hm => hm) (fun m hm => Or.inl hm)]
    rfl
  · intro m_st acc key lineNumber h
    obtain ⟨hd, _, _, htree⟩ := findLonelyTranslation_spec m_st acc key lineNumber
    rw [h] at hd
    exact Prod.ext (htree h) hd

theorem C20_identifier_inside_a_longer_key_gets_no_diagnostic_witness :
    findLonelyTranslation (Project.mk "Reference" [])
      (Project.mk "My Project" [Package.mk "Main" [Container.mk "intro"
        [Key.mk "str_hello_world" [Translation.mk "Original" "Hello"]]]], [])
      "str_unknownId" 7
      = (Project.mk "My Project" [Package.mk "Main" [Container.mk "intro"
          [Key.mk "str_hello_world" [Translation.mk "Original" "Hello"]]]],
          [(7, "str_unknownId")]) :=
  C20_identifier_inside_a_longer_key_gets_no_diagnostic.2.2 _ _ _ _ (by decide)

/-! ## Lemmas on the properties that `setTranslation` keeps -/

theorem forall_mem_modifyFirst {α : Type} (q : α → Bool) (f : α → α) (Q : α → Prop)
    (l : List α) (hl : ∀ x ∈ l, Q x) (hf : ∀ x, Q x → Q (f x)) :
    ∀ x ∈ modifyFirst q f l, Q x := by
  intro x hx
  rcases mem_modifyFirst q f l x hx with h | ⟨y, hy, rfl⟩
  · exact hl x h
  · exact hf y (hl y hy)

theorem forall_mem_upsert {α : Type} (name : α → String) (mk : String → α) (n : String)
    (f : α → α) (Q : α → Prop) (l : List α) (hl : ∀ x ∈ l, Q x) (hf : ∀ x, Q x → Q (f x))
    (hmk : Q (f (mk n))) : ∀ x ∈ upsert name mk n f l, Q x := by
  unfold upsert
  cases findChild name l n with
  | none =>
    intro x hx
    rcases List.mem_append.mp hx with h | h
    · exact hl x h
    · rw [List.mem_singleton.mp h]; exact hmk
  | some _ => exact forall_mem_modifyFirst _ f Q l hl hf

/-- A property of the Keys of a Container that `Key::setTranslation` keeps and the empty
Key has holds for the Keys after `Container::setTranslation`. -/
theorem containerSetTranslation_forall (Q : Key → Prop) (c : Container) (key lang t : String)
    (hQ : ∀ k, Q k → Q (k.setTranslation lang t)) (hnew : Q (Key.mk key []))
    (hc : ∀ k ∈ c.children, Q k) : ∀ k ∈ (c.setTranslation key lang t).children, Q k := by
  unfold Container.setTranslation
  split
  · intro k hk
    rcases List.mem_append.mp hk with h | h
    · exact hc k h
    · rw [List.mem_singleton.mp h]; exact hQ _ hnew
  · exact forall_mem_modifyFirst _ _ Q c.children hc hQ

/-- The same for the Keys of a whole tree after `Project::setTranslation`. -/
theorem projectSetTranslation_forall (Q : Key → Prop) (proj : Project)
    (package container key lang t : String)
    (hQ : ∀ k, Q k → Q (k.setTranslation lang t)) (hnew : Q (Key.mk key []))
    (hp : ∀ p ∈ proj.children, ∀ c ∈ p.children, ∀ k ∈ c.children, Q k) :
    ∀ p ∈ (proj.setTranslation package container key lang t).children,
      ∀ c ∈ p.children, ∀ k ∈ c.children, Q k := by
  have hpk : ∀ p : Package, (∀ c ∈ p.children, ∀ k ∈ c.children, Q k) →
      ∀ c ∈ (p.updateContainer container (fun c => c.setTranslation key lang t)).children,
        ∀ k ∈ c.children, Q k := by
    intro p hpp
    exact forall_mem_upsert Container.objectName (fun n => Container.mk n []) container
      (fun c => c.setTranslation key lang t) (fun c => ∀ k ∈ c.children, Q k) p.children hpp
      (fun c hcc => containerSetTranslation_forall Q c key lang t hQ hnew hcc)
      (containerSetTranslation_forall Q _ key lang t hQ hnew (by simp))
  rw [projectSetTranslation_eq_update]
  exact forall_mem_upsert Package.objectName (fun n => Package.mk n []) package
    (fun p => p.updateContainer container (fun c => c.setTranslation key lang t))
    (fun p => ∀ c ∈ p.children, ∀ k ∈ c.children, Q k) proj.children hp hpk
    (hpk _ (by simp))

theorem keySetTranslation_noEmptyString (k : Key) (lang string : String)
    (hk : ∀ t ∈ k.children, t.string ≠ "") :
    ∀ t ∈ (k.setTranslation lang string).children, t.string ≠ "" := by
  unfold Key.setTranslation
  cases findChild Translation.objectName k.children lang with
  | none =>
    by_cases hs : string = ""
    · simpa [hs] using hk
    · simp only [hs, ne_eq, not_false_eq_true, if_true]
      intro t ht
      rcases List.mem_append.mp ht with h | h
      · exact hk t h
      · rw [List.mem_singleton.mp h]; exact hs
  | some _ =>
    by_cases hs : string = ""
    · simp only [hs, ne_eq, not_true_eq_false, if_false]
      intro t ht
      exact hk t (List.mem_of_mem_eraseP ht)
    · simp only [hs, ne_eq, not_false_eq_true, if_true]
      intro t ht
      rcases mem_modifyFirst _ _ _ _ ht with h | ⟨y, _, rfl⟩
      · exact hk t h
      · exact hs

/-! ## Lemmas on the frame of `setTranslation` -/

theorem find?_modifyFirst_or {α : Type} (q r : α → Bool) (f : α → α)
    (hf : ∀ x, q (f x) = q x) (l : List α) (x : α) (h : l.find? q = some x) :
    (modifyFirst r f l).find? q = some x ∨
      (r x = true ∧ (modifyFirst r f l).find? q = some (f x)) := by
  induction l with
  | nil => simp at h
  | cons y ys ih =>
    unfold modifyFirst
    by_cases hr : r y = true
    · rw [if_pos hr]
      by_cases hq : q y = true
      · have hyx : y = x := by simpa [List.find?, hq] using h
        subst hyx
        right
        exact ⟨hr, by simp [List.find?, hf, hq]⟩
      · have h2 : ys.find? q = some x := by simpa [List.find?, hq] using h
        left
        simp [List.find?, hf, hq, h2]
    · rw [if_neg hr]
      by_cases hq : q y = true
      · left
        simpa [List.find?, hq] using h
      · have h2 : ys.find? q = some x := by simpa [List.find?, hq] using h
        rcases ih h2 with h3 | h3
        · left
          simp [List.find?, hq, h3]
        · right
          exact ⟨h3.1, by simp [List.find?, hq, h3.2]⟩

theorem bind_find?_upsertQ {α β : Type} (name : α → String) (mk : String → α)
    (n : Option String) (f : α → α) (l : List α) (m : String) (g : α → Option β) (b : β)
    (hf : ∀ x, name (f x) = name x) (hg : ∀ x, g x = some b → g (f x) = some b)
    (h : (l.find? (fun x => name x == m)).bind g = some b) :
    ((upsertQ name mk n f l).find? (fun x => name x == m)).bind g = some b := by
  cases hx : l.find? (fun x => name x == m) with
  | none => rw [hx] at h; exact Option.noConfusion h
  | some x =>
    rw [hx] at h
    simp only [Option.some_bind] at h
    unfold upsertQ
    cases findChildQ name l n with
    | none =>
      simp only
      rw [List.find?_append, hx]
      simpa using h
    | some _ =>
      simp only
      rcases find?_modifyFirst_or (fun x => name x == m) (fun x => nameIs n (name x)) f
        (by intro y; simp only [hf]) l x hx with h2 | h2
      · rw [h2]
        simpa using h
      · rw [h2.2]
        simpa using hg x h

theorem containerSetTranslationQ_frame (C : Container) (K K2 : String) (lang : Option String)
    (t : String) (k : Key) (hK : regexHasMatch K2 K = false)
    (h : findChild Key.objectName C.children K = some k) :
    findChild Key.objectName (C.setTranslationQ K2 lang t).children K = some k := by
  unfold findChild at h ⊢
  have hname : k.objectName = K := by simpa using List.find?_some h
  unfold Container.setTranslationQ
  split
  · simp only
    rw [List.find?_append, h]
    rfl
  · simp only
    rcases find?_modifyFirst_or (fun x : Key => x.objectName == K)
      (fun x => regexHasMatch K2 x.objectName) (fun x => x.setTranslationQ lang t)
      (by intro y; simp [keySetTranslationQ_objectName]) C.children k h with h2 | h2
    · exact h2
    · rw [hname, hK] at h2
      exact absurd h2.1 (by simp)

/-- Frame property of `Project::setTranslation`, names that may be null: the Key named `K`
at (p, c) stays as it is when the pattern `K2` of the call has no match in `K`. -/
theorem projectSetTranslationQ_frame (proj : Project) (p c K : String)
    (p2 c2 : Option String) (K2 : String) (lang : Option String) (t : String)
    (k : Key) (hK : regexHasMatch K2 K = false)
    (h : proj.findKeyByName p c K = some k) :
    (proj.setTranslationQ p2 c2 K2 lang t).findKeyByName p c K = some k := by
  rw [projectSetTranslationQ_eq_upsertQ]
  unfold Project.findKeyByName findChild at h ⊢
  exact bind_find?_upsertQ Package.objectName (fun n => Package.mk n []) p2
    (fun P => P.setTranslationQ c2 K2 lang t) proj.children p
    (fun P => (P.children.find? (fun (C : Container) => C.objectName == c)).bind
      (fun C => C.children.find? (fun (x : Key) => x.objectName == K))) k
    (fun P => by dsimp only; rw [packageSetTranslationQ_eq_upsertQ])
    (fun P hP => by
      dsimp only at hP ⊢
      rw [packageSetTranslationQ_eq_upsertQ]
      exact bind_find?_upsertQ Container.objectName (fun n => Container.mk n []) c2
        (fun C => C.setTranslationQ K2 lang t) P.children c
        (fun C => C.children.find? (fun (x : Key) => x.objectName == K)) k
        (fun C => containerSetTranslationQ_objectName C K2 lang t)
        (fun C hC => containerSetTranslationQ_frame C K K2 lang t k hK hC) hP)
    h

theorem foldl_setTranslationQ_frame (p c K : String) (p2 c2 : Option String) (K2 : String)
    (k : Key) (hK : regexHasMatch K2 K = false) (ts : List Translation) (proj : Project)
    (h : proj.findKeyByName p c K = some k) :
    (ts.foldl (fun sp t => sp.setTranslationQ p2 c2 K2 (nullIfEmpty t.objectName) t.string)
      proj).findKeyByName p c K = some k := by
  induction ts generalizing proj with
  | nil => exact h
  | cons t ts ih =>
    exact ih _ (projectSetTranslationQ_frame proj p c K p2 c2 K2 _ _ k hK h)

/-! ## Lemmas on the copy loop of the orphan pass -/

theorem findKeyByName_eq_keysAt (proj : Project) (p c K : String) :
    proj.findKeyByName p c K = findChild Key.objectName (proj.keysAt p c) K := by
  unfold Project.findKeyByName Project.keysAt
  cases findChild Package.objectName proj.children p with
  | none => rfl
  | some P =>
    simp only [Option.some_bind]
    cases findChild Container.objectName P.children c with
    | none => rfl
    | some C => rfl

theorem containerSetTranslation_children (C : Container) (name K lang t : String) :
    (C.setTranslation K lang t).children
      = ((Container.mk name C.children).setTranslation K lang t).children := by
  unfold Container.setTranslation Container.findKeys
  split <;> rfl

/-- The Keys at (p, c) after a `setTranslation` call for (p, c). -/
theorem keysAt_setTranslation (proj : Project) (p c K lang t : String) :
    (proj.setTranslation p c K lang t).keysAt p c
      = ((Container.mk c (proj.keysAt p c)).setTranslation K lang t).children := by
  rw [keysAt_eq, keysAt_eq, projectFind_setTranslation, Option.getD_some,
    packageFind_setTranslation, Option.getD_some]
  exact containerSetTranslation_children _ c K lang t

theorem keysAt_foldl_setTranslation (p c K : String) (ts : List Translation)
    (proj : Project) :
    (ts.foldl (fun sp t => sp.setTranslation p c K t.objectName t.string) proj).keysAt p c
      = ts.foldl (fun ks t =>
          ((Container.mk c ks).setTranslation K t.objectName t.string).children)
          (proj.keysAt p c) := by
  induction ts generalizing proj with
  | nil => rfl
  | cons t ts ih =>
    simp only [List.foldl_cons]
    rw [ih, keysAt_setTranslation]

theorem copy_first (c K : String) (t : Translation) (l : List Key)
    (hl : ∀ x ∈ l, regexHasMatch K x.objectName = false) (ht : t.string ≠ "") :
    ((Container.mk c l).setTranslation K t.objectName t.string).children
      = l ++ [Key.mk K [t]] := by
  unfold Container.setTranslation Container.findKeys
  rw [filter_isEmpty_eq_find?, find?_eq_none_of_forall _ l hl]
  simp only [Option.isNone_none, if_true]
  have hk : (Key.mk K []).setTranslation t.objectName t.string = Key.mk K [t] := by
    simp [Key.setTranslation, findChild, ht, Translation.mk_eta]
  rw [hk]

theorem copy_next (c K : String) (t : Translation) (l : List Key) (pre : List Translation)
    (hl : ∀ x ∈ l, regexHasMatch K x.objectName = false) (hK : regexHasMatch K K = true)
    (ht : t.string ≠ "") (hpre : ∀ s ∈ pre, s.objectName ≠ t.objectName) :
    ((Container.mk c (l ++ [Key.mk K pre])).setTranslation K t.objectName t.string).children
      = l ++ [Key.mk K (pre ++ [t])] := by
  unfold Container.setTranslation Container.findKeys
  have hf : (l ++ [Key.mk K pre]).find? (fun k => regexHasMatch K k.objectName)
      = some (Key.mk K pre) := by
    rw [find?_append_single _ _ _ (find?_eq_none_of_forall _ l hl)]
    simp [hK]
  rw [filter_isEmpty_eq_find?, hf]
  simp only [Option.isNone_some, Bool.false_eq_true, if_false]
  rw [modifyFirst_append_last _ _ l (Key.mk K pre) hl hK]
  have hk : (Key.mk K pre).setTranslation t.objectName t.string = Key.mk K (pre ++ [t]) := by
    have hnone : findChild Translation.objectName pre t.objectName = none := by
      unfold findChild
      apply find?_eq_none_of_forall
      intro s hs
      simpa using hpre s hs
    simp only [Key.setTranslation, hnone, ht, ne_eq, not_false_eq_true, if_true,
      Translation.mk_eta]
  rw [hk]

theorem copy_rest (c K : String) (l : List Key)
    (hl : ∀ x ∈ l, regexHasMatch K x.objectName = false) (hK : regexHasMatch K K = true)
    (ts pre : List Translation) (hts : ∀ t ∈ ts, t.string ≠ "")
    (hnd : ((pre ++ ts).map Translation.objectName).Nodup) :
    ts.foldl (fun ks t =>
        ((Container.mk c ks).setTranslation K t.objectName t.string).children)
        (l ++ [Key.mk K pre])
      = l ++ [Key.mk K (pre ++ ts)] := by
  induction ts generalizing pre with
  | nil => simp
  | cons t ts ih =>
    simp only [List.foldl_cons]
    have hpre : ∀ s ∈ pre, s.objectName ≠ t.objectName := by
      intro s hs heq
      rw [List.map_append, List.map_cons] at hnd
      have h1 := (List.nodup_append.mp hnd).2.2
      exact h1 (List.mem_map.mpr ⟨s, hs, rfl⟩) (by rw [heq]; exact List.mem_cons_self _ _)
    rw [copy_next c K t l pre hl hK (hts t (List.mem_cons_self _ _)) hpre,
      ih (pre ++ [t]) (fun s hs => hts s (List.mem_cons_of_mem _ hs))
        (by simpa using hnd)]
    simp

theorem mem_keyNames_of_keysAt (proj : Project) (p c : String) (x : Key)
    (hx : x ∈ proj.keysAt p c) : x.objectName ∈ proj.keyNames := by
  unfold Project.keysAt at hx
  unfold Project.keyNames
  cases hP : findChild Package.objectName proj.children p with
  | none => rw [hP] at hx; exact absurd hx (List.not_mem_nil _)
  | some P =>
    rw [hP] at hx
    simp only at hx
    cases hC : findChild Container.objectName P.children c with
    | none => rw [hC] at hx; exact absurd hx (List.not_mem_nil _)
    | some C =>
      rw [hC] at hx
      simp only at hx
      exact List.mem_flatMap.mpr ⟨P, List.mem_of_find?_eq_some hP,
        List.mem_flatMap.mpr ⟨C, List.mem_of_find?_eq_some hC,
          List.mem_map.mpr ⟨x, hx, rfl⟩⟩⟩

/-- The copy loop of `findLonelyTranslation` on an output tree in which the lookup of the
Key's identifier selects nothing: the Key arrives with its Translations, in order. -/
theorem copy_key (proj : Project) (p c : String) (k : Key)
    (hsel : ∀ m ∈ proj.keyNames, regexHasMatch k.objectName m = false)
    (hK : regexHasMatch k.objectName k.objectName = true)
    (hne : k.children ≠ []) (hts : ∀ t ∈ k.children, t.string ≠ "")
    (hnd : (k.children.map Translation.objectName).Nodup) :
    (k.children.foldl (fun sp t => sp.setTranslation p c k.objectName t.objectName t.string)
      proj).findKeyByName p c k.objectName = some k := by
  rw [findKeyByName_eq_keysAt, keysAt_foldl_setTranslation]
  have hl : ∀ x ∈ proj.keysAt p c, regexHasMatch k.objectName x.objectName = false :=
    fun x hx => hsel _ (mem_keyNames_of_keysAt proj p c x hx)
  cases hc : k.children with
  | nil => exact absurd hc hne
  | cons t ts =>
    rw [hc] at hts hnd
    simp only [List.foldl_cons]
    rw [copy_first c k.objectName t _ hl (hts t (List.mem_cons_self _ _)),
      copy_rest c k.objectName _ hl hK ts [t]
        (fun s hs => hts s (List.mem_cons_of_mem _ hs)) (by simpa using hnd)]
    have hk : Key.mk k.objectName ([t] ++ ts) = k := by
      cases k
      simp only at hc
      rw [hc]
      rfl
    rw [hk]
    exact find?_name_append_new _ k (fun x hx hxk => by
      have h1 := hl x hx
      rw [hxk, hK] at h1
      exact Bool.noConfusion h1)

/-! ## Lemmas on the steps of the orphan pass -/

theorem findKeysRecursively_head (proj : Project) (key p c : String) (k : Key)
    (rest : List (String × String × Key))
    (h : proj.findKeysRecursively key = (p, c, k) :: rest) :
    k.objectName ∈ proj.keyNames ∧ regexHasMatch key k.objectName = true := by
  have h2 := findKeysRecursively_names proj key
  rw [h, List.map_cons] at h2
  have hm : k.objectName ∈ proj.keyNames.filter (fun n => regexHasMatch key n) := by
    rw [← h2]
    exact List.mem_cons_self _ _
  exact ⟨(List.mem_filter.mp hm).1, (List.mem_filter.mp hm).2⟩

theorem findKeysRecursively_congr (proj : Project) (key key2 : String)
    (h : caseFold key2 = caseFold key) :
    proj.findKeysRecursively key2 = proj.findKeysRecursively key := by
  unfold Project.findKeysRecursively
  have e : (fun k : Key => regexHasMatch key2 k.objectName)
      = (fun k : Key => regexHasMatch key k.objectName) :=
    funext (fun k => regexHasMatch_congr key key2 h k.objectName)
  rw [e]

theorem mem_keyNames_of_findKeyByName (proj : Project) (p c K : String) (k : Key)
    (h : proj.findKeyByName p c K = some k) :
    k.objectName = K ∧ K ∈ proj.keyNames := by
  rw [findKeyByName_eq_keysAt] at h
  unfold findChild at h
  have hname : k.objectName = K := by simpa using List.find?_some h
  refine ⟨hname, ?_⟩
  rw [← hname]
  exact mem_keyNames_of_keysAt proj p c k (List.mem_of_find?_eq_some h)

/-- One call of `findLonelyTranslation`, for an identifier whose lookup selects in the
reference tree only Keys with that identifier, keeps a Key of the output tree that the
lookups of the call do not select. -/
theorem findLonelyTranslation_keeps (m_st : Project) (acc : Project × List (Nat × String))
    (key : String) (lineNumber : Nat) (p c : String) (k : Key)
    (hH : ∀ m ∈ m_st.keyNames, regexHasMatch key m = true → caseFold m = caseFold key)
    (hG : acc.1.findKeyByName p c k.objectName = some k) :
    (findLonelyTranslation m_st acc key lineNumber).1.findKeyByName p c k.objectName
      = some k := by
  unfold findLonelyTranslation
  split
  · rename_i hempty
    split
    · rename_i p2 c2 k2 rest hst
      have hk2 := findKeysRecursively_head m_st key p2 c2 k2 rest hst
      have hfold := hH _ hk2.1 hk2.2
      have hsel := (selectsNone_iff acc.1 key).mp hempty _
        (mem_keyNames_of_findKeyByName acc.1 p c _ k hG).2
      have hK : regexHasMatch k2.objectName k.objectName = false := by
        rw [regexHasMatch_congr key k2.objectName hfold]
        exact hsel
      exact foldl_setTranslationQ_frame p c k.objectName (nullIfEmpty p2) (nullIfEmpty c2)
        k2.objectName k hK _ _ hG
    · exact hG
  · exact hG

/-- One call of `findLonelyTranslation` keeps the alternative "the reference Key `k` has
arrived at (p, c), or the lookup of `key` still selects nothing in the output tree". -/
theorem findLonelyTranslation_step (m_st : Project) (acc : Project × List (Nat × String))
    (key key2 : String) (lineNumber : Nat) (p c : String) (k : Key)
    (rest : List (String × String × Key))
    (hst : m_st.findKeysRecursively key = (p, c, k) :: rest)
    (hH : ∀ m ∈ m_st.keyNames, regexHasMatch key m = true → caseFold m = caseFold key)
    (hH2 : ∀ m ∈ m_st.keyNames, regexHasMatch key2 m = true → caseFold m = caseFold key2)
    (hp : p ≠ "") (hc : c ≠ "") (htag : ∀ t ∈ k.children, t.objectName ≠ "")
    (hne : k.children ≠ []) (hts : ∀ t ∈ k.children, t.string ≠ "")
    (hnd : (k.children.map Translation.objectName).Nodup)
    (hinv : acc.1.findKeyByName p c k.objectName = some k ∨ acc.1.selectsNone key = true) :
    (findLonelyTranslation m_st acc key2 lineNumber).1.findKeyByName p c k.objectName
        = some k ∨
      ((findLonelyTranslation m_st acc key2 lineNumber).1.selectsNone key = true ∧
        caseFold key2 ≠ caseFold key) := by
  rcases hinv with hG | hsel
  · exact Or.inl (findLonelyTranslation_keeps m_st acc key2 lineNumber p c k hH2 hG)
  · have hk := findKeysRecursively_head m_st key p c k rest hst
    have hkfold := hH _ hk.1 hk.2
    have hsel2 := (selectsNone_iff acc.1 key).mp hsel
    have hcopy : (k.children.foldl
        (fun sp t => sp.setTranslation p c k.objectName t.objectName t.string)
        acc.1).findKeyByName p c k.objectName = some k := by
      apply copy_key acc.1 p c k _ _ hne hts hnd
      · intro m hm
        rw [regexHasMatch_congr key k.objectName hkfold]
        exact hsel2 m hm
      · rw [regexHasMatch_congr key k.objectName hkfold]
        exact hk.2
    by_cases hsame : caseFold key2 = caseFold key
    · left
      unfold findLonelyTranslation
      have e1 : acc.1.findKeysRecursively key2 = acc.1.findKeysRecursively key :=
        findKeysRecursively_congr acc.1 key key2 hsame
      have e2 : m_st.findKeysRecursively key2 = (p, c, k) :: rest := by
        rw [findKeysRecursively_congr m_st key key2 hsame]
        exact hst
      have e3 : (acc.1.findKeysRecursively key).isEmpty = true := hsel
      rw [e1, if_pos e3, e2]
      simp only
      rw [foldl_setTranslationQ_of_named p c k.objectName hp hc k.children htag]
      exact hcopy
    · right
      refine ⟨?_, hsame⟩
      unfold findLonelyTranslation
      split
      · split
        · rename_i p2 c2 k2 rest2 hst2
          have hk2 := findKeysRecursively_head m_st key2 p2 c2 k2 rest2 hst2
          apply (selectsNone_iff _ key).mpr
          intro m hm
          rcases (keyNames_foldl_setTranslationQ (nullIfEmpty p2) (nullIfEmpty c2)
            k2.objectName k2.children acc.1).2 m hm with h1 | h1
          · exact hsel2 m h1
          · rw [h1]
            by_contra hmatch
            have hmatch2 : regexHasMatch key k2.objectName = true := by simpa using hmatch
            exact hsame ((hH2 _ hk2.1 hk2.2).symm.trans (hH _ hk2.1 hmatch2))
        · exact hsel
      · exact hsel

theorem foldl_findLonelyTranslation_keeps (m_st : Project) (p c : String) (k : Key)
    (os : List (Nat × String))
    (hH : ∀ o ∈ os, ∀ m ∈ m_st.keyNames, regexHasMatch o.2 m = true →
      caseFold m = caseFold o.2)
    (acc : Project × List (Nat × String))
    (hG : acc.1.findKeyByName p c k.objectName = some k) :
    (os.foldl (fun a o => findLonelyTranslation m_st a o.2 o.1) acc).1.findKeyByName p c
      k.objectName = some k := by
  induction os generalizing acc with
  | nil => exact hG
  | cons o os ih =>
    exact ih (fun o2 ho2 => hH o2 (List.mem_cons_of_mem _ ho2)) _
      (findLonelyTranslation_keeps m_st acc o.2 o.1 p c k
        (hH o (List.mem_cons_self _ _)) hG)

theorem foldl_findLonelyTranslation_copies (m_st : Project) (key p c : String) (k : Key)
    (rest : List (String × String × Key))
    (hst : m_st.findKeysRecursively key = (p, c, k) :: rest)
    (hp : p ≠ "") (hc : c ≠ "") (htag : ∀ t ∈ k.children, t.objectName ≠ "")
    (hne : k.children ≠ []) (hts : ∀ t ∈ k.children, t.string ≠ "")
    (hnd : (k.children.map Translation.objectName).Nodup)
    (os : List (Nat × String))
    (hH : ∀ o ∈ os, ∀ m ∈ m_st.keyNames, regexHasMatch o.2 m = true →
      caseFold m = caseFold o.2)
    (hocc : ∃ o ∈ os, o.2 = key)
    (acc : Project × List (Nat × String))
    (hinv : acc.1.findKeyByName p c k.objectName = some k ∨ acc.1.selectsNone key = true) :
    (os.foldl (fun a o => findLonelyTranslation m_st a o.2 o.1) acc).1.findKeyByName p c
      k.objectName = some k := by
  have hHkey : ∀ m ∈ m_st.keyNames, regexHasMatch key m = true →
      caseFold m = caseFold key := by
    obtain ⟨o0, ho0, hkey0⟩ := hocc
    rw [← hkey0]
    exact hH o0 ho0
  induction os generalizing acc with
  | nil =>
    obtain ⟨o0, ho0, _⟩ := hocc
    exact absurd ho0 (List.not_mem_nil _)
  | cons o os ih =>
    simp only [List.foldl_cons]
    have hstep := findLonelyTranslation_step m_st acc key o.2 o.1 p c k rest hst hHkey
      (hH o (List.mem_cons_self _ _)) hp hc htag hne hts hnd hinv
    rcases hstep with hG | hS
    · exact foldl_findLonelyTranslation_keeps m_st p c k os
        (fun o2 ho2 => hH o2 (List.mem_cons_of_mem _ ho2)) _ hG
    · obtain ⟨o0, ho0, hkey0⟩ := hocc
      rcases List.mem_cons.mp ho0 with h0 | h0
      · exfalso
        apply hS.2
        rw [← h0, hkey0]
      · exact ih (fun o2 ho2 => hH o2 (List.mem_cons_of_mem _ ho2)) ⟨o0, h0, hkey0⟩ _
          (Or.inr hS.1)

/-! ## The claim on the orphan resolution -/

/-- C21, as stated: refuted. The reference Key `str_hello`, read from a stringtable with
an empty `German` element, holds the Translations `Original` and `German`; the orphan
pass copies with `setTranslation`, which stores no empty text, and the Key of the output
tree holds the `Original` only. -/
theorem C21_empty_reference_translation_is_not_copied :
    StringtableParser.parse
        [QDomNode.element "Project" [("name", "P")]
          [QDomNode.element "Package" [("name", "Main")]
            [QDomNode.element "Container" [("name", "intro")]
              [QDomNode.element "Key" [("ID", "str_hello")]
                [QDomNode.element "Original" [] [QDomNode.textNode "Hello"],
                  QDomNode.element "German" [] []]]]]]
      = some (Project.mk "P" [Package.mk "Main" [Container.mk "intro"
          [Key.mk "str_hello" [Translation.mk "Original" "Hello",
            Translation.mk "German" ""]]]]) ∧
    ScriptParser.parse "init"
        (Project.mk "P" [Package.mk "Main" [Container.mk "intro"
          [Key.mk "str_hello" [Translation.mk "Original" "Hello",
            Translation.mk "German" ""]]]])
        (Project.mk "P" []) ["hint localize \"str_hello\";"]
      = (Project.mk "P" [Package.mk "Main" [Container.mk "intro"
          [Key.mk "str_hello" [Translation.mk "Original" "Hello"]]]], []) := by
  decide

/-- C21, amended. Let the lookup of every identifier found in the script select, in the
reference tree, only Keys with that identifier (compared ignoring case). For every
identifier found in the script whose lookup selects no Key of the output tree that the
directives left and selects in the reference tree a first Key `k`, in the Container `c`
of the Package `p`, both with a non-empty name, with at least one Translation, no empty
text, no empty tag and no tag twice: after the orphan pass the output tree has, under the Package `p` and the Container `c`, a Key
with the identifier of `k` that holds the Translations of `k`, in order, with the same
tags and texts. -/
theorem C21_orphan_resolution_from_the_reference (m_fileBaseName : String)
    (m_st m_sp : Project) (lines : List String) (lineNumber : Nat) (key p c : String)
    (k : Key) (rest : List (String × String × Key))
    (hocc : (lineNumber, key) ∈ occurrencesFrom 0 lines)
    (hH : ∀ o ∈ occurrencesFrom 0 lines, ∀ m ∈ m_st.keyNames,
      regexHasMatch o.2 m = true → caseFold m = caseFold o.2)
    (hsp : (lines.foldl (parseLine m_fileBaseName m_st)
      { multiLineStarted := false, multiLineHeader := "", multiLine := "",
        m_sp := m_sp }).m_sp.selectsNone key = true)
    (hst : m_st.findKeysRecursively key = (p, c, k) :: rest)
    (hp : p ≠ "") (hc : c ≠ "") (htag : ∀ t ∈ k.children, t.objectName ≠ "")
    (hne : k.children ≠ []) (hts : ∀ t ∈ k.children, t.string ≠ "")
    (hnd : (k.children.map Translation.objectName).Nodup) :
    (ScriptParser.parse m_fileBaseName m_st m_sp lines).1.findKeyByName p c k.objectName
      = some k := by
  unfold ScriptParser.parse
  simp only
  rw [lonelyPass_eq_foldl]
  exact foldl_findLonelyTranslation_copies m_st key p c k rest hst hp hc htag hne hts hnd
    (occurrencesFrom 0 lines) hH ⟨(lineNumber, key), hocc, rfl⟩ _ (Or.inr hsp)

/-- C21, amended: witness, the identifier `str_hello` of a script without directive, an
empty output tree and the reference Key `STR_Hello` of (Main, intro) with two
Translations. -/
theorem C21_orphan_resolution_from_the_reference_witness :
    ((1, "str_hello") ∈ occurrencesFrom 0 ["hint localize \"str_hello\";"] ∧
      (∀ o ∈ occurrencesFrom 0 ["hint localize \"str_hello\";"],
        ∀ m ∈ (Project.mk "P" [Package.mk "Main" [Container.mk "intro"
          [Key.mk "STR_Hello" [Translation.mk "Original" "Hello",
            Translation.mk "German" "Hallo"]]]]).keyNames,
          regexHasMatch o.2 m = true → caseFold m = caseFold o.2) ∧
      (Project.mk "P" [Package.mk "Main" [Container.mk "intro"
          [Key.mk "STR_Hello" [Translation.mk "Original" "Hello",
            Translation.mk "German" "Hallo"]]]]).findKeysRecursively "str_hello"
        = [("Main", "intro", Key.mk "STR_Hello" [Translation.mk "Original" "Hello",
            Translation.mk "German" "Hallo"])]) ∧
    (ScriptParser.parse "init"
        (Project.mk "P" [Package.mk "Main" [Container.mk "intro"
          [Key.mk "STR_Hello" [Translation.mk "Original" "Hello",
            Translation.mk "German" "Hallo"]]]])
        (Project.mk "P" []) ["hint localize \"str_hello\";"]).1.findKeyByName
        "Main" "intro" "STR_Hello"
      = some (Key.mk "STR_Hello" [Translation.mk "Original" "Hello",
          Translation.mk "German" "Hallo"]) :=
  ⟨⟨by decide, by decide, by decide⟩,
    C21_orphan_resolution_from_the_reference "init" _ (Project.mk "P" [])
      ["hint localize \"str_hello\";"] 1 "str_hello" "Main" "intro"
      (Key.mk "STR_Hello" [Translation.mk "Original" "Hello",
        Translation.mk "German" "Hallo"]) []
      (by decide) (by decide) (by decide) (by decide) (by decide) (by decide) (by decide)
      (by decide) (by decide) (by decide)⟩

/-! ## Lemmas on the stringtable parser -/

theorem attribute_eq_attributeQ (n : QDomNode) (name defValue : String) :
    n.attribute name defValue = (n.attributeQ name).getD defValue := by
  cases n with
  | element tag attrs cs =>
    simp only [QDomNode.attribute, QDomNode.attributeQ]
    cases attrs.find? (fun a => a.1 == name) <;> rfl
  | textNode d => rfl
  | processingInstruction t d => rfl

theorem filterMap_eq_nil_of_nil {α β : Type} (f : α → Option β) (l : List α) (h : l = []) :
    l.filterMap f = [] := by
  rw [h]; rfl

/-- `StringtableParser::parse` in one piece: the root element must be a `Project` element
with child nodes, the result is the Project named after the root with the Packages that
remain, and it is returned when it has a Package. -/
theorem parse_eq (st : List QDomNode) :
    StringtableParser.parse st
      = (documentElement st).bind (fun project =>
          if project.hasChildNodes = true ∧ project.tagName = "Project" ∧
              (project.elementsByTagName "Package").filterMap parsePackageElement ≠ [] then
            some (Project.mk (project.attribute "name" "My Project")
              ((project.elementsByTagName "Package").filterMap parsePackageElement))
          else none) := by
  unfold StringtableParser.parse
  cases documentElement st with
  | none => rfl
  | some project =>
    simp only [Option.some_bind]
    by_cases h1 : project.hasChildNodes = true
    · by_cases h2 : project.tagName = "Project"
      · by_cases h3 : (project.elementsByTagName "Package").filterMap parsePackageElement = []
        · simp [h1, h2, h3]
        · have h4 : project.elementsByTagName "Package" ≠ [] :=
            fun h => h3 (filterMap_eq_nil_of_nil _ _ h)
          simp [h1, h2, h3, h4]
      · simp [h1, h2]
    · simp [h1]

theorem parseKeyElement_some (e : QDomNode) (k : Key) (h : parseKeyElement e = some k) :
    k.children ≠ [] ∧ k.objectName ≠ "" := by
  unfold parseKeyElement at h
  split at h
  · rename_i hc
    cases h
    simp only [Bool.and_eq_true, Bool.not_eq_true', beq_eq_false_iff_ne, ne_eq] at hc
    refine ⟨?_, hc.1⟩
    intro hnil
    have h2 := hc.2
    unfold QDomNode.hasChildNodes at h2
    simp only [List.map_eq_nil_iff] at hnil
    rw [hnil] at h2
    exact Bool.noConfusion h2
  · exact Option.noConfusion h

theorem parseContainerElement_some (e : QDomNode) (c : Container)
    (h : parseContainerElement e = some c) :
    c.children = (e.elementsByTagName "Key").filterMap parseKeyElement := by
  unfold parseContainerElement at h
  split at h
  · split at h
    · exact Option.noConfusion h
    · cases h; rfl
  · exact Option.noConfusion h

theorem parsePackageElement_some (e : QDomNode) (p : Package)
    (h : parsePackageElement e = some p) :
    p.children = (e.elementsByTagName "Container").filterMap parseContainerElement := by
  unfold parsePackageElement at h
  split at h
  · split at h
    · exact Option.noConfusion h
    · cases h; rfl
  · exact Option.noConfusion h

/-! ## The claims on the stringtable parser -/

/-- C22. `StringtableParser::parse` produces no tree exactly when the document has no root
element, the root element is not a `Project` element, it has no child nodes, or no
Package remains in the parsed tree; in every other case it produces a Project that has
at least one Package, the Packages that remain, and whose name is the value of the
root's `name` attribute, or `My Project` when the root has no such attribute. -/
theorem C22_parse_fails_exactly_on_unusable_documents (st : List QDomNode) :
    (StringtableParser.parse st = none ↔
      ∀ project, documentElement st = some project →
        project.tagName ≠ "Project" ∨ project.hasChildNodes = false ∨
          (project.elementsByTagName "Package").filterMap parsePackageElement = []) ∧
    (∀ proj, StringtableParser.parse st = some proj →
      proj.children ≠ [] ∧
      ∃ project, documentElement st = some project ∧
        proj.objectName = (project.attributeQ "name").getD "My Project" ∧
        proj.children
          = (project.elementsByTagName "Package").filterMap parsePackageElement) := by
  rw [parse_eq]
  cases documentElement st with
  | none => simp
  | some project =>
    simp only [Option.some_bind, Option.some.injEq, forall_eq', exists_eq_left']
    by_cases h : project.hasChildNodes = true ∧ project.tagName = "Project" ∧
        (project.elementsByTagName "Package").filterMap parsePackageElement ≠ []
    · rw [if_pos h]
      refine ⟨?_, ?_⟩
      · simp only [reduceCtorEq, false_iff]
        intro h2
        rcases h2 with h2 | h2 | h2
        · exact h2 h.2.1
        · rw [h.1] at h2; exact Bool.noConfusion h2
        · exact h.2.2 h2
      · intro proj hp
        cases hp
        exact ⟨h.2.2, attribute_eq_attributeQ _ _ _, rfl⟩
    · rw [if_neg h]
      refine ⟨?_, ?_⟩
      · simp only [true_iff]
        by_cases h1 : project.hasChildNodes = true
        · by_cases h2 : project.tagName = "Project"
          · right; right
            by_contra h3
            exact h ⟨h1, h2, h3⟩
          · left; exact h2
        · right; left
          simpa using h1
      · intro proj hp
        exact Option.noConfusion hp

/-- C22: the two cases on concrete documents, a usable one without a `name` attribute
and one whose only Package has no Container. -/
theorem C22_parse_fails_exactly_on_unusable_documents_witness :
    StringtableParser.parse
        [QDomNode.element "Project" []
          [QDomNode.element "Package" [("name", "Main")]
            [QDomNode.element "Container" [("name", "intro")]
              [QDomNode.element "Key" [("ID", "str_hello")]
                [QDomNode.element "Original" [] [QDomNode.textNode "Hello"]]]]]]
      = some (Project.mk "My Project" [Package.mk "Main" [Container.mk "intro"
          [Key.mk "str_hello" [Translation.mk "Original" "Hello"]]]]) ∧
    (StringtableParser.parse
        [QDomNode.element "Project" [("name", "P")]
          [QDomNode.element "Package" [("name", "Main")] [QDomNode.textNode "x"]]] = none ↔
      ∀ project,
        documentElement
            [QDomNode.element "Project" [("name", "P")]
              [QDomNode.element "Package" [("name", "Main")] [QDomNode.textNode "x"]]]
          = some project →
        project.tagName ≠ "Project" ∨ project.hasChildNodes = false ∨
          (project.elementsByTagName "Package").filterMap parsePackageElement = []) :=
  ⟨by decide, (C22_parse_fails_exactly_on_unusable_documents _).1⟩

/-- C23, the defect and the part that holds. A `Container` element whose only `Key` element
has an empty `ID` is materialised as a Container without Keys, and its Package stays in
the tree (the Container is deleted only when the element has no `Key` element at all);
a `Package` element whose only `Container` element has no child node is materialised as
a Package without Containers. Every Key of a parsed tree has a Translation and a
non-empty identifier. -/
theorem C23_container_whose_keys_lack_an_id_is_materialised :
    StringtableParser.parse
        [QDomNode.element "Project" [("name", "P")]
          [QDomNode.element "Package" [("name", "Main")]
            [QDomNode.element "Container" [("name", "intro")]
              [QDomNode.element "Key" [("ID", "")]
                [QDomNode.element "Original" [] [QDomNode.textNode "Hello"]]]]]]
      = some (Project.mk "P" [Package.mk "Main" [Container.mk "intro" []]]) ∧
    StringtableParser.parse
        [QDomNode.element "Project" [("name", "P")]
          [QDomNode.element "Package" [("name", "Main")]
            [QDomNode.element "Container" [("name", "intro")] []]]]
      = some (Project.mk "P" [Package.mk "Main" []]) ∧
    ∀ st proj, StringtableParser.parse st = some proj →
      ∀ p ∈ proj.children, ∀ c ∈ p.children, ∀ k ∈ c.children,
        k.children ≠ [] ∧ k.objectName ≠ "" := by
  refine ⟨by decide, by decide, ?_⟩
  intro st proj h p hp c hc k hk
  rw [parse_eq] at h
  cases hd : documentElement st with
  | none => rw [hd] at h; exact Option.noConfusion h
  | some project =>
    rw [hd] at h
    simp only [Option.some_bind] at h
    split at h
    · cases h
      obtain ⟨pe, _, hpe⟩ := List.mem_filterMap.mp hp
      rw [parsePackageElement_some pe p hpe] at hc
      obtain ⟨ce, _, hce⟩ := List.mem_filterMap.mp hc
      rw [parseContainerElement_some ce c hce] at hk
      obtain ⟨ke, _, hke⟩ := List.mem_filterMap.mp hk
      exact parseKeyElement_some ke k hke
    · exact Option.noConfusion h

/-! ## The claims on the subtrees that the exports omit -/

theorem childNodes_key (k : Key) :
    k.toElement.childNodes = k.children.map Translation.toElement := by
  unfold Key.toElement Key.getAllTranslations
  rw [appendDocuments_translations]
  rfl

/-- C24, the defect and the part that holds. The tree that `setTranslation` builds from
an empty text on a new Key has a Key without Translation; `Container::toXml` skips the
Key and still emits its `Container` element, now without child. A Package whose
Container has no Key is emitted as a `Package` element without child. Every `Key`
element below a `Container` element has a child, and the children of the element of a
Key are the elements of its Translations, in order, each with the language tag as tag
and the text as only child. -/
theorem C24_container_of_keys_without_translation_is_emitted :
    Project.built "P" [Call.mk "Main" "intro" "str_a" "Original" ""]
      = Project.mk "P" [Package.mk "Main" [Container.mk "intro" [Key.mk "str_a" []]]] ∧
    (Project.built "P" [Call.mk "Main" "intro" "str_a" "Original" ""]).toXml
      = [QDomNode.processingInstruction "xml" "version=\"1.0\" encoding=\"utf-8\" ",
          QDomNode.element "Project" [("name", "P")]
            [QDomNode.element "Package" [("name", "Main")]
              [QDomNode.element "Container" [("name", "intro")] []]]] ∧
    (Project.mk "P" [Package.mk "Main" [Container.mk "intro" []]]).toXml
      = [QDomNode.processingInstruction "xml" "version=\"1.0\" encoding=\"utf-8\" ",
          QDomNode.element "Project" [("name", "P")]
            [QDomNode.element "Package" [("name", "Main")] []]] ∧
    (∀ c : Container, ∀ x ∈ c.toElement.childNodes,
      ∃ k ∈ c.children, x = k.toElement ∧ x.hasChildNodes = true) ∧
    ∀ k : Key, k.toElement.childNodes
      = k.children.map (fun t => QDomNode.element t.objectName []
          [QDomNode.textNode t.string]) := by
  refine ⟨by decide, rfl, rfl, ?_, ?_⟩
  · intro c x hx
    rw [childNodes_container] at hx
    obtain ⟨k, hk, rfl⟩ := List.mem_map.mp hx
    have hk2 := List.mem_filter.mp hk
    refine ⟨k, hk2.1, rfl, ?_⟩
    unfold QDomNode.hasChildNodes
    rw [childNodes_key]
    have h3 := hk2.2
    cases hc : k.children with
    | nil => rw [hc] at h3; exact Bool.noConfusion h3
    | cons t ts => rfl
  · intro k
    rw [childNodes_key]
    rfl

theorem map_fst_map {α β γ : Type} (f : α → β × γ) (l : List α) :
    (l.map f).map Prod.fst = l.map (fun x => (f x).1) := by
  rw [List.map_map]; rfl

/-- C26, the defect and the part that holds. A Container whose only Key has no Original
is exported as an inner `group` (1.2) or `unit` (2.0) without child: `Container::toXliff`
tests whether the Container has a Key, not whether a Key was exported. A Package whose
Container has no Key is exported as a `group` without child. The `trans-unit` or
`segment` elements of every export are those of the Keys that have an Original. -/
theorem C26_container_without_original_is_exported_empty :
    (Project.built "P" [Call.mk "Main" "intro" "str_a" "German" "Hallo"]).toXliff
        "de" "en" false
      = [xmlDeclaration,
          QDomNode.element "xliff"
            [("xmlns", "urn:oasis:names:tc:xliff:document:1.2"), ("version", "1.2")]
            [QDomNode.element "file"
              [("original", "P"), ("source-language", "en"), ("target-language", "de"),
                ("datatype", "plaintext")]
              [QDomNode.element "body" []
                [QDomNode.element "group" [("id", "Main")]
                  [QDomNode.element "group" [("id", "intro")] []]]]]] ∧
    (Project.built "P" [Call.mk "Main" "intro" "str_a" "German" "Hallo"]).toXliff
        "de" "en" true
      = [xmlDeclaration,
          QDomNode.element "xliff"
            [("xmlns", "urn:oasis:names:tc:xliff:document:2.0"), ("version", "2.0"),
              ("srcLang", "en"), ("trgLang", "de")]
            [QDomNode.element "file" [("id", "P")]
              [QDomNode.element "group" [("id", "Main")]
                [QDomNode.element "unit" [("id", "intro")] []]]]] ∧
    (Project.mk "P" [Package.mk "Main" [Container.mk "intro" []]]).toXliff "de" "en" true
      = [xmlDeclaration,
          QDomNode.element "xliff"
            [("xmlns", "urn:oasis:names:tc:xliff:document:2.0"), ("version", "2.0"),
              ("srcLang", "en"), ("trgLang", "de")]
            [QDomNode.element "file" [("id", "P")]
              [QDomNode.element "group" [("id", "Main")] []]]] ∧
    ∀ (proj : Project) (lang srcLng : String) (version2 : Bool),
      (elementsByTagNameOfDocument (proj.toXliff lang srcLng version2)
          (if !version2 then "trans-unit" else "segment")).map
          (fun u => u.attribute "id" "")
        = proj.keysWithOriginal.map (fun k => xliffId k.objectName) := by
  refine ⟨rfl, rfl, rfl, ?_⟩
  intro proj lang srcLng version2
  have h := congrArg (List.map Prod.fst) (leaves_toXliff proj lang srcLng version2)
  rw [map_fst_map, map_fst_map] at h
  exact h

/-! ## Lemmas on the id normalisation -/

theorem reverse_dropWhile_reverse_cons (p : Char → Bool) (c : Char) (cs : List Char) :
    ((c :: cs).reverse.dropWhile p).reverse
      = if (cs.reverse.dropWhile p).reverse = [] ∧ p c = true then []
        else c :: (cs.reverse.dropWhile p).reverse := by
  induction cs using List.reverseRecOn with
  | nil =>
    by_cases h : p c = true <;> simp [List.dropWhile, h]
  | append_singleton l x ih =>
    have e1 : (c :: (l ++ [x])).reverse = x :: (c :: l).reverse := by simp
    have e2 : (l ++ [x]).reverse = x :: l.reverse := by simp
    rw [e1, e2]
    by_cases hx : p x = true
    · simp only [List.dropWhile, hx]
      exact ih
    · simp [List.dropWhile, hx]

theorem simplifiedFrom_emitted (l : List Char) :
    simplifiedFrom true false l = collapseRuns false (l.reverse.dropWhile isQtSpace).reverse ∧
    simplifiedFrom true true l
      = if (l.reverse.dropWhile isQtSpace).reverse = [] then []
        else ' ' :: collapseRuns true (l.reverse.dropWhile isQtSpace).reverse := by
  induction l with
  | nil => simp [simplifiedFrom, collapseRuns]
  | cons c cs ih =>
    rw [reverse_dropWhile_reverse_cons]
    by_cases hc : isQtSpace c = true
    · by_cases hn : (cs.reverse.dropWhile isQtSpace).reverse = []
      · have h2 := ih.2
        rw [if_pos hn] at h2
        simp [simplifiedFrom, hc, hn, h2, collapseRuns]
      · have h2 := ih.2
        rw [if_neg hn] at h2
        simp [simplifiedFrom, hc, hn, h2, collapseRuns]
    · simp [simplifiedFrom, hc, collapseRuns, ih.1]

theorem simplifiedFrom_eq_collapseRuns (l : List Char) :
    simplifiedFrom false false l = collapseRuns false (trimmed l) := by
  unfold trimmed
  induction l with
  | nil => simp [simplifiedFrom, collapseRuns]
  | cons c cs ih =>
    by_cases hc : isQtSpace c = true
    · simp only [simplifiedFrom, hc, if_true, List.dropWhile]
      exact ih
    · have e : (c :: cs).dropWhile isQtSpace = c :: cs := by simp [List.dropWhile, hc]
      rw [e, reverse_dropWhile_reverse_cons]
      simp [simplifiedFrom, hc, collapseRuns, (simplifiedFrom_emitted cs).1]

theorem simplifiedFrom_chars (emitted pending : Bool) (l : List Char) :
    ∀ c ∈ simplifiedFrom emitted pending l, c = ' ' ∨ isQtSpace c = false := by
  induction l generalizing emitted pending with
  | nil => intro c hc; simp [simplifiedFrom] at hc
  | cons x xs ih =>
    intro c hc
    unfold simplifiedFrom at hc
    by_cases hx : isQtSpace x = true
    · rw [if_pos hx] at hc
      exact ih _ _ c hc
    · rw [if_neg hx] at hc
      by_cases hp : pending = true
      · rw [if_pos hp] at hc
        rcases List.mem_cons.mp hc with h | h
        · exact Or.inl h
        · rcases List.mem_cons.mp h with h | h
          · right; rw [h]; simpa using hx
          · exact ih _ _ c h
      · rw [if_neg hp] at hc
        rcases List.mem_cons.mp hc with h | h
        · right; rw [h]; simpa using hx
        · exact ih _ _ c h

theorem xliffId_toList (name : String) :
    (xliffId name).toList
      = (simplifiedFrom false false name.toList).map (fun c => if c = ' ' then '_' else c) :=
  rfl

theorem hasNoSpace_xliffId (name : String) : hasNoSpace (xliffId name) = true := by
  unfold hasNoSpace
  rw [xliffId_toList]
  apply List.all_eq_true.mpr
  intro d hd
  obtain ⟨c, hc, rfl⟩ := List.mem_map.mp hd
  rcases simplifiedFrom_chars _ _ _ c hc with h | h
  · rw [if_pos h]; decide
  · have hne : c ≠ ' ' := by
      intro h2
      rw [h2] at h
      exact absurd h (by decide)
    rw [if_neg hne, h]; rfl

/-! ## The claim on the id normalisation -/

/-- C27. Id normalisation: the id that the `toXliff` methods write for a name is the
name with leading and trailing whitespace removed, every internal run of whitespace
collapsed to one space and each remaining space replaced by `_`; the id contains no
whitespace character, and normalising an id again returns it unchanged. -/
theorem C27_id_normalisation (name : String) :
    xliffId name = normalisedId name ∧
    (∀ c ∈ (xliffId name).toList, isQtSpace c = false) ∧
    xliffId (xliffId name) = xliffId name := by
  refine ⟨?_, ?_, xliffId_of_noSpace _ (hasNoSpace_xliffId name)⟩
  · unfold xliffId normalisedId replaceSpaces simplified
    rw [simplifiedFrom_eq_collapseRuns]
    rfl
  · have h := hasNoSpace_xliffId name
    unfold hasNoSpace at h
    intro c hc
    simpa using List.all_eq_true.mp h c hc

/-! ## The claim on the missing reference stringtable -/

theorem pointerSaveTranslation_none (m_sp : Project) (package container key text : String) :
    ScriptParser.saveTranslation none m_sp package container key text
      = m_sp.setTranslation package container key "Original" text := rfl

theorem saveTranslation_empty (name : String) (m_sp : Project)
    (package container key text : String) :
    saveTranslation (Project.mk name []) m_sp package container key text
      = m_sp.setTranslation package container key "Original" text := by
  unfold saveTranslation
  simp [Project.getTranslation, findChild]

theorem findLonelyTranslation_empty (name : String) (acc : Project × List (Nat × String))
    (key : String) (lineNumber : Nat) :
    findLonelyTranslation (Project.mk name []) acc key lineNumber
      = if acc.1.selectsNone key then (acc.1, acc.2 ++ [(lineNumber, key)]) else acc := by
  unfold findLonelyTranslation Project.selectsNone
  simp [Project.findKeysRecursively]

theorem pointerFindLonelyTranslation_none (acc : Project × List (Nat × String))
    (key : String) (lineNumber : Nat) :
    ScriptParser.findLonelyTranslation none acc key lineNumber
      = if acc.1.selectsNone key then (acc.1, acc.2 ++ [(lineNumber, key)]) else acc := by
  unfold ScriptParser.findLonelyTranslation Project.selectsNone pointerFindKeysRecursively
  rfl

/-- The extraction with a pointer `m_st` is the extraction with the tree that stands for
it: the tree it points to, or an empty tree for the null pointer. -/
theorem parseWith_eq (m_fileBaseName : String) (m_st : Option Project) (st : Project)
    (hst : m_st = some st ∨ (m_st = none ∧ st.children = []))
    (m_sp : Project) (lines : List String) :
    ScriptParser.parseWith m_fileBaseName m_st m_sp lines
      = ScriptParser.parse m_fileBaseName st m_sp lines := by
  have hsave : ∀ (sp : Project) (package container key text : String),
      ScriptParser.saveTranslation m_st sp package container key text
        = saveTranslation st sp package container key text := by
    intro sp package container key text
    rcases hst with h | ⟨h, he⟩
    · rw [h]
      rfl
    · rw [h, pointerSaveTranslation_none]
      obtain ⟨name, children⟩ := st
      simp only at he
      rw [he, saveTranslation_empty]
  have hfind : ∀ (acc : Project × List (Nat × String)) (key : String) (lineNumber : Nat),
      ScriptParser.findLonelyTranslation m_st acc key lineNumber
        = findLonelyTranslation st acc key lineNumber := by
    intro acc key lineNumber
    rcases hst with h | ⟨h, he⟩
    · rw [h]
      rfl
    · rw [h, pointerFindLonelyTranslation_none]
      obtain ⟨name, children⟩ := st
      simp only at he
      rw [he, findLonelyTranslation_empty]
  have hclose : ∀ s : ParseState, ScriptParser.closeBlock m_fileBaseName m_st s
      = closeBlock m_fileBaseName st s := by
    intro s
    unfold ScriptParser.closeBlock closeBlock
    simp only [hsave]
  have hline : ScriptParser.parseLine m_fileBaseName m_st = parseLine m_fileBaseName st := by
    funext s line
    unfold ScriptParser.parseLine parseLine
    simp only [hsave, hclose]
  have hpass : ∀ (ls : List String) (n : Nat) (acc : Project × List (Nat × String)),
      ScriptParser.lonelyPass m_st n ls acc = lonelyPass st n ls acc := by
    intro ls
    induction ls with
    | nil =>
      intro n acc
      rfl
    | cons l ls ih =>
      intro n acc
      rw [ScriptParser.lonelyPass, lonelyPass, ih]
      simp only [hfind]
  unfold ScriptParser.parseWith ScriptParser.parse
  simp only [hline, hpass]

/-- C28. A missing reference stringtable is treated as an empty one. `StringtableParser`
yields no Project for a document without root element, and `main` passes the null
pointer. For every script and every output tree the extraction with the null pointer is
the extraction with an empty reference tree, in its output tree and its diagnostics:
every directive is `setTranslation` of its Original text, with nothing carried forward,
and an identifier of the orphan pass copies nothing. With a pointer to a tree the
extraction is the one of the other claims. -/
theorem C28_missing_reference_tree_is_read_as_empty :
    StringtableParser.parse [] = none ∧
    (∀ (m_fileBaseName name : String) (m_sp : Project) (lines : List String),
      ScriptParser.parseWith m_fileBaseName none m_sp lines
        = ScriptParser.parse m_fileBaseName (Project.mk name []) m_sp lines) ∧
    (∀ (m_sp : Project) (package container key text : String),
      ScriptParser.saveTranslation none m_sp package container key text
        = m_sp.setTranslation package container key "Original" text) ∧
    (∀ (acc : Project × List (Nat × String)) (key : String) (lineNumber : Nat),
      ScriptParser.findLonelyTranslation none acc key lineNumber
        = if acc.1.selectsNone key then (acc.1, acc.2 ++ [(lineNumber, key)]) else acc) ∧
    ∀ (m_fileBaseName : String) (st m_sp : Project) (lines : List String),
      ScriptParser.parseWith m_fileBaseName (some st) m_sp lines
        = ScriptParser.parse m_fileBaseName st m_sp lines := by
  refine ⟨rfl, ?_, pointerSaveTranslation_none, pointerFindLonelyTranslation_none, ?_⟩
  · intro m_fileBaseName name m_sp lines
    exact parseWith_eq m_fileBaseName none (Project.mk name []) (Or.inr ⟨rfl, rfl⟩) m_sp lines
  · intro m_fileBaseName st m_sp lines
    exact parseWith_eq m_fileBaseName (some st) st (Or.inl rfl) m_sp lines

/-! ## Lemmas on sibling uniqueness -/

theorem nodup_map_upsert {α : Type} (name : α → String) (mk : String → α) (n : String)
    (f : α → α) (l : List α) (hf : ∀ x, name (f x) = name x) (hmk : name (mk n) = n)
    (h : (l.map name).Nodup) : ((upsert name mk n f l).map name).Nodup := by
  unfold upsert findChild
  cases hfind : l.find? (fun x => name x == n) with
  | none =>
    simp only [List.map_append, List.map_cons, List.map_nil, hf, hmk]
    apply List.Nodup.append h (List.nodup_singleton n)
    intro m hm hm2
    rw [List.mem_singleton.mp hm2] at hm
    obtain ⟨x, hx, hxn⟩ := List.mem_map.mp hm
    have := List.find?_eq_none.mp hfind x hx
    simp [hxn] at this
  | some _ =>
    simp only
    rw [map_modifyFirst_of_preserved _ f name hf]
    exact h

theorem regexHasMatch_subject (pattern s s2 : String) (h : caseFold s2 = caseFold s) :
    regexHasMatch pattern s2 = regexHasMatch pattern s := by
  unfold regexHasMatch
  rw [h]

/-- `Container::setTranslation` with a key free of metacharacters keeps the Keys of the
Container different ignoring case. -/
theorem containerSetTranslation_nodup (c : Container) (key lang t : String)
    (hk : isLiteralPattern key = true)
    (hc : (c.children.map (fun k => caseFold k.objectName)).Nodup) :
    ((c.setTranslation key lang t).children.map (fun k => caseFold k.objectName)).Nodup := by
  unfold Container.setTranslation Container.findKeys
  split
  · rename_i hempty
    simp only [List.map_append, List.map_cons, List.map_nil, keySetTranslation_objectName]
    apply List.Nodup.append hc (List.nodup_singleton _)
    intro m hm hm2
    rw [List.mem_singleton.mp hm2] at hm
    obtain ⟨x, hx, hxn⟩ := List.mem_map.mp hm
    have hmatch : regexHasMatch key x.objectName = true := by
      rw [regexHasMatch_subject key key x.objectName hxn]
      exact regexHasMatch_literal key key hk rfl
    have hmem : x ∈ c.children.filter (fun k => regexHasMatch key k.objectName) :=
      List.mem_filter.mpr ⟨hx, hmatch⟩
    rw [List.isEmpty_iff.mp hempty] at hmem
    exact absurd hmem (List.not_mem_nil _)
  · have e := map_modifyFirst_of_preserved (fun k : Key => regexHasMatch key k.objectName)
      (fun k : Key => k.setTranslation lang t) (fun k : Key => caseFold k.objectName)
      (fun k => by dsimp only; rw [keySetTranslation_objectName]) c.children
    dsimp only
    rw [e]
    exact hc

theorem packageUpdate_nodup (p : Package) (container key lang t : String)
    (hk : isLiteralPattern key = true)
    (hp : (p.children.map Container.objectName).Nodup ∧
      ∀ c ∈ p.children, (c.children.map (fun k => caseFold k.objectName)).Nodup) :
    ((p.updateContainer container (fun c => c.setTranslation key lang t)).children.map
        Container.objectName).Nodup ∧
      ∀ c ∈ (p.updateContainer container (fun c => c.setTranslation key lang t)).children,
        (c.children.map (fun k => caseFold k.objectName)).Nodup := by
  unfold Package.updateContainer
  dsimp only
  refine ⟨nodup_map_upsert Container.objectName (fun n => Container.mk n []) container
    (fun c => c.setTranslation key lang t) p.children
    (fun c => containerSetTranslation_objectName c key lang t) rfl hp.1, ?_⟩
  exact forall_mem_upsert Container.objectName (fun n => Container.mk n []) container
    (fun c => c.setTranslation key lang t)
    (fun c => (c.children.map (fun k => caseFold k.objectName)).Nodup) p.children hp.2
    (fun c hcc => containerSetTranslation_nodup c key lang t hk hcc)
    (containerSetTranslation_nodup _ key lang t hk (by simp))

theorem projectSetTranslation_siblingsDiffer (proj : Project)
    (package container key lang t : String) (hk : isLiteralPattern key = true)
    (hp : proj.siblingsDiffer) :
    (proj.setTranslation package container key lang t).siblingsDiffer := by
  rw [projectSetTranslation_eq_update]
  unfold Project.siblingsDiffer Project.updateContainer
  dsimp only
  refine ⟨nodup_map_upsert Package.objectName (fun n => Package.mk n []) package
    (fun p => p.updateContainer container (fun c => c.setTranslation key lang t))
    proj.children (fun p => rfl) rfl hp.1, ?_⟩
  exact forall_mem_upsert Package.objectName (fun n => Package.mk n []) package
    (fun p => p.updateContainer container (fun c => c.setTranslation key lang t))
    (fun p => (p.children.map Container.objectName).Nodup ∧
      ∀ c ∈ p.children, (c.children.map (fun k => caseFold k.objectName)).Nodup)
    proj.children hp.2
    (fun p hpp => packageUpdate_nodup p container key lang t hk hpp)
    (packageUpdate_nodup _ container key lang t hk ⟨by simp, by simp⟩)

/-! ## The claims on the invariants of the tree -/

/-- C29, as stated: refuted. Package and Container names are looked up with an exact
comparison: the calls for `Main` and `main` build two Packages, and the calls for `intro`
and `Intro` two Containers of one Package, with names equal ignoring case. -/
theorem C29_packages_Main_and_main_coexist :
    Project.built "P"
        [Call.mk "Main" "intro" "str_a" "Original" "Hello",
          Call.mk "main" "intro" "str_a" "Original" "Hello",
          Call.mk "Main" "Intro" "str_a" "Original" "Hello"]
      = Project.mk "P"
          [Package.mk "Main"
            [Container.mk "intro" [Key.mk "str_a" [Translation.mk "Original" "Hello"]],
              Container.mk "Intro" [Key.mk "str_a" [Translation.mk "Original" "Hello"]]],
            Package.mk "main"
              [Container.mk "intro" [Key.mk "str_a" [Translation.mk "Original" "Hello"]]]] ∧
    ¬ (Project.built "P"
        [Call.mk "Main" "intro" "str_a" "Original" "Hello",
          Call.mk "main" "intro" "str_a" "Original" "Hello",
          Call.mk "Main" "Intro" "str_a" "Original" "Hello"]).siblingsDifferIgnoringCase := by
  decide

/-- C29, amended. In every tree built from an empty Project by a sequence of
`setTranslation` calls whose keys contain no pattern metacharacter, no two Packages of
the Project and no two Containers of a Package have the same name, and no two Keys of a
Container have names that are equal ignoring letter case. -/
theorem C29_sibling_uniqueness (name : String) (calls : List Call)
    (hkeys : ∀ call ∈ calls, isLiteralPattern call.key = true) :
    (Project.built name calls).siblingsDiffer := by
  have h : ∀ (calls : List Call) (proj : Project),
      (∀ call ∈ calls, isLiteralPattern call.key = true) → proj.siblingsDiffer →
      (calls.foldl (fun proj call =>
        proj.setTranslation call.package call.container call.key call.lang call.text)
        proj).siblingsDiffer := by
    intro calls
    induction calls with
    | nil => intro proj _ hp; exact hp
    | cons call rest ih =>
      intro proj hk hp
      exact ih _ (fun c hc => hk c (List.mem_cons_of_mem _ hc))
        (projectSetTranslation_siblingsDiffer proj _ _ _ _ _
          (hk call (List.mem_cons_self _ _)) hp)
  exact h calls (Project.mk name []) hkeys (by unfold Project.siblingsDiffer; simp)

/-- C29, amended: witness, calls that address one Key in two spellings, two Keys of one
Container and Packages that differ in case only. -/
theorem C29_sibling_uniqueness_witness :
    (∀ call ∈ [Call.mk "Main" "intro" "str_a" "Original" "Hello",
        Call.mk "Main" "intro" "STR_A" "German" "Hallo",
        Call.mk "Main" "intro" "str_b" "Original" "Bye",
        Call.mk "main" "intro" "str_a" "Original" "Hello"],
      isLiteralPattern call.key = true) ∧
    (Project.built "P" [Call.mk "Main" "intro" "str_a" "Original" "Hello",
        Call.mk "Main" "intro" "STR_A" "German" "Hallo",
        Call.mk "Main" "intro" "str_b" "Original" "Bye",
        Call.mk "main" "intro" "str_a" "Original" "Hello"]).siblingsDiffer :=
  ⟨by decide, C29_sibling_uniqueness "P" _ (by decide)⟩

/-- C30. Leaf invariant of `setTranslation`: in every tree built from an empty Project by
any sequence of `setTranslation` calls, no Translation has an empty text and no Key
holds two Translations with the same language tag. -/
theorem C30_leaf_invariant_of_setTranslation (name : String) (calls : List Call) :
    (Project.built name calls).noEmptyString ∧ (Project.built name calls).uniqueLanguages := by
  have h : ∀ (calls : List Call) (proj : Project),
      (∀ p ∈ proj.children, ∀ c ∈ p.children, ∀ k ∈ c.children,
        (∀ t ∈ k.children, t.string ≠ "") ∧ (k.children.map Translation.objectName).Nodup) →
      ∀ p ∈ (calls.foldl (fun proj call =>
          proj.setTranslation call.package call.container call.key call.lang call.text)
          proj).children, ∀ c ∈ p.children, ∀ k ∈ c.children,
        (∀ t ∈ k.children, t.string ≠ "") ∧ (k.children.map Translation.objectName).Nodup := by
    intro calls
    induction calls with
    | nil => intro proj hp; exact hp
    | cons call rest ih =>
      intro proj hp
      exact ih _ (projectSetTranslation_forall _ proj call.package call.container call.key
        call.lang call.text
        (fun k hk => ⟨keySetTranslation_noEmptyString k _ _ hk.1,
          keySetTranslation_nodup k _ _ hk.2⟩)
        ⟨by simp, by simp⟩ hp)
  have h0 := h calls (Project.mk name []) (by simp)
  exact ⟨fun p hp c hc k hk => (h0 p hp c hc k hk).1,
    fun p hp c hc k hk => (h0 p hp c hc k hk).2⟩

/-! ## The claim on one Translation per tag through extraction -/

/-- C31, the defect. The reference tree read from a stringtable holds the Key `str_a` of
(Main, init) with `Original` = `Hello` and `German` = `Hallo`. The directive
`// TR * * str_a "Hello"`, read twice in `init.sqf`, carries the `German` Translation
forward each time: `saveTranslation` appends a new Translation to the Key without looking
for one with the tag, and the Key of the output tree holds `German` twice. -/
theorem C31_repeated_directive_duplicates_the_carried_translation :
    StringtableParser.parse
        [QDomNode.element "Project" [("name", "P")]
          [QDomNode.element "Package" [("name", "Main")]
            [QDomNode.element "Container" [("name", "init")]
              [QDomNode.element "Key" [("ID", "str_a")]
                [QDomNode.element "Original" [] [QDomNode.textNode "Hello"],
                  QDomNode.element "German" [] [QDomNode.textNode "Hallo"]]]]]]
      = some (Project.mk "P" [Package.mk "Main" [Container.mk "init"
          [Key.mk "str_a" [Translation.mk "Original" "Hello",
            Translation.mk "German" "Hallo"]]]]) ∧
    ScriptParser.parse "init"
        (Project.mk "P" [Package.mk "Main" [Container.mk "init"
          [Key.mk "str_a" [Translation.mk "Original" "Hello",
            Translation.mk "German" "Hallo"]]]])
        (Project.mk "P" []) ["// TR * * str_a \"Hello\"", "// TR * * str_a \"Hello\""]
      = (Project.mk "P" [Package.mk "Main" [Container.mk "init"
          [Key.mk "str_a" [Translation.mk "Original" "Hello",
            Translation.mk "German" "Hallo", Translation.mk "German" "Hallo"]]]], []) ∧
    ¬ (ScriptParser.parse "init"
        (Project.mk "P" [Package.mk "Main" [Container.mk "init"
          [Key.mk "str_a" [Translation.mk "Original" "Hello",
            Translation.mk "German" "Hallo"]]]])
        (Project.mk "P" [])
        ["// TR * * str_a \"Hello\"", "// TR * * str_a \"Hello\""]).1.uniqueLanguages := by
  decide

/-! ## The reference tree during extraction -/

theorem treesSaveTranslation_eq (t : Trees) (package container key text : String) :
    t.saveTranslation package container key text
      = { m_st := t.m_st,
          m_sp := saveTranslation t.m_st t.m_sp package container key text } := by
  unfold Trees.saveTranslation saveTranslation
  simp only
  cases t.m_st.getTranslation package container key "Original" with
  | none => rfl
  | some tr =>
    simp only
    split
    · split <;> rfl
    · rfl

theorem foldl_treesSetTranslation (p c : Option String) (key : String)
    (ts : List Translation) (t : Trees) :
    ts.foldl (fun t tr =>
        { t with
          m_sp := t.m_sp.setTranslationQ p c key (nullIfEmpty tr.objectName) tr.string }) t
      = { m_st := t.m_st,
          m_sp := ts.foldl (fun sp tr =>
            sp.setTranslationQ p c key (nullIfEmpty tr.objectName) tr.string) t.m_sp } := by
  induction ts generalizing t with
  | nil => rfl
  | cons tr ts ih => simp only [List.foldl_cons]; rw [ih]

theorem treesFindLonelyTranslation_eq (acc : Trees × List (Nat × String)) (key : String)
    (lineNumber : Nat) :
    Trees.findLonelyTranslation acc key lineNumber
      = ({ m_st := acc.1.m_st,
           m_sp := (findLonelyTranslation acc.1.m_st (acc.1.m_sp, acc.2) key lineNumber).1 },
          (findLonelyTranslation acc.1.m_st (acc.1.m_sp, acc.2) key lineNumber).2) := by
  unfold Trees.findLonelyTranslation findLonelyTranslation
  simp only
  split
  · cases acc.1.m_st.findKeysRecursively key with
    | nil => rfl
    | cons x xs =>
      simp only
      rw [foldl_treesSetTranslation]
  · rfl

theorem foldl_treesFindLonelyTranslation (m_st : Project) (os : List (Nat × String))
    (acc : Trees × List (Nat × String)) (h : acc.1.m_st = m_st) :
    (os.foldl (fun a o => Trees.findLonelyTranslation a o.2 o.1) acc).1.m_st = m_st ∧
    ((os.foldl (fun a o => Trees.findLonelyTranslation a o.2 o.1) acc).1.m_sp,
        (os.foldl (fun a o => Trees.findLonelyTranslation a o.2 o.1) acc).2)
      = os.foldl (fun a o => findLonelyTranslation m_st a o.2 o.1) (acc.1.m_sp, acc.2) := by
  induction os generalizing acc with
  | nil => exact ⟨h, rfl⟩
  | cons o os ih =>
    simp only [List.foldl_cons]
    have e := treesFindLonelyTranslation_eq acc o.2 o.1
    have h1 : (Trees.findLonelyTranslation acc o.2 o.1).1.m_st = m_st := by rw [e]; exact h
    have ih2 := ih (Trees.findLonelyTranslation acc o.2 o.1) h1
    refine ⟨ih2.1, ?_⟩
    rw [ih2.2, e, h]

theorem treesLonelyPass_eq_foldl (lines : List String) (lineNumber : Nat)
    (acc : Trees × List (Nat × String)) :
    Trees.lonelyPass lineNumber lines acc
      = (occurrencesFrom lineNumber lines).foldl
          (fun a o => Trees.findLonelyTranslation a o.2 o.1) acc := by
  induction lines generalizing lineNumber acc with
  | nil => rfl
  | cons line rest ih =>
    unfold Trees.lonelyPass occurrencesFrom
    rw [ih, List.foldl_append, List.foldl_map]

theorem treesCloseBlock_eq (m_fileBaseName : String) (s : TreesState) :
    (Trees.closeBlock m_fileBaseName s).trees.m_st = s.trees.m_st ∧
    ParseState.mk (Trees.closeBlock m_fileBaseName s).multiLineStarted
        (Trees.closeBlock m_fileBaseName s).multiLineHeader
        (Trees.closeBlock m_fileBaseName s).multiLine
        (Trees.closeBlock m_fileBaseName s).trees.m_sp
      = closeBlock m_fileBaseName s.trees.m_st
          (ParseState.mk s.multiLineStarted s.multiLineHeader s.multiLine s.trees.m_sp) := by
  unfold Trees.closeBlock closeBlock
  simp only
  cases multiLineMetaSearch (simplified s.multiLineHeader).toList with
  | none => exact ⟨rfl, rfl⟩
  | some m =>
    simp only
    rw [treesSaveTranslation_eq]
    exact ⟨rfl, rfl⟩

/-- The state of the first loop on both trees, seen as a state of the first loop on the
output tree. -/
theorem treesParseLine_eq (m_fileBaseName : String) (s : TreesState) (line : String) :
    (Trees.parseLine m_fileBaseName s line).trees.m_st = s.trees.m_st ∧
    ParseState.mk (Trees.parseLine m_fileBaseName s line).multiLineStarted
        (Trees.parseLine m_fileBaseName s line).multiLineHeader
        (Trees.parseLine m_fileBaseName s line).multiLine
        (Trees.parseLine m_fileBaseName s line).trees.m_sp
      = parseLine m_fileBaseName s.trees.m_st
          (ParseState.mk s.multiLineStarted s.multiLineHeader s.multiLine s.trees.m_sp)
          line := by
  have hrest : ∀ (s : TreesState),
      (let s1 : TreesState :=
          if containsMultiLineStart line.toList then { s with multiLineStarted := true }
          else s
        let s2 : TreesState :=
          if s1.multiLineStarted then
            if s1.multiLineHeader.isEmpty then { s1 with multiLineHeader := line }
            else { s1 with multiLine := s1.multiLine ++ line ++ " " }
          else s1
        if s2.multiLineStarted && containsMultiLineEnd line.toList then
          Trees.closeBlock m_fileBaseName s2
        else s2).trees.m_st = s.trees.m_st ∧
      ParseState.mk
        (let s1 : TreesState :=
          if containsMultiLineStart line.toList then { s with multiLineStarted := true }
          else s
        let s2 : TreesState :=
          if s1.multiLineStarted then
            if s1.multiLineHeader.isEmpty then { s1 with multiLineHeader := line }
            else { s1 with multiLine := s1.multiLine ++ line ++ " " }
          else s1
        if s2.multiLineStarted && containsMultiLineEnd line.toList then
          Trees.closeBlock m_fileBaseName s2
        else s2).multiLineStarted
        (let s1 : TreesState :=
          if containsMultiLineStart line.toList then { s with multiLineStarted := true }
          else s
        let s2 : TreesState :=
          if s1.multiLineStarted then
            if s1.multiLineHeader.isEmpty then { s1 with multiLineHeader := line }
            else { s1 with multiLine := s1.multiLine ++ line ++ " " }
          else s1
        if s2.multiLineStarted && containsMultiLineEnd line.toList then
          Trees.closeBlock m_fileBaseName s2
        else s2).multiLineHeader
        (let s1 : TreesState :=
          if containsMultiLineStart line.toList then { s with multiLineStarted := true }
          else s
        let s2 : TreesState :=
          if s1.multiLineStarted then
            if s1.multiLineHeader.isEmpty then { s1 with multiLineHeader := line }
            else { s1 with multiLine := s1.multiLine ++ line ++ " " }
          else s1
        if s2.multiLineStarted && containsMultiLineEnd line.toList then
          Trees.closeBlock m_fileBaseName s2
        else s2).multiLine
        (let s1 : TreesState :=
          if containsMultiLineStart line.toList then { s with multiLineStarted := true }
          else s
        let s2 : TreesState :=
          if s1.multiLineStarted then
            if s1.multiLineHeader.isEmpty then { s1 with multiLineHeader := line }
            else { s1 with multiLine := s1.multiLine ++ line ++ " " }
          else s1
        if s2.multiLineStarted && containsMultiLineEnd line.toList then
          Trees.closeBlock m_fileBaseName s2
        else s2).trees.m_sp
      = (let p := ParseState.mk s.multiLineStarted s.multiLineHeader s.multiLine
            s.trees.m_sp
        let s1 : ParseState :=
          if containsMultiLineStart line.toList then { p with multiLineStarted := true }
          else p
        let s2 : ParseState :=
          if s1.multiLineStarted then
            if s1.multiLineHeader.isEmpty then { s1 with multiLineHeader := line }
            else { s1 with multiLine := s1.multiLine ++ line ++ " " }
          else s1
        if s2.multiLineStarted && containsMultiLineEnd line.toList then
          closeBlock m_fileBaseName s.trees.m_st s2
        else s2) := by
    intro s
    cases s with
    | mk started header ml trees =>
      simp only
      cases started <;> cases hst : containsMultiLineStart line.toList <;>
        cases hhd : header.isEmpty <;> cases hend : containsMultiLineEnd line.toList <;>
        simp only [hhd, if_true, if_false, Bool.false_eq_true, Bool.true_and,
          Bool.false_and, Bool.and_true, Bool.and_false] <;>
        first
          | exact ⟨rfl, rfl⟩
          | exact ⟨trivial, trivial⟩
          | exact treesCloseBlock_eq m_fileBaseName _
  cases hsl : singleLineSearch line.toList with
  | none =>
    have h := hrest s
    unfold Trees.parseLine parseLine
    rw [hsl]
    exact h
  | some m =>
    cases hs : s.multiLineStarted with
    | false =>
      unfold Trees.parseLine parseLine
      rw [hsl, hs]
      simp only
      rw [treesSaveTranslation_eq]
      exact ⟨rfl, rfl⟩
    | true =>
      have h := hrest s
      unfold Trees.parseLine parseLine
      rw [hsl]
      rw [hs] at h ⊢
      exact h

theorem foldl_treesParseLine (m_fileBaseName : String) (lines : List String)
    (s : TreesState) :
    (lines.foldl (Trees.parseLine m_fileBaseName) s).trees.m_st = s.trees.m_st ∧
    ParseState.mk (lines.foldl (Trees.parseLine m_fileBaseName) s).multiLineStarted
        (lines.foldl (Trees.parseLine m_fileBaseName) s).multiLineHeader
        (lines.foldl (Trees.parseLine m_fileBaseName) s).multiLine
        (lines.foldl (Trees.parseLine m_fileBaseName) s).trees.m_sp
      = lines.foldl (parseLine m_fileBaseName s.trees.m_st)
          (ParseState.mk s.multiLineStarted s.multiLineHeader s.multiLine s.trees.m_sp) := by
  induction lines generalizing s with
  | nil => exact ⟨rfl, rfl⟩
  | cons line rest ih =>
    simp only [List.foldl_cons]
    have h1 := treesParseLine_eq m_fileBaseName s line
    have h2 := ih (Trees.parseLine m_fileBaseName s line)
    refine ⟨h2.1.trans h1.1, ?_⟩
    rw [h2.2, h1.1, h1.2]

/-- C32. The reference tree is never mutated by extraction: for every script, reference
tree and output tree, the reference tree after the directive pass, and after the orphan
pass that follows, is the reference tree before; the output tree and the diagnostics
are those of `ScriptParser::parse` with the reference tree as a fixed argument. -/
theorem C32_reference_tree_is_never_mutated (m_fileBaseName : String) (t : Trees)
    (lines : List String) :
    (lines.foldl (Trees.parseLine m_fileBaseName)
      { multiLineStarted := false, multiLineHeader := "", multiLine := "",
        trees := t }).trees.m_st = t.m_st ∧
    (Trees.parse m_fileBaseName t lines).1.m_st = t.m_st ∧
    ((Trees.parse m_fileBaseName t lines).1.m_sp, (Trees.parse m_fileBaseName t lines).2)
      = ScriptParser.parse m_fileBaseName t.m_st t.m_sp lines := by
  have h1 := foldl_treesParseLine m_fileBaseName lines
    { multiLineStarted := false, multiLineHeader := "", multiLine := "", trees := t }
  have h2 := foldl_treesFindLonelyTranslation t.m_st (occurrencesFrom 0 lines)
    ((lines.foldl (Trees.parseLine m_fileBaseName)
      { multiLineStarted := false, multiLineHeader := "", multiLine := "",
        trees := t }).trees, []) h1.1
  refine ⟨h1.1, ?_, ?_⟩
  · unfold Trees.parse
    simp only
    rw [treesLonelyPass_eq_foldl]
    exact h2.1
  · unfold Trees.parse ScriptParser.parse
    simp only
    rw [treesLonelyPass_eq_foldl, lonelyPass_eq_foldl, h2.2]
    have h3 := congrArg ParseState.m_sp h1.2
    simp only at h3
    rw [h3]

/-! ## Lemmas on the block header -/

theorem takeWhile_run_tail (cls : Char → Bool) (a tail : List Char)
    (hall : ∀ x ∈ a, cls x = true) (htail : ∀ y ∈ tail.head?, cls y = false) :
    (a ++ tail).takeWhile cls = a ∧ (a ++ tail).dropWhile cls = tail := by
  cases tail with
  | nil =>
    simp only [List.append_nil]
    exact ⟨List.takeWhile_eq_self_iff.mpr hall, List.dropWhile_eq_nil_iff.mpr hall⟩
  | cons y ys =>
    exact takeWhile_run cls a y ys hall (htail y rfl)

theorem takeSome_run_tail (cls : Char → Bool) (a tail : List Char) (hne : a ≠ [])
    (hall : ∀ x ∈ a, cls x = true) (htail : ∀ y ∈ tail.head?, cls y = false) :
    takeSome cls (a ++ tail) = some (a, tail) := by
  unfold takeSome
  rw [(takeWhile_run_tail cls a tail hall htail).1, (takeWhile_run_tail cls a tail hall htail).2]
  cases a with
  | nil => exact absurd rfl hne
  | cons x xs => rfl

theorem blockHeader_toList (P C K : String) :
    (blockHeader P C K).toList
      = '/' :: '*' :: ' ' :: 'T' :: 'R' :: ' ' ::
          (P.toList ++ ' ' :: (C.toList ++ ' ' :: K.toList)) := by
  simp [blockHeader, String.toList, String.data_append]

theorem isTokenOf_iff (cls : Char → Bool) (s : String) :
    isTokenOf cls s = true ↔ s.toList ≠ [] ∧ ∀ c ∈ s.toList, cls c = true := by
  simp [isTokenOf, List.all_eq_true]

/-- The header pattern at the start of `/* TR P C K` followed by anything that does not
go on the key token: the three captures are `P`, `C` and `K`. -/
theorem multiLineMetaAt_header (P C K : String) (tail : List Char)
    (hP : isTokenOf isTokenChar P = true) (hC : isTokenOf isTokenChar C = true)
    (hK : isTokenOf isTokenChar K = true)
    (htail : ∀ y ∈ tail.head?, isTokenChar y = false) :
    multiLineMetaAt ((blockHeader P C K).toList ++ tail)
      = some (MultiLineMetaMatch.mk P C K) := by
  obtain ⟨hP0, hP1⟩ := (isTokenOf_iff _ _).mp hP
  obtain ⟨hC0, hC1⟩ := (isTokenOf_iff _ _).mp hC
  obtain ⟨hK0, hK1⟩ := (isTokenOf_iff _ _).mp hK
  obtain ⟨p0, ps, hPl⟩ := List.exists_cons_of_ne_nil hP0
  obtain ⟨c0, cs, hCl⟩ := List.exists_cons_of_ne_nil hC0
  obtain ⟨k0, ks, hKl⟩ := List.exists_cons_of_ne_nil hK0
  have hp0 : isRegexSpace p0 = false :=
    isRegexSpace_false_of_isTokenChar _ (hP1 p0 (by rw [hPl]; exact List.mem_cons_self _ _))
  have hc0 : isRegexSpace c0 = false :=
    isRegexSpace_false_of_isTokenChar _ (hC1 c0 (by rw [hCl]; exact List.mem_cons_self _ _))
  have hk0 : isRegexSpace k0 = false :=
    isRegexSpace_false_of_isTokenChar _ (hK1 k0 (by rw [hKl]; exact List.mem_cons_self _ _))
  have s1 : takeSome isRegexSpace (' ' :: (P.toList ++ ' ' :: (C.toList ++ ' ' ::
      (K.toList ++ tail))))
      = some ([' '], P.toList ++ ' ' :: (C.toList ++ ' ' :: (K.toList ++ tail))) := by
    rw [hPl]
    exact takeSome_run isRegexSpace [' '] p0 _ (by simp) (by decide) hp0
  have s2 : takeSome isTokenChar (P.toList ++ ' ' :: (C.toList ++ ' ' :: (K.toList ++ tail)))
      = some (P.toList, ' ' :: (C.toList ++ ' ' :: (K.toList ++ tail))) :=
    takeSome_run isTokenChar P.toList ' ' _ hP0 hP1 (by decide)
  have s3 : takeSome isRegexSpace (' ' :: (C.toList ++ ' ' :: (K.toList ++ tail)))
      = some ([' '], C.toList ++ ' ' :: (K.toList ++ tail)) := by
    rw [hCl]
    exact takeSome_run isRegexSpace [' '] c0 _ (by simp) (by decide) hc0
  have s4 : takeSome isTokenChar (C.toList ++ ' ' :: (K.toList ++ tail))
      = some (C.toList, ' ' :: (K.toList ++ tail)) :=
    takeSome_run isTokenChar C.toList ' ' _ hC0 hC1 (by decide)
  have s5 : takeSome isRegexSpace (' ' :: (K.toList ++ tail))
      = some ([' '], K.toList ++ tail) := by
    rw [hKl]
    exact takeSome_run isRegexSpace [' '] k0 _ (by simp) (by decide) hk0
  have s6 : takeSome isTokenChar (K.toList ++ tail) = some (K.toList, tail) :=
    takeSome_run_tail isTokenChar K.toList tail hK0 hK1 htail
  have e : (blockHeader P C K).toList ++ tail
      = '/' :: '*' :: ' ' :: 'T' :: 'R' :: ' ' ::
          (P.toList ++ ' ' :: (C.toList ++ ' ' :: (K.toList ++ tail))) := by
    rw [blockHeader_toList]
    simp
  rw [e]
  unfold multiLineMetaAt
  have d1 : ∀ r : List Char, dropLiteral ['/', '*'] ('/' :: '*' :: r) = some r := by
    intro r; simp [dropLiteral]
  have d2 : ∀ r : List Char, dropLiteral ['T', 'R'] ('T' :: 'R' :: r) = some r := by
    intro r; simp [dropLiteral]
  have d4 : ∀ r : List Char, List.dropWhile isRegexSpace (' ' :: 'T' :: r) = 'T' :: r := by
    intro r
    have h1 : isRegexSpace ' ' = true := by decide
    have h2 : isRegexSpace 'T' = false := by decide
    simp [List.dropWhile, h1, h2]
  rw [d1]
  simp only [Option.some_bind]
  rw [d4, d2]
  simp only [Option.some_bind]
  rw [s1]
  simp only [Option.some_bind]
  rw [s2]
  simp only [Option.some_bind]
  rw [s3]
  simp only [Option.some_bind]
  rw [s4]
  simp only [Option.some_bind]
  rw [s5]
  simp only [Option.some_bind]
  rw [s6]
  rfl

theorem multiLineMetaSearch_header (P C K : String) (tail : List Char)
    (hP : isTokenOf isTokenChar P = true) (hC : isTokenOf isTokenChar C = true)
    (hK : isTokenOf isTokenChar K = true)
    (htail : ∀ y ∈ tail.head?, isTokenChar y = false) :
    multiLineMetaSearch ((blockHeader P C K).toList ++ tail)
      = some (MultiLineMetaMatch.mk P C K) := by
  have h := multiLineMetaAt_header P C K tail hP hC hK htail
  rw [blockHeader_toList] at h ⊢
  simp only [List.cons_append] at h ⊢
  unfold multiLineMetaSearch
  rw [h]

theorem isQtSpace_false_of_isTokenChar (c : Char) (h : isTokenChar c = true) :
    isQtSpace c = false := by
  obtain ⟨h1, h2, h3, h4, h5, h6⟩ := charCodes
  cases hs : isQtSpace c with
  | false => rfl
  | true =>
    exfalso
    have hb : 42 ≤ c.toNat ∧ c.toNat ≤ 122 := by
      simp only [isTokenChar, inRange, h1, h2, h3, h5, h6, Bool.or_eq_true,
        Bool.and_eq_true, decide_eq_true_eq, beq_iff_eq] at h
      rcases h with (((h | h) | h) | h) | h
      · omega
      · omega
      · omega
      · subst h; decide
      · subst h; decide
    simp only [isQtSpace, Bool.or_eq_true, Bool.and_eq_true, decide_eq_true_eq,
      beq_iff_eq] at hs
    rcases hs with (((((((((hs | hs) | hs) | hs) | hs) | hs) | hs) | hs) | hs) | hs) | hs
    · subst hs; revert hb; decide
    all_goals omega

theorem simplifiedFrom_word (emitted : Bool) (w rest : List Char) (hne : w ≠ [])
    (hw : ∀ c ∈ w, isQtSpace c = false) :
    simplifiedFrom emitted false (w ++ rest) = w ++ simplifiedFrom true false rest := by
  induction w generalizing emitted with
  | nil => exact absurd rfl hne
  | cons c cs ih =>
    have hc := hw c (List.mem_cons_self _ _)
    cases cs with
    | nil => simp [simplifiedFrom, hc]
    | cons d ds =>
      have := ih true (by simp) (fun x hx => hw x (List.mem_cons_of_mem _ hx))
      simp only [List.cons_append] at this ⊢
      rw [simplifiedFrom]
      simp only [hc, Bool.false_eq_true, if_false]
      rw [this]

theorem simplifiedFrom_space_word (w rest : List Char) (hne : w ≠ [])
    (hw : ∀ c ∈ w, isQtSpace c = false) :
    simplifiedFrom true false (' ' :: (w ++ rest))
      = ' ' :: (w ++ simplifiedFrom true false rest) := by
  cases w with
  | nil => exact absurd rfl hne
  | cons c cs =>
    have hc := hw c (List.mem_cons_self _ _)
    have hsp : isQtSpace ' ' = true := by decide
    rw [simplifiedFrom]
    simp only [hsp, if_true, List.cons_append]
    rw [simplifiedFrom]
    simp only [hc, Bool.false_eq_true, if_false, if_true]
    cases cs with
    | nil => rfl
    | cons d ds =>
      have h2 := simplifiedFrom_word true (d :: ds) rest (by simp)
        (fun x hx => hw x (List.mem_cons_of_mem _ hx))
      rw [h2]

/-- `simplified()` leaves the header `/* TR P C K` as it is and goes on behind it. -/
theorem simplifiedFrom_header (P C K : String) (tail : List Char)
    (hP : isTokenOf isTokenChar P = true) (hC : isTokenOf isTokenChar C = true)
    (hK : isTokenOf isTokenChar K = true) :
    simplifiedFrom false false ((blockHeader P C K).toList ++ tail)
      = (blockHeader P C K).toList ++ simplifiedFrom true false tail := by
  obtain ⟨hP0, hP1⟩ := (isTokenOf_iff _ _).mp hP
  obtain ⟨hC0, hC1⟩ := (isTokenOf_iff _ _).mp hC
  obtain ⟨hK0, hK1⟩ := (isTokenOf_iff _ _).mp hK
  have q : ∀ (s : String), (∀ c ∈ s.toList, isTokenChar c = true) →
      ∀ c ∈ s.toList, isQtSpace c = false :=
    fun s hs c hc => isQtSpace_false_of_isTokenChar c (hs c hc)
  rw [blockHeader_toList]
  have e1 : ('/' :: '*' :: ' ' :: 'T' :: 'R' :: ' ' ::
      (P.toList ++ ' ' :: (C.toList ++ ' ' :: K.toList))) ++ tail
      = ['/', '*'] ++ (' ' :: (['T', 'R'] ++ (' ' :: (P.toList ++ (' ' :: (C.toList ++
          (' ' :: (K.toList ++ tail)))))))) := by
    simp
  rw [e1, simplifiedFrom_word false ['/', '*'] _ (by simp) (by decide),
    simplifiedFrom_space_word ['T', 'R'] _ (by simp) (by decide),
    simplifiedFrom_space_word P.toList _ hP0 (q P hP1),
    simplifiedFrom_space_word C.toList _ hC0 (q C hC1),
    simplifiedFrom_space_word K.toList _ hK0 (q K hK1)]
  simp

theorem simplified_blockHeader (P C K : String)
    (hP : isTokenOf isTokenChar P = true) (hC : isTokenOf isTokenChar C = true)
    (hK : isTokenOf isTokenChar K = true) :
    simplified (blockHeader P C K) = blockHeader P C K := by
  unfold simplified
  have h := simplifiedFrom_header P C K [] hP hC hK
  have e : simplifiedFrom true false [] = [] := rfl
  rw [e, List.append_nil] at h
  rw [h]
  rfl

theorem isTokenChar_ne_slash (c : Char) (h : isTokenChar c = true) : c ≠ '/' := by
  intro hc
  subst hc
  revert h
  decide

theorem singleLineSearch_of_noSlash (s : List Char) (h : ∀ c ∈ s, c ≠ '/') :
    singleLineSearch s = none ∧ singleLineSearch (s ++ ['/']) = none := by
  induction s with
  | nil => exact ⟨rfl, by decide⟩
  | cons c cs ih =>
    have hc := h c (List.mem_cons_self _ _)
    have ih2 := ih (fun x hx => h x (List.mem_cons_of_mem _ hx))
    have e : ∀ r, singleLineAt (c :: r) = none := by
      intro r
      simp [singleLineAt, dropLiteral, hc]
    constructor
    · unfold singleLineSearch
      rw [e]
      exact ih2.1
    · rw [List.cons_append]
      unfold singleLineSearch
      rw [e]
      exact ih2.2

theorem multiLineEndAt_of_noSlash (s : List Char) (h : ∀ c ∈ s, c ≠ '/') :
    multiLineEndAt s = none := by
  unfold multiLineEndAt
  have h2 : ∀ c ∈ s.dropWhile isRegexSpace, c ≠ '/' :=
    fun c hc => h c ((List.dropWhile_sublist _).subset hc)
  cases hd : s.dropWhile isRegexSpace with
  | nil => rfl
  | cons x xs =>
    rw [hd] at h2
    cases xs with
    | nil => by_cases hx : x = '*' <;> simp [dropLiteral, hx]
    | cons y ys =>
      have hy := h2 y (by simp)
      by_cases hx : x = '*' <;> simp [dropLiteral, hx, hy]

theorem containsMultiLineEnd_of_noSlash (s : List Char) (h : ∀ c ∈ s, c ≠ '/') :
    containsMultiLineEnd s = false := by
  induction s with
  | nil => rfl
  | cons c cs ih =>
    unfold containsMultiLineEnd
    rw [multiLineEndAt_of_noSlash _ h, ih (fun x hx => h x (List.mem_cons_of_mem _ hx))]
    rfl

theorem header_noSlash (P C K : String)
    (hP : isTokenOf isTokenChar P = true) (hC : isTokenOf isTokenChar C = true)
    (hK : isTokenOf isTokenChar K = true) :
    ∀ c ∈ '*' :: ' ' :: 'T' :: 'R' :: ' ' ::
      (P.toList ++ ' ' :: (C.toList ++ ' ' :: K.toList)), c ≠ '/' := by
  obtain ⟨_, hP1⟩ := (isTokenOf_iff _ _).mp hP
  obtain ⟨_, hC1⟩ := (isTokenOf_iff _ _).mp hC
  obtain ⟨_, hK1⟩ := (isTokenOf_iff _ _).mp hK
  intro c hc
  simp only [List.mem_cons, List.mem_append] at hc
  rcases hc with h | h | h | h | h | h | h | h | h | h
  · subst h; decide
  · subst h; decide
  · subst h; decide
  · subst h; decide
  · subst h; decide
  · exact isTokenChar_ne_slash c (hP1 c h)
  · subst h; decide
  · exact isTokenChar_ne_slash c (hC1 c h)
  · subst h; decide
  · exact isTokenChar_ne_slash c (hK1 c h)

/-- The header line `/* TR P C K` read outside a block opens a block and is stored as the
header; nothing else happens. -/
theorem parseLine_header (m_fileBaseName : String) (m_st sp : Project) (P C K : String)
    (hP : isTokenOf isTokenChar P = true) (hC : isTokenOf isTokenChar C = true)
    (hK : isTokenOf isTokenChar K = true) :
    parseLine m_fileBaseName m_st (ParseState.mk false "" "" sp) (blockHeader P C K)
      = ParseState.mk true (blockHeader P C K) "" sp := by
  have hns := header_noSlash P C K hP hC hK
  have h1 : singleLineSearch (blockHeader P C K).toList = none := by
    rw [blockHeader_toList]
    unfold singleLineSearch
    have e : singleLineAt ('/' :: '*' :: ' ' :: 'T' :: 'R' :: ' ' ::
        (P.toList ++ ' ' :: (C.toList ++ ' ' :: K.toList))) = none := by
      simp [singleLineAt, dropLiteral]
    rw [e]
    exact (singleLineSearch_of_noSlash _ hns).1
  have h2 : containsMultiLineStart (blockHeader P C K).toList = true := by
    rw [blockHeader_toList]
    unfold containsMultiLineStart
    have e : multiLineStartAt ('/' :: '*' :: ' ' :: 'T' :: 'R' :: ' ' ::
        (P.toList ++ ' ' :: (C.toList ++ ' ' :: K.toList))) = true := by
      have hsp : isRegexSpace ' ' = true := by decide
      have hT : isRegexSpace 'T' = false := by decide
      simp [multiLineStartAt, dropLiteral, List.dropWhile, hsp, hT]
    rw [e]
    rfl
  have h3 : containsMultiLineEnd (blockHeader P C K).toList = false := by
    rw [blockHeader_toList]
    unfold containsMultiLineEnd
    have e : multiLineEndAt ('/' :: '*' :: ' ' :: 'T' :: 'R' :: ' ' ::
        (P.toList ++ ' ' :: (C.toList ++ ' ' :: K.toList))) = none := by
      have hsl : isRegexSpace '/' = false := by decide
      simp [multiLineEndAt, dropLiteral, List.dropWhile, hsl]
    rw [e, containsMultiLineEnd_of_noSlash _ hns]
    rfl
  unfold parseLine
  rw [h1]
  simp only [h2, h3, if_true, Bool.and_false, Bool.false_eq_true, if_false]
  rfl

/-- One iteration of the first loop while a block is open: the line is appended to the
text, and the block is closed when the line has a closer. -/
theorem parseLine_open (m_fileBaseName : String) (m_st : Project) (s : ParseState)
    (line : String) (hs : s.multiLineStarted = true)
    (hh : s.multiLineHeader.isEmpty = false) :
    parseLine m_fileBaseName m_st s line
      = if containsMultiLineEnd line.toList = true then
          closeBlock m_fileBaseName m_st { s with multiLine := s.multiLine ++ line ++ " " }
        else { s with multiLine := s.multiLine ++ line ++ " " } := by
  have hs1 : (if containsMultiLineStart line.toList = true
      then { s with multiLineStarted := true } else s) = s := by
    split
    · cases s
      simp only at hs
      rw [hs]
    · rfl
  unfold parseLine
  rw [hs]
  cases singleLineSearch line.toList <;>
    simp only [hs1, hs, hh, if_true, Bool.false_eq_true, if_false, Bool.true_and]

theorem joinLines_cons (l : String) (ls : List String) :
    joinLines (l :: ls) = l ++ " " ++ joinLines ls := rfl

theorem foldl_parseLine_open (m_fileBaseName : String) (m_st sp : Project)
    (header : String) (hh : header.isEmpty = false) (body : List String)
    (hbody : ∀ l ∈ body, containsMultiLineEnd l.toList = false) (acc : String) :
    body.foldl (parseLine m_fileBaseName m_st) (ParseState.mk true header acc sp)
      = ParseState.mk true header (acc ++ joinLines body) sp := by
  induction body generalizing acc with
  | nil => simp [joinLines]
  | cons l ls ih =>
    simp only [List.foldl_cons]
    rw [parseLine_open m_fileBaseName m_st _ l rfl hh,
      if_neg (by rw [hbody l (List.mem_cons_self _ _)]; simp)]
    simp only
    rw [ih (fun x hx => hbody x (List.mem_cons_of_mem _ hx)), joinLines_cons]
    simp [String.append_assoc]

/-! ## Lemmas on the text of a block -/

theorem escapeAngles_cons_of_plain (c : Char) (cs : List Char) (h1 : c ≠ '<')
    (h2 : c ≠ '>') : escapeAngles (c :: cs) = c :: escapeAngles cs := by
  simp [escapeAngles, h1, h2]

theorem escapeAngles_lt (cs : List Char) :
    escapeAngles ('<' :: cs) = '&' :: 'l' :: 't' :: ';' :: escapeAngles cs := by
  simp [escapeAngles]

theorem escapeAngles_gt (cs : List Char) :
    escapeAngles ('>' :: cs) = '&' :: 'g' :: 't' :: ';' :: escapeAngles cs := by
  simp [escapeAngles]

theorem multiLineEndAt_cons_space (c : Char) (r : List Char) (hc : isRegexSpace c = true) :
    multiLineEndAt (c :: r) = (multiLineEndAt r).map (fun n => n + 1) := by
  unfold multiLineEndAt
  simp only [List.dropWhile, List.takeWhile, hc, List.length_cons, Option.map_map]
  cases dropLiteral ['*', '/'] (List.dropWhile isRegexSpace r) with
  | none => rfl
  | some _ => simp only [Option.map_some', Function.comp]

theorem multiLineEndAt_cons_other (c : Char) (r : List Char) (hc : isRegexSpace c = false) :
    multiLineEndAt (c :: r)
      = if c = '*' ∧ r.head? = some '/' then some 2 else none := by
  unfold multiLineEndAt
  simp only [List.dropWhile, List.takeWhile, hc]
  by_cases h1 : c = '*'
  · cases r with
    | nil => simp [dropLiteral, h1]
    | cons d ds => by_cases h2 : d = '/' <;> simp [dropLiteral, h1, h2]
  · cases r <;> simp [dropLiteral, h1]

theorem isRegexSpace_ne_angle (c : Char) (hc : isRegexSpace c = true) :
    c ≠ '<' ∧ c ≠ '>' := by
  constructor <;> intro h <;> subst h <;> revert hc <;> decide

theorem head?_escapeAngles_slash (r : List Char) :
    (escapeAngles r).head? = some '/' ↔ r.head? = some '/' := by
  cases r with
  | nil => simp [escapeAngles]
  | cons d ds =>
    by_cases h1 : d = '<'
    · subst h1; simp [escapeAngles]
    · by_cases h2 : d = '>'
      · subst h2; simp [escapeAngles]
      · rw [escapeAngles_cons_of_plain d ds h1 h2]
        simp

theorem multiLineEndAt_escapeAngles (s : List Char) :
    multiLineEndAt (escapeAngles s) = multiLineEndAt s := by
  induction s with
  | nil => rfl
  | cons c cs ih =>
    by_cases hc : isRegexSpace c = true
    · have hp := isRegexSpace_ne_angle c hc
      rw [escapeAngles_cons_of_plain c cs hp.1 hp.2, multiLineEndAt_cons_space c _ hc,
        multiLineEndAt_cons_space c _ hc, ih]
    · have hc2 : isRegexSpace c = false := by simpa using hc
      by_cases h1 : c = '<'
      · subst h1
        rw [escapeAngles_lt, multiLineEndAt_cons_other '&' _ (by decide),
          multiLineEndAt_cons_other '<' _ (by decide)]
        simp
      · by_cases h2 : c = '>'
        · subst h2
          rw [escapeAngles_gt, multiLineEndAt_cons_other '&' _ (by decide),
            multiLineEndAt_cons_other '>' _ (by decide)]
          simp
        · rw [escapeAngles_cons_of_plain c cs h1 h2, multiLineEndAt_cons_other c _ hc2,
            multiLineEndAt_cons_other c _ hc2]
          simp only [head?_escapeAngles_slash]

theorem multiLineEndAt_plain (s : List Char) (len : Nat) (h : multiLineEndAt s = some len) :
    1 ≤ len ∧ ∀ c ∈ s.take len, c ≠ '<' ∧ c ≠ '>' := by
  induction s generalizing len with
  | nil => simp [multiLineEndAt, dropLiteral] at h
  | cons c cs ih =>
    by_cases hc : isRegexSpace c = true
    · rw [multiLineEndAt_cons_space c _ hc] at h
      cases hm : multiLineEndAt cs with
      | none => rw [hm] at h; exact Option.noConfusion h
      | some n =>
        rw [hm] at h
        simp only [Option.map_some', Option.some.injEq] at h
        subst h
        refine ⟨by omega, ?_⟩
        intro x hx
        rw [List.take_succ_cons] at hx
        rcases List.mem_cons.mp hx with hx | hx
        · rw [hx]; exact isRegexSpace_ne_angle c hc
        · exact (ih n hm).2 x hx
    · have hc2 : isRegexSpace c = false := by simpa using hc
      rw [multiLineEndAt_cons_other c _ hc2] at h
      split at h
      · rename_i hcond
        simp only [Option.some.injEq] at h
        subst h
        refine ⟨by omega, ?_⟩
        cases cs with
        | nil => simp at hcond
        | cons d ds =>
          have hd : d = '/' := by simpa using hcond.2
          intro x hx
          simp only [List.take_succ_cons, List.take_zero, List.mem_cons, List.mem_singleton,
            List.not_mem_nil, or_false] at hx
          rcases hx with hx | hx
          · rw [hx, hcond.1]; decide
          · rw [hx, hd]; decide
      · exact Option.noConfusion h

/-- Removing the closers and escaping the angle brackets commute: no closer has an angle
bracket and no replacement text a character of a closer. -/
theorem removeMultiLineEnd_escapeAngles (l : List Char) (skip : Nat)
    (hplain : ∀ c ∈ l.take skip, c ≠ '<' ∧ c ≠ '>') :
    removeMultiLineEnd skip (escapeAngles l) = escapeAngles (removeMultiLineEnd skip l) := by
  induction l generalizing skip with
  | nil => cases skip <;> rfl
  | cons c cs ih =>
    cases skip with
    | succ k =>
      have hc := hplain c (by simp)
      rw [escapeAngles_cons_of_plain c cs hc.1 hc.2]
      simp only [removeMultiLineEnd]
      exact ih k (fun x hx => hplain x (by
        rw [List.take_succ_cons]; exact List.mem_cons_of_mem _ hx))
    | zero =>
      have ih0 := ih 0 (by simp)
      by_cases h1 : c = '<'
      · subst h1
        have e1 : multiLineEndAt ('<' :: cs) = none := by
          rw [multiLineEndAt_cons_other '<' _ (by decide)]; simp
        rw [escapeAngles_lt]
        simp only [removeMultiLineEnd, e1]
        rw [multiLineEndAt_cons_other '&' _ (by decide),
          multiLineEndAt_cons_other 'l' _ (by decide),
          multiLineEndAt_cons_other 't' _ (by decide),
          multiLineEndAt_cons_other ';' _ (by decide)]
        simp [ih0, escapeAngles_lt]
      · by_cases h2 : c = '>'
        · subst h2
          have e1 : multiLineEndAt ('>' :: cs) = none := by
            rw [multiLineEndAt_cons_other '>' _ (by decide)]; simp
          rw [escapeAngles_gt]
          simp only [removeMultiLineEnd, e1]
          rw [multiLineEndAt_cons_other '&' _ (by decide),
            multiLineEndAt_cons_other 'g' _ (by decide),
            multiLineEndAt_cons_other 't' _ (by decide),
            multiLineEndAt_cons_other ';' _ (by decide)]
          simp [ih0, escapeAngles_gt]
        · have e := multiLineEndAt_escapeAngles (c :: cs)
          rw [escapeAngles_cons_of_plain c cs h1 h2] at e ⊢
          simp only [removeMultiLineEnd, e]
          cases hm : multiLineEndAt (c :: cs) with
          | none =>
            simp only
            rw [ih0, escapeAngles_cons_of_plain c _ h1 h2]
          | some len =>
            simp only
            have hp := multiLineEndAt_plain (c :: cs) len hm
            apply ih
            intro x hx
            apply hp.2 x
            have e2 : len = (len - 1) + 1 := by omega
            rw [e2, List.take_succ_cons]
            exact List.mem_cons_of_mem _ hx

/-! ## The claim on the text of a block -/

theorem mem_simplifiedFrom (emitted pending : Bool) (l : List Char) :
    ∀ c ∈ simplifiedFrom emitted pending l, c = ' ' ∨ c ∈ l := by
  induction l generalizing emitted pending with
  | nil => intro c hc; simp [simplifiedFrom] at hc
  | cons x xs ih =>
    intro c hc
    unfold simplifiedFrom at hc
    by_cases hx : isQtSpace x = true
    · rw [if_pos hx] at hc
      rcases ih _ _ c hc with h | h
      · exact Or.inl h
      · exact Or.inr (List.mem_cons_of_mem _ h)
    · rw [if_neg hx] at hc
      by_cases hp : pending = true
      · rw [if_pos hp] at hc
        rcases List.mem_cons.mp hc with h | h
        · exact Or.inl h
        · rcases List.mem_cons.mp h with h | h
          · right; rw [h]; exact List.mem_cons_self _ _
          · rcases ih _ _ c h with h | h
            · exact Or.inl h
            · exact Or.inr (List.mem_cons_of_mem _ h)
      · rw [if_neg hp] at hc
        rcases List.mem_cons.mp hc with h | h
        · right; rw [h]; exact List.mem_cons_self _ _
        · rcases ih _ _ c h with h | h
          · exact Or.inl h
          · exact Or.inr (List.mem_cons_of_mem _ h)

theorem escapeAngles_plain (l : List Char) : ∀ c ∈ escapeAngles l, c ≠ '<' ∧ c ≠ '>' := by
  induction l with
  | nil => intro c hc; simp [escapeAngles] at hc
  | cons x xs ih =>
    intro c hc
    by_cases h1 : x = '<'
    · subst h1
      rw [escapeAngles_lt] at hc
      simp only [List.mem_cons] at hc
      rcases hc with h | h | h | h | h
      · subst h; decide
      · subst h; decide
      · subst h; decide
      · subst h; decide
      · exact ih c h
    · by_cases h2 : x = '>'
      · subst h2
        rw [escapeAngles_gt] at hc
        simp only [List.mem_cons] at hc
        rcases hc with h | h | h | h | h
        · subst h; decide
        · subst h; decide
        · subst h; decide
        · subst h; decide
        · exact ih c h
      · rw [escapeAngles_cons_of_plain x xs h1 h2] at hc
        rcases List.mem_cons.mp hc with h | h
        · rw [h]; exact ⟨h1, h2⟩
        · exact ih c h

theorem blockText_plain (lines : List String) :
    ∀ c ∈ (blockText lines).toList, c ≠ '<' ∧ c ≠ '>' := by
  intro c hc
  unfold blockText simplified at hc
  rcases mem_simplifiedFrom _ _ _ c hc with h | h
  · subst h; decide
  · exact escapeAngles_plain _ c h

/-- The text that `closeBlock` computes is the text of the specification. -/
theorem blockText_eq (lines : List String) :
    simplified (String.mk (removeMultiLineEnd 0 (escapeAngles (joinLines lines).toList)))
      = blockText lines := by
  unfold blockText
  rw [removeMultiLineEnd_escapeAngles _ 0 (by simp)]

theorem closeBlock_header (m_fileBaseName : String) (m_st sp : Project) (P C K : String)
    (multiLine : String)
    (hP : isTokenOf isTokenChar P = true) (hC : isTokenOf isTokenChar C = true)
    (hK : isTokenOf isTokenChar K = true) :
    closeBlock m_fileBaseName m_st (ParseState.mk true (blockHeader P C K) multiLine sp)
      = ParseState.mk false "" ""
          (saveTranslation m_st sp (resolvePackage P) (resolveContainer m_fileBaseName C) K
            (simplified (String.mk (removeMultiLineEnd 0 (escapeAngles multiLine.toList))))) := by
  unfold closeBlock
  simp only
  rw [simplified_blockHeader P C K hP hC hK]
  have h := multiLineMetaSearch_header P C K [] hP hC hK (by simp)
  rw [List.append_nil] at h
  rw [h]

theorem blockHeader_isEmpty (P C K : String) : (blockHeader P C K).isEmpty = false := by
  cases h : (blockHeader P C K).isEmpty with
  | false => rfl
  | true =>
    have h2 := (String.isEmpty_iff _).mp h
    have h3 := congrArg String.toList h2
    rw [blockHeader_toList] at h3
    exact absurd h3 (by simp)

/-- C33. Block text computation: the header line `/* TR P C K`, with three tokens of the
class of the header pattern, read outside a block and followed by the lines L1..Ln
(n ≥ 1) of which only Ln has a closer, leaves the output tree as it is until Ln is read
and then makes one `saveTranslation` call, for the resolved package and container and
the key `K`; its text is the concatenation of L1..Ln, each followed by a space, with the
closers and the whitespace before them removed, `<` and `>` replaced by `&lt;` and
`&gt;` and whitespace collapsed. The text has no `<` and no `>`, and it is computed from
L1..Ln alone. -/
theorem C33_block_text_computation (m_fileBaseName : String) (m_st sp : Project)
    (P C K : String) (body : List String) (last : String)
    (hP : isTokenOf isTokenChar P = true) (hC : isTokenOf isTokenChar C = true)
    (hK : isTokenOf isTokenChar K = true)
    (hbody : ∀ l ∈ body, containsMultiLineEnd l.toList = false)
    (hlast : containsMultiLineEnd last.toList = true) :
    (blockHeader P C K :: body).foldl (parseLine m_fileBaseName m_st)
        (ParseState.mk false "" "" sp)
      = ParseState.mk true (blockHeader P C K) (joinLines body) sp ∧
    (blockHeader P C K :: (body ++ [last])).foldl (parseLine m_fileBaseName m_st)
        (ParseState.mk false "" "" sp)
      = ParseState.mk false "" ""
          (saveTranslation m_st sp (resolvePackage P) (resolveContainer m_fileBaseName C) K
            (blockText (body ++ [last]))) ∧
    ∀ c ∈ (blockText (body ++ [last])).toList, c ≠ '<' ∧ c ≠ '>' := by
  have hempty : ∀ s : String, "" ++ s = s := by
    intro s
    apply String.ext
    simp
  have hopen : (blockHeader P C K :: body).foldl (parseLine m_fileBaseName m_st)
      (ParseState.mk false "" "" sp)
      = ParseState.mk true (blockHeader P C K) (joinLines body) sp := by
    rw [List.foldl_cons, parseLine_header m_fileBaseName m_st sp P C K hP hC hK,
      foldl_parseLine_open m_fileBaseName m_st sp _ (blockHeader_isEmpty P C K) body hbody "",
      hempty]
  have hjoin : joinLines body ++ last ++ " " = joinLines (body ++ [last]) := by
    clear hopen hbody
    induction body with
    | nil => simp [joinLines, hempty]
    | cons l ls ih =>
      simp only [List.cons_append, joinLines_cons]
      rw [← ih]
      simp [String.append_assoc]
  refine ⟨hopen, ?_, blockText_plain _⟩
  have e : blockHeader P C K :: (body ++ [last]) = (blockHeader P C K :: body) ++ [last] := rfl
  rw [e, List.foldl_append, hopen]
  simp only [List.foldl_cons, List.foldl_nil]
  rw [parseLine_open m_fileBaseName m_st _ last rfl (blockHeader_isEmpty P C K), if_pos hlast]
  simp only
  rw [closeBlock_header m_fileBaseName m_st sp P C K _ hP hC hK, hjoin, blockText_eq]

/-- C33: witness, the block `/* TR ModA UI_Group greet` with the lines `Hello <b>`, `big`
and `World   */` in `mission.sqf`; its text is `Hello &lt;b&gt; big World`. -/
theorem C33_block_text_computation_witness :
    (isTokenOf isTokenChar "ModA" = true ∧ isTokenOf isTokenChar "UI_Group" = true ∧
      isTokenOf isTokenChar "greet" = true ∧
      (∀ l ∈ ["Hello <b>", "big"], containsMultiLineEnd l.toList = false) ∧
      containsMultiLineEnd "World   */".toList = true) ∧
    blockText ["Hello <b>", "big", "World   */"] = "Hello &lt;b&gt; big World" ∧
    ((blockHeader "ModA" "UI_Group" "greet" :: ["Hello <b>", "big"]).foldl
        (parseLine "mission" (Project.mk "" []))
        (ParseState.mk false "" "" (Project.mk "P" []))
      = ParseState.mk true (blockHeader "ModA" "UI_Group" "greet")
          (joinLines ["Hello <b>", "big"]) (Project.mk "P" []) ∧
    (blockHeader "ModA" "UI_Group" "greet" :: (["Hello <b>", "big"] ++ ["World   */"])).foldl
        (parseLine "mission" (Project.mk "" []))
        (ParseState.mk false "" "" (Project.mk "P" []))
      = ParseState.mk false "" ""
          (saveTranslation (Project.mk "" []) (Project.mk "P" []) (resolvePackage "ModA")
            (resolveContainer "mission" "UI_Group") "greet"
            (blockText (["Hello <b>", "big"] ++ ["World   */"]))) ∧
    ∀ c ∈ (blockText (["Hello <b>", "big"] ++ ["World   */"])).toList, c ≠ '<' ∧ c ≠ '>') :=
  ⟨by decide, by decide,
    C33_block_text_computation "mission" (Project.mk "" []) (Project.mk "P" [])
      "ModA" "UI_Group" "greet" ["Hello <b>", "big"] "World   */"
      (by decide) (by decide) (by decide) (by decide) (by decide)⟩

/-! ## The claim on open blocks -/

/-- A line read while a block is open (with its header stored): without the closer it is
appended to the text of the block, with the closer it is appended and the block is closed. -/
theorem parseLine_in_block (m_fileBaseName : String) (m_st : Project)
    (s : ParseState) (line : String) (hs : s.multiLineStarted = true)
    (hh : s.multiLineHeader.isEmpty = false) :
    (containsMultiLineEnd line.toList = false →
      parseLine m_fileBaseName m_st s line
        = { s with multiLine := s.multiLine ++ line ++ " " }) ∧
    (containsMultiLineEnd line.toList = true →
      parseLine m_fileBaseName m_st s line
          = closeBlock m_fileBaseName m_st
              { s with multiLine := s.multiLine ++ line ++ " " } ∧
        (parseLine m_fileBaseName m_st s line).multiLineStarted = false ∧
        (parseLine m_fileBaseName m_st s line).multiLineHeader = "" ∧
        (parseLine m_fileBaseName m_st s line).multiLine = "" ∧
        (multiLineMetaSearch (simplified s.multiLineHeader).toList = none →
          (parseLine m_fileBaseName m_st s line).m_sp = s.m_sp)) := by
  have hs1 : (if containsMultiLineStart line.toList = true
      then { s with multiLineStarted := true } else s) = s := by
    split
    · cases s
      simp only at hs
      rw [hs]
    · rfl
  have hstep : parseLine m_fileBaseName m_st s line
      = if containsMultiLineEnd line.toList = true then
          closeBlock m_fileBaseName m_st { s with multiLine := s.multiLine ++ line ++ " " }
        else { s with multiLine := s.multiLine ++ line ++ " " } := by
    unfold parseLine
    rw [hs]
    cases singleLineSearch line.toList <;>
      simp only [hs1, hs, hh, if_true, Bool.false_eq_true, if_false, Bool.true_and]
  refine ⟨?_, ?_⟩
  · intro hend
    rw [hstep, hend]
    rfl
  · intro hend
    rw [hstep, if_pos hend]
    refine ⟨rfl, rfl, rfl, rfl, ?_⟩
    intro hmeta
    unfold closeBlock
    simp only [hmeta]

theorem isEmpty_false_of_containsMultiLineStart (line : String)
    (h : containsMultiLineStart line.toList = true) : line.isEmpty = false := by
  cases he : line.isEmpty with
  | false => rfl
  | true =>
    have e : line = "" := (String.isEmpty_iff _).mp he
    subst e
    exact absurd h (by decide)

/-- Whenever a block is open the header line is stored: the state after any lines has a
non-empty header if `multiLineStarted` is set. -/
theorem parseLine_header_stored (m_fileBaseName : String) (m_st : Project) (s : ParseState)
    (line : String)
    (hI : s.multiLineStarted = true → s.multiLineHeader.isEmpty = false) :
    (parseLine m_fileBaseName m_st s line).multiLineStarted = true →
      (parseLine m_fileBaseName m_st s line).multiLineHeader.isEmpty = false := by
  obtain ⟨st, h, m, sp⟩ := s
  cases st with
  | true =>
    have hh : h.isEmpty = false := hI rfl
    have hp := parseLine_in_block m_fileBaseName m_st (ParseState.mk true h m sp) line rfl hh
    cases hend : containsMultiLineEnd line.toList with
    | false =>
      rw [hp.1 hend]
      intro _
      exact hh
    | true =>
      rw [(hp.2 hend).2.1]
      intro hc
      exact absurd hc (by decide)
  | false =>
    unfold parseLine
    cases hsl : singleLineSearch line.toList with
    | some mm =>
      simp only
      intro hc
      exact absurd hc (by decide)
    | none =>
      simp only
      cases hst : containsMultiLineStart line.toList with
      | false =>
        simp only [Bool.false_eq_true, if_false, Bool.false_and]
        intro hc
        exact absurd hc (by decide)
      | true =>
        have hl := isEmpty_false_of_containsMultiLineStart line hst
        simp only [if_true]
        cases hhe : h.isEmpty <;> cases hend : containsMultiLineEnd line.toList <;>
          simp only [if_true, Bool.false_eq_true, if_false, Bool.and_true, Bool.and_false,
            Bool.true_and] <;>
          first
          | (intro _; exact hl)
          | (intro _; exact hhe)
          | (intro hc; exact absurd hc (by simp [closeBlock]))

theorem foldl_parseLine_header_stored (m_fileBaseName : String) (m_st : Project)
    (lines : List String) (s : ParseState)
    (hI : s.multiLineStarted = true → s.multiLineHeader.isEmpty = false) :
    (lines.foldl (parseLine m_fileBaseName m_st) s).multiLineStarted = true →
      (lines.foldl (parseLine m_fileBaseName m_st) s).multiLineHeader.isEmpty = false := by
  induction lines generalizing s with
  | nil => exact hI
  | cons l ls ih =>
    rw [List.foldl_cons]
    exact ih _ (parseLine_header_stored m_fileBaseName m_st s l hI)

/-- C34. Blocks do not nest and suspend the single-line directives. In the state reached
after any lines read from the Scanning state, while a block is open
(`multiLineStarted`), a line without the closer is appended to the block's text with a
space, whether or not it matches the single-line pattern or holds a block opener, and the
output tree stays as it is; a line with the closer is appended and closes the block:
afterwards the block is closed and header and text are empty, and when the header does
not match the header pattern the output tree is unchanged. -/
theorem C34_open_block_suspends_directives (m_fileBaseName : String) (m_st sp : Project)
    (read : List String) (s : ParseState) (line : String)
    (hreach : s = read.foldl (parseLine m_fileBaseName m_st) (ParseState.mk false "" "" sp))
    (hs : s.multiLineStarted = true) :
    (containsMultiLineEnd line.toList = false →
      parseLine m_fileBaseName m_st s line
        = { s with multiLine := s.multiLine ++ line ++ " " }) ∧
    (containsMultiLineEnd line.toList = true →
      parseLine m_fileBaseName m_st s line
          = closeBlock m_fileBaseName m_st
              { s with multiLine := s.multiLine ++ line ++ " " } ∧
        (parseLine m_fileBaseName m_st s line).multiLineStarted = false ∧
        (parseLine m_fileBaseName m_st s line).multiLineHeader = "" ∧
        (parseLine m_fileBaseName m_st s line).multiLine = "" ∧
        (multiLineMetaSearch (simplified s.multiLineHeader).toList = none →
          (parseLine m_fileBaseName m_st s line).m_sp = s.m_sp)) := by
  have hh : s.multiLineHeader.isEmpty = false := by
    have h := foldl_parseLine_header_stored m_fileBaseName m_st read
      (ParseState.mk false "" "" sp) (fun hc => absurd hc (by simp))
    rw [← hreach] at h
    exact h hs
  exact parseLine_in_block m_fileBaseName m_st s line hs hh

/-- C34: witness, the block `/* TR Main intro greet` after its first text line: a line
with a single-line directive and a block opener is appended to the text; and a block
whose header has two tokens only, closed without a change of the tree. -/
theorem C34_open_block_suspends_directives_witness :
    (ParseState.mk true "/* TR Main intro greet" "Hello " (Project.mk "P" [])
        = ["/* TR Main intro greet", "Hello"].foldl (parseLine "intro" (Project.mk "" []))
            (ParseState.mk false "" "" (Project.mk "P" []))) ∧
    parseLine "intro" (Project.mk "" [])
        (ParseState.mk true "/* TR Main intro greet" "Hello " (Project.mk "P" []))
        "// TR Main intro other \"x\" /* TR Main intro third"
      = ParseState.mk true "/* TR Main intro greet"
          "Hello // TR Main intro other \"x\" /* TR Main intro third " (Project.mk "P" []) ∧
    ["/* TR no header", "Hello", "// TR Main intro other \"x\"", "World */"].foldl
        (parseLine "intro" (Project.mk "" [])) (ParseState.mk false "" "" (Project.mk "P" []))
      = ParseState.mk false "" "" (Project.mk "P" []) :=
  ⟨by decide,
    ((C34_open_block_suspends_directives "intro" (Project.mk "" []) (Project.mk "P" [])
      ["/* TR Main intro greet", "Hello"]
      (ParseState.mk true "/* TR Main intro greet" "Hello " (Project.mk "P" []))
      "// TR Main intro other \"x\" /* TR Main intro third" (by decide) rfl).1
        (by decide)).trans (by decide),
    by decide⟩

/-! ## The claim on the charset of the tokens -/

/-- C35, the defect. The classes of the package and container groups are written
`[a-zA-z0-9_\*]`: the range `A-z` runs from `A` to lower-case `z` and takes in the six
characters between `Z` and `a`. The lines with the package tokens `Mod^A` and `Mod[A]`
and with the container token of a backslash and a backtick are directives and store
their text; a token with `-` is none. -/
theorem C35_caret_in_the_package_token_is_accepted :
    (parseLine "init" (Project.mk "P" []) (ParseState.mk false "" "" (Project.mk "P" []))
        "// TR Mod^A * str_a \"Hello\"").m_sp
      = Project.mk "P" [Package.mk "Mod^A" [Container.mk "init"
          [Key.mk "str_a" [Translation.mk "Original" "Hello"]]]] ∧
    (parseLine "init" (Project.mk "P" []) (ParseState.mk false "" "" (Project.mk "P" []))
        "// TR Mod[A] * str_a \"Hello\"").m_sp
      = Project.mk "P" [Package.mk "Mod[A]" [Container.mk "init"
          [Key.mk "str_a" [Translation.mk "Original" "Hello"]]]] ∧
    (parseLine "init" (Project.mk "P" []) (ParseState.mk false "" "" (Project.mk "P" []))
        "// TR Main a\\b\x60c str_a \"Hello\"").m_sp
      = Project.mk "P" [Package.mk "Main" [Container.mk "a\\b\x60c"
          [Key.mk "str_a" [Translation.mk "Original" "Hello"]]]] ∧
    (isBarewordChar '^' = false ∧ isBarewordChar '[' = false ∧ isBarewordChar ']' = false ∧
      isBarewordChar '\\' = false ∧ isBarewordChar (Char.ofNat 96) = false) ∧
    parseLine "init" (Project.mk "P" []) (ParseState.mk false "" "" (Project.mk "P" []))
        "// TR Mod-A * str_a \"Hello\""
      = ParseState.mk false "" "" (Project.mk "P" []) := by
  decide

/-! ## Lemmas on the tokens of the two directive forms -/

theorem takeSome_some (cls : Char → Bool) (s : List Char) (g : List Char × List Char)
    (h : takeSome cls s = some g) : g.1 ≠ [] ∧ ∀ c ∈ g.1, cls c = true := by
  unfold takeSome at h
  split at h
  · exact Option.noConfusion h
  · rename_i hne
    cases h
    refine ⟨by simpa using hne, ?_⟩
    intro c hc
    exact (List.mem_takeWhile_imp hc)

theorem isTokenOf_mk (cls : Char → Bool) (l : List Char) (hne : l ≠ [])
    (hall : ∀ c ∈ l, cls c = true) : isTokenOf cls (String.mk l) = true :=
  (isTokenOf_iff cls _).mpr ⟨hne, hall⟩

/-- The captures of a match of the single-line pattern are tokens of the classes of the
pattern. -/
theorem singleLineAt_tokens (s : List Char) (m : SingleLineMatch)
    (h : singleLineAt s = some m) :
    isTokenOf isTokenChar m.package = true ∧ isTokenOf isTokenChar m.container = true ∧
      isTokenOf isKeyChar m.key = true := by
  unfold singleLineAt at h
  simp only [Option.bind_eq_some, Option.map_eq_some'] at h
  obtain ⟨s1, _, s2, _, w1, _, g1, hg1, w2, _, g2, hg2, w3, _, g3, hg3, w4, _, s3, _, _, _,
    rfl⟩ := h
  have t1 := takeSome_some _ _ _ hg1
  have t2 := takeSome_some _ _ _ hg2
  have t3 := takeSome_some _ _ _ hg3
  exact ⟨isTokenOf_mk _ _ t1.1 t1.2, isTokenOf_mk _ _ t2.1 t2.2, isTokenOf_mk _ _ t3.1 t3.2⟩

theorem singleLineSearch_tokens (s : List Char) (m : SingleLineMatch)
    (h : singleLineSearch s = some m) :
    isTokenOf isTokenChar m.package = true ∧ isTokenOf isTokenChar m.container = true ∧
      isTokenOf isKeyChar m.key = true := by
  induction s with
  | nil => exact Option.noConfusion h
  | cons c cs ih =>
    unfold singleLineSearch at h
    cases hm : singleLineAt (c :: cs) with
    | none => rw [hm] at h; exact ih h
    | some m2 =>
      rw [hm] at h
      cases h
      exact singleLineAt_tokens _ _ hm

theorem multiLineMetaAt_tokens (s : List Char) (m : MultiLineMetaMatch)
    (h : multiLineMetaAt s = some m) :
    isTokenOf isTokenChar m.package = true ∧ isTokenOf isTokenChar m.container = true ∧
      isTokenOf isTokenChar m.key = true := by
  unfold multiLineMetaAt at h
  simp only [Option.bind_eq_some, Option.map_eq_some'] at h
  obtain ⟨s1, _, s2, _, w1, _, g1, hg1, w2, _, g2, hg2, w3, _, g3, hg3, rfl⟩ := h
  have t1 := takeSome_some _ _ _ hg1
  have t2 := takeSome_some _ _ _ hg2
  have t3 := takeSome_some _ _ _ hg3
  exact ⟨isTokenOf_mk _ _ t1.1 t1.2, isTokenOf_mk _ _ t2.1 t2.2, isTokenOf_mk _ _ t3.1 t3.2⟩

theorem multiLineMetaSearch_tokens (s : List Char) (m : MultiLineMetaMatch)
    (h : multiLineMetaSearch s = some m) :
    isTokenOf isTokenChar m.package = true ∧ isTokenOf isTokenChar m.container = true ∧
      isTokenOf isTokenChar m.key = true := by
  induction s with
  | nil => exact Option.noConfusion h
  | cons c cs ih =>
    unfold multiLineMetaSearch at h
    cases hm : multiLineMetaAt (c :: cs) with
    | none => rw [hm] at h; exact ih h
    | some m2 =>
      rw [hm] at h
      cases h
      exact multiLineMetaAt_tokens _ _ hm

/-! ## The claims on the token grammar of the two forms -/

theorem isTokenChar_of_isKeyChar (c : Char) (h : isKeyChar c = true) :
    isTokenChar c = true := by
  unfold isKeyChar at h
  unfold isTokenChar
  rw [h]
  rfl

theorem dropWhile_quote (l : List Char) :
    ∃ r, (l ++ ['"']).dropWhile (fun c => c != '"') = '"' :: r := by
  induction l with
  | nil => exact ⟨[], by simp [List.dropWhile]⟩
  | cons x xs ih =>
    by_cases hx : x = '"'
    · exact ⟨xs ++ ['"'], by simp [List.dropWhile, hx]⟩
    · obtain ⟨r, hr⟩ := ih
      have hx2 : (x != '"') = true := by simpa using hx
      exact ⟨r, by rw [List.cons_append, List.dropWhile, hx2]; exact hr⟩

/-- The single-line pattern at the start of `// TR P C K "T"`, for tokens of the classes
of the pattern: the first three captures are `P`, `C` and `K`. -/
theorem singleLineAt_of_tokens (P C K T : String)
    (hP : isTokenOf isTokenChar P = true) (hC : isTokenOf isTokenChar C = true)
    (hK : isTokenOf isKeyChar K = true) :
    ∃ text, singleLineAt (singleLineDirective P C K T).toList
      = some (SingleLineMatch.mk P C K text) := by
  obtain ⟨hP0, hP1⟩ := (isTokenOf_iff _ _).mp hP
  obtain ⟨hC0, hC1⟩ := (isTokenOf_iff _ _).mp hC
  obtain ⟨hK0, hK1⟩ := (isTokenOf_iff _ _).mp hK
  obtain ⟨p0, ps, hPl⟩ := List.exists_cons_of_ne_nil hP0
  obtain ⟨c0, cs, hCl⟩ := List.exists_cons_of_ne_nil hC0
  obtain ⟨k0, ks, hKl⟩ := List.exists_cons_of_ne_nil hK0
  have hp0 : isRegexSpace p0 = false :=
    isRegexSpace_false_of_isTokenChar _ (hP1 p0 (by rw [hPl]; exact List.mem_cons_self _ _))
  have hc0 : isRegexSpace c0 = false :=
    isRegexSpace_false_of_isTokenChar _ (hC1 c0 (by rw [hCl]; exact List.mem_cons_self _ _))
  have hk0 : isRegexSpace k0 = false :=
    isRegexSpace_false_of_isTokenChar _ (isTokenChar_of_isKeyChar _
      (hK1 k0 (by rw [hKl]; exact List.mem_cons_self _ _)))
  have s1 : takeSome isRegexSpace (' ' :: (P.toList ++ ' ' :: (C.toList ++ ' ' ::
      (K.toList ++ ' ' :: '"' :: (T.toList ++ ['"'])))))
      = some ([' '], P.toList ++ ' ' :: (C.toList ++ ' ' ::
          (K.toList ++ ' ' :: '"' :: (T.toList ++ ['"'])))) := by
    rw [hPl]
    exact takeSome_run isRegexSpace [' '] p0 _ (by simp) (by decide) hp0
  have s2 : takeSome isTokenChar (P.toList ++ ' ' :: (C.toList ++ ' ' ::
      (K.toList ++ ' ' :: '"' :: (T.toList ++ ['"']))))
      = some (P.toList, ' ' :: (C.toList ++ ' ' ::
          (K.toList ++ ' ' :: '"' :: (T.toList ++ ['"'])))) :=
    takeSome_run isTokenChar P.toList ' ' _ hP0 hP1 (by decide)
  have s3 : takeSome isRegexSpace (' ' :: (C.toList ++ ' ' ::
      (K.toList ++ ' ' :: '"' :: (T.toList ++ ['"']))))
      = some ([' '], C.toList ++ ' ' :: (K.toList ++ ' ' :: '"' :: (T.toList ++ ['"']))) := by
    rw [hCl]
    exact takeSome_run isRegexSpace [' '] c0 _ (by simp) (by decide) hc0
  have s4 : takeSome isTokenChar (C.toList ++ ' ' ::
      (K.toList ++ ' ' :: '"' :: (T.toList ++ ['"'])))
      = some (C.toList, ' ' :: (K.toList ++ ' ' :: '"' :: (T.toList ++ ['"']))) :=
    takeSome_run isTokenChar C.toList ' ' _ hC0 hC1 (by decide)
  have s5 : takeSome isRegexSpace (' ' :: (K.toList ++ ' ' :: '"' :: (T.toList ++ ['"'])))
      = some ([' '], K.toList ++ ' ' :: '"' :: (T.toList ++ ['"'])) := by
    rw [hKl]
    exact takeSome_run isRegexSpace [' '] k0 _ (by simp) (by decide) hk0
  have s6 : takeSome isKeyChar (K.toList ++ ' ' :: '"' :: (T.toList ++ ['"']))
      = some (K.toList, ' ' :: '"' :: (T.toList ++ ['"'])) :=
    takeSome_run isKeyChar K.toList ' ' _ hK0 hK1 (by decide)
  have s7 : takeSome isRegexSpace (' ' :: '"' :: (T.toList ++ ['"']))
      = some ([' '], '"' :: (T.toList ++ ['"'])) :=
    takeSome_run isRegexSpace [' '] '"' _ (by simp) (by decide) (by decide)
  obtain ⟨r, hr⟩ := dropWhile_quote T.toList
  rw [singleLineDirective_toList]
  unfold singleLineAt
  have d1 : ∀ r : List Char, dropLiteral ['/', '/'] ('/' :: '/' :: r) = some r := by
    intro r; simp [dropLiteral]
  have d2 : ∀ r : List Char, dropLiteral ['T', 'R'] ('T' :: 'R' :: r) = some r := by
    intro r; simp [dropLiteral]
  have d3 : ∀ r : List Char, dropLiteral ['"'] ('"' :: r) = some r := by
    intro r; simp [dropLiteral]
  have d4 : ∀ r : List Char, List.dropWhile isRegexSpace (' ' :: 'T' :: r) = 'T' :: r := by
    intro r
    have h1 : isRegexSpace ' ' = true := by decide
    have h2 : isRegexSpace 'T' = false := by decide
    simp [List.dropWhile, h1, h2]
  rw [d1]
  simp only [Option.some_bind]
  rw [d4, d2]
  simp only [Option.some_bind]
  rw [s1]
  simp only [Option.some_bind]
  rw [s2]
  simp only [Option.some_bind]
  rw [s3]
  simp only [Option.some_bind]
  rw [s4]
  simp only [Option.some_bind]
  rw [s5]
  simp only [Option.some_bind]
  rw [s6]
  simp only [Option.some_bind]
  rw [s7]
  simp only [Option.some_bind]
  rw [d3]
  simp only [Option.some_bind]
  rw [hr, d3]
  exact ⟨_, rfl⟩

/-- The single-line directive `// TR P C K "T"` is accepted with the tokens (P, C, K)
exactly when `P` and `C` are tokens of the class `[a-zA-z0-9_\*]` and `K` is a token of
the class `[a-zA-z0-9_]`. -/
theorem singleLine_accepts_iff (P C K T : String) :
    (singleLineSearch (singleLineDirective P C K T).toList).map
        (fun m => (m.package, m.container, m.key)) = some (P, C, K) ↔
      isTokenOf isTokenChar P = true ∧ isTokenOf isTokenChar C = true ∧
        isTokenOf isKeyChar K = true := by
  constructor
  · intro h
    cases hm : singleLineSearch (singleLineDirective P C K T).toList with
    | none => rw [hm] at h; exact Option.noConfusion h
    | some m =>
      rw [hm] at h
      simp only [Option.map_some', Option.some.injEq, Prod.mk.injEq] at h
      have ht := singleLineSearch_tokens _ m hm
      rw [h.1, h.2.1, h.2.2] at ht
      exact ht
  · intro h
    obtain ⟨text, ht⟩ := singleLineAt_of_tokens P C K T h.1 h.2.1 h.2.2
    rw [singleLineDirective_toList] at ht ⊢
    unfold singleLineSearch
    rw [ht]
    rfl

/-- The block header `/* TR P C K` is accepted with the tokens (P, C, K) exactly when
`P`, `C` and `K` are tokens of the class `[a-zA-z0-9_\*]`. -/
theorem blockHeader_accepts_iff (P C K : String) :
    (multiLineMetaSearch (simplified (blockHeader P C K)).toList).map
        (fun m => (m.package, m.container, m.key)) = some (P, C, K) ↔
      isTokenOf isTokenChar P = true ∧ isTokenOf isTokenChar C = true ∧
        isTokenOf isTokenChar K = true := by
  constructor
  · intro h
    cases hm : multiLineMetaSearch (simplified (blockHeader P C K)).toList with
    | none => rw [hm] at h; exact Option.noConfusion h
    | some m =>
      rw [hm] at h
      simp only [Option.map_some', Option.some.injEq, Prod.mk.injEq] at h
      have ht := multiLineMetaSearch_tokens _ m hm
      rw [h.1, h.2.1, h.2.2] at ht
      exact ht
  · intro h
    rw [simplified_blockHeader P C K h.1 h.2.1 h.2.2]
    have hm := multiLineMetaSearch_header P C K [] h.1 h.2.1 h.2.2 (by simp)
    rw [List.append_nil] at hm
    rw [hm]
    rfl

/-- For a key `K` without `*` the two patterns accept the same token triples: the line
`// TR P C K "T"` is accepted with (P, C, K) if and only if the header `/* TR P C K`
is. -/
theorem sameGrammar_of_no_star (P C K T : String)
    (hK : ∀ c ∈ K.toList, c ≠ '*') :
    (singleLineSearch (singleLineDirective P C K T).toList).map
        (fun m => (m.package, m.container, m.key)) = some (P, C, K) ↔
    (multiLineMetaSearch (simplified (blockHeader P C K)).toList).map
        (fun m => (m.package, m.container, m.key)) = some (P, C, K) := by
  rw [singleLine_accepts_iff, blockHeader_accepts_iff]
  have hiff : isTokenOf isKeyChar K = true ↔ isTokenOf isTokenChar K = true := by
    rw [isTokenOf_iff, isTokenOf_iff]
    constructor
    · intro h
      exact ⟨h.1, fun c hc => isTokenChar_of_isKeyChar c (h.2 c hc)⟩
    · intro h
      refine ⟨h.1, fun c hc => ?_⟩
      have h1 := h.2 c hc
      have h2 := hK c hc
      unfold isTokenChar at h1
      unfold isKeyChar
      rw [Bool.or_eq_true] at h1
      rcases h1 with h1 | h1
      · exact h1
      · exact absurd (by simpa using h1) h2
  rw [hiff]

/-- C36. The two patterns of `ScriptParser::parse` do not have one token grammar: the
key group of `multiLineMeta` is `([a-zA-z0-9_\*]+)`, the key group of `singleLine` is
`([a-zA-z0-9_]+)`. With the key `str_*` the header `/* TR Main intro str_*` is accepted
with its three tokens and the line `// TR Main intro str_* "T"` is no directive. For
every key without `*` the claim holds: the line `// TR P C K "T"` is accepted with
(P, C, K) if and only if the header `/* TR P C K` is, as for the tokens `Mod_A`, `*` and
`str_hello`, accepted in both forms. -/
theorem C36_key_classes_of_the_two_patterns_differ_in_the_star :
    ((multiLineMetaSearch (simplified (blockHeader "Main" "intro" "str_*")).toList).map
        (fun m => (m.package, m.container, m.key)) = some ("Main", "intro", "str_*") ∧
      singleLineSearch (singleLineDirective "Main" "intro" "str_*" "T").toList = none) ∧
    (∀ P C K T : String, (∀ c ∈ K.toList, c ≠ '*') →
      ((singleLineSearch (singleLineDirective P C K T).toList).map
          (fun m => (m.package, m.container, m.key)) = some (P, C, K) ↔
        (multiLineMetaSearch (simplified (blockHeader P C K)).toList).map
          (fun m => (m.package, m.container, m.key)) = some (P, C, K))) ∧
    (singleLineSearch (singleLineDirective "Mod_A" "*" "str_hello" "Hi").toList).map
        (fun m => (m.package, m.container, m.key)) = some ("Mod_A", "*", "str_hello") ∧
    (multiLineMetaSearch (simplified (blockHeader "Mod_A" "*" "str_hello")).toList).map
        (fun m => (m.package, m.container, m.key)) = some ("Mod_A", "*", "str_hello") :=
  ⟨by decide, sameGrammar_of_no_star, by decide, by decide⟩

/-! ## Lemmas on what `setTranslation` leaves as it is -/

theorem projectTuples_eq (proj : Project) : proj.tuples = proj.children.flatMap Package.tuples :=
  rfl

/-- The first child that satisfies `q` splits the list; `modifyFirst` changes it in
place. -/
theorem modifyFirst_of_find? {α : Type} (q : α → Bool) (f : α → α) (l : List α) (x : α)
    (h : l.find? q = some x) :
    ∃ pre post, l = pre ++ x :: post ∧ (∀ y ∈ pre, q y = false) ∧
      modifyFirst q f l = pre ++ f x :: post := by
  induction l with
  | nil => exact Option.noConfusion h
  | cons y ys ih =>
    by_cases hy : q y = true
    · rw [List.find?_cons_of_pos _ hy] at h
      cases h
      exact ⟨[], ys, rfl, by simp, by simp [modifyFirst, hy]⟩
    · rw [List.find?_cons_of_neg _ hy] at h
      obtain ⟨pre, post, h1, h2, h3⟩ := ih h
      refine ⟨y :: pre, post, by rw [h1]; rfl, ?_, ?_⟩
      · intro z hz
        rcases List.mem_cons.mp hz with hz | hz
        · subst hz; simpa using hy
        · exact h2 z hz
      · simp [modifyFirst, hy, h3]

theorem eraseP_modifyFirst {α : Type} (q : α → Bool) (f : α → α)
    (hf : ∀ x, q x = true → q (f x) = true) (l : List α) :
    (modifyFirst q f l).eraseP q = l.eraseP q := by
  induction l with
  | nil => rfl
  | cons x xs ih =>
    by_cases hx : q x = true
    · simp [modifyFirst, hx, List.eraseP_cons, hf x hx]
    · simp [modifyFirst, hx, List.eraseP_cons, ih]

theorem eraseP_append_new {α : Type} (q : α → Bool) (l : List α) (a : α)
    (hl : l.find? q = none) (ha : q a = true) :
    (l ++ [a]).eraseP q = l.eraseP q := by
  induction l with
  | nil => simp [List.eraseP_cons, ha]
  | cons x xs ih =>
    have hx : ¬ q x = true := by
      intro hx
      rw [List.find?_cons_of_pos _ hx] at hl
      exact Option.noConfusion hl
    rw [List.find?_cons_of_neg _ hx] at hl
    simp [List.eraseP_cons, hx, ih hl]

/-- Find-or-create changes one child: without the first child named `n`, the list is the
one of before. -/
theorem eraseP_upsert {α : Type} (name : α → String) (mk : String → α) (n : String)
    (f : α → α) (l : List α) (hf : ∀ x, name (f x) = name x) (hmk : name (mk n) = n) :
    (upsert name mk n f l).eraseP (fun x => name x == n)
      = l.eraseP (fun x => name x == n) := by
  unfold upsert findChild
  cases h : l.find? (fun x => name x == n) with
  | none =>
    simp only
    exact eraseP_append_new _ l _ h (by simp [hf, hmk])
  | some x =>
    simp only
    exact eraseP_modifyFirst _ f (fun y hy => by simpa [hf] using hy) l

theorem find?_upsert {α : Type} (name : α → String) (mk : String → α) (n : String)
    (f : α → α) (l : List α) (hf : ∀ x, name (f x) = name x) (hmk : name (mk n) = n) :
    (upsert name mk n f l).find? (fun x => name x == n)
      = some (f ((l.find? (fun x => name x == n)).getD (mk n))) := by
  unfold upsert findChild
  cases h : l.find? (fun x => name x == n) with
  | none =>
    simp only [Option.getD_none]
    rw [find?_append_single _ _ _ h]
    simp [hf, hmk]
  | some x =>
    simp only [Option.getD_some]
    rw [find?_modifyFirst _ f (fun y => by simp [hf]) l, h]
    rfl

theorem filter_flatMap_modifyFirst {α β : Type} (q : α → Bool) (f : α → α)
    (g : α → List β) (r : β → Bool)
    (h : ∀ x, q x = true → (g (f x)).filter r = (g x).filter r) (l : List α) :
    ((modifyFirst q f l).flatMap g).filter r = (l.flatMap g).filter r := by
  induction l with
  | nil => rfl
  | cons x xs ih =>
    by_cases hx : q x = true
    · simp [modifyFirst, hx, List.flatMap_cons, List.filter_append, h x hx]
    · simp [modifyFirst, hx, List.flatMap_cons, List.filter_append, ih]

theorem filter_flatMap_upsert {α β : Type} (name : α → String) (mk : String → α)
    (n : String) (f : α → α) (g : α → List β) (r : β → Bool)
    (h : ∀ x, name x = n → (g (f x)).filter r = (g x).filter r)
    (hmk : name (mk n) = n) (hg : g (mk n) = []) (l : List α) :
    ((upsert name mk n f l).flatMap g).filter r = (l.flatMap g).filter r := by
  unfold upsert
  cases findChild name l n with
  | none =>
    simp only [List.flatMap_append, List.flatMap_cons, List.flatMap_nil, List.append_nil,
      List.filter_append, h (mk n) hmk, hg, List.filter_nil]
  | some x =>
    simp only
    exact filter_flatMap_modifyFirst _ f g r (fun y hy => h y (by simpa using hy)) l

theorem filter_modifyFirst_of_dropped {α : Type} (q : α → Bool) (f : α → α) (s : α → Bool)
    (h : ∀ x, q x = true → s x = false ∧ s (f x) = false) (l : List α) :
    (modifyFirst q f l).filter s = l.filter s := by
  induction l with
  | nil => rfl
  | cons x xs ih =>
    by_cases hx : q x = true
    · simp [modifyFirst, hx, List.filter_cons, (h x hx).1, (h x hx).2]
    · simp [modifyFirst, hx, List.filter_cons, ih]

theorem filter_eraseP_of_dropped {α : Type} (q : α → Bool) (s : α → Bool)
    (h : ∀ x, q x = true → s x = false) (l : List α) :
    (l.eraseP q).filter s = l.filter s := by
  induction l with
  | nil => rfl
  | cons x xs ih =>
    by_cases hx : q x = true
    · simp [List.eraseP_cons, hx, List.filter_cons, h x hx]
    · simp [List.eraseP_cons, hx, List.filter_cons, ih]

/-- The Translations of a Key with another tag than `lang` stay as they are, in their
order. -/
theorem keySetTranslation_filter (k : Key) (lang t : String) (s : Translation → Bool)
    (hs : ∀ x : Translation, x.objectName = lang → s x = false) :
    (k.setTranslation lang t).children.filter s = k.children.filter s := by
  unfold Key.setTranslation
  split
  · split
    · simp only
      exact filter_modifyFirst_of_dropped _ _ s (fun x hx => by
        have hx2 : x.objectName = lang := by simpa using hx
        exact ⟨hs x hx2, hs _ hx2⟩) k.children
    · simp only
      exact filter_eraseP_of_dropped _ s (fun x hx => hs x (by simpa using hx)) k.children
  · split
    · simp only [List.filter_append, List.filter_cons, hs (Translation.mk lang t) rfl]
      simp
    · rfl

theorem keyTuples_filter (k : Key) (p c lang t : String) :
    ((k.setTranslation lang t).tuples p c).filter (fun x => !atPath p c lang x)
      = (k.tuples p c).filter (fun x => !atPath p c lang x) := by
  unfold Key.tuples
  rw [keySetTranslation_objectName, List.filter_map, List.filter_map]
  congr 1
  exact keySetTranslation_filter k lang t _ (fun x hx => by simp [atPath, hx])

theorem containerTuples_filter (cont : Container) (p c k lang t : String)
    (hc : cont.objectName = c) :
    ((cont.setTranslation k lang t).tuples p).filter (fun x => !atPath p c lang x)
      = (cont.tuples p).filter (fun x => !atPath p c lang x) := by
  unfold Container.tuples
  rw [containerSetTranslation_objectName, hc]
  unfold Container.setTranslation
  split
  · simp only [List.flatMap_append, List.flatMap_cons, List.flatMap_nil, List.append_nil,
      List.filter_append, keyTuples_filter]
    simp [Key.tuples]
  · simp only
    exact filter_flatMap_modifyFirst _ _ _ _ (fun x _ => keyTuples_filter x p c lang t) _

theorem packageTuples_filter (P : Package) (p c k lang t : String) (hp : P.objectName = p) :
    ((P.setTranslation c k lang t).tuples).filter (fun x => !atPath p c lang x)
      = (P.tuples).filter (fun x => !atPath p c lang x) := by
  rw [packageSetTranslation_eq_update]
  unfold Package.tuples Package.updateContainer
  simp only [hp]
  exact filter_flatMap_upsert Container.objectName (fun n => Container.mk n []) c _ _ _
    (fun x hx => containerTuples_filter x p c k lang t hx) rfl rfl P.children

/-- Every tuple of the tree that is not a Translation with the tag `lang` in a Container
named `c` of a Package named `p` is kept by `setTranslation(p, c, k, lang, t)`, in the
order of the tree. -/
theorem projectTuples_filter (proj : Project) (p c k lang t : String) :
    (proj.setTranslation p c k lang t).tuples.filter (fun x => !atPath p c lang x)
      = proj.tuples.filter (fun x => !atPath p c lang x) := by
  rw [projectTuples_eq, projectTuples_eq]
  unfold Project.setTranslation
  have hnew : ((Package.mk p []).setTranslation c k lang t).tuples.filter
      (fun x => !atPath p c lang x) = [] := by
    rw [packageTuples_filter _ p c k lang t rfl]
    rfl
  split
  · simp only [List.flatMap_append, List.flatMap_cons, List.flatMap_nil, List.append_nil,
      List.filter_append, hnew]
  · simp only
    exact filter_flatMap_modifyFirst _ _ _ _
      (fun x hx => packageTuples_filter x p c k lang t (by simpa using hx)) _

/-- A non-empty text set on a Translation that the Key has: the Translation is changed in
place. -/
theorem keySetTranslation_of_leaf (k : Key) (lang t : String) (tr : Translation)
    (h : k.getTranslation lang = some tr) (ht : t ≠ "") :
    tr.objectName = lang ∧
    ∃ pre post, k.children = pre ++ tr :: post ∧
      (k.setTranslation lang t).children = pre ++ tr.setString t :: post := by
  unfold Key.getTranslation findChild at h
  have hn : tr.objectName = lang := by
    have := List.find?_some h
    simpa using this
  obtain ⟨pre, post, h1, _, h3⟩ :=
    modifyFirst_of_find? (fun x : Translation => x.objectName == lang)
      (fun x => x.setString t) k.children tr h
  refine ⟨hn, pre, post, h1, ?_⟩
  unfold Key.setTranslation findChild
  rw [h]
  simp only [ne_eq, ht, not_false_eq_true, if_true]
  exact h3

theorem keyShape_of_leaf (k : Key) (lang t : String) (tr : Translation)
    (h : k.getTranslation lang = some tr) (ht : t ≠ "") :
    (k.setTranslation lang t).shape = k.shape := by
  obtain ⟨_, pre, post, h1, h2⟩ := keySetTranslation_of_leaf k lang t tr h ht
  unfold Key.shape
  rw [keySetTranslation_objectName, h2, h1]
  simp [Translation.setString]

theorem keyTuples_of_leaf (k : Key) (p c lang t : String) (tr : Translation)
    (h : k.getTranslation lang = some tr) (ht : t ≠ "") :
    ∃ pre post, k.tuples p c = pre ++ (p, c, k.objectName, lang, tr.string) :: post ∧
      (k.setTranslation lang t).tuples p c = pre ++ (p, c, k.objectName, lang, t) :: post := by
  obtain ⟨hn, pre, post, h1, h2⟩ := keySetTranslation_of_leaf k lang t tr h ht
  refine ⟨pre.map (fun x => (p, c, k.objectName, x.objectName, x.string)),
    post.map (fun x => (p, c, k.objectName, x.objectName, x.string)), ?_, ?_⟩
  · unfold Key.tuples
    rw [h1, List.map_append, List.map_cons, hn]
  · unfold Key.tuples
    rw [keySetTranslation_objectName, h2, List.map_append, List.map_cons]
    have e : (tr.setString t).objectName = lang := hn
    rw [e]
    rfl

theorem containerSetTranslation_of_leaf (cont : Container) (k lang t : String)
    (tr : Translation) (h : cont.getTranslation k lang = some tr) :
    ∃ pre post K, K.getTranslation lang = some tr ∧ cont.children = pre ++ K :: post ∧
      (cont.setTranslation k lang t).children = pre ++ K.setTranslation lang t :: post := by
  rw [containerGetTranslation_eq] at h
  cases hK : cont.children.find? (fun x => regexHasMatch k x.objectName) with
  | none => rw [hK] at h; exact Option.noConfusion h
  | some K =>
    rw [hK, Option.some_bind] at h
    obtain ⟨pre, post, h1, _, h3⟩ :=
      modifyFirst_of_find? (fun x : Key => regexHasMatch k x.objectName)
        (fun x => x.setTranslation lang t) cont.children K hK
    refine ⟨pre, post, K, h, h1, ?_⟩
    unfold Container.setTranslation Container.findKeys
    rw [filter_isEmpty_eq_find?, hK]
    exact h3

theorem containerShape_of_leaf (cont : Container) (k lang t : String) (tr : Translation)
    (h : cont.getTranslation k lang = some tr) (ht : t ≠ "") :
    (cont.setTranslation k lang t).shape = cont.shape := by
  obtain ⟨pre, post, K, hK, h1, h2⟩ := containerSetTranslation_of_leaf cont k lang t tr h
  unfold Container.shape
  rw [containerSetTranslation_objectName, h2, h1]
  simp [keyShape_of_leaf K lang t tr hK ht]

theorem containerTuples_of_leaf (cont : Container) (p k lang t : String) (tr : Translation)
    (h : cont.getTranslation k lang = some tr) (ht : t ≠ "") :
    ∃ pre post K, cont.tuples p = pre ++ (p, cont.objectName, K, lang, tr.string) :: post ∧
      (cont.setTranslation k lang t).tuples p
        = pre ++ (p, cont.objectName, K, lang, t) :: post := by
  obtain ⟨pre, post, K, hK, h1, h2⟩ := containerSetTranslation_of_leaf cont k lang t tr h
  obtain ⟨a, b, h3, h4⟩ := keyTuples_of_leaf K p cont.objectName lang t tr hK ht
  refine ⟨pre.flatMap (Key.tuples p cont.objectName) ++ a,
    b ++ post.flatMap (Key.tuples p cont.objectName), K.objectName, ?_, ?_⟩
  · unfold Container.tuples
    rw [h1, List.flatMap_append, List.flatMap_cons, h3]
    simp
  · unfold Container.tuples
    rw [containerSetTranslation_objectName, h2, List.flatMap_append, List.flatMap_cons, h4]
    simp

theorem packageSetTranslation_of_leaf (P : Package) (c k lang t : String)
    (tr : Translation) (h : P.getTranslation c k lang = some tr) :
    ∃ pre post C, C.objectName = c ∧ C.getTranslation k lang = some tr ∧
      P.children = pre ++ C :: post ∧
      (P.setTranslation c k lang t).children = pre ++ C.setTranslation k lang t :: post := by
  rw [packageGetTranslation_eq] at h
  cases hC : P.children.find? (fun x => x.objectName == c) with
  | none => rw [hC] at h; exact Option.noConfusion h
  | some C =>
    rw [hC, Option.some_bind] at h
    obtain ⟨pre, post, h1, _, h3⟩ :=
      modifyFirst_of_find? (fun x : Container => x.objectName == c)
        (fun x => x.setTranslation k lang t) P.children C hC
    have hn : C.objectName = c := by
      have := List.find?_some hC
      simpa using this
    refine ⟨pre, post, C, hn, h, h1, ?_⟩
    unfold Package.setTranslation findChild
    rw [hC]
    exact h3

theorem packageShape_of_leaf (P : Package) (c k lang t : String) (tr : Translation)
    (h : P.getTranslation c k lang = some tr) (ht : t ≠ "") :
    (P.setTranslation c k lang t).shape = P.shape := by
  obtain ⟨pre, post, C, _, hC, h1, h2⟩ := packageSetTranslation_of_leaf P c k lang t tr h
  unfold Package.shape
  rw [packageSetTranslation_objectName, h2, h1]
  simp [containerShape_of_leaf C k lang t tr hC ht]

theorem packageTuples_of_leaf (P : Package) (c k lang t : String) (tr : Translation)
    (h : P.getTranslation c k lang = some tr) (ht : t ≠ "") :
    ∃ pre post K, P.tuples = pre ++ (P.objectName, c, K, lang, tr.string) :: post ∧
      (P.setTranslation c k lang t).tuples
        = pre ++ (P.objectName, c, K, lang, t) :: post := by
  obtain ⟨pre, post, C, hn, hC, h1, h2⟩ := packageSetTranslation_of_leaf P c k lang t tr h
  obtain ⟨a, b, K, h3, h4⟩ := containerTuples_of_leaf C P.objectName k lang t tr hC ht
  rw [hn] at h3 h4
  refine ⟨pre.flatMap (Container.tuples P.objectName) ++ a,
    b ++ post.flatMap (Container.tuples P.objectName), K, ?_, ?_⟩
  · unfold Package.tuples
    rw [h1, List.flatMap_append, List.flatMap_cons, h3]
    simp
  · unfold Package.tuples
    rw [packageSetTranslation_objectName, h2, List.flatMap_append, List.flatMap_cons, h4]
    simp

theorem projectSetTranslation_of_leaf (proj : Project) (p c k lang t : String)
    (tr : Translation) (h : proj.getTranslation p c k lang = some tr) :
    ∃ pre post P, P.objectName = p ∧ P.getTranslation c k lang = some tr ∧
      proj.children = pre ++ P :: post ∧
      (proj.setTranslation p c k lang t).children
        = pre ++ P.setTranslation c k lang t :: post := by
  rw [projectGetTranslation_eq] at h
  cases hP : proj.children.find? (fun x => x.objectName == p) with
  | none => rw [hP] at h; exact Option.noConfusion h
  | some P =>
    rw [hP, Option.some_bind] at h
    obtain ⟨pre, post, h1, _, h3⟩ :=
      modifyFirst_of_find? (fun x : Package => x.objectName == p)
        (fun x => x.setTranslation c k lang t) proj.children P hP
    have hn : P.objectName = p := by
      have := List.find?_some hP
      simpa using this
    refine ⟨pre, post, P, hn, h, h1, ?_⟩
    unfold Project.setTranslation findChild
    rw [hP]
    exact h3

/-- A non-empty text set on a leaf that the lookup finds keeps the nodes of the tree,
their names and their order. -/
theorem projectShape_of_leaf (proj : Project) (p c k lang t : String) (tr : Translation)
    (h : proj.getTranslation p c k lang = some tr) (ht : t ≠ "") :
    (proj.setTranslation p c k lang t).shape = proj.shape := by
  obtain ⟨pre, post, P, _, hP, h1, h2⟩ := projectSetTranslation_of_leaf proj p c k lang t tr h
  unfold Project.shape
  rw [h2, h1]
  have e : (proj.setTranslation p c k lang t).objectName = proj.objectName := by
    unfold Project.setTranslation
    split <;> rfl
  rw [e]
  simp [packageShape_of_leaf P c k lang t tr hP ht]

/-- A non-empty text set on a leaf that the lookup finds changes the text of one tuple,
the one of that leaf. -/
theorem projectTuples_of_leaf (proj : Project) (p c k lang t : String) (tr : Translation)
    (h : proj.getTranslation p c k lang = some tr) (ht : t ≠ "") :
    ∃ pre post K, proj.tuples = pre ++ (p, c, K, lang, tr.string) :: post ∧
      (proj.setTranslation p c k lang t).tuples = pre ++ (p, c, K, lang, t) :: post := by
  obtain ⟨pre, post, P, hn, hP, h1, h2⟩ := projectSetTranslation_of_leaf proj p c k lang t tr h
  obtain ⟨a, b, K, h3, h4⟩ := packageTuples_of_leaf P c k lang t tr hP ht
  rw [hn] at h3 h4
  refine ⟨pre.flatMap Package.tuples ++ a, b ++ post.flatMap Package.tuples, K, ?_, ?_⟩
  · rw [projectTuples_eq, h1, List.flatMap_append, List.flatMap_cons, h3]
    simp
  · rw [projectTuples_eq, h2, List.flatMap_append, List.flatMap_cons, h4]
    simp

/-! ## The claim on the frame of `setTranslation` -/

/-- C37 (failing inputs and the part that holds). On the tree with the Key `*` holding the
Original `Hello`, `setTranslation("Main", "intro", "*", "Original", "New")` leaves the
text of that leaf as it is and adds a second Key `*`; on the tree with the Keys
`greeting` and `greet`, the call for `greet` changes the Original of `greeting`. For
every tree and every call, the project name is kept; apart from the first Package named
`p` the Packages are the ones of before, and apart from the first Container named `c`
the Containers of that Package are the ones of before, in their order; every tuple that
is not a Translation with the tag `lang` under the names `p` and `c` is kept, in the
order of the tree; and when the text is not empty and the lookup of the call finds a
Translation, the nodes of the tree, their names and their order are kept and one tuple,
the one of that Translation, changes its text. -/
theorem C37_frame_of_setTranslation :
    ((Project.mk "P" [Package.mk "Main" [Container.mk "intro"
        [Key.mk "*" [Translation.mk "Original" "Hello"]]]]).setTranslation
          "Main" "intro" "*" "Original" "New"
      = Project.mk "P" [Package.mk "Main" [Container.mk "intro"
          [Key.mk "*" [Translation.mk "Original" "Hello"],
            Key.mk "*" [Translation.mk "Original" "New"]]]]) ∧
    ((Project.mk "P" [Package.mk "Main" [Container.mk "intro"
        [Key.mk "greeting" [Translation.mk "Original" "Welcome"],
          Key.mk "greet" [Translation.mk "Original" "Hi"]]]]).setTranslation
            "Main" "intro" "greet" "Original" "Hey"
      = Project.mk "P" [Package.mk "Main" [Container.mk "intro"
          [Key.mk "greeting" [Translation.mk "Original" "Hey"],
            Key.mk "greet" [Translation.mk "Original" "Hi"]]]]) ∧
    ∀ (proj : Project) (p c k lang t : String),
      (proj.setTranslation p c k lang t).objectName = proj.objectName ∧
      (proj.setTranslation p c k lang t).children.eraseP (fun x => x.objectName == p)
        = proj.children.eraseP (fun x => x.objectName == p) ∧
      (findChild Package.objectName (proj.setTranslation p c k lang t).children p).map
          (fun P => P.children.eraseP (fun x => x.objectName == c))
        = some (((findChild Package.objectName proj.children p).getD
            (Package.mk p [])).children.eraseP (fun x => x.objectName == c)) ∧
      (proj.setTranslation p c k lang t).tuples.filter (fun x => !atPath p c lang x)
        = proj.tuples.filter (fun x => !atPath p c lang x) ∧
      ∀ tr : Translation, t ≠ "" → proj.getTranslation p c k lang = some tr →
        (proj.setTranslation p c k lang t).shape = proj.shape ∧
        ∃ pre post K, proj.tuples = pre ++ (p, c, K, lang, tr.string) :: post ∧
          (proj.setTranslation p c k lang t).tuples = pre ++ (p, c, K, lang, t) :: post := by
  refine ⟨by decide, by decide, ?_⟩
  intro proj p c k lang t
  refine ⟨?_, ?_, ?_, projectTuples_filter proj p c k lang t, ?_⟩
  · unfold Project.setTranslation
    split <;> rfl
  · rw [projectSetTranslation_eq_update]
    unfold Project.updateContainer
    simp only
    exact eraseP_upsert Package.objectName (fun n => Package.mk n []) p
      (fun P => P.updateContainer c (fun C => C.setTranslation k lang t)) proj.children
      (fun x => rfl) rfl
  · unfold findChild
    rw [projectFind_setTranslation, Option.map_some', packageSetTranslation_eq_update]
    unfold Package.updateContainer
    simp only
    rw [eraseP_upsert Container.objectName (fun n => Container.mk n []) c _ _
      (fun x => containerSetTranslation_objectName x k lang t) rfl]
  · intro tr ht h
    exact ⟨projectShape_of_leaf proj p c k lang t tr h ht,
      projectTuples_of_leaf proj p c k lang t tr h ht⟩

/-! ## The claim on the language check of the importer -/

/-- Without the long s U+017F folding and lower-casing agree. -/
theorem caseFold_of_no_long_s (s : String) (h : Char.ofNat 0x017F ∉ s.toList) :
    String.mk (caseFold s) = toLower s := by
  unfold toLower caseFold
  congr 1
  apply List.map_congr_left
  intro c hc
  have hne : c ≠ Char.ofNat 0x017F := fun e => h (e ▸ hc)
  unfold foldCase lowerCase
  rw [if_neg hne]

theorem supports_iff_langCodeToString (code : String) (h : Char.ofNat 0x017F ∉ code.toList) :
    XliffParser.supports code = true ↔ Project.langCodeToString code ≠ "" := by
  constructor
  · intro hs
    rw [supports_iff, caseFold_of_no_long_s code h] at hs
    exact langCodeToString_ne_empty code hs
  · exact supports_of_langCodeToString code

/-- C38. The language check of the XLIFF importer and the display-name table do not
agree on every code. The check is a case-insensitive comparison with the 11 codes, which
folds the long s U+017F to `s`; `Project::langCodeToString` lower-cases the code, which
leaves U+017F as it is. The code `e` U+017F is accepted and has no display name, and a
2.0 document with this target language writes its target under the null tag: the text
`Hola` of the target replaces the text of `Original`. For every code without U+017F the
claim holds: the code is accepted if and only if its display name is not empty, both
depend on the code up to letter case only (`DE` is accepted and mapped to `German`), and
the import of a document with an accepted target language writes the targets of its
leaves under the display name, which is not empty. A code with a display name is always
accepted. -/
theorem C38_language_check_accepts_a_code_without_display_name :
    (XliffParser.supports (String.mk ['e', Char.ofNat 0x017F]) = true ∧
      Project.langCodeToString (String.mk ['e', Char.ofNat 0x017F]) = "" ∧
      XliffParser.extract (Project.mk "" [])
        (xliffDocument true "My_Project" "en" (String.mk ['e', Char.ofNat 0x017F])
          [XliffGroup.mk "Main" [XliffUnit.mk "mission"
            [XliffLeaf.mk "k1" "Hi" (some "Hola")]]])
        = Project.mk "My Project" [Package.mk "Main" [Container.mk "mission"
            [Key.mk "k1" [Translation.mk "Original" "Hola"]]]]) ∧
    (∀ code : String, Project.langCodeToString code ≠ "" → XliffParser.supports code = true) ∧
    (∀ code : String, Char.ofNat 0x017F ∉ code.toList →
      (XliffParser.supports code = true ↔ Project.langCodeToString code ≠ "")) ∧
    (∀ a b : String, Char.ofNat 0x017F ∉ a.toList → Char.ofNat 0x017F ∉ b.toList →
      caseFold a = caseFold b →
      XliffParser.supports a = XliffParser.supports b ∧
        Project.langCodeToString a = Project.langCodeToString b) ∧
    (XliffParser.supports "DE" = true ∧ Project.langCodeToString "DE" = "German") ∧
    ∀ (version2 : Bool) (projectId srcLang trgLang : String) (groups : List XliffGroup)
      (m_prj : Project), Char.ofNat 0x017F ∉ trgLang.toList →
      XliffParser.supports trgLang = true →
      Project.langCodeToString trgLang ≠ "" ∧
      XliffParser.extract m_prj (xliffDocument version2 projectId srcLang trgLang groups)
        = if groups.isEmpty then m_prj
          else importLeaves (some (Project.langCodeToString trgLang))
            { m_prj with objectName := XliffParser.projectName projectId }
            (leavesOf groups) := by
  refine ⟨by decide, supports_of_langCodeToString, supports_iff_langCodeToString, ?_,
    ⟨by decide, by decide⟩, ?_⟩
  · intro a b ha hb h
    refine ⟨?_, ?_⟩
    · unfold XliffParser.supports compareCaseInsensitive
      rw [h]
    · apply langCodeToString_congr
      rw [← caseFold_of_no_long_s a ha, ← caseFold_of_no_long_s b hb, h]
  · intro version2 projectId srcLang trgLang groups m_prj hs hL
    have hne := (supports_iff_langCodeToString trgLang hs).mp hL
    refine ⟨hne, ?_⟩
    rw [extract_xliffDocument version2 projectId srcLang trgLang groups m_prj hL,
      nullIfEmpty_of_ne _ hne]

/-! ## Lemmas on the block that opens and closes on one line -/

theorem keyGet_setEmpty (k : Key) (lang : String)
    (hu : (k.children.map Translation.objectName).Nodup) :
    (k.setTranslation lang "").getTranslation lang = none := by
  unfold Key.setTranslation
  cases h : findChild Translation.objectName k.children lang with
  | none =>
    simp only [ne_eq, not_true_eq_false, if_false]
    exact h
  | some t =>
    simp only [ne_eq, not_true_eq_false, if_false]
    unfold Key.getTranslation findChild
    exact find?_eraseP_nodup lang k.children hu

theorem containerGet_setEmpty (c : Container) (key lang : String)
    (hu : ∀ k ∈ c.children, (k.children.map Translation.objectName).Nodup) :
    (c.setTranslation key lang "").getTranslation key lang = none := by
  rw [containerGetTranslation_eq, containerFind_setTranslation]
  cases h : c.children.find? (fun k => regexHasMatch key k.objectName) with
  | none =>
    simp only
    split
    · exact keyGet_setEmpty _ lang (by simp)
    · rfl
  | some k =>
    simp only [Option.some_bind]
    exact keyGet_setEmpty k lang (hu k (List.mem_of_find?_eq_some h))

/-- After `setTranslation` with an empty text the lookup of the Translation finds
nothing, in a tree without a language tag twice in a Key. -/
theorem projectGet_setEmpty (proj : Project) (package container key lang : String)
    (hu : proj.uniqueLanguages) :
    (proj.setTranslation package container key lang "").getTranslation package container
      key lang = none := by
  rw [projectGetTranslation_eq, projectFind_setTranslation, Option.some_bind,
    packageGetTranslation_eq, packageFind_setTranslation, Option.some_bind]
  apply containerGet_setEmpty
  cases hP : proj.children.find? (fun p => p.objectName == package) with
  | none => simp
  | some P =>
    simp only [Option.getD_some]
    cases hC : P.children.find? (fun c => c.objectName == container) with
    | none => simp
    | some C =>
      simp only [Option.getD_some]
      exact hu P (List.mem_of_find?_eq_some hP) C (List.mem_of_find?_eq_some hC)

theorem getTranslation_saveTranslation_empty (m_st m_sp : Project) (p c k : String)
    (hu : m_sp.uniqueLanguages) :
    (saveTranslation m_st m_sp p c k "").getTranslation p c k "Original" = none := by
  have h1 := projectGet_setEmpty m_sp p c k "Original" hu
  unfold saveTranslation
  simp only
  split
  · exact h1
  · split
    · split
      · exact h1
      · rw [getTranslation_appendTranslations]
        · exact h1
        · intro x hx
          obtain ⟨y, hy, rfl⟩ := List.mem_map.mp hx
          have := (List.mem_filter.mp hy).2
          simpa using this
    · exact h1

theorem oneLineBlock_toList (P C K text : String) :
    (oneLineBlock P C K text).toList
      = (blockHeader P C K).toList ++ ' ' :: (text.toList ++ [' ', '*', '/']) := by
  simp [oneLineBlock, String.toList, String.data_append]

theorem containsMultiLineEnd_closer (a : List Char) :
    containsMultiLineEnd (a ++ [' ', '*', '/']) = true := by
  induction a with
  | nil => decide
  | cons c cs ih =>
    rw [List.cons_append]
    unfold containsMultiLineEnd
    rw [ih]
    simp

theorem simplifiedFrom_pending (l : List Char) (c : Char) (hc : isQtSpace c = false) :
    ∃ r, simplifiedFrom true true (l ++ [c]) = ' ' :: r := by
  have h := (simplifiedFrom_emitted (l ++ [c])).2
  have hne : ((l ++ [c]).reverse.dropWhile isQtSpace).reverse ≠ [] := by
    simp [List.dropWhile, hc]
  rw [if_neg hne] at h
  exact ⟨_, h⟩

theorem oneLineBlock_chars (P C K text : String) :
    (oneLineBlock P C K text).toList
      = '/' :: (('*' :: ' ' :: 'T' :: 'R' :: ' ' ::
          (P.toList ++ ' ' :: (C.toList ++ ' ' :: K.toList)) ++
            ' ' :: (text.toList ++ [' ', '*'])) ++ ['/']) := by
  rw [oneLineBlock_toList, blockHeader_toList]
  simp

/-- A line `/* TR P C K text */` whose text has no `/` is no single-line directive. -/
theorem singleLineSearch_oneLineBlock (P C K text : String)
    (hP : isTokenOf isTokenChar P = true) (hC : isTokenOf isTokenChar C = true)
    (hK : isTokenOf isTokenChar K = true) (htext : ∀ c ∈ text.toList, c ≠ '/') :
    singleLineSearch (oneLineBlock P C K text).toList = none := by
  have hns := header_noSlash P C K hP hC hK
  have hns2 : ∀ c ∈ ('*' :: ' ' :: 'T' :: 'R' :: ' ' ::
      (P.toList ++ ' ' :: (C.toList ++ ' ' :: K.toList)) ++
        ' ' :: (text.toList ++ [' ', '*'])), c ≠ '/' := by
    intro c hc
    rcases List.mem_append.mp hc with h | h
    · exact hns c h
    · simp only [List.mem_cons, List.mem_append, List.mem_singleton, List.not_mem_nil,
        or_false] at h
      rcases h with h | h | h | h
      · subst h; decide
      · exact htext c h
      · subst h; decide
      · subst h; decide
  rw [oneLineBlock_chars]
  unfold singleLineSearch
  have e : singleLineAt ('/' :: (('*' :: ' ' :: 'T' :: 'R' :: ' ' ::
      (P.toList ++ ' ' :: (C.toList ++ ' ' :: K.toList)) ++
        ' ' :: (text.toList ++ [' ', '*'])) ++ ['/'])) = none := by
    simp [singleLineAt, dropLiteral]
  rw [e]
  exact (singleLineSearch_of_noSlash _ hns2).2

/-- The block that opens and closes on one line, read outside a block and not a
single-line directive, is `saveTranslation` with the empty text for the tokens of its
header. -/
theorem parseLine_oneLineBlock (m_fileBaseName : String) (m_st sp : Project)
    (P C K text : String)
    (hP : isTokenOf isTokenChar P = true) (hC : isTokenOf isTokenChar C = true)
    (hK : isTokenOf isTokenChar K = true)
    (h1 : singleLineSearch (oneLineBlock P C K text).toList = none) :
    parseLine m_fileBaseName m_st (ParseState.mk false "" "" sp) (oneLineBlock P C K text)
      = ParseState.mk false "" ""
          (saveTranslation m_st sp (resolvePackage P) (resolveContainer m_fileBaseName C)
            K "") := by
  have h2 : containsMultiLineStart (oneLineBlock P C K text).toList = true := by
    rw [oneLineBlock_chars]
    unfold containsMultiLineStart
    have e : multiLineStartAt ('/' :: (('*' :: ' ' :: 'T' :: 'R' :: ' ' ::
        (P.toList ++ ' ' :: (C.toList ++ ' ' :: K.toList)) ++
          ' ' :: (text.toList ++ [' ', '*'])) ++ ['/'])) = true := by
      have hsp : isRegexSpace ' ' = true := by decide
      have hT : isRegexSpace 'T' = false := by decide
      simp [multiLineStartAt, dropLiteral, List.dropWhile, hsp, hT]
    rw [e]
    rfl
  have h3 : containsMultiLineEnd (oneLineBlock P C K text).toList = true := by
    rw [oneLineBlock_toList]
    have e : (blockHeader P C K).toList ++ ' ' :: (text.toList ++ [' ', '*', '/'])
        = ((blockHeader P C K).toList ++ ' ' :: text.toList) ++ [' ', '*', '/'] := by simp
    rw [e]
    exact containsMultiLineEnd_closer _
  have h4 : ∃ r, (simplified (oneLineBlock P C K text)).toList
      = (blockHeader P C K).toList ++ ' ' :: r := by
    unfold simplified
    rw [oneLineBlock_toList, simplifiedFrom_header P C K _ hP hC hK]
    have hsp : isQtSpace ' ' = true := by decide
    rw [simplifiedFrom]
    simp only [hsp, if_true]
    have e : text.toList ++ [' ', '*', '/'] = (text.toList ++ [' ', '*']) ++ ['/'] := by simp
    rw [e]
    obtain ⟨r, hr⟩ := simplifiedFrom_pending (text.toList ++ [' ', '*']) '/' (by decide)
    exact ⟨r, by rw [hr]; rfl⟩
  obtain ⟨r, hr⟩ := h4
  have h5 : multiLineMetaSearch (simplified (oneLineBlock P C K text)).toList
      = some (MultiLineMetaMatch.mk P C K) := by
    rw [hr]
    exact multiLineMetaSearch_header P C K (' ' :: r) hP hC hK (by
      intro y hy
      simp only [List.head?_cons, Option.mem_def, Option.some.injEq] at hy
      rw [← hy]
      decide)
  unfold parseLine
  rw [h1]
  simp only [h2, h3, if_true, Bool.and_true]
  have hemp : ("" : String).isEmpty = true := by decide
  simp only [hemp, if_true]
  unfold closeBlock
  simp only [h5]
  rfl

/-! ## The claim on the block that opens and closes on one line -/

/-- C39 (failing input and the part that holds). The Key `*` of (Main, intro) gets the
Original `Hello` from a block of three lines; the same-line block
`/* TR Main intro * gone */` read afterwards does not remove it: it adds a second, empty
Key `*`, and the Original is still in the tree. For three tokens of the class of the
header pattern, a line `/* TR P C K text */` that is no single-line directive (as every
line whose text has no `/`), read outside a block, is `saveTranslation` with the empty
text for the resolved package and container and the key `K`, whatever the text is, and
in a tree without a language tag twice in a Key the lookup of the Original of (P, C, K)
finds nothing afterwards. -/
theorem C39_same_line_block_keeps_the_original_of_key_star :
    ((["/* TR Main intro *", "Hello", "*/"].foldl
        (parseLine "intro" (Project.mk "" []))
        (ParseState.mk false "" "" (Project.mk "P" []))
        = ParseState.mk false "" ""
            (Project.mk "P" [Package.mk "Main" [Container.mk "intro"
              [Key.mk "*" [Translation.mk "Original" "Hello"]]]])) ∧
      parseLine "intro" (Project.mk "" [])
        (ParseState.mk false "" ""
          (Project.mk "P" [Package.mk "Main" [Container.mk "intro"
            [Key.mk "*" [Translation.mk "Original" "Hello"]]]]))
        "/* TR Main intro * gone */"
        = ParseState.mk false "" ""
            (Project.mk "P" [Package.mk "Main" [Container.mk "intro"
              [Key.mk "*" [Translation.mk "Original" "Hello"], Key.mk "*" []]]]) ∧
      ("Main", "intro", "*", "Original", "Hello") ∈
        (Project.mk "P" [Package.mk "Main" [Container.mk "intro"
          [Key.mk "*" [Translation.mk "Original" "Hello"], Key.mk "*" []]]]).tuples) ∧
    ∀ (m_fileBaseName : String) (m_st sp : Project) (P C K text : String),
      isTokenOf isTokenChar P = true → isTokenOf isTokenChar C = true →
      isTokenOf isTokenChar K = true →
      ((∀ c ∈ text.toList, c ≠ '/') →
        singleLineSearch (oneLineBlock P C K text).toList = none) ∧
      (singleLineSearch (oneLineBlock P C K text).toList = none →
        parseLine m_fileBaseName m_st (ParseState.mk false "" "" sp) (oneLineBlock P C K text)
          = ParseState.mk false "" ""
              (saveTranslation m_st sp (resolvePackage P) (resolveContainer m_fileBaseName C)
                K "")) ∧
      (sp.uniqueLanguages →
        (saveTranslation m_st sp (resolvePackage P) (resolveContainer m_fileBaseName C)
          K "").getTranslation (resolvePackage P) (resolveContainer m_fileBaseName C) K
            "Original" = none) := by
  refine ⟨by decide, ?_⟩
  intro m_fileBaseName m_st sp P C K text hP hC hK
  exact ⟨singleLineSearch_oneLineBlock P C K text hP hC hK,
    parseLine_oneLineBlock m_fileBaseName m_st sp P C K text hP hC hK,
    fun hu => getTranslation_saveTranslation_empty m_st sp _ _ K hu⟩

/-! ## The claim on the two XLIFF versions -/

theorem filter_map_tagged {α : Type} (e : α → QDomNode) (tag : String)
    (he : ∀ x, ((e x).isElement && (e x).tagName == tag) = true) (l : List α) :
    (l.map e).filter (fun c => c.isElement && c.tagName == tag) = l.map e := by
  apply List.filter_eq_self.mpr
  intro y hy
  obtain ⟨x, _, rfl⟩ := List.mem_map.mp hy
  exact he x

theorem readLeaf (version2 : Bool) (l : XliffLeaf) :
    (l.toElement version2).attribute "id" "" = l.id ∧
    textOf ((l.toElement version2).firstChildElement "source") = l.source ∧
    ((l.toElement version2).firstChildElement "target").map QDomNode.text = l.target := by
  cases l with
  | mk id source target =>
    cases target with
    | none =>
      refine ⟨rfl, ?_, rfl⟩
      simp [XliffLeaf.toElement, QDomNode.firstChildElement, QDomNode.childNodes, textOf,
        QDomNode.isElement, QDomNode.tagName, QDomNode.text, QDomNode.textOfList]
    | some t =>
      refine ⟨rfl, ?_, ?_⟩
      · simp [XliffLeaf.toElement, QDomNode.firstChildElement, QDomNode.childNodes, textOf,
          QDomNode.isElement, QDomNode.tagName, QDomNode.text, QDomNode.textOfList]
      · simp [XliffLeaf.toElement, QDomNode.firstChildElement, QDomNode.childNodes,
          QDomNode.isElement, QDomNode.tagName, QDomNode.text, QDomNode.textOfList]

/-- The leaves read from a document of the specification, in both versions. -/
theorem readLeaves_xliffDocument (version2 : Bool) (projectId srcLang trgLang : String)
    (groups : List XliffGroup) :
    readLeaves version2 (xliffDocument version2 projectId srcLang trgLang groups)
      = groups.flatMap (fun g => g.units.flatMap (fun u => u.leaves.map (fun l =>
          (g.id, u.id, l.id, l.source, l.target)))) := by
  have hleaf : ∀ (gid : String) (u : XliffUnit),
      (childElementsOf (some (u.toElement version2))
          (if version2 then "segment" else "trans-unit")).map (fun l =>
        (gid, (u.toElement version2).attribute "id" "", l.attribute "id" "",
          textOf (l.firstChildElement "source"),
          (l.firstChildElement "target").map QDomNode.text))
        = u.leaves.map (fun l => (gid, u.id, l.id, l.source, l.target)) := by
    intro gid u
    have hc : childElementsOf (some (u.toElement version2))
        (if version2 then "segment" else "trans-unit")
        = u.leaves.map (XliffLeaf.toElement version2) := by
      unfold childElementsOf XliffUnit.toElement
      simp only [QDomNode.childNodes]
      apply filter_map_tagged
      intro l
      cases version2 <;> rfl
    rw [hc, List.map_map]
    apply List.map_congr_left
    intro l _
    have h := readLeaf version2 l
    simp only [Function.comp]
    rw [h.1, h.2.1, h.2.2]
    cases version2 <;> rfl
  have hunit : ∀ (g : XliffGroup),
      (childElementsOf (some (g.toElement version2))
          (if version2 then "unit" else "group")).flatMap (fun u =>
        (childElementsOf (some u) (if version2 then "segment" else "trans-unit")).map
          (fun l => ((g.toElement version2).attribute "id" "", u.attribute "id" "",
            l.attribute "id" "", textOf (l.firstChildElement "source"),
            (l.firstChildElement "target").map QDomNode.text)))
        = g.units.flatMap (fun u => u.leaves.map (fun l =>
            (g.id, u.id, l.id, l.source, l.target))) := by
    intro g
    have hc : childElementsOf (some (g.toElement version2))
        (if version2 then "unit" else "group")
        = g.units.map (XliffUnit.toElement version2) := by
      unfold childElementsOf XliffGroup.toElement
      simp only [QDomNode.childNodes]
      apply filter_map_tagged
      intro u
      cases version2 <;> rfl
    have hid : (g.toElement version2).attribute "id" "" = g.id := by
      cases version2 <;> rfl
    rw [hc, hid, List.flatMap_map]
    apply List.flatMap_congr
    intro u _
    exact hleaf g.id u
  have htop : childElementsOf
      (if version2 then
        (documentElement (xliffDocument version2 projectId srcLang trgLang groups)).bind
          (fun x => x.firstChildElement "file")
      else
        ((documentElement (xliffDocument version2 projectId srcLang trgLang groups)).bind
          (fun x => x.firstChildElement "file")).bind
            (fun f => f.firstChildElement "body")) "group"
      = groups.map (XliffGroup.toElement version2) := by
    cases version2
    · have e : ((documentElement (xliffDocument false projectId srcLang trgLang groups)).bind
          (fun x => x.firstChildElement "file")).bind (fun f => f.firstChildElement "body")
          = some (QDomNode.element "body" [] (groups.map (XliffGroup.toElement false))) := by
        by_cases h : trgLang = "" <;> simp [h, xliffDocument, xliffRoot, xliffFile,
          documentElement, xmlDeclaration, QDomNode.isElement, QDomNode.firstChildElement,
          QDomNode.childNodes, QDomNode.tagName]
      simp only [Bool.false_eq_true, if_false]
      rw [e]
      unfold childElementsOf
      simp only [QDomNode.childNodes]
      exact filter_map_tagged (XliffGroup.toElement false) "group" (fun g => rfl) groups
    · have e : (documentElement (xliffDocument true projectId srcLang trgLang groups)).bind
          (fun x => x.firstChildElement "file")
          = some (QDomNode.element "file" [("id", projectId)]
              (groups.map (XliffGroup.toElement true))) := by
        simp [xliffDocument, xliffRoot, xliffFile,
          documentElement, xmlDeclaration, QDomNode.isElement, QDomNode.firstChildElement,
          QDomNode.childNodes, QDomNode.tagName]
      simp only [if_true]
      rw [e]
      unfold childElementsOf
      simp only [QDomNode.childNodes]
      exact filter_map_tagged (XliffGroup.toElement true) "group" (fun g => rfl) groups
  unfold readLeaves
  simp only
  rw [htop, List.flatMap_map]
  apply List.flatMap_congr
  intro g _
  exact hunit g

theorem flatMap_filter_of_nil {α β : Type} (q : α → Bool) (F : α → List β) (l : List α)
    (h : ∀ x, q x = false → F x = []) : (l.filter q).flatMap F = l.flatMap F := by
  induction l with
  | nil => rfl
  | cons x xs ih =>
    by_cases hq : q x = true
    · simp [List.filter, hq, ih]
    · have hq2 : q x = false := by simpa using hq
      simp [List.filter, hq2, ih, h x hq2]

theorem leaves_eq_xliffGroups (lang : String) (proj : Project) :
    (Project.xliffGroups lang proj).flatMap (fun g => g.units.flatMap (fun u =>
        u.leaves.map (fun l => (g.id, u.id, l.id, l.source, l.target))))
      = proj.leaves lang := by
  unfold Project.xliffGroups Project.leaves
  rw [List.flatMap_map]
  have hp : ∀ p : Package,
      (Package.xliffGroup lang p).units.flatMap (fun u =>
        u.leaves.map (fun l => ((Package.xliffGroup lang p).id, u.id, l.id, l.source,
          l.target)))
        = p.children.flatMap (fun c => c.children.filterMap (fun k =>
            (k.getTranslation "Original").map (fun o =>
              (xliffId p.objectName, xliffId c.objectName, xliffId k.objectName, o.string,
                if lang ≠ "" then (k.getTranslation lang).map Translation.string
                else none)))) := by
    intro p
    unfold Package.xliffGroup
    simp only
    rw [List.flatMap_map]
    rw [flatMap_filter_of_nil]
    · apply List.flatMap_congr
      intro c _
      unfold Container.xliffUnit
      simp only
      rw [List.map_filterMap]
      apply List.filterMap_congr
      intro k _
      unfold Key.xliffLeaf
      cases k.getTranslation "Original" <;> rfl
    · intro c hc
      have hnil : c.children = [] := by simpa using hc
      simp [Container.xliffUnit, hnil]
  rw [flatMap_filter_of_nil]
  · apply List.flatMap_congr
    intro p _
    exact hp p
  · intro p hpe
    have hnil : p.children = [] := by simpa using hpe
    simp [Package.xliffGroup, hnil]

/-- C40. The XLIFF 1.2 and 2.0 exports carry the same content: for every tree, source
language and target code, the leaves (package id, container id, key id, source text,
optional target text) read from the 1.2 export along `group` → `group` → `trans-unit`
are the leaves read from the 2.0 export along `group` → `unit` → `segment`; both are the
leaves of the Keys of the tree that have an Original, in tree order. -/
theorem C40_both_versions_carry_the_same_leaves (proj : Project) (lang srcLng : String) :
    readLeaves false (proj.toXliff lang srcLng false)
      = readLeaves true (proj.toXliff lang srcLng true) ∧
    readLeaves true (proj.toXliff lang srcLng true)
      = proj.leaves (Project.langCodeToString lang) := by
  have h : ∀ version2 : Bool, readLeaves version2 (proj.toXliff lang srcLng version2)
      = proj.leaves (Project.langCodeToString lang) := by
    intro version2
    by_cases hc : proj.children = []
    · have e : proj.toXliff lang srcLng version2 = [] := by
        unfold Project.toXliff
        simp [hc]
      rw [e]
      unfold Project.leaves
      rw [hc]
      cases version2 <;> rfl
    · rw [toXliff_eq proj lang srcLng version2 hc, readLeaves_xliffDocument,
        leaves_eq_xliffGroups]
  exact ⟨(h false).trans (h true).symm, h true⟩

/-! ## Lemmas on find-or-create of a Key by its name -/

theorem packageKeys_update_same (P : Package) (c : String) (f : Container → Container)
    (hf : ∀ C, (f C).objectName = C.objectName) :
    (((P.updateContainer c f).children.find? (fun x => x.objectName == c)).map
        Container.children).getD []
      = (f (Container.mk c (((P.children.find? (fun x => x.objectName == c)).map
          Container.children).getD []))).children := by
  unfold Package.updateContainer
  simp only
  rw [find?_upsert Container.objectName (fun n => Container.mk n []) c f P.children hf rfl]
  cases h : P.children.find? (fun x => x.objectName == c) with
  | none => rfl
  | some C =>
    have hn : C.objectName = c := by simpa using List.find?_some h
    obtain ⟨n, l⟩ := C
    simp only at hn
    subst hn
    rfl

theorem keysAt_eq_map (proj : Project) (p c : String) :
    proj.keysAt p c
      = (((proj.children.find? (fun x => x.objectName == p)).bind
          (fun P => P.children.find? (fun x => x.objectName == c))).map
            Container.children).getD [] := by
  unfold Project.keysAt findChild
  cases proj.children.find? (fun x => x.objectName == p) with
  | none => rfl
  | some P =>
    simp only [Option.some_bind]
    cases P.children.find? (fun x => x.objectName == c) <;> rfl

/-- The Keys at the path of a find-or-create of a Container: the Keys of the changed
Container. -/
theorem keysAt_updateContainer_same (proj : Project) (p c : String)
    (f : Container → Container) (hf : ∀ C, (f C).objectName = C.objectName) :
    (proj.updateContainer p c f).keysAt p c
      = (f (Container.mk c (proj.keysAt p c))).children := by
  rw [keysAt_eq_map, keysAt_eq_map]
  unfold Project.updateContainer
  simp only
  rw [find?_upsert Package.objectName (fun n => Package.mk n [])
    p (fun P => P.updateContainer c f) proj.children (fun P => rfl) rfl]
  simp only [Option.some_bind]
  have h := packageKeys_update_same
    ((proj.children.find? (fun x => x.objectName == p)).getD (Package.mk p [])) c f hf
  rw [h]
  cases proj.children.find? (fun x => x.objectName == p) <;> rfl

theorem find?_upsert_other {α : Type} (name : α → String) (mk : String → α) (n m : String)
    (f : α → α) (l : List α) (hf : ∀ x, name (f x) = name x) (hmk : name (mk n) = n)
    (hnm : m ≠ n) :
    (upsert name mk n f l).find? (fun x => name x == m)
      = l.find? (fun x => name x == m) := by
  unfold upsert findChild
  cases h : l.find? (fun x => name x == n) with
  | none =>
    simp only
    rw [List.find?_append]
    have : [f (mk n)].find? (fun x => name x == m) = none := by
      simp [hf, hmk, Ne.symm hnm]
    rw [this]
    simp
  | some x =>
    simp only
    induction l with
    | nil => rfl
    | cons y ys ih =>
      unfold modifyFirst
      by_cases hy : (name y == n) = true
      · rw [if_pos hy]
        have hyn : name y = n := by simpa using hy
        have h1 : (name y == m) = false := by
          simp [hyn, Ne.symm hnm]
        have h2 : (name (f y) == m) = false := by
          rw [hf]
          exact h1
        simp [List.find?, h1, h2]
      · rw [if_neg hy]
        have h3 : ys.find? (fun x => name x == n) = some x := by
          simpa [List.find?, hy] using h
        simp only [List.find?]
        rw [ih h3]

/-- The Keys at another path stay as they are through a find-or-create of a
Container. -/
theorem keysAt_updateContainer_other (proj : Project) (p c p2 c2 : String)
    (f : Container → Container) (hf : ∀ C, (f C).objectName = C.objectName)
    (hne : ¬ (p2 = p ∧ c2 = c)) :
    (proj.updateContainer p c f).keysAt p2 c2 = proj.keysAt p2 c2 := by
  rw [keysAt_eq_map, keysAt_eq_map]
  unfold Project.updateContainer
  simp only
  by_cases hp : p2 = p
  · subst hp
    have hc : c2 ≠ c := fun h => hne ⟨rfl, h⟩
    rw [find?_upsert Package.objectName (fun n => Package.mk n [])
      p2 (fun P => P.updateContainer c f) proj.children (fun P => rfl) rfl]
    simp only [Option.some_bind]
    unfold Package.updateContainer
    simp only
    rw [find?_upsert_other Container.objectName (fun n => Container.mk n []) c c2 f _ hf rfl hc]
    cases proj.children.find? (fun x => x.objectName == p2) <;> rfl
  · rw [find?_upsert_other Package.objectName (fun n => Package.mk n []) p p2
      (fun P => P.updateContainer c f) proj.children (fun P => rfl) rfl hp]

/-- A key whose pattern selects the Keys of its own name only: `Container::setTranslation`
is find-or-create of the Key by its name. -/
theorem containerSetTranslationQ_of_sel (c : Container) (key : String) (lang : Option String)
    (t : String) (hself : regexHasMatch key key = true)
    (hsel : ∀ k ∈ c.children, regexHasMatch key k.objectName = true → k.objectName = key) :
    (c.setTranslationQ key lang t).children
      = upsert Key.objectName (fun n => Key.mk n []) key (fun k => k.setTranslationQ lang t)
          c.children := by
  have hq : ∀ k ∈ c.children, regexHasMatch key k.objectName = (k.objectName == key) := by
    intro k hk
    rw [Bool.eq_iff_iff]
    constructor
    · intro h
      simpa using hsel k hk h
    · intro h
      have h2 : k.objectName = key := by simpa using h
      rw [h2]
      exact hself
  unfold Container.setTranslationQ Container.findKeys upsert findChild
  rw [filter_isEmpty_eq_find?, find?_congr_of_mem _ _ _ hq]
  cases h : c.children.find? (fun k => k.objectName == key) with
  | none => simp
  | some x =>
    simp only [Option.isNone_some, Bool.false_eq_true, if_false]
    rw [modifyFirst_congr_of_mem _ _ _ _ hq]

/-- The Key named `key` after `setTranslation` with a key whose pattern selects the Keys
of its own name only: the Key of that name, or a new Key, with the Translation set. -/
theorem findKeyByName_setTranslationQ_of_sel (proj : Project) (p c key : String)
    (lang : Option String) (t : String) (hself : regexHasMatch key key = true)
    (hsel : ∀ k ∈ proj.keysAt p c, regexHasMatch key k.objectName = true → k.objectName = key) :
    (proj.setTranslationQ (some p) (some c) key lang t).findKeyByName p c key
      = some (((proj.findKeyByName p c key).getD (Key.mk key [])).setTranslationQ lang t) := by
  rw [findKeyByName_eq_keysAt, findKeyByName_eq_keysAt, projectSetTranslationQ_eq_update,
    keysAt_updateContainer_same proj p c _
      (fun C => containerSetTranslationQ_objectName C key lang t),
    containerSetTranslationQ_of_sel _ key lang t hself hsel]
  exact find?_upsert Key.objectName (fun n => Key.mk n []) key _ _
    (fun k => keySetTranslationQ_objectName k lang t) rfl

/-- After `saveTranslation` with a non-empty text and a key whose pattern selects the Keys
of its own name only, the Key named `key` at the path holds `Original` with the text. -/
theorem findKeyByName_saveTranslation (m_st m_sp : Project) (p c k t : String) (ht : t ≠ "")
    (hself : regexHasMatch k k = true)
    (hsel : ∀ x ∈ m_sp.keysAt p c, regexHasMatch k x.objectName = true → x.objectName = k) :
    ((saveTranslation m_st m_sp p c k t).findKeyByName p c k).bind
        (fun x => x.getTranslation "Original")
      = some (Translation.mk "Original" t) := by
  have h1 : (m_sp.setTranslation p c k "Original" t).findKeyByName p c k
      = some (((m_sp.findKeyByName p c k).getD (Key.mk k [])).setTranslation "Original" t) :=
    findKeyByName_setTranslationQ_of_sel m_sp p c k (some "Original") t hself hsel
  have h2 : ((m_sp.setTranslation p c k "Original" t).findKeyByName p c k).bind
      (fun x => x.getTranslation "Original") = some (Translation.mk "Original" t) := by
    rw [h1, Option.some_bind]
    exact keyGet_setTranslation _ "Original" t ht
  unfold saveTranslation
  simp only
  split
  · exact h2
  · split
    · split
      · exact h2
      · rw [findKeyByName_appendTranslations, h1]
        simp only [Option.map_some', Option.some_bind]
        rw [keyGet_append]
        · exact keyGet_setTranslation _ "Original" t ht
        · intro x hx
          obtain ⟨y, hy, rfl⟩ := List.mem_map.mp hx
          have := (List.mem_filter.mp hy).2
          simpa using this
    · exact h2

/-! ## The claim on the single-line directive -/

/-- C8. Outside a block, the line `// TR P C K "T"` with `P` and `C` tokens of letters,
digits, underscores and `*`, `K` a token of letters, digits and underscores and `T` a
non-empty text without a double quote, processed on an output tree in which the lookup
of `K` at the resolved path selects Keys named `K` only, leaves a Key named `K` at that
path with `Original` = `T`: the package is `Main` for `*` and otherwise `P` with
underscores replaced by spaces, the container is the file's base name for `*` and
otherwise `C` with underscores replaced, and the key is `K` itself; so
`// TR * * myKey "Hi there"` in intro.sqf gives (Main, intro, myKey) with `Original` =
`Hi there`. For a key token with `*` the claim fails: the key group of the single-line
pattern has no `*`, and the line `// TR * * my*Key "Hi there"`, whose three tokens are
bareword tokens, is no directive and leaves the output tree as it was. -/
theorem C8_single_line_directive_but_not_for_a_key_with_star :
    ((isTokenOf isBarewordChar "*" = true ∧ isTokenOf isBarewordChar "my*Key" = true) ∧
      singleLineSearch (singleLineDirective "*" "*" "my*Key" "Hi there").toList = none ∧
      (parseLine "intro" (Project.mk "My Project" [])
          (ParseState.mk false "" "" (Project.mk "My Project" []))
          (singleLineDirective "*" "*" "my*Key" "Hi there")).m_sp
        = Project.mk "My Project" []) ∧
    (∀ (m_fileBaseName : String) (m_st : Project) (s : ParseState) (P C K T : String),
      s.multiLineStarted = false →
      isTokenOf isBarewordChar P = true → isTokenOf isBarewordChar C = true →
      isTokenOf isWordChar K = true → T ≠ "" →
      T.toList.all (fun c => c != '"') = true →
      (∀ k ∈ s.m_sp.keysAt (if P = "*" then "Main" else replaceUnderscores P)
          (if C = "*" then m_fileBaseName else replaceUnderscores C),
        regexHasMatch K k.objectName = true → k.objectName = K) →
      ((parseLine m_fileBaseName m_st s (singleLineDirective P C K T)).m_sp.findKeyByName
          (if P = "*" then "Main" else replaceUnderscores P)
          (if C = "*" then m_fileBaseName else replaceUnderscores C) K).bind
            (fun k => k.getTranslation "Original")
        = some (Translation.mk "Original" T)) ∧
    (parseLine "intro" (Project.mk "My Project" [])
        (ParseState.mk false "" "" (Project.mk "My Project" []))
        (singleLineDirective "*" "*" "myKey" "Hi there")).m_sp
      = Project.mk "My Project" [Package.mk "Main" [Container.mk "intro"
          [Key.mk "myKey" [Translation.mk "Original" "Hi there"]]]] := by
  refine ⟨by decide, ?_, by decide⟩
  intro m_fileBaseName m_st s P C K T hs hP hC hK hT hq hsel
  have hlit : isLiteralPattern K = true := by
    apply isLiteralPattern_of_word
    simp only [isTokenOf, Bool.and_eq_true] at hK
    exact hK.2
  unfold parseLine
  rw [singleLineSearch_directive P C K T hP hC hK hq, hs]
  simp only [resolvePackage, resolveContainer, beq_iff_eq]
  exact findKeyByName_saveTranslation m_st s.m_sp _ _ K T hT
    (regexHasMatch_literal K K hlit rfl) hsel

/-! ## Lemmas on the Keys of one Container through an import -/

theorem container_eta (c : String) (f : Container → Container) (l : List Key)
    (hf : ∀ C, (f C).objectName = C.objectName) :
    Container.mk c (f (Container.mk c l)).children = f (Container.mk c l) := by
  have h := hf (Container.mk c l)
  generalize f (Container.mk c l) = X at h ⊢
  obtain ⟨n, ch⟩ := X
  simp only at h
  subst h
  rfl

/-- The Keys at (P, C) after the import of one leaf: the leaf changes the Keys of its own
Container only. -/
theorem keysAt_importLeaf (lang : Option String) (prj : Project)
    (x : String × String × String × String × Option String) (P C : String) :
    (importLeaf lang prj x).keysAt P C
      = if replaceUnderscores x.1 = P ∧ replaceUnderscores x.2.1 = C then
          (((Container.mk C (prj.keysAt P C)).setTranslationQ x.2.2.1 (some "Original")
            x.2.2.2.1).setTranslationQ x.2.2.1 lang (x.2.2.2.2.getD "")).children
        else prj.keysAt P C := by
  unfold importLeaf
  rw [projectSetTranslationQ_eq_update, projectSetTranslationQ_eq_update]
  split
  · rename_i h
    obtain ⟨h1, h2⟩ := h
    rw [h1, h2]
    rw [keysAt_updateContainer_same _ P C _
        (fun c => containerSetTranslationQ_objectName c _ _ _),
      keysAt_updateContainer_same _ P C _
        (fun c => containerSetTranslationQ_objectName c _ _ _),
      container_eta C (fun c => c.setTranslationQ x.2.2.1 (some "Original") x.2.2.2.1) _
        (fun c => containerSetTranslationQ_objectName c _ _ _)]
  · rename_i h
    rw [keysAt_updateContainer_other _ _ _ P C _
        (fun c => containerSetTranslationQ_objectName c _ _ _) (fun hh => h ⟨hh.1.symm, hh.2.symm⟩),
      keysAt_updateContainer_other _ _ _ P C _
        (fun c => containerSetTranslationQ_objectName c _ _ _) (fun hh => h ⟨hh.1.symm, hh.2.symm⟩)]

/-- The names of the Keys at (P, C) after the import of one leaf: the names before, and
the id of the leaf if the leaf belongs to (P, C). -/
theorem keysAt_importLeaf_names (lang : Option String) (prj : Project)
    (x : String × String × String × String × Option String) (P C : String) (m : String)
    (hm : m ∈ ((importLeaf lang prj x).keysAt P C).map Key.objectName) :
    m ∈ (prj.keysAt P C).map Key.objectName ∨
      (replaceUnderscores x.1 = P ∧ replaceUnderscores x.2.1 = C ∧ m = x.2.2.1) := by
  rw [keysAt_importLeaf] at hm
  split at hm
  · rename_i h
    rcases containerSetTranslationQ_names_bound _ _ _ _ m hm with h1 | h1
    · rcases containerSetTranslationQ_names_bound _ _ _ _ m h1 with h2 | h2
      · exact Or.inl h2
      · exact Or.inr ⟨h.1, h.2, h2⟩
    · exact Or.inr ⟨h.1, h.2, h1⟩
  · exact Or.inl hm

theorem keysAt_importLeaves_names (lang : Option String)
    (leaves : List (String × String × String × String × Option String)) (prj : Project)
    (P C : String) (m : String)
    (hm : m ∈ ((importLeaves lang prj leaves).keysAt P C).map Key.objectName) :
    m ∈ (prj.keysAt P C).map Key.objectName ∨
      ∃ y ∈ leaves, replaceUnderscores y.1 = P ∧ replaceUnderscores y.2.1 = C ∧ m = y.2.2.1 := by
  induction leaves generalizing prj with
  | nil => exact Or.inl hm
  | cons x xs ih =>
    unfold importLeaves at hm
    rw [List.foldl_cons] at hm
    rcases ih (importLeaf lang prj x) hm with h | ⟨y, hy, h⟩
    · rcases keysAt_importLeaf_names lang prj x P C m h with h2 | h2
      · exact Or.inl h2
      · exact Or.inr ⟨x, List.mem_cons_self _ _, h2⟩
    · exact Or.inr ⟨y, List.mem_cons_of_mem _ hy, h⟩

theorem keyGetQ_setTranslationQ_other (k : Key) (lang : Option String) (t : String)
    (lang2 : String) (hne : ∀ m, nameIs lang m = true → m ≠ lang2)
    (hlang : lang.getD "" ≠ lang2) :
    (k.setTranslationQ lang t).getTranslation lang2 = k.getTranslation lang2 := by
  unfold Key.setTranslationQ Key.getTranslation findChild findChildQ
  cases h : k.children.find? (fun x => nameIs lang x.objectName) with
  | none =>
    simp only
    split
    · simp only
      rw [List.find?_append]
      have : [Translation.mk (lang.getD "") t].find? (fun c => c.objectName == lang2) = none := by
        simp [hlang]
      rw [this]
      simp
    · rfl
  | some y =>
    simp only
    split
    · simp only
      induction k.children with
      | nil => rfl
      | cons a as ih =>
        unfold modifyFirst
        by_cases ha : nameIs lang a.objectName = true
        · rw [if_pos ha]
          have h1 : (a.objectName == lang2) = false := by
            simpa using hne a.objectName ha
          have h2 : ((a.setString t).objectName == lang2) = false := h1
          simp [List.find?, h1, h2]
        · rw [if_neg ha]
          simp only [List.find?]
          rw [ih]
    · simp only
      induction k.children with
      | nil => rfl
      | cons a as ih =>
        by_cases ha : nameIs lang a.objectName = true
        · have h1 : (a.objectName == lang2) = false := by
            simpa using hne a.objectName ha
          simp [List.eraseP_cons, ha, List.find?, h1]
        · simp only [List.eraseP_cons, ha, List.find?, Bool.false_eq_true, if_false]
          rw [ih]

theorem findKeyByName_importLeaf_frame (lang : Option String) (prj : Project)
    (y : String × String × String × String × Option String) (P C k : String) (K : Key)
    (hy : replaceUnderscores y.1 = P → replaceUnderscores y.2.1 = C →
      regexHasMatch y.2.2.1 k = false)
    (h : prj.findKeyByName P C k = some K) :
    (importLeaf lang prj y).findKeyByName P C k = some K := by
  by_cases hp : replaceUnderscores y.1 = P ∧ replaceUnderscores y.2.1 = C
  · unfold importLeaf
    exact projectSetTranslationQ_frame _ P C k _ _ _ _ _ K (hy hp.1 hp.2)
      (projectSetTranslationQ_frame _ P C k _ _ _ _ _ K (hy hp.1 hp.2) h)
  · rw [findKeyByName_eq_keysAt, keysAt_importLeaf, if_neg hp, ← findKeyByName_eq_keysAt]
    exact h

theorem findKeyByName_importLeaves_frame (lang : Option String)
    (post : List (String × String × String × String × Option String)) (prj : Project)
    (P C k : String) (K : Key)
    (hpost : ∀ y ∈ post, replaceUnderscores y.1 = P → replaceUnderscores y.2.1 = C →
      regexHasMatch y.2.2.1 k = false)
    (h : prj.findKeyByName P C k = some K) :
    (importLeaves lang prj post).findKeyByName P C k = some K := by
  induction post generalizing prj with
  | nil => exact h
  | cons y ys ih =>
    unfold importLeaves
    rw [List.foldl_cons]
    exact ih (importLeaf lang prj y)
      (fun z hz => hpost z (List.mem_cons_of_mem _ hz))
      (findKeyByName_importLeaf_frame lang prj y P C k K
        (hpost y (List.mem_cons_self _ _)) h)

theorem areWellFormed_append (a b : List QDomNode) :
    QDomNode.areWellFormed (a ++ b)
      = (QDomNode.areWellFormed a && QDomNode.areWellFormed b) := by
  induction a with
  | nil => simp [QDomNode.areWellFormed]
  | cons x xs ih => simp [QDomNode.areWellFormed, ih, Bool.and_assoc]

theorem listAsRead_append (a b : List QDomNode) :
    QDomNode.listAsRead (a ++ b) = QDomNode.listAsRead a ++ QDomNode.listAsRead b := by
  induction a with
  | nil => simp [QDomNode.listAsRead]
  | cons x xs ih => simp [QDomNode.listAsRead, ih]

theorem areWellFormed_flatten (docs : List (List QDomNode))
    (h : ∀ d ∈ docs, QDomNode.areWellFormed d = true) :
    QDomNode.areWellFormed docs.flatten = true := by
  induction docs with
  | nil => rfl
  | cons d ds ih =>
    rw [List.flatten_cons, areWellFormed_append, h d (List.mem_cons_self _ _),
      ih (fun x hx => h x (List.mem_cons_of_mem _ hx))]
    rfl

theorem listAsRead_flatten (docs : List (List QDomNode))
    (h : ∀ d ∈ docs, QDomNode.listAsRead d = d) :
    QDomNode.listAsRead docs.flatten = docs.flatten := by
  induction docs with
  | nil => rfl
  | cons d ds ih =>
    rw [List.flatten_cons, listAsRead_append, h d (List.mem_cons_self _ _),
      ih (fun x hx => h x (List.mem_cons_of_mem _ hx))]

theorem areWellFormed_appendDocuments {α : Type} (f : α → List QDomNode) (l : List α)
    (h : ∀ x ∈ l, QDomNode.areWellFormed (f x) = true) :
    QDomNode.areWellFormed (appendDocuments (l.map f)) = true := by
  unfold appendDocuments
  apply areWellFormed_flatten
  intro d hd
  obtain ⟨x, hx, rfl⟩ := List.mem_map.mp (List.mem_filter.mp hd).1
  exact h x hx

theorem listAsRead_appendDocuments {α : Type} (f : α → List QDomNode) (l : List α)
    (h : ∀ x ∈ l, QDomNode.listAsRead (f x) = f x) :
    QDomNode.listAsRead (appendDocuments (l.map f)) = appendDocuments (l.map f) := by
  unfold appendDocuments
  apply listAsRead_flatten
  intro d hd
  obtain ⟨x, hx, rfl⟩ := List.mem_map.mp (List.mem_filter.mp hd).1
  exact h x hx

theorem areWellFormed_singleton (n : QDomNode) :
    QDomNode.areWellFormed [n] = QDomNode.isWellFormed n := by
  simp [QDomNode.areWellFormed]

theorem listAsRead_singleton (n : QDomNode) : QDomNode.listAsRead [n] = QDomNode.asRead n := by
  simp [QDomNode.listAsRead]

theorem isXmlName_literal :
    isXmlName "Key" = true ∧ isXmlName "Container" = true ∧ isXmlName "Package" = true ∧
    isXmlName "Project" = true ∧ isXmlName "ID" = true ∧ isXmlName "name" = true := by
  decide

theorem translation_written (t : Translation) (h : t.isWritable = true) :
    QDomNode.areWellFormed t.toXml = true ∧ QDomNode.listAsRead t.toXml = t.toXml := by
  unfold Translation.isWritable at h
  simp only [Bool.and_eq_true, Bool.not_eq_true'] at h
  obtain ⟨⟨h1, h2⟩, h3⟩ := h
  unfold Translation.toXml Translation.toElement
  constructor
  · simp [QDomNode.areWellFormed, QDomNode.isWellFormed, h1, h2]
  · simp [QDomNode.listAsRead, QDomNode.asRead, h3]

theorem key_written (k : Key) (hn : isXmlText k.objectName = true)
    (h : k.children.all Translation.isWritable = true) :
    QDomNode.areWellFormed k.toXml = true ∧ QDomNode.listAsRead k.toXml = k.toXml := by
  have ht := List.all_eq_true.mp h
  unfold Key.toXml
  split
  · exact ⟨rfl, rfl⟩
  · unfold Key.toElement Key.getAllTranslations
    constructor
    · rw [areWellFormed_singleton]
      simp only [QDomNode.isWellFormed, isXmlName_literal, hn, List.all_cons, List.all_nil,
        Bool.and_true, Bool.true_and]
      exact areWellFormed_appendDocuments _ _ (fun t ht2 => (translation_written t (ht t ht2)).1)
    · rw [listAsRead_singleton]
      simp only [QDomNode.asRead]
      rw [listAsRead_appendDocuments _ _ (fun t ht2 => (translation_written t (ht t ht2)).2)]

theorem container_written (c : Container) (hn : isXmlText c.objectName = true)
    (h : c.children.all
      (fun k => isXmlText k.objectName && k.children.all Translation.isWritable) = true) :
    QDomNode.areWellFormed c.toXml = true ∧ QDomNode.listAsRead c.toXml = c.toXml := by
  have hk : ∀ k ∈ c.children, QDomNode.areWellFormed k.toXml = true ∧
      QDomNode.listAsRead k.toXml = k.toXml := by
    intro k hk
    have := List.all_eq_true.mp h k hk
    simp only [Bool.and_eq_true] at this
    exact key_written k this.1 this.2
  unfold Container.toXml
  split
  · exact ⟨rfl, rfl⟩
  · unfold Container.toElement
    constructor
    · rw [areWellFormed_singleton]
      simp only [QDomNode.isWellFormed, isXmlName_literal, hn, List.all_cons, List.all_nil,
        Bool.and_true, Bool.true_and]
      exact areWellFormed_appendDocuments _ _ (fun k hk2 => (hk k hk2).1)
    · rw [listAsRead_singleton]
      simp only [QDomNode.asRead]
      rw [listAsRead_appendDocuments _ _ (fun k hk2 => (hk k hk2).2)]

theorem package_written (p : Package) (hn : isXmlText p.objectName = true)
    (h : p.children.all (fun c => isXmlText c.objectName && c.children.all
      (fun k => isXmlText k.objectName && k.children.all Translation.isWritable)) = true) :
    QDomNode.areWellFormed p.toXml = true ∧ QDomNode.listAsRead p.toXml = p.toXml := by
  have hc : ∀ c ∈ p.children, QDomNode.areWellFormed c.toXml = true ∧
      QDomNode.listAsRead c.toXml = c.toXml := by
    intro c hc
    have := List.all_eq_true.mp h c hc
    simp only [Bool.and_eq_true] at this
    exact container_written c this.1 this.2
  unfold Package.toXml
  split
  · exact ⟨rfl, rfl⟩
  · unfold Package.toElement
    constructor
    · rw [areWellFormed_singleton]
      simp only [QDomNode.isWellFormed, isXmlName_literal, hn, List.all_cons, List.all_nil,
        Bool.and_true, Bool.true_and]
      exact areWellFormed_appendDocuments _ _ (fun c hc2 => (hc c hc2).1)
    · rw [listAsRead_singleton]
      simp only [QDomNode.asRead]
      rw [listAsRead_appendDocuments _ _ (fun c hc2 => (hc c hc2).2)]

/-- The stringtable of a tree that is written as the reader reads it back comes out of
the file as it went in. -/
theorem writtenAndRead_toXml (proj : Project) (h : proj.isWritable = true)
    (hne : proj.children ≠ []) : writtenAndRead proj.toXml = some proj.toXml := by
  unfold Project.isWritable at h
  simp only [Bool.and_eq_true] at h
  obtain ⟨hn, hp⟩ := h
  have hpk : ∀ p ∈ proj.children, QDomNode.areWellFormed p.toXml = true ∧
      QDomNode.listAsRead p.toXml = p.toXml := by
    intro p hp2
    have := List.all_eq_true.mp hp p hp2
    simp only [Bool.and_eq_true] at this
    exact package_written p this.1 this.2
  have he : proj.children.isEmpty = false := by
    cases hc : proj.children with
    | nil => exact absurd hc hne
    | cons a as => rfl
  have hw : QDomNode.isWellFormed proj.toElement = true := by
    unfold Project.toElement
    simp only [QDomNode.isWellFormed, isXmlName_literal, hn, List.all_cons, List.all_nil,
      Bool.and_true, Bool.true_and]
    exact areWellFormed_appendDocuments _ _ (fun p hp2 => (hpk p hp2).1)
  have hr : QDomNode.asRead proj.toElement = [proj.toElement] := by
    unfold Project.toElement
    simp only [QDomNode.asRead]
    rw [listAsRead_appendDocuments _ _ (fun p hp2 => (hpk p hp2).2)]
  have hpi : QDomNode.isWellFormed
      (QDomNode.processingInstruction "xml" "version=\"1.0\" encoding=\"utf-8\" ") = true := by
    decide
  unfold Project.toXml writtenAndRead
  rw [he]
  simp only [Bool.false_eq_true, if_false]
  have h1 : ([QDomNode.processingInstruction "xml" "version=\"1.0\" encoding=\"utf-8\" ",
      proj.toElement].filter QDomNode.isElement).length = 1 := by
    simp [Project.toElement, QDomNode.isElement]
  have h2 : [QDomNode.processingInstruction "xml" "version=\"1.0\" encoding=\"utf-8\" ",
      proj.toElement].any QDomNode.isText = false := by
    simp [Project.toElement, QDomNode.isText]
  have h3 : QDomNode.areWellFormed
      [QDomNode.processingInstruction "xml" "version=\"1.0\" encoding=\"utf-8\" ",
        proj.toElement] = true := by
    simp only [QDomNode.areWellFormed, hpi, hw]
    rfl
  have h4 : QDomNode.listAsRead
      [QDomNode.processingInstruction "xml" "version=\"1.0\" encoding=\"utf-8\" ",
        proj.toElement]
      = [QDomNode.processingInstruction "xml" "version=\"1.0\" encoding=\"utf-8\" ",
        proj.toElement] := by
    simp only [QDomNode.listAsRead, hr]
    simp [QDomNode.asRead]
  rw [h1, h2, h3, h4]
  rfl

theorem isWritable_iff (proj : Project) :
    proj.isWritable = true ↔
      isXmlText proj.objectName = true ∧
      ∀ p ∈ proj.children, isXmlText p.objectName = true ∧
        ∀ c ∈ p.children, isXmlText c.objectName = true ∧
          ∀ k ∈ c.children, isXmlText k.objectName = true ∧
            ∀ t ∈ k.children, t.isWritable = true := by
  unfold Project.isWritable
  simp only [Bool.and_eq_true, List.all_eq_true]

theorem keySetTranslation_writable (k : Key) (lang text : String)
    (hnew : (Translation.mk lang text).isWritable = true)
    (hk : isXmlText k.objectName = true ∧ ∀ t ∈ k.children, t.isWritable = true) :
    isXmlText (k.setTranslation lang text).objectName = true ∧
      ∀ t ∈ (k.setTranslation lang text).children, t.isWritable = true := by
  refine ⟨by rw [keySetTranslation_objectName]; exact hk.1, ?_⟩
  have hset : ∀ x : Translation, x.isWritable = true → (x.setString text).isWritable = true := by
    intro x hx
    unfold Translation.isWritable at hx hnew ⊢
    simp only [Bool.and_eq_true] at hx hnew ⊢
    exact ⟨⟨hx.1.1, hnew.1.2⟩, hnew.2⟩
  unfold Key.setTranslation
  split
  · split
    · exact forall_mem_modifyFirst _ _ (fun t => t.isWritable = true) k.children hk.2 hset
    · intro t ht
      exact hk.2 t (List.mem_of_mem_eraseP ht)
  · split
    · intro t ht
      rcases List.mem_append.mp ht with h | h
      · exact hk.2 t h
      · rw [List.mem_singleton.mp h]
        exact hnew
    · exact hk.2

theorem projectSetTranslation_writable (proj : Project) (call : Call)
    (hc : call.isWritable = true) (h : proj.isWritable = true) :
    (proj.setTranslation call.package call.container call.key call.lang
      call.text).isWritable = true := by
  unfold Call.isWritable at hc
  simp only [Bool.and_eq_true] at hc
  obtain ⟨⟨⟨⟨_, hp⟩, hcn⟩, hkn⟩, ht⟩ := hc
  rw [isWritable_iff] at h ⊢
  have hcont : ∀ c : Container,
      (isXmlText c.objectName = true ∧ ∀ k ∈ c.children, isXmlText k.objectName = true ∧
        ∀ t ∈ k.children, t.isWritable = true) →
      (isXmlText (c.setTranslation call.key call.lang call.text).objectName = true ∧
        ∀ k ∈ (c.setTranslation call.key call.lang call.text).children,
          isXmlText k.objectName = true ∧ ∀ t ∈ k.children, t.isWritable = true) := by
    intro c hc2
    refine ⟨by rw [containerSetTranslation_objectName]; exact hc2.1, ?_⟩
    exact containerSetTranslation_forall
      (fun k => isXmlText k.objectName = true ∧ ∀ t ∈ k.children, t.isWritable = true)
      c call.key call.lang call.text
      (fun k hk => keySetTranslation_writable k call.lang call.text ht hk)
      ⟨hkn, by intro t ht2; simp at ht2⟩ hc2.2
  have hpack : ∀ p : Package,
      (isXmlText p.objectName = true ∧ ∀ c ∈ p.children, isXmlText c.objectName = true ∧
        ∀ k ∈ c.children, isXmlText k.objectName = true ∧
          ∀ t ∈ k.children, t.isWritable = true) →
      (isXmlText (p.updateContainer call.container
          (fun c => c.setTranslation call.key call.lang call.text)).objectName = true ∧
        ∀ c ∈ (p.updateContainer call.container
            (fun c => c.setTranslation call.key call.lang call.text)).children,
          isXmlText c.objectName = true ∧ ∀ k ∈ c.children, isXmlText k.objectName = true ∧
            ∀ t ∈ k.children, t.isWritable = true) := by
    intro p hp2
    refine ⟨hp2.1, ?_⟩
    exact forall_mem_upsert Container.objectName (fun n => Container.mk n []) call.container
      (fun c => c.setTranslation call.key call.lang call.text)
      (fun c => isXmlText c.objectName = true ∧ ∀ k ∈ c.children,
        isXmlText k.objectName = true ∧ ∀ t ∈ k.children, t.isWritable = true)
      p.children hp2.2 hcont
      (hcont _ ⟨hcn, by intro k hk; simp at hk⟩)
  refine ⟨?_, ?_⟩
  · rw [projectSetTranslation_eq_update]
    exact h.1
  · rw [projectSetTranslation_eq_update]
    exact forall_mem_upsert Package.objectName (fun n => Package.mk n []) call.package
      (fun p => p.updateContainer call.container
        (fun c => c.setTranslation call.key call.lang call.text))
      (fun p => isXmlText p.objectName = true ∧ ∀ c ∈ p.children,
        isXmlText c.objectName = true ∧ ∀ k ∈ c.children,
          isXmlText k.objectName = true ∧ ∀ t ∈ k.children, t.isWritable = true)
      proj.children h.2 hpack
      (hpack _ ⟨hp, by intro c hc2; simp at hc2⟩)

theorem built_writable (name : String) (calls : List Call) (hn : isXmlText name = true)
    (hc : ∀ call ∈ calls, call.isWritable = true) :
    (Project.built name calls).isWritable = true := by
  unfold Project.built
  have h0 : (Project.mk name []).isWritable = true := by
    rw [isWritable_iff]
    exact ⟨hn, by intro p hp; simp at hp⟩
  generalize Project.mk name [] = proj at h0
  induction calls generalizing proj with
  | nil => exact h0
  | cons call rest ih =>
    rw [List.foldl_cons]
    exact ih (fun x hx => hc x (List.mem_cons_of_mem _ hx)) _
      (projectSetTranslation_writable proj call (hc call (List.mem_cons_self _ _)) h0)

theorem isBlank_empty : isBlank "" = true := rfl

theorem ne_empty_of_not_blank (s : String) (h : isBlank s = false) : s ≠ "" := by
  intro e
  rw [e, isBlank_empty] at h
  exact Bool.noConfusion h

/-! ## The claim on the stringtable round trip through the file -/

/-- C10, as stated: refuted. A Key with the empty id is written by `toXml` and skipped by
the parser: the tree built by `setTranslation("Main", "mission", "", "Original", "Hello")`
has one tuple and the tree parsed from its file has none. A text of one space is written
and not read back: the tree built by `setTranslation("Main", "mission", "k", "Original",
" ")` comes back with an empty Original. A language tag with a space makes the file
unreadable: for the tree built by `setTranslation("Main", "mission", "k", "Old German",
"Hallo")` the parser returns no tree. The tree built by no call has no Package, its
document is empty and the parser returns no tree. -/
theorem C10_key_with_empty_id_is_lost :
    ((Project.built "My Project" [Call.mk "Main" "mission" "" "Original" "Hello"]).tuples
        = [("Main", "mission", "", "Original", "Hello")] ∧
      StringtableParser.parseWritten
          (Project.built "My Project" [Call.mk "Main" "mission" "" "Original" "Hello"]).toXml
        = some (Project.mk "My Project" [Package.mk "Main" [Container.mk "mission" []]]) ∧
      (Project.mk "My Project" [Package.mk "Main" [Container.mk "mission" []]]).tuples = []) ∧
    StringtableParser.parseWritten
        (Project.built "My Project" [Call.mk "Main" "mission" "k" "Original" " "]).toXml
      = some (Project.mk "My Project" [Package.mk "Main" [Container.mk "mission"
          [Key.mk "k" [Translation.mk "Original" ""]]]]) ∧
    StringtableParser.parseWritten
        (Project.built "My Project" [Call.mk "Main" "mission" "k" "Old German" "Hallo"]).toXml
      = none ∧
    StringtableParser.parseWritten (Project.built "My Project" []).toXml = none := by
  decide

/-- C10, amended. For every tree built from an empty Project by at least one
`setTranslation` call, where every call has a non-empty key, a language tag that is an
XML name, a text that is not white space only, and names and a text of characters that
the model of the file covers, and the project name is of such characters: the parser
returns a tree for the file into which the document of `Project::toXml` was written, and
that tree has the same (package, container, key, language, text) tuples, in the same
order. -/
theorem C10_stringtable_round_trip (name : String) (calls : List Call) (hne : calls ≠ [])
    (hname : isXmlText name = true) (hcalls : ∀ call ∈ calls, call.isWritable = true) :
    ∃ proj2, StringtableParser.parseWritten (Project.built name calls).toXml = some proj2 ∧
      proj2.tuples = (Project.built name calls).tuples := by
  have hkey : ∀ call ∈ calls, call.key ≠ "" := by
    intro call hc
    have h := hcalls call hc
    unfold Call.isWritable at h
    simp only [Bool.and_eq_true, bne_iff_ne, ne_eq] at h
    exact h.1.1.1.1
  have htext : ∀ call ∈ calls, call.text ≠ "" := by
    intro call hc
    have h := hcalls call hc
    unfold Call.isWritable Translation.isWritable at h
    simp only [Bool.and_eq_true, Bool.not_eq_true'] at h
    exact ne_empty_of_not_blank _ h.2.2
  have hid : (Project.built name calls).keyIdsNonEmpty :=
    foldl_keyIdsNonEmpty calls hkey _ (by intro p hp; simp at hp)
  have htup : (Project.built name calls).tuples ≠ [] := by
    rcases List.eq_nil_or_concat calls with h | ⟨init, last, h⟩
    · exact absurd h hne
    · rw [List.concat_eq_append] at h
      subst h
      unfold Project.built
      rw [List.foldl_append]
      exact projectSetTranslation_tuples _ _ _ _ _ _
        (htext last (List.mem_append_right _ (List.mem_singleton_self _)))
  have hch : (Project.built name calls).children ≠ [] := by
    intro h
    apply htup
    unfold Project.tuples
    rw [h]
    rfl
  unfold StringtableParser.parseWritten
  rw [writtenAndRead_toXml _ (built_writable name calls hname hcalls) hch]
  exact roundTrip_tree _ hid htup

/-- C10, amended: witness, three calls with distinct packages, containers, keys and
languages. -/
theorem C10_stringtable_round_trip_witness :
    ([Call.mk "Main" "mission" "greet" "Original" "Hello World",
        Call.mk "Mod A" "UI Group" "bye" "German" "Auf Wiedersehen",
        Call.mk "Main" "intro" "str_title" "French" "Bonjour"] ≠ [] ∧
      isXmlText "My Project" = true ∧
      (∀ call ∈ [Call.mk "Main" "mission" "greet" "Original" "Hello World",
        Call.mk "Mod A" "UI Group" "bye" "German" "Auf Wiedersehen",
        Call.mk "Main" "intro" "str_title" "French" "Bonjour"], call.isWritable = true)) ∧
    ∃ proj2, StringtableParser.parseWritten (Project.built "My Project"
        [Call.mk "Main" "mission" "greet" "Original" "Hello World",
          Call.mk "Mod A" "UI Group" "bye" "German" "Auf Wiedersehen",
          Call.mk "Main" "intro" "str_title" "French" "Bonjour"]).toXml = some proj2 ∧
      proj2.tuples = (Project.built "My Project"
        [Call.mk "Main" "mission" "greet" "Original" "Hello World",
          Call.mk "Mod A" "UI Group" "bye" "German" "Auf Wiedersehen",
          Call.mk "Main" "intro" "str_title" "French" "Bonjour"]).tuples :=
  ⟨⟨by decide, by decide, by decide⟩,
    C10_stringtable_round_trip "My Project" _ (by decide) (by decide) (by decide)⟩

/-! ## Lemmas on the elements of a document read from its file -/

theorem asRead_of_isElement (n : QDomNode) (h : n.isElement = true) :
    QDomNode.asRead n = [n.stripped] := by
  cases n with
  | element tag attrs cs => simp [QDomNode.asRead, QDomNode.stripped]
  | textNode d => simp [QDomNode.isElement] at h
  | processingInstruction t d => simp [QDomNode.isElement] at h

theorem stripped_isElement (n : QDomNode) : n.stripped.isElement = n.isElement := by
  cases n <;> rfl

theorem stripped_tagName (n : QDomNode) : n.stripped.tagName = n.tagName := by
  cases n <;> rfl

theorem stripped_attribute (n : QDomNode) (name d : String) :
    n.stripped.attribute name d = n.attribute name d := by
  cases n <;> rfl

theorem stripped_attributeQ (n : QDomNode) (name : String) :
    n.stripped.attributeQ name = n.attributeQ name := by
  cases n <;> rfl

theorem stripped_childNodes (n : QDomNode) :
    n.stripped.childNodes = QDomNode.listAsRead n.childNodes := by
  cases n <;> simp [QDomNode.stripped, QDomNode.childNodes, QDomNode.listAsRead]

/-- The elements among the nodes read: the elements written, each as read. -/
theorem filter_listAsRead (q : QDomNode → Bool) (hq : ∀ n, q n.stripped = q n)
    (hq2 : ∀ n, n.isElement = false → q n = false) (l : List QDomNode) :
    (QDomNode.listAsRead l).filter q = (l.filter q).map QDomNode.stripped := by
  induction l with
  | nil => simp [QDomNode.listAsRead]
  | cons n rest ih =>
    simp only [QDomNode.listAsRead, List.filter_append, ih]
    cases n with
    | element tag attrs cs =>
      have h1 := hq (QDomNode.element tag attrs cs)
      simp only [QDomNode.stripped] at h1
      by_cases hqn : q (QDomNode.element tag attrs cs) = true
      · simp [QDomNode.asRead, List.filter_cons, h1, hqn, QDomNode.stripped]
      · simp [QDomNode.asRead, List.filter_cons, h1, hqn]
    | textNode d =>
      have h1 : q (QDomNode.textNode d) = false := hq2 _ rfl
      by_cases hb : isBlank d = true <;>
        simp [QDomNode.asRead, List.filter_cons, h1, hb]
    | processingInstruction t d =>
      have h1 : q (QDomNode.processingInstruction t d) = false := hq2 _ rfl
      simp [QDomNode.asRead, List.filter_cons, h1]

theorem find?_listAsRead (q : QDomNode → Bool) (hq : ∀ n, q n.stripped = q n)
    (hq2 : ∀ n, n.isElement = false → q n = false) (l : List QDomNode) :
    (QDomNode.listAsRead l).find? q = (l.find? q).map QDomNode.stripped := by
  have h := filter_listAsRead q hq hq2 l
  rw [← head_filter_eq_find?, ← head_filter_eq_find?, h, List.head?_map]

theorem tagTest_stripped (tag : String) (n : QDomNode) :
    (n.stripped.isElement && n.stripped.tagName == tag) = (n.isElement && n.tagName == tag) := by
  rw [stripped_isElement, stripped_tagName]

theorem tagTest_of_not_element (tag : String) (n : QDomNode) (h : n.isElement = false) :
    (n.isElement && n.tagName == tag) = false := by
  rw [h]
  rfl

theorem stripped_firstChildElement (n : QDomNode) (tag : String) :
    n.stripped.firstChildElement tag = (n.firstChildElement tag).map QDomNode.stripped := by
  unfold QDomNode.firstChildElement
  rw [stripped_childNodes]
  exact find?_listAsRead _ (tagTest_stripped tag) (tagTest_of_not_element tag) _

theorem stripped_childElements (n : QDomNode) (tag : String) :
    childElementsOf (some n.stripped) tag
      = (childElementsOf (some n) tag).map QDomNode.stripped := by
  unfold childElementsOf
  simp only
  rw [stripped_childNodes]
  exact filter_listAsRead _ (tagTest_stripped tag) (tagTest_of_not_element tag) _

mutual
theorem filter_descendants_stripped (q : QDomNode → Bool) (hq : ∀ n, q n.stripped = q n)
    (hq2 : ∀ n, n.isElement = false → q n = false) :
    ∀ n : QDomNode, (QDomNode.descendants n.stripped).filter q
      = ((QDomNode.descendants n).filter q).map QDomNode.stripped
  | QDomNode.element tag attrs cs => by
    simp only [QDomNode.stripped, QDomNode.descendants]
    exact filter_descendantsOfList_listAsRead q hq hq2 cs
  | QDomNode.textNode d => by simp [QDomNode.stripped, QDomNode.descendants]
  | QDomNode.processingInstruction t d => by simp [QDomNode.stripped, QDomNode.descendants]
theorem filter_descendantsOfList_listAsRead (q : QDomNode → Bool)
    (hq : ∀ n, q n.stripped = q n) (hq2 : ∀ n, n.isElement = false → q n = false) :
    ∀ l : List QDomNode, (QDomNode.descendantsOfList (QDomNode.listAsRead l)).filter q
      = ((QDomNode.descendantsOfList l).filter q).map QDomNode.stripped
  | [] => by simp [QDomNode.listAsRead, QDomNode.descendantsOfList]
  | QDomNode.element tag attrs cs :: rest => by
    have h1 := filter_descendants_stripped q hq hq2 (QDomNode.element tag attrs cs)
    have h2 := filter_descendantsOfList_listAsRead q hq hq2 rest
    have h3 := hq (QDomNode.element tag attrs cs)
    simp only [QDomNode.stripped] at h1 h3
    simp only [QDomNode.listAsRead, QDomNode.asRead, descendantsOfList_append,
      QDomNode.descendantsOfList, List.append_nil, List.filter_append, List.filter_cons,
      List.map_append, h1, h2, h3]
    by_cases hqn : q (QDomNode.element tag attrs cs) = true
    · simp [hqn, QDomNode.stripped, h2]
    · simp [hqn, h2]
  | QDomNode.textNode d :: rest => by
    have h2 := filter_descendantsOfList_listAsRead q hq hq2 rest
    have h3 : q (QDomNode.textNode d) = false := hq2 _ rfl
    by_cases hb : isBlank d = true
    · simp [QDomNode.listAsRead, QDomNode.asRead, QDomNode.descendantsOfList,
        QDomNode.descendants, List.filter_cons, h2, h3, hb]
    · simp [QDomNode.listAsRead, QDomNode.asRead, QDomNode.descendantsOfList,
        QDomNode.descendants, List.filter_cons, h2, h3, hb, descendantsOfList_append]
  | QDomNode.processingInstruction t d :: rest => by
    have h2 := filter_descendantsOfList_listAsRead q hq hq2 rest
    have h3 : q (QDomNode.processingInstruction t d) = false := hq2 _ rfl
    simp [QDomNode.listAsRead, QDomNode.asRead, QDomNode.descendantsOfList,
      QDomNode.descendants, List.filter_cons, h2, h3, descendantsOfList_append]
end

theorem stripped_elementsByTagName (n : QDomNode) (tag : String) :
    n.stripped.elementsByTagName tag
      = (n.elementsByTagName tag).map QDomNode.stripped := by
  unfold QDomNode.elementsByTagName
  exact filter_descendants_stripped _ (tagTest_stripped tag) (tagTest_of_not_element tag) n

theorem text_asRead (s : String) :
    QDomNode.textOfList (QDomNode.listAsRead [QDomNode.textNode s]) = textAsRead s := by
  unfold textAsRead
  by_cases hb : isBlank s = true
  · simp [QDomNode.listAsRead, QDomNode.asRead, hb, QDomNode.textOfList]
  · simp [QDomNode.listAsRead, QDomNode.asRead, hb, QDomNode.textOfList]

theorem attributeOf_stripped (n : QDomNode) (name : String) :
    attributeOf (some n.stripped) name = attributeOf (some n) name := by
  unfold attributeOf
  exact stripped_attribute n name ""

theorem extractKey_leaf_stripped (version2 : Bool) (trgLang package container : String)
    (m_prj : Project) (l : XliffLeaf) :
    XliffParser.extractKey trgLang (some (replaceUnderscores package))
        (some (replaceUnderscores container)) m_prj (l.toElement version2).stripped
      = importLeaf (nullIfEmpty (Project.langCodeToString trgLang)) m_prj
          (leafAsRead (package, container, l.id, l.source, l.target)) := by
  have hid : (l.toElement version2).stripped.attribute "id" "" = l.id := by
    rw [stripped_attribute]
    simp [XliffLeaf.toElement, QDomNode.attribute]
  have hs : textOf ((l.toElement version2).stripped.firstChildElement "source")
      = textAsRead l.source := by
    rw [stripped_firstChildElement]
    have : (l.toElement version2).firstChildElement "source"
        = some (QDomNode.element "source" [] [QDomNode.textNode l.source]) := by
      simp [XliffLeaf.toElement, QDomNode.firstChildElement, QDomNode.childNodes,
        QDomNode.isElement, QDomNode.tagName]
    rw [this]
    simp only [Option.map_some', textOf, QDomNode.stripped, QDomNode.text]
    exact text_asRead l.source
  have ht : textOf ((l.toElement version2).stripped.firstChildElement "target")
      = (l.target.map textAsRead).getD "" := by
    rw [stripped_firstChildElement]
    cases h : l.target with
    | none =>
      have : (l.toElement version2).firstChildElement "target" = none := by
        simp [XliffLeaf.toElement, QDomNode.firstChildElement, QDomNode.childNodes,
          QDomNode.isElement, QDomNode.tagName, h]
      rw [this]
      rfl
    | some t =>
      have : (l.toElement version2).firstChildElement "target"
          = some (QDomNode.element "target" [] [QDomNode.textNode t]) := by
        simp [XliffLeaf.toElement, QDomNode.firstChildElement, QDomNode.childNodes,
          QDomNode.isElement, QDomNode.tagName, h]
      rw [this]
      simp only [Option.map_some', textOf, QDomNode.stripped, QDomNode.text, Option.getD_some]
      exact text_asRead t
  unfold XliffParser.extractKey importLeaf leafAsRead
  simp only [hid, hs, ht]

theorem extractPackage_group_stripped (version2 : Bool) (trgLang : String) (m_prj : Project)
    (g : XliffGroup) :
    XliffParser.extractPackage (if !version2 then "group" else "unit")
        (if !version2 then "trans-unit" else "segment") trgLang m_prj
        (g.toElement version2).stripped
      = importLeaves (nullIfEmpty (Project.langCodeToString trgLang)) m_prj
          ((leavesOf [g]).map leafAsRead) := by
  have hg : (g.toElement version2).attributeQ "id" = some g.id := by
    simp [XliffGroup.toElement, QDomNode.attributeQ]
  have hu : ∀ u : XliffUnit, (u.toElement version2).attributeQ "id" = some u.id := by
    intro u
    simp [XliffUnit.toElement, QDomNode.attributeQ]
  unfold XliffParser.extractPackage importLeaves leavesOf
  simp only [stripped_attributeQ, stripped_elementsByTagName, hg, elementsByTagName_group,
    List.foldl_map, hu, elementsByTagName_unit, Option.map_some', extractKey_leaf_stripped,
    List.flatMap_cons, List.flatMap_nil, List.append_nil, foldl_flatMap]

theorem foldl_extractPackage_stripped (version2 : Bool) (trgLang : String) (m_prj : Project)
    (groups : List XliffGroup) :
    ((groups.map (XliffGroup.toElement version2)).map QDomNode.stripped).foldl
        (XliffParser.extractPackage (if !version2 then "group" else "unit")
          (if !version2 then "trans-unit" else "segment") trgLang) m_prj
      = importLeaves (nullIfEmpty (Project.langCodeToString trgLang)) m_prj
          ((leavesOf groups).map leafAsRead) := by
  rw [List.foldl_map, List.foldl_map]
  simp only [extractPackage_group_stripped]
  unfold importLeaves leavesOf
  rw [List.map_flatMap, foldl_flatMap]
  simp only [List.flatMap_cons, List.flatMap_nil, List.append_nil]

theorem extractV1_xliffRoot_stripped (projectId srcLang trgLang : String)
    (groups : List XliffGroup) (m_prj : Project) (hL : XliffParser.supports trgLang = true) :
    XliffParser.extractV1 m_prj (xliffRoot false projectId srcLang trgLang groups).stripped
      = if groups.isEmpty then m_prj
        else importLeaves (nullIfEmpty (Project.langCodeToString trgLang))
          { m_prj with objectName := XliffParser.projectName projectId }
          ((leavesOf groups).map leafAsRead) := by
  have hne : trgLang ≠ "" := by
    intro h
    rw [h, supports_empty] at hL
    exact Bool.noConfusion hL
  have hne2 : (trgLang == "") = false := by simpa using hne
  have hfile : (xliffRoot false projectId srcLang trgLang groups).stripped.firstChildElement
      "file" = some (xliffFile false projectId srcLang trgLang groups).stripped := by
    rw [stripped_firstChildElement]
    rfl
  have htl : attributeOf (some (xliffFile false projectId srcLang trgLang groups).stripped)
      "target-language" = trgLang := by
    rw [attributeOf_stripped]
    simp [attributeOf, xliffFile, QDomNode.attribute, hne]
  have horig : attributeOf (some (xliffFile false projectId srcLang trgLang groups).stripped)
      "original" = projectId := by
    rw [attributeOf_stripped]
    rfl
  have hbody : (xliffFile false projectId srcLang trgLang groups).stripped.firstChildElement
      "body" = some (QDomNode.element "body" []
        (groups.map (XliffGroup.toElement false))).stripped := by
    rw [stripped_firstChildElement]
    rfl
  have hpk : childElementsOf ((some (xliffFile false projectId srcLang trgLang groups).stripped).bind
      (fun f => f.firstChildElement "body")) "group"
        = (groups.map (XliffGroup.toElement false)).map QDomNode.stripped := by
    rw [Option.some_bind, hbody, stripped_childElements]
    congr 1
    exact filter_group_elements false groups
  unfold XliffParser.extractV1
  simp only [hfile, htl, horig, hpk, map_isEmpty_eq, hne2, hL, Bool.not_true,
    Bool.false_eq_true, if_false]
  have h := foldl_extractPackage_stripped false trgLang
    { m_prj with objectName := XliffParser.projectName projectId } groups
  simp only [Bool.not_false, if_true] at h
  rw [h]

theorem extractV2_xliffRoot_stripped (projectId srcLang trgLang : String)
    (groups : List XliffGroup) (m_prj : Project) (hL : XliffParser.supports trgLang = true) :
    XliffParser.extractV2 m_prj (xliffRoot true projectId srcLang trgLang groups).stripped
        trgLang srcLang
      = if groups.isEmpty then m_prj
        else importLeaves (nullIfEmpty (Project.langCodeToString trgLang))
          { m_prj with objectName := XliffParser.projectName projectId }
          ((leavesOf groups).map leafAsRead) := by
  have hne : trgLang ≠ "" := by
    intro h
    rw [h, supports_empty] at hL
    exact Bool.noConfusion hL
  have hne2 : (trgLang == "") = false := by simpa using hne
  have hfile : (xliffRoot true projectId srcLang trgLang groups).stripped.firstChildElement
      "file" = some (xliffFile true projectId srcLang trgLang groups).stripped := by
    rw [stripped_firstChildElement]
    rfl
  have hid : attributeOf (some (xliffFile true projectId srcLang trgLang groups).stripped) "id"
      = projectId := by
    rw [attributeOf_stripped]
    rfl
  have hpk : elementsByTagNameOf (some (xliffFile true projectId srcLang trgLang groups).stripped)
      "group" = (groups.map (XliffGroup.toElement true)).map QDomNode.stripped := by
    unfold elementsByTagNameOf
    simp only
    rw [stripped_elementsByTagName]
    congr 1
    exact elementsByTagName_file projectId groups
  unfold XliffParser.extractV2
  simp only [hfile, hid, hpk, map_isEmpty_eq, hne2, hL, Bool.not_true,
    Bool.false_eq_true, if_false]
  have h := foldl_extractPackage_stripped true trgLang
    { m_prj with objectName := XliffParser.projectName projectId } groups
  simp only [Bool.not_true, Bool.false_eq_true, if_false] at h
  rw [h]

theorem listAsRead_xliffDocument (version2 : Bool) (projectId srcLang trgLang : String)
    (groups : List XliffGroup) :
    QDomNode.listAsRead (xliffDocument version2 projectId srcLang trgLang groups)
      = [xmlDeclaration, (xliffRoot version2 projectId srcLang trgLang groups).stripped] := by
  unfold xliffDocument
  have h : (xliffRoot version2 projectId srcLang trgLang groups).isElement = true := by
    cases version2 <;> rfl
  simp only [QDomNode.listAsRead, asRead_of_isElement _ h]
  rfl

/-- The import of the document of the specification as it is read from its file, for a
supported target language. -/
theorem extract_listAsRead_xliffDocument (version2 : Bool)
    (projectId srcLang trgLang : String) (groups : List XliffGroup) (m_prj : Project)
    (hL : XliffParser.supports trgLang = true) :
    XliffParser.extract m_prj
        (QDomNode.listAsRead (xliffDocument version2 projectId srcLang trgLang groups))
      = if groups.isEmpty then m_prj
        else importLeaves (nullIfEmpty (Project.langCodeToString trgLang))
          { m_prj with objectName := XliffParser.projectName projectId }
          ((leavesOf groups).map leafAsRead) := by
  rw [listAsRead_xliffDocument]
  have hd : documentElement
      [xmlDeclaration, (xliffRoot version2 projectId srcLang trgLang groups).stripped]
      = some (xliffRoot version2 projectId srcLang trgLang groups).stripped := by
    cases version2 <;> rfl
  have hc : (xliffRoot version2 projectId srcLang trgLang groups).stripped.hasChildNodes
      = true := by
    cases version2 <;>
      simp [xliffRoot, QDomNode.stripped, QDomNode.hasChildNodes, QDomNode.childNodes,
        QDomNode.listAsRead, xliffFile, QDomNode.asRead]
  have ht : (xliffRoot version2 projectId srcLang trgLang groups).stripped.tagName = "xliff" := by
    rw [stripped_tagName]
    cases version2 <;> rfl
  have hv : (xliffRoot version2 projectId srcLang trgLang groups).stripped.attribute
      "version" "" = if version2 then "2.0" else "1.2" := by
    rw [stripped_attribute]
    cases version2 <;> rfl
  have htr : (xliffRoot true projectId srcLang trgLang groups).stripped.attribute "trgLang" ""
      = trgLang := by
    rw [stripped_attribute]
    rfl
  have hsr : (xliffRoot true projectId srcLang trgLang groups).stripped.attribute "srcLang" ""
      = srcLang := by
    rw [stripped_attribute]
    rfl
  unfold XliffParser.extract
  rw [hd]
  simp only [hc, ht, hv]
  cases version2
  · simp only [Bool.false_eq_true, if_false]
    rw [← extractV1_xliffRoot_stripped projectId srcLang trgLang groups m_prj hL]
    rfl
  · simp only [if_true, htr, hsr]
    rw [← extractV2_xliffRoot_stripped projectId srcLang trgLang groups m_prj hL]
    rfl

/-! ## Lemmas on the import of a leaf with or without a target -/

theorem find?_leaf_target (l : List Key) (C k s t D : String) (hs : s ≠ "")
    (hD : D ≠ "Original") (hself : regexHasMatch k k = true)
    (hsel : ∀ x ∈ l, regexHasMatch k x.objectName = true → x.objectName = k)
    (hnd : ∀ x ∈ l, (x.children.map Translation.objectName).Nodup) :
    ∃ K, findChild Key.objectName
        (((Container.mk C l).setTranslationQ k (some "Original") s).setTranslationQ k
          (some D) t).children k = some K ∧
      K.getTranslation "Original" = some (Translation.mk "Original" s) ∧
      K.getTranslation D = if t = "" then none else some (Translation.mk D t) := by
  have hsel1 : ∀ x ∈ ((Container.mk C l).setTranslationQ k (some "Original") s).children,
      regexHasMatch k x.objectName = true → x.objectName = k := by
    intro x hx hm
    rcases containerSetTranslationQ_names_bound (Container.mk C l) k (some "Original") s
      x.objectName (List.mem_map_of_mem _ hx) with h | h
    · obtain ⟨z, hz, hzn⟩ := List.mem_map.mp h
      rw [← hzn] at hm ⊢
      exact hsel z hz hm
    · exact h
  have hnd0 : (((l.find? (fun x => x.objectName == k)).getD (Key.mk k [])).children.map
      Translation.objectName).Nodup := by
    cases hf : l.find? (fun x => x.objectName == k) with
    | none => simp
    | some x => exact hnd x (List.mem_of_find?_eq_some hf)
  refine ⟨(((l.find? (fun x => x.objectName == k)).getD (Key.mk k [])).setTranslation
    "Original" s).setTranslation D t, ?_, ?_, ?_⟩
  · unfold findChild
    rw [containerSetTranslationQ_of_sel _ k (some D) t hself hsel1,
      find?_upsert Key.objectName (fun n => Key.mk n []) k _ _
        (fun x => keySetTranslationQ_objectName x (some D) t) rfl,
      containerSetTranslationQ_of_sel _ k (some "Original") s hself hsel,
      find?_upsert Key.objectName (fun n => Key.mk n []) k _ _
        (fun x => keySetTranslationQ_objectName x (some "Original") s) rfl]
    rfl
  · have h := keyGetQ_setTranslationQ_other
      (((l.find? (fun x => x.objectName == k)).getD (Key.mk k [])).setTranslation "Original" s)
      (some D) t "Original"
      (fun m hm => by
        have : m = D := by simpa [nameIs] using hm
        rw [this]
        exact hD)
      hD
    rw [keySetTranslationQ_some] at h
    rw [h]
    exact keyGet_setTranslation _ "Original" s hs
  · by_cases ht : t = ""
    · rw [if_pos ht, ht]
      exact keyGet_setEmpty _ D (keySetTranslation_nodup _ "Original" s hnd0)
    · rw [if_neg ht]
      exact keyGet_setTranslation _ D t ht

theorem keysAt_importLeaf_nodup (D : String) (prj : Project)
    (x : String × String × String × String × Option String) (P C : String)
    (h : ∀ k ∈ prj.keysAt P C, (k.children.map Translation.objectName).Nodup) :
    ∀ k ∈ (importLeaf (some D) prj x).keysAt P C,
      (k.children.map Translation.objectName).Nodup := by
  rw [keysAt_importLeaf]
  split
  · apply containerSetTranslation_forall
      (fun k => (k.children.map Translation.objectName).Nodup) _ x.2.2.1 D _
      (fun k hk => keySetTranslation_nodup k _ _ hk) (by simp)
    exact containerSetTranslation_forall
      (fun k => (k.children.map Translation.objectName).Nodup) _ x.2.2.1 "Original" _
      (fun k hk => keySetTranslation_nodup k _ _ hk) (by simp) h
  · exact h

theorem keysAt_importLeaves_nodup (D : String)
    (leaves : List (String × String × String × String × Option String)) (prj : Project)
    (P C : String)
    (h : ∀ k ∈ prj.keysAt P C, (k.children.map Translation.objectName).Nodup) :
    ∀ k ∈ (importLeaves (some D) prj leaves).keysAt P C,
      (k.children.map Translation.objectName).Nodup := by
  induction leaves generalizing prj with
  | nil => exact h
  | cons x xs ih =>
    unfold importLeaves
    rw [List.foldl_cons]
    exact ih _ (keysAt_importLeaf_nodup D prj x P C h)

/-- The import of the leaves of a document, seen from one leaf with or without a target:
the Key of its id holds its source, and its target if it has a non-empty one, and no
Translation under the tag otherwise. -/
theorem importLeaves_leaf_target (D : String) (prj : Project)
    (pre post : List (String × String × String × String × Option String))
    (g u k s : String) (t : Option String) (hs : s ≠ "") (hD : D ≠ "Original")
    (hself : regexHasMatch k k = true)
    (hnd : ∀ x ∈ prj.keysAt (replaceUnderscores g) (replaceUnderscores u),
      (x.children.map Translation.objectName).Nodup)
    (h0 : ∀ x ∈ prj.keysAt (replaceUnderscores g) (replaceUnderscores u),
      regexHasMatch k x.objectName = true → x.objectName = k)
    (h1 : ∀ y ∈ pre, replaceUnderscores y.1 = replaceUnderscores g →
      replaceUnderscores y.2.1 = replaceUnderscores u →
      regexHasMatch k y.2.2.1 = true → y.2.2.1 = k)
    (h2 : ∀ y ∈ post, replaceUnderscores y.1 = replaceUnderscores g →
      replaceUnderscores y.2.1 = replaceUnderscores u →
      regexHasMatch y.2.2.1 k = false) :
    ∃ K, (importLeaves (some D) prj (pre ++ (g, u, k, s, t) :: post)).findKeyByName
        (replaceUnderscores g) (replaceUnderscores u) k = some K ∧
      K.getTranslation "Original" = some (Translation.mk "Original" s) ∧
      K.getTranslation D
        = if t.getD "" = "" then none else some (Translation.mk D (t.getD "")) := by
  have hsel : ∀ x ∈ (importLeaves (some D) prj pre).keysAt (replaceUnderscores g)
      (replaceUnderscores u), regexHasMatch k x.objectName = true → x.objectName = k := by
    intro x hx hm
    rcases keysAt_importLeaves_names (some D) pre prj _ _ x.objectName
      (List.mem_map_of_mem _ hx) with h | ⟨y, hy, hy1, hy2, hy3⟩
    · obtain ⟨z, hz, hzn⟩ := List.mem_map.mp h
      rw [← hzn] at hm ⊢
      exact h0 z hz hm
    · rw [hy3] at hm ⊢
      exact h1 y hy hy1 hy2 hm
  obtain ⟨K, hK, hO, hT⟩ := find?_leaf_target _ (replaceUnderscores u) k s (t.getD "") D hs hD
    hself hsel (keysAt_importLeaves_nodup D pre prj _ _ hnd)
  refine ⟨K, ?_, hO, hT⟩
  have hsplit : importLeaves (some D) prj (pre ++ (g, u, k, s, t) :: post)
      = importLeaves (some D)
          (importLeaf (some D) (importLeaves (some D) prj pre) (g, u, k, s, t)) post := by
    unfold importLeaves
    rw [List.foldl_append, List.foldl_cons]
  rw [hsplit]
  apply findKeyByName_importLeaves_frame (some D) post _ _ _ k K h2
  rw [findKeyByName_eq_keysAt, keysAt_importLeaf, if_pos ⟨rfl, rfl⟩]
  exact hK

theorem textAsRead_of_not_blank (s : String) (h : isBlank s = false) : textAsRead s = s := by
  unfold textAsRead
  rw [h]
  rfl

theorem textAsRead_eq_empty (s : String) : textAsRead s = "" ↔ isBlank s = true := by
  unfold textAsRead
  by_cases h : isBlank s = true
  · simp [h]
  · simp only [h, Bool.false_eq_true, if_false, iff_false]
    intro e
    rw [e] at h
    exact h rfl

theorem mem_leaves (lang : String) (proj : Project)
    (y : String × String × String × String × Option String) (hy : y ∈ proj.leaves lang) :
    ∃ p ∈ proj.children, ∃ c ∈ p.children, ∃ k ∈ c.children,
      k.hasOriginal = true ∧ y.1 = xliffId p.objectName ∧ y.2.1 = xliffId c.objectName ∧
        y.2.2.1 = xliffId k.objectName := by
  unfold Project.leaves at hy
  simp only [List.mem_flatMap, List.mem_filterMap, Option.map_eq_some'] at hy
  obtain ⟨p, hp, c, hc, k, hk, o, ho, rfl⟩ := hy
  refine ⟨p, hp, c, hc, k, hk, ?_, rfl, rfl, rfl⟩
  unfold Key.hasOriginal
  rw [ho]
  rfl

/-- The document of an export with at least one Package comes out of its file as the
reader builds it, when it is well-formed. -/
theorem writtenAndRead_toXliff (proj : Project) (lang srcLng : String) (version2 : Bool)
    (hne : proj.children ≠ [])
    (hwf : QDomNode.areWellFormed (proj.toXliff lang srcLng version2) = true) :
    writtenAndRead (proj.toXliff lang srcLng version2)
      = some (QDomNode.listAsRead (proj.toXliff lang srcLng version2)) := by
  unfold writtenAndRead
  rw [hwf]
  have h1 : ((proj.toXliff lang srcLng version2).filter QDomNode.isElement).length = 1 := by
    rw [toXliff_eq proj lang srcLng version2 hne]
    cases version2 <;> rfl
  have h2 : (proj.toXliff lang srcLng version2).any QDomNode.isText = false := by
    rw [toXliff_eq proj lang srcLng version2 hne]
    cases version2 <;> rfl
  rw [h1, h2]
  rfl

/-! ## The claim on the round trip through XLIFF and the file -/

/-- C19, as stated: refuted. A Container holds two Keys with the identifier `k1`; all
names are as the claim asks and the document is well-formed. After export, file
and import the tree has one Key `k1` with the Original of the second Key, the Original
`Hi` of the first Key is lost. And a Key whose Original is one space comes back without an
Original: the reader does not return a text of white space only. -/
theorem C19_second_key_of_an_id_overwrites_the_first :
    ((Project.mk "My Project" [Package.mk "Main" [Container.mk "mission"
        [Key.mk "k1" [Translation.mk "Original" "Hi"],
          Key.mk "k1" [Translation.mk "Original" "Hello"]]]]).plainNames ∧
      QDomNode.areWellFormed
        ((Project.mk "My Project" [Package.mk "Main" [Container.mk "mission"
          [Key.mk "k1" [Translation.mk "Original" "Hi"],
            Key.mk "k1" [Translation.mk "Original" "Hello"]]]]).toXliff "de" "en" false)
        = true ∧
      (XliffParser.extractWritten (Project.mk "" [])
        ((Project.mk "My Project" [Package.mk "Main" [Container.mk "mission"
          [Key.mk "k1" [Translation.mk "Original" "Hi"],
            Key.mk "k1" [Translation.mk "Original" "Hello"]]]]).toXliff "de" "en"
              false)).children
        = [Package.mk "Main" [Container.mk "mission"
            [Key.mk "k1" [Translation.mk "Original" "Hello"]]]]) ∧
    (Project.mk "My Project" [Package.mk "Main" [Container.mk "mission"
        [Key.mk "k1" [Translation.mk "Original" " "]]]]).plainNames ∧
    (XliffParser.extractWritten (Project.mk "" [])
      ((Project.mk "My Project" [Package.mk "Main" [Container.mk "mission"
        [Key.mk "k1" [Translation.mk "Original" " "]]]]).toXliff "de" "en" true)).children
      = [Package.mk "Main" [Container.mk "mission" [Key.mk "k1" []]]] := by
  decide

/-- C19, amended. A tree whose Package and Container names are single-spaced words
without underscores and whose Key identifiers have no whitespace is exported for a
target code `L` with a display name `D`, the document, which is well-formed, is written
to its file, and the file is imported into an empty Project. Let a Key with the
identifier `k`, of ASCII characters without metacharacters, and an `Original` with the
text `s`, not white space only, stand in the Container `C` of the Package `P`; its leaf
in the export is (`P` and `C` as ids, `k`, `s`, the text `t` of its Translation tagged
`D` if it has one), `pre` are the leaves of the Keys before it and `post` the leaves of
the Keys after it. Let every earlier leaf under the names `P` and `C` carry the id `k`
if the lookup of `k` selects its id, and let no later leaf under these names have an id
with metacharacters or an id whose lookup selects `k` (so none has the id `k` again).
Then the imported tree has a Key named `k` at (`P`, `C`) with `Original` = `s` and with
the Translation `D` = `t` if the Key has a text under `D` that is not white space only,
and without a Translation tagged `D` otherwise. And every Key of the imported tree
carries, under the names of its Package and Container, the identifier of a Key of the
exported tree that has an `Original`: Keys without an Original do not reappear. -/
theorem C19_xliff_round_trip (proj : Project) (L srcLng name0 : String) (version2 : Bool)
    (pre post : List (String × String × String × String × Option String))
    (P C k s : String) (t : Option String)
    (hL : Project.langCodeToString L ≠ "")
    (hplain : proj.plainNames)
    (hwf : QDomNode.areWellFormed (proj.toXliff L srcLng version2) = true)
    (hP : isPlainName P = true) (hC : isPlainName C = true)
    (hleaf : proj.leaves (Project.langCodeToString L)
      = pre ++ (xliffId P, xliffId C, k, s, t) :: post)
    (hs : isBlank s = false)
    (hlit : isLiteralPattern k = true) (_hascii : isAscii k = true)
    (h1 : ∀ y ∈ pre, replaceUnderscores y.1 = P → replaceUnderscores y.2.1 = C →
      regexHasMatch k y.2.2.1 = true → y.2.2.1 = k)
    (h2 : ∀ y ∈ post, replaceUnderscores y.1 = P → replaceUnderscores y.2.1 = C →
      isLiteralPattern y.2.2.1 = true ∧ regexHasMatch y.2.2.1 k = false) :
    (∃ K, (XliffParser.extractWritten (Project.mk name0 [])
          (proj.toXliff L srcLng version2)).findKeyByName P C k = some K ∧
      K.getTranslation "Original" = some (Translation.mk "Original" s) ∧
      K.getTranslation (Project.langCodeToString L)
        = t.bind (fun text =>
            if isBlank text then none
            else some (Translation.mk (Project.langCodeToString L) text))) ∧
    ∀ (P2 C2 : String) (K2 : Key),
      K2 ∈ (XliffParser.extractWritten (Project.mk name0 [])
        (proj.toXliff L srcLng version2)).keysAt P2 C2 →
      ∃ p ∈ proj.children, ∃ c ∈ p.children, ∃ key ∈ c.children,
        key.hasOriginal = true ∧ p.objectName = P2 ∧ c.objectName = C2 ∧
          key.objectName = K2.objectName := by
  have hlne : proj.leaves (Project.langCodeToString L) ≠ [] := by
    rw [hleaf]
    intro h
    exact List.cons_ne_nil _ _ (List.append_eq_nil.mp h).2
  have hne : proj.children ≠ [] := by
    intro h
    apply hlne
    unfold Project.leaves
    rw [h]
    rfl
  have hlv : leavesOf (Project.xliffGroups (Project.langCodeToString L) proj)
      = proj.leaves (Project.langCodeToString L) :=
    leaves_eq_xliffGroups (Project.langCodeToString L) proj
  have hg : (Project.xliffGroups (Project.langCodeToString L) proj).isEmpty = false := by
    cases hh : Project.xliffGroups (Project.langCodeToString L) proj with
    | nil =>
      rw [hh] at hlv
      exact absurd hlv.symm hlne
    | cons a as => rfl
  have hres : XliffParser.extractWritten (Project.mk name0 []) (proj.toXliff L srcLng version2)
      = importLeaves (some (Project.langCodeToString L))
          (Project.mk (XliffParser.projectName (xliffId proj.objectName)) [])
          ((proj.leaves (Project.langCodeToString L)).map leafAsRead) := by
    unfold XliffParser.extractWritten
    rw [writtenAndRead_toXliff proj L srcLng version2 hne hwf]
    simp only
    rw [toXliff_eq proj L srcLng version2 hne,
      extract_listAsRead_xliffDocument version2 _ srcLng L _ _
        (supports_of_langCodeToString L hL), hg, nullIfEmpty_of_ne _ hL, hlv]
    rfl
  rw [hres]
  have hPid : replaceUnderscores (xliffId P) = P := replaceUnderscores_xliffId P hP
  have hCid : replaceUnderscores (xliffId C) = C := replaceUnderscores_xliffId C hC
  constructor
  · have hleaf2 := congrArg (List.map leafAsRead) hleaf
    rw [List.map_append, List.map_cons] at hleaf2
    rw [hleaf2]
    have hx : leafAsRead (xliffId P, xliffId C, k, s, t)
        = (xliffId P, xliffId C, k, s, t.map textAsRead) := by
      unfold leafAsRead
      simp only [textAsRead_of_not_blank s hs]
    rw [hx]
    have hs2 : s ≠ "" := ne_empty_of_not_blank s hs
    obtain ⟨K, hK, hO, hT⟩ := importLeaves_leaf_target (Project.langCodeToString L)
      (Project.mk (XliffParser.projectName (xliffId proj.objectName)) [])
      (pre.map leafAsRead) (post.map leafAsRead) (xliffId P) (xliffId C) k s
      (t.map textAsRead) hs2 (langCodeToString_ne_original L)
      (regexHasMatch_literal k k hlit rfl)
      (by intro x hx2; simp [Project.keysAt, findChild] at hx2)
      (by intro x hx2; simp [Project.keysAt, findChild] at hx2)
      (by
        intro y hy hy1 hy2 hm
        obtain ⟨y0, hy0, rfl⟩ := List.mem_map.mp hy
        rw [hPid] at hy1
        rw [hCid] at hy2
        exact h1 y0 hy0 hy1 hy2 hm)
      (by
        intro y hy hy1 hy2
        obtain ⟨y0, hy0, rfl⟩ := List.mem_map.mp hy
        rw [hPid] at hy1
        rw [hCid] at hy2
        exact (h2 y0 hy0 hy1 hy2).2)
    rw [hPid, hCid] at hK
    refine ⟨K, hK, hO, ?_⟩
    rw [hT]
    cases t with
    | none => rfl
    | some text =>
      simp only [Option.map_some', Option.getD_some, Option.some_bind]
      by_cases hb : isBlank text = true
      · rw [if_pos ((textAsRead_eq_empty text).mpr hb), if_pos hb]
      · rw [if_neg (fun e => hb ((textAsRead_eq_empty text).mp e)), if_neg hb,
          textAsRead_of_not_blank text (by simpa using hb)]
  · intro P2 C2 K2 hK2
    rcases keysAt_importLeaves_names (some (Project.langCodeToString L)) _ _ P2 C2
      K2.objectName (List.mem_map_of_mem _ hK2) with h | ⟨y, hy, hy1, hy2, hy3⟩
    · simp [Project.keysAt, findChild] at h
    · obtain ⟨y0, hy0, rfl⟩ := List.mem_map.mp hy
      obtain ⟨p, hp, c, hc, key, hkey, ho, e1, e2, e3⟩ := mem_leaves _ proj y0 hy0
      have hpl := hplain p hp
      have hcl := hpl.2 c hc
      have hkl := hcl.2 key hkey
      refine ⟨p, hp, c, hc, key, hkey, ho, ?_, ?_, ?_⟩
      · have : replaceUnderscores y0.1 = P2 := hy1
        rw [e1, replaceUnderscores_xliffId _ hpl.1] at this
        exact this
      · have : replaceUnderscores y0.2.1 = C2 := hy2
        rw [e2, replaceUnderscores_xliffId _ hcl.1] at this
        exact this
      · have : K2.objectName = y0.2.2.1 := hy3
        rw [this, e3, xliffId_of_noSpace _ hkl]

/-- C19, amended: witness. The Container (Main, mission) holds the Key `k1` with an
Original and a German text, the Key `k2` with an Original only and the Key `k3` without
an Original; the export for `de` is imported, and the theorem is applied to `k1`. -/
theorem C19_xliff_round_trip_witness :
    (∃ K, (XliffParser.extractWritten (Project.mk "" [])
          ((Project.mk "My Project" [Package.mk "Main" [Container.mk "mission"
            [Key.mk "k1" [Translation.mk "Original" "Hi", Translation.mk "German" "Hallo"],
              Key.mk "k2" [Translation.mk "Original" "Bye"],
              Key.mk "k3" [Translation.mk "German" "Nur so"]]]]).toXliff "de" "en"
                true)).findKeyByName "Main" "mission" "k1" = some K ∧
      K.getTranslation "Original" = some (Translation.mk "Original" "Hi") ∧
      K.getTranslation (Project.langCodeToString "de")
        = (some "Hallo").bind (fun text =>
            if isBlank text then none
            else some (Translation.mk (Project.langCodeToString "de") text))) ∧
    (XliffParser.extractWritten (Project.mk "" [])
      ((Project.mk "My Project" [Package.mk "Main" [Container.mk "mission"
        [Key.mk "k1" [Translation.mk "Original" "Hi", Translation.mk "German" "Hallo"],
          Key.mk "k2" [Translation.mk "Original" "Bye"],
          Key.mk "k3" [Translation.mk "German" "Nur so"]]]]).toXliff "de" "en" true)).children
      = [Package.mk "Main" [Container.mk "mission"
          [Key.mk "k1" [Translation.mk "Original" "Hi", Translation.mk "German" "Hallo"],
            Key.mk "k2" [Translation.mk "Original" "Bye"]]]] :=
  ⟨(C19_xliff_round_trip
      (Project.mk "My Project" [Package.mk "Main" [Container.mk "mission"
        [Key.mk "k1" [Translation.mk "Original" "Hi", Translation.mk "German" "Hallo"],
          Key.mk "k2" [Translation.mk "Original" "Bye"],
          Key.mk "k3" [Translation.mk "German" "Nur so"]]]])
      "de" "en" "" true [] [("Main", "mission", "k2", "Bye", none)]
      "Main" "mission" "k1" "Hi" (some "Hallo")
      (by decide) (by decide) (by decide) (by decide) (by decide) (by decide) (by decide)
      (by decide) (by decide) (by decide) (by decide)).1, by decide⟩

end A3Trans
